import Mathlib

/-!
# flatex, package tree: a shallow embedding of Tree.Move and its helpers

The Go tree is a mutable structure of nodes that own their edges. In the embedding a
tree is an immutable value and a node pointer is the list of edge indices that leads
from the root to the node, which is sound because every node but the root is owned by
exactly one edge. Mutation through a pointer becomes a functional update at that index
path. A run-time fault of the Go code (index or slice bound out of range) is the result
none.

The path slices recorded by collectMoveCandidates are Go slices of strings. Go's append
writes in place when the slice has spare capacity, so the slices of sibling candidates can
share one backing array. The embedding keeps the backing arrays in an explicit store and
takes the growth policy of the Go run time as a parameter.
-/

namespace tree

/-- The wildcard segment. -/
def wildcard : String := "*"

/-! ## Go indexing and slicing with bound checks -/

/-- Go index expression xs[i]: none when the index is out of range. -/
def index? {α : Type} (xs : List α) (i : Int) : Option α :=
  if i < 0 then none else xs[i.toNat]?

/-- Go slice expression xs[:k] on a slice whose capacity equals its length: none when
the bound is out of range. -/
def sliceTo {α : Type} (xs : List α) (k : Int) : Option (List α) :=
  if k < 0 ∨ (xs.length : Int) < k then none else some (xs.take k.toNat)

/-- Go slice expression xs[k:]: none when the bound is out of range. -/
def sliceFrom {α : Type} (xs : List α) (k : Int) : Option (List α) :=
  if k < 0 ∨ (xs.length : Int) < k then none else some (xs.drop k.toNat)

/-! ## Slices of strings over an explicit store of backing arrays -/

/-- A Go slice header for a slice of strings that starts at offset zero of its backing
array: the array is named by its position in the store. -/
structure strSlice where
  arr : Nat
  len : Nat
  cap : Nat
deriving DecidableEq, Repr

/-- The store of backing arrays. -/
abbrev strStore := List (List String)

/-- The empty slice literal: length and capacity zero, no backing array is read. -/
def emptySlice : strSlice := ⟨0, 0, 0⟩

/-- Go index expression s[i] on a slice of strings. -/
def strSlice.get? (h : strStore) (s : strSlice) (i : Int) : Option String :=
  if i < 0 ∨ (s.len : Int) ≤ i then none else (h.getD s.arr [])[i.toNat]?

/-- The elements of a slice, read from the store. -/
def strSlice.toList (h : strStore) (s : strSlice) : List String :=
  (h.getD s.arr []).take s.len

/-- Go append(s, x) for one element. With spare capacity the element is written into the
shared backing array; otherwise a new array is allocated, of the capacity the growth
policy grow gives for the old capacity (and at least the new length), and the old elements
are copied. -/
def goAppend (grow : Nat → Nat) (h : strStore) (s : strSlice) (x : String) :
    strStore × strSlice :=
  if s.len < s.cap then
    (h.modify (fun a => a.set s.len x) s.arr, ⟨s.arr, s.len + 1, s.cap⟩)
  else
    let c := max (grow s.cap) (s.len + 1)
    (h ++ [(h.getD s.arr []).take s.len ++ [x] ++ List.replicate (c - (s.len + 1)) ""],
      ⟨h.length, s.len + 1, c⟩)

/-- The growth policy of the Go run time for capacities below its doubling threshold:
an empty slice grows to capacity one, a full slice doubles. -/
def goGrow (c : Nat) : Nat := if c = 0 then 1 else 2 * c

/-! ## Data model -/

/-- Modelled from the spec: the opaque scalar of the generic value model (the Go code
holds it as an interface value). -/
inductive Scalar where
  | int (i : Int)
  | bool (b : Bool)
  | str (s : String)
deriving DecidableEq, Repr

/-- Modelled from the spec: the content of the Value field of a node, whose declaration
is not among the sources. It is absent on branch nodes, a scalar on leaves, and a tag on
the markers of an empty list or an empty map. -/
inductive nodeValue where
  | absent
  | scalar (s : Scalar)
  | emptyList
  | emptyMap
deriving DecidableEq, Repr

mutual
/-- Modelled from the spec: the node struct, whose declaration is not among the sources;
the fields are those the sources and the spec use (Value, edges, depth, isCollection). -/
inductive node where
  | mk (Value : nodeValue) (edges : List edge) (depth : Nat) (isCollection : Bool)
/-- Modelled from the spec: the edge struct, a label and the child node it owns. -/
inductive edge where
  | mk (label : String) (n : node)
end

/-- Field Value of a node. -/
def node.Value : node → nodeValue
  | .mk v _ _ _ => v

/-- Field edges of a node. -/
def node.edges : node → List edge
  | .mk _ es _ _ => es

/-- Field depth of a node. -/
def node.depth : node → Nat
  | .mk _ _ d _ => d

/-- Field isCollection of a node. -/
def node.isCollection : node → Bool
  | .mk _ _ _ c => c

/-- Field label of an edge. -/
def edge.label : edge → String
  | .mk l _ => l

/-- Field n of an edge. -/
def edge.n : edge → node
  | .mk _ n => n

/-- Assignment to the field edges of a node. -/
def node.setEdges (es : List edge) : node → node
  | .mk v _ d c => .mk v es d c

mutual
/-- Decidable equality of nodes. -/
def node.decEq : (a b : node) → Decidable (a = b)
  | .mk v1 e1 d1 c1, .mk v2 e2 d2 c2 =>
    if hv : v1 = v2 then
      if hd : d1 = d2 then
        if hc : c1 = c2 then
          match edgesDecEq e1 e2 with
          | isTrue he => isTrue (by subst hv hd hc he; rfl)
          | isFalse he => isFalse (by intro h; cases h; exact he rfl)
        else isFalse (by intro h; cases h; exact hc rfl)
      else isFalse (by intro h; cases h; exact hd rfl)
    else isFalse (by intro h; cases h; exact hv rfl)
/-- Decidable equality of edge lists. -/
def edgesDecEq : (a b : List edge) → Decidable (a = b)
  | [], [] => isTrue rfl
  | [], _ :: _ => isFalse (by intro h; cases h)
  | _ :: _, [] => isFalse (by intro h; cases h)
  | (.mk l1 n1) :: r1, (.mk l2 n2) :: r2 =>
    if hl : l1 = l2 then
      match node.decEq n1 n2 with
      | isTrue hn =>
        match edgesDecEq r1 r2 with
        | isTrue hr => isTrue (by subst hl hn hr; rfl)
        | isFalse hr => isFalse (by intro h; cases h; exact hr rfl)
      | isFalse hn => isFalse (by intro h; cases h; exact hn rfl)
    else isFalse (by intro h; cases h; exact hl rfl)
end

instance : DecidableEq node := node.decEq

instance : DecidableEq edge := fun a b =>
  match a, b with
  | .mk l1 n1, .mk l2 n2 =>
    if hl : l1 = l2 then
      if hn : n1 = n2 then isTrue (by subst hl hn; rfl)
      else isFalse (by intro h; cases h; exact hn rfl)
    else isFalse (by intro h; cases h; exact hl rfl)

/-- Tree struct: it owns the root node. -/
structure Tree where
  root : node
deriving DecidableEq

/-- Modelled from the spec: newNode, whose body is not among the sources: a node of the
given depth without value or edges, not a collection. -/
def newNode (depth : Nat) : node := .mk .absent [] depth false

mutual
/-- Modelled from the spec: node.SetDepth, whose body is not among the sources: the depth
of the whole subtree is recomputed from the depth given for its root. -/
def node.SetDepth : node → Nat → node
  | .mk v es _ c, d => .mk v (SetDepthEdges es (d + 1)) d c
/-- SetDepth on each child of an edge list. -/
def SetDepthEdges : List edge → Nat → List edge
  | [], _ => []
  | (.mk l n) :: es, d => .mk l (n.SetDepth d) :: SetDepthEdges es d
end

/-! ## Node pointers as index paths -/

/-- The node a pointer refers to: follow the edge indices from the given node. -/
def nodeAt : List Nat → node → Option node
  | [], n => some n
  | i :: is, n =>
    match n.edges[i]? with
    | none => none
    | some e => nodeAt is e.n

/-- The edges of the node a pointer refers to. -/
def edgesAt (root : node) (ptr : List Nat) : List edge :=
  match nodeAt ptr root with
  | some n => n.edges
  | none => []

/-- Mutation of the node a pointer refers to. -/
def modifyAt (f : node → node) : List Nat → node → node
  | [], n => f n
  | i :: is, n => n.setEdges (n.edges.modify (fun e => edge.mk e.label (modifyAt f is e.n)) i)

/-! ## collectMoveCandidates -/

/-- Struct nodeAndPath: a node pointer and the path slice recorded for it. -/
structure nodeAndPath where
  n : List Nat
  p : strSlice
deriving DecidableEq, Repr

/-- Struct edgeToMove: the embedded nodeAndPath of the parent and the detached edge. -/
structure edgeToMove where
  n : List Nat
  p : strSlice
  e : edge

/-- The loops over nap.n.edges in collectMoveCandidates, for one candidate nap; j is the
index of the edge at the head of the list. The wildcard branch appends every child, the
literal branch appends the first child whose label equals the step and stops. -/
def collectEdges (grow : Nat → Nat) (step : String) (nap : nodeAndPath) :
    List edge → Nat → strStore × List nodeAndPath → strStore × List nodeAndPath
  | [], _, st => st
  | e :: es, j, st =>
    if step = wildcard then
      let hp := goAppend grow st.1 nap.p e.label
      collectEdges grow step nap es (j + 1) (hp.1, st.2 ++ [⟨nap.n ++ [j], hp.2⟩])
    else if step = e.label then
      let hp := goAppend grow st.1 nap.p e.label
      (hp.1, st.2 ++ [⟨nap.n ++ [j], hp.2⟩])
    else collectEdges grow step nap es (j + 1) st

/-- One iteration of the loop over src in collectMoveCandidates: the loop over next,
filling acc from empty. -/
def collectStep (grow : Nat → Nat) (root : node) (step : String) (next : List nodeAndPath)
    (h : strStore) : strStore × List nodeAndPath :=
  next.foldl (fun st nap => collectEdges grow step nap (edgesAt root nap.n) 0 st) (h, [])

/-- Tree.collectMoveCandidates, with the store of backing arrays passed along. -/
def collectMoveCandidates (grow : Nat → Nat) (root : node) :
    List String → List nodeAndPath → strStore → strStore × List nodeAndPath
  | [], next, h => (h, next)
  | step :: src, next, h =>
    let st := collectStep grow root step next h
    collectMoveCandidates grow root src st.2 st.1

/-! ## Tree.Move -/

/-- The first index of an edge with the given label: the search loops of promoteEdges and
embeddingEdges. -/
def findLabel (l : String) : List edge → Option Nat
  | [] => none
  | e :: es => if e.label ≠ l then (findLabel l es).map (· + 1) else some 0

/-- The search loop of Tree.Move over the edges of one candidate: the index expression
src[prefixLen-1] is evaluated at every edge visited, so the outer none is its fault. -/
def findMoveEdge (src : List String) : List edge → Option (Option Nat)
  | [] => some none
  | e :: es =>
    match index? src ((src.length : Int) - 1) with
    | none => none
    | some l =>
      if e.label ≠ l then (findMoveEdge src es).map (Option.map (· + 1)) else some (some 0)

/-- Assignment to the label of the edge at index i of a node. -/
def relabelEdge (i : Nat) (l : String) (n : node) : node :=
  n.setEdges (n.edges.modify (fun e => edge.mk l e.n) i)

/-- Removal of the edge at index i of a node (the copy, clear and reslice of Tree.Move). -/
def removeEdge (i : Nat) (n : node) : node :=
  n.setEdges (n.edges.eraseIdx i)

/-- Append of an edge to the edges of a node, the child taking the depth below the node. -/
def attachEdge (l : String) (child : node) (n : node) : node :=
  n.setEdges (n.edges ++ [edge.mk l (child.SetDepth (n.depth + 1))])

/-- Body of the loop over next in Tree.Move for one candidate: relabel the first edge
labelled src[prefixLen-1], or detach it and record it in edgesToMove. -/
def moveCandidate (src dst : List String) (st : node × List edgeToMove) (nap : nodeAndPath) :
    Option (node × List edgeToMove) :=
  match findMoveEdge src (edgesAt st.1 nap.n) with
  | none => none
  | some none => some st
  | some (some i) =>
    if (src.length : Int) = (dst.length : Int) then
      match index? dst ((src.length : Int) - 1) with
      | none => none
      | some l => some (modifyAt (relabelEdge i l) nap.n st.1, st.2)
    else
      match (edgesAt st.1 nap.n)[i]? with
      | none => none
      | some e => some (modifyAt (removeEdge i) nap.n st.1, st.2 ++ [⟨nap.n, nap.p, e⟩])

/-- The loop over next in Tree.Move. -/
def moveCandidates (src dst : List String) :
    List nodeAndPath → node × List edgeToMove → Option (node × List edgeToMove)
  | [], st => some st
  | nap :: next, st =>
    match moveCandidate src dst st nap with
    | none => none
    | some st1 => moveCandidates src dst next st1

/-- The walk of dst[:lenDst-1] from the root in promoteEdges; i is the index of the
segment at the head of the list and parent the node reached so far. A wildcard segment
is replaced by entry i of the path slice of the edge; the walk stops at the first
segment that is not found. -/
def promoteWalk (h : strStore) (p : strSlice) (root : node) :
    List String → Nat → List Nat → Option (List Nat)
  | [], _, parent => some parent
  | path :: rest, i, parent =>
    match (if path = wildcard then p.get? h i else some path) with
    | none => none
    | some l =>
      match findLabel l (edgesAt root parent) with
      | some j => promoteWalk h p root rest (i + 1) (parent ++ [j])
      | none => some parent

/-- Body of the loop of promoteEdges for one detached edge. -/
def promoteEdge (h : strStore) (dst : List String) (root : node) (n : edgeToMove) :
    Option node :=
  match sliceTo dst ((dst.length : Int) - 1) with
  | none => none
  | some pre =>
    match promoteWalk h n.p root pre 0 [] with
    | none => none
    | some parent =>
      match index? dst ((dst.length : Int) - 1) with
      | none => none
      | some l => some (modifyAt (attachEdge l n.e.n) parent root)

/-- Tree.promoteEdges. -/
def promoteEdges (h : strStore) (dst : List String) : List edgeToMove → node → Option node
  | [], root => some root
  | n :: rest, root =>
    match promoteEdge h dst root n with
    | none => none
    | some root1 => promoteEdges h dst rest root1

/-- The walk of dst[:lenDst-1] in embeddingEdges from the node ptr: an existing child is
reused, a missing one is created as a new node and appended. The result is the node
reached and the tree with the created nodes. -/
def embedWalk : List String → List Nat → node → List Nat × node
  | [], ptr, root => (ptr, root)
  | k :: ks, ptr, root =>
    match findLabel k (edgesAt root ptr) with
    | some j => embedWalk ks (ptr ++ [j]) root
    | none =>
      embedWalk ks (ptr ++ [(edgesAt root ptr).length])
        (modifyAt (fun n => n.setEdges (n.edges ++ [edge.mk k (newNode (n.depth + 1))])) ptr root)

/-- Body of the loop of embeddingEdges for one detached edge. -/
def embedEdge (dst : List String) (root : node) (em : edgeToMove) : Option node :=
  match sliceTo dst ((dst.length : Int) - 1) with
  | none => none
  | some pre =>
    match index? dst ((dst.length : Int) - 1) with
    | none => none
    | some l =>
      let w := embedWalk pre em.n root
      some (modifyAt (attachEdge l em.e.n) w.1 w.2)

/-- Tree.embeddingEdges. -/
def embeddingEdges (dst : List String) : List edgeToMove → node → Option node
  | [], root => some root
  | em :: rest, root =>
    match embedEdge dst root em with
    | none => none
    | some root1 => embeddingEdges dst rest root1

/-- The candidates of Tree.Move: the root alone when src has at most one segment,
otherwise the result of collectMoveCandidates on src[:prefixLen-1]. -/
def moveFrontier (grow : Nat → Nat) (root : node) (src : List String) :
    Option (strStore × List nodeAndPath) :=
  if (src.length : Int) > 1 then
    match sliceTo src ((src.length : Int) - 1) with
    | none => none
    | some s => some (collectMoveCandidates grow root s [⟨[], emptySlice⟩] [])
  else some ([], [⟨[], emptySlice⟩])

/-- Tree.Move: the tree after the call, or none when the call faults. -/
def Tree.Move (grow : Nat → Nat) (t : Tree) (src dst : List String) : Option Tree :=
  match moveFrontier grow t.root src with
  | none => none
  | some (h, next) =>
    match moveCandidates src dst next (t.root, []) with
    | none => none
    | some (root, edgesToMove) =>
      if (src.length : Int) = (dst.length : Int) then some ⟨root⟩
      else if (src.length : Int) > (dst.length : Int) then
        (promoteEdges h dst edgesToMove root).map Tree.mk
      else
        match sliceFrom dst ((src.length : Int) - 1) with
        | none => none
        | some d => (embeddingEdges d edgesToMove root).map Tree.mk

/-! ## Specification-side definitions

The definitions below follow the words of the specification: they are structural
recursions over the tree, to be compared with the pointer-based embedding above. -/

/-- The edge indices a path segment selects among the edges of a node: every index for
the wildcard, the first edge with that label for a literal. -/
def matchIdx (step : String) (es : List edge) : List Nat :=
  if step = wildcard then List.range' 0 es.length else (findLabel step es).toList

/-- The pointers, relative to the given node, of the nodes a pattern matches, in the order
of the resolver (depth first, each node in the order of its edges). -/
def matchPtrs : List String → node → List (List Nat)
  | [], _ => [[]]
  | s :: ss, n =>
    (matchIdx s n.edges).flatMap (fun j =>
      match n.edges[j]? with
      | some e => (matchPtrs ss e.n).map (fun c => j :: c)
      | none => [])

/-- The edge list with the child of the first edge labelled s replaced by its image. -/
def atFirst (s : String) (g : node → node) : List edge → List edge
  | [] => []
  | e :: es => if e.label ≠ s then e :: atFirst s g es else edge.mk e.label (g e.n) :: es

/-- The edge list with every child replaced by its image. -/
def atEvery (g : node → node) (es : List edge) : List edge :=
  es.map (fun e => edge.mk e.label (g e.n))

/-- The tree with f applied to every node that the pattern matches from the given node:
a wildcard segment descends into every child, a literal segment into the first child
with that label. -/
def atMatched (f : node → node) : List String → node → node
  | [], n => f n
  | s :: ss, n =>
    n.setEdges (if s = wildcard then atEvery (atMatched f ss) n.edges
      else atFirst s (atMatched f ss) n.edges)

/-- The edge list with the label of the first edge labelled s changed to d; position and
child are kept. -/
def relabelFirst (s d : String) : List edge → List edge
  | [] => []
  | e :: es => if e.label ≠ s then e :: relabelFirst s d es else edge.mk d e.n :: es

/-- The pointers of the nodes a pattern matches from the node at pointer p of the tree,
as pointers from the root. -/
def matchFrom (root : node) : List String → List Nat → List (List Nat)
  | [], p => [p]
  | s :: ss, p => (matchIdx s (edgesAt root p)).flatMap (fun j => matchFrom root ss (p ++ [j]))

/-- The edge list with the child of the edge at index j replaced by its image. -/
def updChild (j : Nat) (g : node → node) (es : List edge) : List edge :=
  es.modify (fun e => edge.mk e.label (g e.n)) j

/-- Mutation of the nodes at a list of pointers, in order. -/
def modifyAll (g : node → node) (cs : List (List Nat)) (r : node) : node :=
  cs.foldl (fun r c => modifyAt g c r) r

/-- The first edge labelled s of an edge list, with the list that remains when it is
removed; none when no edge has that label. -/
def detachFirst (s : String) : List edge → Option (edge × List edge)
  | [] => none
  | e :: es =>
    if e.label ≠ s then (detachFirst s es).map (fun r => (r.1, e :: r.2)) else some (e, es)

/-- The node with a child embedded along a relative path: each segment reuses the first
child with that label or, when there is none, creates a new non-collection node as last
child; at the end of the path the child is appended as last edge, labelled l, with its
depth recomputed. -/
def embedInto (l : String) (child : node) : List String → node → node
  | [], n => attachEdge l child n
  | k :: ks, n =>
    match findLabel k n.edges with
    | some _ => n.setEdges (atFirst k (embedInto l child ks) n.edges)
    | none =>
      n.setEdges (n.edges ++ [edge.mk k (embedInto l child ks (newNode (n.depth + 1)))])

/-- The embed move at one parent: the first edge labelled s is detached and embedded
along the relative path under the label l; a parent without such an edge is unchanged. -/
def embedMoved (s l : String) (rel : List String) (n : node) : node :=
  match detachFirst s n.edges with
  | none => n
  | some (e, rest) => embedInto l e.n rel (n.setEdges rest)

/-- The loop of embeddingEdges as a fold of structural embeddings. -/
def embedAll (l : String) (rel : List String) (ems : List edgeToMove) (r : node) : node :=
  ems.foldl (fun r em => modifyAt (embedInto l em.e.n rel) em.n r) r

/-! ## Example trees -/

/-- An edge to a leaf that holds an integer scalar, at the given depth. -/
def leafEdge (l : String) (i : Int) (d : Nat) : edge :=
  edge.mk l (node.mk (nodeValue.scalar (Scalar.int i)) [] d false)

/-- An edge to a map node with the given edges, at the given depth. -/
def mapEdge (l : String) (es : List edge) (d : Nat) : edge :=
  edge.mk l (node.mk nodeValue.absent es d false)

/-- An edge to a collection node with the given edges, at the given depth. -/
def listEdge (l : String) (es : List edge) (d : Nat) : edge :=
  edge.mk l (node.mk nodeValue.absent es d true)

/-- The root of a map with the given edges. -/
def mapRoot (es : List edge) : Tree :=
  ⟨node.mk nodeValue.absent es 0 false⟩

/-- The tree of the map with a list under "a" of two maps, each with a map "c" and a
leaf "aa", and a leaf "turbo" (the leaf false is written 0). -/
def exCollection : Tree :=
  mapRoot [listEdge "a" [mapEdge "0" [mapEdge "c" [leafEdge "a" 1 4] 3, leafEdge "aa" 1 3] 2,
      mapEdge "1" [mapEdge "c" [leafEdge "a" 2 4] 3, leafEdge "aa" 1 3] 2] 1,
    leafEdge "turbo" 0 1]

/-- The tree of the map with a leaf "a" and a map "b" that holds a leaf "a". -/
def exStruct : Tree :=
  mapRoot [leafEdge "a" 1 1, mapEdge "b" [leafEdge "a" 42 2] 1]

/-- The edge list without its first edge labelled s. -/
def removeFirst (s : String) : List edge → List edge
  | [] => []
  | e :: es => if e.label ≠ s then e :: removeFirst s es else es

/-- The child of the first edge labelled k. -/
def child? (k : String) : List edge → Option node
  | [] => none
  | e :: es => if e.label ≠ k then child? k es else some e.n

/-- The node an exact path resolves to from the given node, each segment taking the
first edge with that label; none when a segment has no such edge. -/
def resolve : List String → node → Option node
  | [], n => some n
  | k :: ks, n =>
    match child? k n.edges with
    | some c => resolve ks c
    | none => none

/-- The node with a child attached at the end of the longest part of an exact path that
resolves: the walk follows the first edge labelled by each segment and stops at the first
segment without such an edge; the child is appended there as last edge, labelled d, with
its depth recomputed. -/
def attachDeepest (d : String) (child : node) : List String → node → node
  | [], n => attachEdge d child n
  | k :: ks, n =>
    match findLabel k n.edges with
    | some _ => n.setEdges (atFirst k (attachDeepest d child ks) n.edges)
    | none => attachEdge d child n

/-- The node the walk of promoteEdges reaches from the node parent along the given
segments: the walk stops at the first segment that is not found. -/
def walkPtr (root : node) : List String → List Nat → List Nat
  | [], parent => parent
  | l :: rest, parent =>
    match findLabel l (edgesAt root parent) with
    | some j => walkPtr root rest (parent ++ [j])
    | none => parent

/-- The segments the walk of promoteEdges uses for dst[:lenDst-1]: a wildcard at index i
is replaced by entry i of the path slice; none when such a read is out of range. -/
def readSegs (h : strStore) (p : strSlice) : List String → Nat → Option (List String)
  | [], _ => some []
  | seg :: rest, i =>
    match (if seg = wildcard then p.get? h i else some seg) with
    | none => none
    | some l =>
      match readSegs h p rest (i + 1) with
      | none => none
      | some ls => some (l :: ls)

/-- The first edge labelled s of the node at a pointer. -/
def firstEdgeAt (root : node) (s : String) (c : List Nat) : Option edge :=
  (detachFirst s (edgesAt root c)).map (fun r => r.1)

/-- The subtrees a promote or embed move detaches: for every node matched by the pattern,
in the order of the resolver, the child of its first edge labelled s. -/
def movedSubtrees (pat : List String) (s : String) (root : node) : List node :=
  (matchPtrs pat root).filterMap (fun c => (firstEdgeAt root s c).map (fun e => e.n))

/-- The tree without the first edge labelled s of every node matched by the pattern. -/
def detachMatched (pat : List String) (s : String) (root : node) : node :=
  atMatched (fun n => n.setEdges (removeFirst s n.edges)) pat root

/-- The labels of an edge list, in order. -/
def labelsOf (es : List edge) : List String := es.map (fun e => e.label)

mutual
/-- The invariant of unique labels: in the node and in every node below it the labels of
the edges are pairwise distinct. -/
def node.uniqueLabels : node → Bool
  | .mk _ es _ _ => decide ((es.map (fun e => e.label)).Nodup) && uniqueLabelsEdges es
/-- Unique labels in every child of an edge list. -/
def uniqueLabelsEdges : List edge → Bool
  | [] => true
  | (.mk _ n) :: es => n.uniqueLabels && uniqueLabelsEdges es
end

/-- The tree of the map with a leaf "a" and a map "b" that holds a leaf "a", a map "b"
with a leaf "a", and a leaf "bb". -/
def exNested : Tree :=
  mapRoot [leafEdge "a" 42 1,
    mapEdge "b" [leafEdge "a" 42 2, mapEdge "b" [leafEdge "a" 42 3] 2, leafEdge "bb" 1 2] 1]

/-- The labels of the edges a pointer follows from the given node. -/
def labelsAt : List Nat → node → List String
  | [], _ => []
  | i :: is, n =>
    match n.edges[i]? with
    | some e => e.label :: labelsAt is e.n
    | none => []

/-- The segments of dst[:lenDst-1] with the wildcard at index i replaced by entry i of the
given list of labels; i is the index of the segment at the head of the list. -/
def substAt (labels : List String) : List String → Nat → List String
  | [], _ => []
  | seg :: rest, i =>
    (if seg = wildcard then labels.getD i "" else seg) :: substAt labels rest (i + 1)

/-- The edges a move detaches: for every node matched by the pattern, in the order of the
resolver, the labels of the concrete path from the root to the node and the child of its
first edge labelled s. -/
def movedEdges (pat : List String) (s : String) (root : node) : List (List String × node) :=
  (matchPtrs pat root).filterMap (fun c =>
    (firstEdgeAt root s c).map (fun e => (labelsAt c root, e.n)))

/-- The store relation of the well-formedness invariant: backing arrays do not shrink. -/
def storeLe (h h' : strStore) : Prop :=
  ∀ a, (h.getD a []).length ≤ (h'.getD a []).length

/-- Well-formedness of the path slice of a candidate: its length is the number of steps
done, within its capacity, which the backing array provides. -/
def sliceWf (h : strStore) (nap : nodeAndPath) (k : Nat) : Prop :=
  nap.p.len = k ∧ nap.p.len ≤ nap.p.cap ∧ nap.p.cap ≤ (h.getD nap.p.arr []).length

/-- The segments the walk of promoteEdges uses for one detached edge, as read from its path
slice. -/
def segsOf (h : strStore) (p : strSlice) (dpre : List String) : List String :=
  (readSegs h p dpre 0).getD []

/-- The edges a promote move detaches, each with the segments its walk from the root uses:
the candidates are those of collectMoveCandidates, the segments are read from the path
slices in the store it leaves. -/
def promoteSegs (grow : Nat → Nat) (pat : List String) (s : String) (dpre : List String)
    (root : node) : List (List String × node) :=
  (collectMoveCandidates grow root pat [⟨[], emptySlice⟩] []).2.filterMap (fun nap =>
    (firstEdgeAt root s nap.n).map (fun e =>
      (segsOf (collectMoveCandidates grow root pat [⟨[], emptySlice⟩] []).1 nap.p dpre, e.n)))

/-- The store relation of the label invariant: the first three entries of every backing
array are kept. -/
def storeKeep3 (h h' : strStore) : Prop :=
  ∀ a i v, i < 3 → (h.getD a [])[i]? = some v → (h'.getD a [])[i]? = some v

/-- The label invariant of the path slice of a candidate: up to length two the slice is
full, and its first three entries are the labels of the path to the candidate. -/
def sliceLabels3 (root : node) (h : strStore) (nap : nodeAndPath) (k : Nat) : Prop :=
  nap.p.len = k ∧ (k ≤ 2 → nap.p.cap = k) ∧ (labelsAt nap.n root).length = k ∧
    ∀ i, i < k → i < 3 → (h.getD nap.p.arr [])[i]? = (labelsAt nap.n root)[i]?

/-- The bindings of the wildcards of a pattern in a concrete path: the labels at the
positions where the pattern has the wildcard, in order. -/
def bindingsOf : List String → List String → List String
  | seg :: pat, l :: labels =>
    if seg = wildcard then l :: bindingsOf pat labels else bindingsOf pat labels
  | _, _ => []

/-- The segments with the k-th wildcard replaced by the k-th binding (the positional
correspondence by rank among the wildcards). -/
def substByRank : List String → List String → List String
  | _, [] => []
  | bindings, seg :: rest =>
    if seg = wildcard then
      match bindings with
      | b :: bs => b :: substByRank bs rest
      | [] => seg :: substByRank [] rest
    else seg :: substByRank bindings rest

/-- The tree of the map with a map "a" that holds the maps "k1" and "k2", each with a leaf
"c", and with two further maps "k1" and "k2" under the root. -/
def exBindings : Tree :=
  mapRoot [mapEdge "a" [mapEdge "k1" [leafEdge "c" 1 3] 2, mapEdge "k2" [leafEdge "c" 2 3] 2] 1,
    mapEdge "k1" [] 1, mapEdge "k2" [] 1]

/-- Every node matched by the pattern from the given node satisfies the test. -/
def allMatched (ok : node → Bool) : List String → node → Bool
  | [], n => ok n
  | k :: ks, n =>
    if k = wildcard then n.edges.all (fun e => allMatched ok ks e.n)
    else
      match child? k n.edges with
      | some c => allMatched ok ks c
      | none => true

/-- No collision for a relabel at a node: the node has no edge labelled s, or d is s, or
the node has no edge labelled d. -/
def relabelOk (s d : String) (n : node) : Bool :=
  (child? s n.edges).isNone || decide (d = s) || !(labelsOf n.edges).contains d

/-- No collision along a relative path: when the whole path exists from the node, the node
it reaches has no edge labelled d. -/
def freeAlong (d : String) : List String → node → Bool
  | [], n => !(labelsOf n.edges).contains d
  | k :: ks, n =>
    match child? k n.edges with
    | some c => freeAlong d ks c
    | none => true

/-- No collision for an embed move at a parent: once the first edge labelled s is detached,
the node that the relative path reaches from the parent has no edge labelled d. -/
def embedOk (s d : String) (rel : List String) (n : node) : Bool :=
  match detachFirst s n.edges with
  | none => true
  | some (_, rest) => freeAlong d rel (n.setEdges rest)

/-- No collision at the deepest node a path resolves to: that node has no edge labelled d. -/
def freeDeepest (d : String) : List String → node → Bool
  | [], n => !(labelsOf n.edges).contains d
  | k :: ks, n =>
    match child? k n.edges with
    | some c => freeDeepest d ks c
    | none => !(labelsOf n.edges).contains d

/-- No collision during a promote move: each detached edge, at its turn, is attached to a
node without an edge labelled d. -/
def promoteFree (d : String) : List (List String × node) → node → Bool
  | [], _ => true
  | m :: ms, r => freeDeepest d m.1 r && promoteFree d ms (attachDeepest d m.2 m.1 r)

/-- No collision during Tree.Move of pat ++ [s] to dall ++ [d]: no node receives the edge
labelled d while it has another edge with that label. -/
def collisionFree (grow : Nat → Nat) (root : node) (pat : List String) (s : String)
    (dall : List String) (d : String) : Bool :=
  if dall.length = pat.length then allMatched (relabelOk s d) pat root
  else if dall.length < pat.length then
    promoteFree d (promoteSegs grow pat s dall root) (detachMatched pat s root)
  else allMatched (embedOk s d (dall.drop pat.length)) pat root

/-- The tree of the map with the leaves "a" and "b". -/
def exPlain : Tree :=
  mapRoot [leafEdge "a" 1 1, leafEdge "b" 2 1]

/-! ## The generic value model and the read-out of a tree (modelled from the spec) -/

mutual
/-- Modelled from the spec: the generic nested value (scalar, ordered list, map); the empty
list and the empty map are the list and the map without elements. The Go code holds it as
an interface value. -/
inductive Value where
  | scalar (s : Scalar)
  | list (xs : List Value)
  | map (kvs : List field)
/-- Modelled from the spec: one entry of a map value. -/
inductive field where
  | mk (key : String) (v : Value)
end

/-- The decimal value of a string of digits, none when a character is not a digit;
acc is the value of the digits read so far. -/
def parseDigits : List Char → Nat → Option Nat
  | [], acc => some acc
  | c :: cs, acc =>
    if 48 ≤ c.toNat ∧ c.toNat ≤ 57 then parseDigits cs (10 * acc + (c.toNat - 48)) else none

/-- Modelled from the spec: a label parses fully as a non-negative integer when it is a
non-empty string of decimal digits. -/
def parseLabel (l : String) : Option Nat :=
  match l.data with
  | [] => none
  | cs => parseDigits cs 0

/-- Modelled from the spec: the Canonical Ordering of labels. Two labels that parse as
non-negative integers compare numerically, two that do not compare lexicographically, and
a label that parses comes before one that does not. -/
def labelLt (a b : String) : Bool :=
  match parseLabel a, parseLabel b with
  | some x, some y => decide (x < y)
  | some _, none => true
  | none, some _ => false
  | none, none => decide (a.data < b.data)

/-- Insertion of an edge into an edge list sorted by label, after the edges that are not
greater. -/
def insertEdge (e : edge) : List edge → List edge
  | [] => [e]
  | x :: xs => if labelLt e.label x.label then e :: x :: xs else x :: insertEdge e xs

/-- The edges in Canonical Ordering of their labels (insertion sort). -/
def sortEdges : List edge → List edge
  | [] => []
  | e :: es => insertEdge e (sortEdges es)

/-- Insertion of a labelled value into a list sorted by label. -/
def insertKV (e : String × Value) : List (String × Value) → List (String × Value)
  | [] => [e]
  | x :: xs => if labelLt e.1 x.1 then e :: x :: xs else x :: insertKV e xs

/-- Labelled values in Canonical Ordering of their labels. -/
def sortKV : List (String × Value) → List (String × Value)
  | [] => []
  | e :: es => insertKV e (sortKV es)

mutual
/-- Modelled from the spec: the read-out of a node, whose body is not among the sources. A
leaf gives its scalar, the markers give the empty list and the empty map, a collection node
gives the list of its children in Canonical Ordering of the labels, any other node the map
of its children. -/
def node.expand : node → Value
  | .mk v es _ c =>
    match es with
    | [] =>
      match v with
      | .scalar s => Value.scalar s
      | .emptyList => Value.list []
      | .emptyMap => Value.map []
      | .absent => if c then Value.list [] else Value.map []
    | e :: rest =>
      if c then Value.list ((sortKV (expandEdges (e :: rest))).map (fun kv => kv.2))
      else Value.map ((expandEdges (e :: rest)).map (fun kv => field.mk kv.1 kv.2))
/-- The labels of an edge list with the read-out of the children. -/
def expandEdges : List edge → List (String × Value)
  | [] => []
  | (.mk l n) :: es => (l, n.expand) :: expandEdges es
end

/-- Modelled from the spec: Tree.Get on an exact path: the read-out of the node the path
resolves to, none (absent) when the path does not exist. The body of node.Get is not among
the sources. -/
def Tree.Get (t : Tree) (ks : List String) : Option Value :=
  (resolve ks t.root).map (fun n => n.expand)

mutual
/-- Decidable equality of values. -/
def Value.decEq : (a b : Value) → Decidable (a = b)
  | .scalar s1, .scalar s2 =>
    if h : s1 = s2 then isTrue (by rw [h]) else isFalse (by intro hc; cases hc; exact h rfl)
  | .list xs, .list ys =>
    match valuesDecEq xs ys with
    | isTrue h => isTrue (by rw [h])
    | isFalse h => isFalse (by intro hc; cases hc; exact h rfl)
  | .map xs, .map ys =>
    match fieldsDecEq xs ys with
    | isTrue h => isTrue (by rw [h])
    | isFalse h => isFalse (by intro hc; cases hc; exact h rfl)
  | .scalar _, .list _ => isFalse (by intro h; cases h)
  | .scalar _, .map _ => isFalse (by intro h; cases h)
  | .list _, .scalar _ => isFalse (by intro h; cases h)
  | .list _, .map _ => isFalse (by intro h; cases h)
  | .map _, .scalar _ => isFalse (by intro h; cases h)
  | .map _, .list _ => isFalse (by intro h; cases h)
/-- Decidable equality of lists of values. -/
def valuesDecEq : (a b : List Value) → Decidable (a = b)
  | [], [] => isTrue rfl
  | [], _ :: _ => isFalse (by intro h; cases h)
  | _ :: _, [] => isFalse (by intro h; cases h)
  | x :: xs, y :: ys =>
    match Value.decEq x y with
    | isTrue h1 =>
      match valuesDecEq xs ys with
      | isTrue h2 => isTrue (by rw [h1, h2])
      | isFalse h2 => isFalse (by intro hc; cases hc; exact h2 rfl)
    | isFalse h1 => isFalse (by intro hc; cases hc; exact h1 rfl)
/-- Decidable equality of lists of map entries. -/
def fieldsDecEq : (a b : List field) → Decidable (a = b)
  | [], [] => isTrue rfl
  | [], _ :: _ => isFalse (by intro h; cases h)
  | _ :: _, [] => isFalse (by intro h; cases h)
  | (.mk k1 v1) :: xs, (.mk k2 v2) :: ys =>
    if hk : k1 = k2 then
      match Value.decEq v1 v2 with
      | isTrue h1 =>
        match fieldsDecEq xs ys with
        | isTrue h2 => isTrue (by rw [hk, h1, h2])
        | isFalse h2 => isFalse (by intro hc; cases hc; exact h2 rfl)
      | isFalse h1 => isFalse (by intro hc; cases hc; exact h1 rfl)
    else isFalse (by intro hc; cases hc; exact hk rfl)
end

instance : DecidableEq Value := Value.decEq

/-- The tree of the from_struct_with_wildcard tests: a map "b" with the maps "first" and
"last", each holding a map "c" with a leaf "d", and a leaf "c" under the root. -/
def exDeep : Tree :=
  mapRoot [mapEdge "b" [mapEdge "first" [mapEdge "c" [leafEdge "d" 42 4] 3] 2,
      mapEdge "last" [mapEdge "c" [leafEdge "d" 42 4] 3, leafEdge "m" 42 3] 2] 1,
    leafEdge "c" 42 1]

/-- A concrete sequence of labels agrees with a pattern: same length, and at every literal
position the label is the segment. -/
def matchesPattern : List String → List String → Bool
  | [], [] => true
  | seg :: pat, l :: labels => (decide (seg = wildcard) || decide (seg = l)) && matchesPattern pat labels
  | _, _ => false

/-- The tree with a chain a, b, c from the root and two maps "k1" and "k2" under c, each
with a map "d" that holds a leaf "e". -/
def exShared : Tree :=
  mapRoot [mapEdge "a" [mapEdge "b" [mapEdge "c" [
    mapEdge "k1" [mapEdge "d" [leafEdge "e" 1 6] 5] 4,
    mapEdge "k2" [mapEdge "d" [leafEdge "e" 2 6] 5] 4] 3] 2] 1]

/-- The candidates of collectMoveCandidates from the root, each as the actual labels of
the path to the node and the content of the path slice recorded for it. -/
def candidatePaths (grow : Nat → Nat) (root : node) (pat : List String) :
    List (List String × List String) :=
  (collectMoveCandidates grow root pat [⟨[], emptySlice⟩] []).2.map (fun nap =>
    (labelsAt nap.n root,
      nap.p.toList (collectMoveCandidates grow root pat [⟨[], emptySlice⟩] []).1))

/-! ## Building a tree from a value, Del, Sort and Append (modelled from the spec) -/

/-- The message of errNoNilValuesAllowed. -/
def errNoNilValuesAllowed : String := "no nil values allowed"

/-- The decimal digit of a number below ten, as a character. -/
def digitChar (d : Nat) : Char := Char.ofNat (48 + d)

/-- The decimal digits of n in front of acc; the first argument bounds the number of
digits. -/
def itoaAux : Nat → Nat → List Char → List Char
  | 0, _, acc => acc
  | fuel + 1, n, acc =>
    if n < 10 then digitChar n :: acc else itoaAux fuel (n / 10) (digitChar (n % 10) :: acc)

/-- The decimal string of a natural number (strconv.Itoa on a non-negative int). -/
def itoa (n : Nat) : String := ⟨itoaAux (n + 1) n []⟩

mutual
/-- Modelled from the spec: the node built from a generic value at the given depth ("a map
value produces one child edge per key; a list value produces one child edge per index
(label = decimal index) and marks the node isCollection; an empty list/empty map produces
a childless node tagged accordingly; any other value becomes a leaf"). -/
def build : Value → Nat → node
  | .scalar s, d => .mk (.scalar s) [] d false
  | .list [], d => .mk .emptyList [] d true
  | .list (x :: xs), d => .mk .absent (buildList (x :: xs) 0 (d + 1)) d true
  | .map [], d => .mk .emptyMap [] d false
  | .map (kv :: kvs), d => .mk .absent (buildFields (kv :: kvs) (d + 1)) d false
/-- One edge per element of a list, labelled with the decimal index from i on. -/
def buildList : List Value → Nat → Nat → List edge
  | [], _, _ => []
  | x :: xs, i, d => .mk (itoa i) (build x d) :: buildList xs (i + 1) d
/-- One edge per entry of a map, labelled with the key. -/
def buildFields : List field → Nat → List edge
  | [], _ => []
  | (.mk k v) :: kvs, d => .mk k (build v d) :: buildFields kvs d
end

/-- Modelled from the spec: node.Add, whose body is not among the sources ("inserts value
at path, creating any missing intermediate nodes (map-style) along the way"): the walk
follows the first edge labelled by each segment, appends a new node where there is none,
and the node at the end of the path becomes the node built from the value. -/
def node.Add : List String → tree.Value → node → node
  | [], v, n => build v n.depth
  | k :: ks, v, n =>
    match child? k n.edges with
    | some _ => n.setEdges (atFirst k (node.Add ks v) n.edges)
    | none => n.setEdges (n.edges ++ [edge.mk k (node.Add ks v (newNode (n.depth + 1)))])

/-- Tree.Add: a nil value (none) is ignored. -/
def Tree.Add (t : Tree) (ks : List String) (v : Option Value) : Tree :=
  match v with
  | none => t
  | some x => ⟨t.root.Add ks x⟩

/-- New: nil (none) is refused with errNoNilValuesAllowed, any other value is added at the
empty path of a tree whose root is the zero node. -/
def New (v : Option Value) : Except String Tree :=
  match v with
  | none => .error errNoNilValuesAllowed
  | some x => .ok ((Tree.mk (newNode 0)).Add [] (some x))

/-- Modelled from the spec: node.Del, whose body is not among the sources ("resolves
pattern[:-1] via the Path Resolver to a frontier, then for every frontier node removes
the edge whose label equals pattern[-1]"); a wildcard as last segment removes every edge
of the frontier nodes, the empty pattern removes nothing. -/
def node.Del (ks : List String) (n : node) : node :=
  match ks.getLast? with
  | none => n
  | some s =>
    atMatched (fun m => m.setEdges (if s = wildcard then [] else removeFirst s m.edges))
      ks.dropLast n

/-- Tree.Del. -/
def Tree.Del (t : Tree) (ks : List String) : Tree := ⟨t.root.Del ks⟩

mutual
/-- Modelled from the spec: node.sort, whose body is not among the sources ("recursively
orders the edges of every node" by the Canonical Ordering). -/
def node.sort : node → node
  | .mk v es d c => .mk v (sortEdges (sortChildren es)) d c
/-- The edge list with every child sorted. -/
def sortChildren : List edge → List edge
  | [] => []
  | (.mk l n) :: es => .mk l n.sort :: sortChildren es
end

/-- Tree.Sort. -/
def Tree.Sort (t : Tree) : Tree := ⟨t.root.sort⟩

/-- Tree.Append: both type assertions to a list must succeed, then the concatenation is
added at dst and src is deleted. -/
def Tree.Append (t : Tree) (src dst : List String) : Tree :=
  match t.Get src with
  | some (.list elements1) =>
    match t.Get dst with
    | some (.list elements2) =>
      (t.Add dst (some (.list (elements2 ++ elements1)))).Del src
    | _ => t
  | _ => t

/-- Every node of the subtree satisfies the predicate. -/
def everyNode (P : node → Prop) (n : node) : Prop :=
  ∀ (ptr : List Nat) (m : node), nodeAt ptr n = some m → P m

/-- The edge list is in Canonical Ordering: no edge is followed by one with a smaller
label. -/
def sortedEdges (es : List edge) : Prop :=
  es.Pairwise (fun a b => labelLt b.label a.label = false)

/-- The value with a list inside a map: the input of the Append test, reduced. -/
def exAppend : Tree :=
  ⟨build (.map [.mk "a" (.list [.scalar (.int 1), .scalar (.int 2)]),
    .mk "b" (.list [.scalar (.int 3)])]) 0⟩

/-- The order the spec asks of two sibling labels a before b after Sort: two labels that
parse as non-negative integers are in numeric order, a label that does not parse is not
followed by one that does, and two labels that do not parse are in lexicographic order. -/
def labelLe (a b : String) : Prop :=
  match parseLabel a, parseLabel b with
  | some x, some y => x ≤ y
  | some _, none => True
  | none, some _ => False
  | none, none => a.data ≤ b.data

/-- The map with the keys "10", "2", "b", "a" and "0" under the root. -/
def exSort : Tree :=
  mapRoot [leafEdge "10" 1 1, leafEdge "2" 2 1, leafEdge "b" 3 1, leafEdge "a" 4 1,
    leafEdge "0" 5 1]

/-- The map with the keys "01" and "1", two labels with the numeric value one. -/
def exSortTie : Tree :=
  mapRoot [leafEdge "01" 1 1, leafEdge "1" 2 1]

/-- The tree built from the map with the key "a" holding an empty list and the key "m"
holding an empty map. -/
def exEmpty : Tree :=
  ⟨build (.map [.mk "a" (.list []), .mk "m" (.map [])]) 0⟩

/-- The tree built from the map with the list of the lists [1] and [2] under a. -/
def exListOfLists : Tree :=
  ⟨build (.map [.mk "a" (.list [.list [.scalar (.int 1)], .list [.scalar (.int 2)]])]) 0⟩

/-- The tree with two edges labelled a, each a list, and a list b under the root. -/
def exDupLists : Tree :=
  mapRoot [listEdge "a" [leafEdge "0" 1 2] 1, listEdge "a" [leafEdge "0" 2 2] 1,
    listEdge "b" [leafEdge "0" 3 2] 1]

/-- The tree at the turn of the edge detached from the matched node c in the loop of
promoteEdges: every node matched by the pattern has lost its first edge labelled s, and the
edges detached from the matched nodes before c, in the order of the resolver, are attached
already, each under the label d at the deepest node that its segments (dall with the
wildcard at index i replaced by label i of the path of its node) resolve to. -/
def promoteBefore (pat : List String) (s d : String) (dall : List String) (root : node)
    (c : List Nat) : node :=
  (((matchPtrs pat root).takeWhile (fun c2 => decide (c2 ≠ c))).filterMap (fun c2 =>
      (firstEdgeAt root s c2).map (fun e => (labelsAt c2 root, e.n)))).foldl
    (fun r m => attachDeepest d m.2 (substAt m.1 dall 0) r) (detachMatched pat s root)

/-- The tree of the map with the maps "k1" and "k2" under the root, each with a map "b"
that holds a leaf "c". -/
def exPromote : Tree :=
  mapRoot [mapEdge "k1" [mapEdge "b" [leafEdge "c" 1 3] 2] 1,
    mapEdge "k2" [mapEdge "b" [leafEdge "c" 2 3] 2] 1]

end tree

namespace flatex

/-!
# flatex, package flatex: a shallow embedding of Flatten and of the flat Map

A Go string is modelled by the list of its bytes, each byte written as a character, so
that len, slicing, strings.HasPrefix and strings.Index are the list operations. A Go map
is modelled by an association list without repeated keys. The order in which a range
statement visits the entries of a map is left open by Go, and so is whether it visits an
entry that its body creates: both are a parameter ord of the embedding, a function from the
keys of the map at the start of the loop to the list of keys that the loop goes through. A
permutation of the keys is a loop that visits no created entry; a list with further keys is
a loop that also visits those of them that are in the map at their turn. A run-time fault
of the Go code (slice bound out of range, failed type assertion) is the result none.

The tokenizer is the DefaultTokenizer: the separator is the dot, and the pattern re of the
Map is the default collection pattern, which matches the strings that contain ".*.".
-/

/-! ## Go strings -/

/-- The separator of the DefaultTokenizer. -/
def sep : List Char := ['.']

/-- strings.HasPrefix. -/
def HasPrefix (s p : List Char) : Bool := p.isPrefixOf s

/-- The search of strings.Index from position i of the scanned string: the position of
the first occurrence of sub, -1 when there is none. -/
def indexFrom (sub : List Char) : List Char → Nat → Int
  | [], i => if sub = [] then (i : Int) else -1
  | c :: cs, i => if sub.isPrefixOf (c :: cs) then (i : Int) else indexFrom sub cs (i + 1)

/-- strings.Index. -/
def Index (s sub : List Char) : Int := indexFrom sub s 0

/-- The slice expression s[a:b]; none is the fault of a bound out of range. -/
def slice (s : List Char) (a b : Int) : Option (List Char) :=
  if 0 ≤ a ∧ a ≤ b ∧ b ≤ (s.length : Int) then some ((s.drop a.toNat).take (b - a).toNat)
  else none

/-- The slice expression s[a:]. -/
def suffixFrom (s : List Char) (a : Int) : Option (List Char) := slice s a s.length

/-- The slice expression s[:b]. -/
def prefixTo (s : List Char) (b : Int) : Option (List Char) := slice s 0 b

/-- The match of the default collection pattern: the string contains ".*.". -/
def MatchString (s : List Char) : Bool := decide (0 ≤ Index s ['.', '*', '.'])

/-- StringTokenizer.Token for the DefaultTokenizer: strings.Join with the separator. -/
def Token : List (List Char) → List Char
  | [] => []
  | [k] => k
  | k :: k2 :: ks => k ++ sep ++ Token (k2 :: ks)

/-- StringTokenizer.Keys for the DefaultTokenizer: strings.Split at the dots; the result
is never empty. -/
def Keys : List Char → List (List Char)
  | [] => [[]]
  | c :: cs =>
    if c = '.' then [] :: Keys cs
    else
      match Keys cs with
      | [] => [[c]]
      | h :: t => (c :: h) :: t

/-- The decimal string of a natural number (fmt.Sprintf with the verb d, strconv.Itoa). -/
def decimal (n : Nat) : List Char := (tree.itoa n).data

/-! ## Values -/

/-- A value that is neither a map nor a slice of interface values: what flatten passes to
update as it is. The Go code holds it as an interface value; nil is one of them. -/
inductive Leaf where
  | null
  | int (i : Int)
  | bool (b : Bool)
  | str (s : List Char)
deriving DecidableEq, Repr

mutual
/-- The nested value given to Flatten: a leaf, a slice of values or a map from strings to
values; the entries of a map are listed in the order in which range visits them. -/
inductive Nested where
  | leaf (l : Leaf)
  | list (xs : List Nested)
  | map (kvs : List member)
/-- One entry of a map value. -/
inductive member where
  | mk (key : List Char) (v : Nested)
end

/-! ## The Go map of the flat Map -/

/-- The entries of a Go map from strings to leaves. -/
abbrev entries := List (List Char × Leaf)

/-- The index expression m[k] with the comma-ok form: the value under the key. -/
def get? (m : entries) (k : List Char) : Option Leaf :=
  match m with
  | [] => none
  | (k', v) :: r => if k' = k then some v else get? r k

/-- The assignment m[k] = v: the value under an existing key is replaced, a new key is
added. -/
def set (m : entries) (k : List Char) (v : Leaf) : entries :=
  match m with
  | [] => [(k, v)]
  | (k', v') :: r => if k' = k then (k, v) :: r else (k', v') :: set r k v

/-- The builtin delete(m, k). -/
def delete (m : entries) (k : List Char) : entries :=
  m.filter (fun e => decide (e.1 ≠ k))

/-- The keys of a Go map, in the order of the entries. -/
def keysOf (m : entries) : List (List Char) := m.map (fun e => e.1)

/-- A range statement over the keys of a Go map whose body may write to the map and may
fault: the loop goes through the given list of keys in order, visits a key when it is in
the map at its turn and skips it otherwise (deleted before its turn, or not created yet),
and a fault ends the loop. Go leaves open whether an entry created by the body is visited:
with the keys of the map at the start of the loop alone the list stands for a loop that
visits no created entry, with further keys for a loop that visits those the body has
created before their turn. -/
def rangeKeys (body : entries → List Char → Option entries) :
    List (List Char) → entries → Option entries
  | [], m => some m
  | k :: ks, m =>
    match get? m k with
    | none => rangeKeys body ks m
    | some _ =>
      match body m k with
      | none => none
      | some m' => rangeKeys body ks m'

/-- Struct Map of map.go for the DefaultTokenizer: the Go map m. -/
structure Map where
  m : entries
deriving DecidableEq, Repr

/-! ## Map.Del and Map.Move -/

/-- The index expression m[k] without the comma-ok form: nil for a missing key. -/
def getD (m : entries) (k : List Char) : Leaf := (get? m k).getD Leaf.null

/-- The body of the range loop of Map.delSliceAttribute for the key k, with the values
computed before the loop: i, prefixRemainder and recursive; del is the call of Map.Del on
the map. -/
def delSliceBody (del : entries → List Char → Option entries) (pre : List Char) (i : Int)
    (prefixRemainder : List Char) (recursive : Bool) (m : entries) (k : List Char) :
    Option entries :=
  if (k.length : Int) < i + 2 then some m
  else
    match prefixTo pre i with
    | none => none
    | some head =>
      if !HasPrefix k head then some m
      else
        match suffixFrom k (i + 1) with
        | none => none
        | some tail =>
          if recursive then
            match prefixTo k (i + 1 + Index tail sep) with
            | none => none
            | some kp => del m (kp ++ prefixRemainder)
          else
            match suffixFrom k (i + 1 + Index tail sep) with
            | none => none
            | some keyRemainder =>
              if keyRemainder = prefixRemainder then some (delete m k)
              else if !HasPrefix keyRemainder (prefixRemainder ++ sep) then some m
              else some (delete m k)

/-- Map.delSliceAttribute; del is the call of Map.Del on the map. -/
def delSliceAttribute (del : entries → List Char → Option entries)
    (ord : List (List Char) → List (List Char)) (m : entries) (pre : List Char) :
    Option entries :=
  let i := Index pre ['*']
  match suffixFrom pre (i + 1) with
  | none => none
  | some prefixRemainder =>
    let recursive := decide (-1 < Index prefixRemainder ['*'])
    rangeKeys (delSliceBody del pre i prefixRemainder recursive) (ord (keysOf m)) m

/-- The body of the last range loop of Map.Del for the key k. -/
def delBody (pre : List Char) (m : entries) (k : List Char) : Option entries :=
  if !HasPrefix k pre then some m
  else
    match slice k pre.length (pre.length + 1) with
    | none => none
    | some c => if c ≠ sep then some m else some (delete m k)

/-- Map.Del on the Go map; the first argument bounds the depth of the calls of Map.Del
from Map.delSliceAttribute, and none is a fault or a depth beyond the bound. -/
def delEntries (ord : List (List Char) → List (List Char)) :
    Nat → entries → List Char → Option entries
  | 0, _, _ => none
  | fuel + 1, m, pre =>
    match get? m pre with
    | some _ => some (delete m pre)
    | none =>
      if MatchString pre then delSliceAttribute (delEntries ord fuel) ord m pre
      else rangeKeys (delBody pre) (ord (keysOf m)) m

/-- Map.Del. -/
def Map.Del (ord : List (List Char) → List (List Char)) (fuel : Nat) (m : Map)
    (pre : List Char) : Option Map :=
  (delEntries ord fuel m.m pre).map Map.mk

/-- The body of the range loop of Map.moveSliceAttribute for the key k, with the values
computed before the loop: i, originalRemainder, recursive, newKeyRemainder and
newKeyPrefix; move is the call of Map.Move on the map. -/
def moveSliceBody (move : entries → List Char → List Char → Option entries)
    (original : List Char) (i : Int) (originalRemainder : List Char) (recursive : Bool)
    (newKeyRemainder newKeyPrefix : List Char) (m : entries) (k : List Char) :
    Option entries :=
  if (k.length : Int) ≤ i + 2 then some m
  else
    match prefixTo original i with
    | none => none
    | some head =>
      if !HasPrefix k head then some m
      else
        match suffixFrom k i with
        | none => none
        | some remainder =>
          let idLen := Index remainder sep
          match suffixFrom k (i + idLen), slice k i (i + idLen) with
          | some cleanRemainder, some id =>
            let keyPrefix := newKeyPrefix ++ id
            if recursive then
              match prefixTo k (i + idLen) with
              | none => none
              | some kp => move m (kp ++ originalRemainder) (keyPrefix ++ newKeyRemainder)
            else
              match suffixFrom originalRemainder 1 with
              | none => none
              | some rest =>
                if cleanRemainder = rest then
                  some (delete (set m (keyPrefix ++ newKeyRemainder) (getD m k)) k)
                else
                  let rPrefix := rest ++ sep
                  if cleanRemainder ≠ sep ++ rest ∧
                      !HasPrefix cleanRemainder (sep ++ rPrefix) then some m
                  else
                    match suffixFrom cleanRemainder rPrefix.length with
                    | none => none
                    | some tail =>
                      some (delete
                        (set m (keyPrefix ++ newKeyRemainder ++ tail) (getD m k)) k)
          | _, _ => none

/-- Map.moveSliceAttribute; move is the call of Map.Move on the map. The slices of the two
patterns are taken before the loop, so a bound out of range there is a fault for every
map. -/
def moveSliceAttribute (move : entries → List Char → List Char → Option entries)
    (ord : List (List Char) → List (List Char)) (m : entries) (original newKey : List Char) :
    Option entries :=
  let i := Index original ['*']
  match suffixFrom original (i + 1) with
  | none => none
  | some originalRemainder =>
    let recursive := decide (-1 < Index originalRemainder ['*'])
    let newKeyOffset := Index newKey ['*']
    match suffixFrom newKey (newKeyOffset + 1), prefixTo newKey newKeyOffset with
    | some newKeyRemainder, some newKeyPrefix =>
      rangeKeys (moveSliceBody move original i originalRemainder recursive newKeyRemainder
        newKeyPrefix) (ord (keysOf m)) m
    | _, _ => none

/-- The body of the last range loop of Map.Move for the key k. -/
def moveBody (original newKey : List Char) (m : entries) (k : List Char) : Option entries :=
  if !HasPrefix k original then some m
  else
    match slice k original.length (original.length + 1) with
    | none => none
    | some c =>
      if c ≠ sep then some m
      else
        match suffixFrom k (original.length + 1) with
        | none => none
        | some rest => some (delete (set m (newKey ++ sep ++ rest) (getD m k)) k)

/-- Map.Move on the Go map; the first argument bounds the depth of the calls of Map.Move
from Map.moveSliceAttribute, and none is a fault or a depth beyond the bound. -/
def moveEntries (ord : List (List Char) → List (List Char)) :
    Nat → entries → List Char → List Char → Option entries
  | 0, _, _, _ => none
  | fuel + 1, m, original, newKey =>
    match get? m original with
    | some v => some (delete (set m newKey v) original)
    | none =>
      if MatchString original then
        moveSliceAttribute (moveEntries ord fuel) ord m original newKey
      else rangeKeys (moveBody original newKey) (ord (keysOf m)) m

/-- Map.Move. -/
def Map.Move (ord : List (List Char) → List (List Char)) (fuel : Nat) (m : Map)
    (original newKey : List Char) : Option Map :=
  (moveEntries ord fuel m.m original newKey).map Map.mk

/-! ## Flatten -/

mutual
/-- The calls of update made by flatten, in order: the key path and the value of each. -/
def flatten : Nested → List (List Char) → List (List (List Char) × Leaf)
  | .leaf l, ks => [(ks, l)]
  | .list vs, ks => (ks ++ [['#']], Leaf.int vs.length) :: flattenSlice vs ks 0
  | .map kvs, ks => flattenMap kvs ks
/-- The calls of update made by flattenMap; the entries are visited in their order. -/
def flattenMap : List member → List (List Char) → List (List (List Char) × Leaf)
  | [], _ => []
  | (.mk k v) :: kvs, ks => flatten v (ks ++ [k]) ++ flattenMap kvs ks
/-- The calls of update made by the loop of flattenSlice from index i on. -/
def flattenSlice : List Nested → List (List Char) → Nat → List (List (List Char) × Leaf)
  | [], _, _ => []
  | v :: vs, ks, i => flatten v (ks ++ [decimal i]) ++ flattenSlice vs ks (i + 1)
end

/-- The update function of Flatten applied to a sequence of calls: each call assigns the
value under the token of the key path. -/
def applyUpdates (us : List (List (List Char) × Leaf)) (m : entries) : entries :=
  us.foldl (fun acc u => set acc (Token u.1) u.2) m

/-- Flatten with the DefaultTokenizer, for which newMap returns no error. -/
def Flatten (m : List member) : Map :=
  ⟨applyUpdates (flattenMap m []) []⟩

/-! ## Example maps -/

/-- The flat map of the similar_names test. -/
def exSimilar : Map :=
  ⟨[("a.a.a.a".data, .int 1), ("a.a.aa".data, .int 1), ("a.aa".data, .int 1),
    ("turbo".data, .bool false)]⟩

/-- The flat map of the from_struct_nested test. -/
def exNestedStruct : Map :=
  ⟨[("a".data, .int 42), ("b.a".data, .int 42), ("b.bb".data, .bool true),
    ("b.b.a".data, .int 42)]⟩

/-- A flat map with the same rest x under the two prefixes a and b. -/
def exCollide : Map :=
  ⟨[("a.x".data, .int 1), ("b.x".data, .int 2)]⟩

/-! ## Paths into a nested value -/

mutual
/-- The value located at a key path of a nested value: a segment selects the entry of a
map with that key, or the element of a slice with that decimal index. -/
def valueAt : Nested → List (List Char) → Option Nested
  | .leaf l, ks =>
    match ks with
    | [] => some (.leaf l)
    | _ :: _ => none
  | .list xs, ks =>
    match ks with
    | [] => some (.list xs)
    | k :: ks => valueAtList xs 0 k ks
  | .map kvs, ks =>
    match ks with
    | [] => some (.map kvs)
    | k :: ks => valueAtFields kvs k ks
/-- The value at a path below the element with decimal index k; i is the index of the
element at the head of the list. -/
def valueAtList : List Nested → Nat → List Char → List (List Char) → Option Nested
  | [], _, _, _ => none
  | x :: xs, i, k, ks => if decimal i = k then valueAt x ks else valueAtList xs (i + 1) k ks
/-- The value at a path below the entry with key k. -/
def valueAtFields : List member → List Char → List (List Char) → Option Nested
  | [], _, _ => none
  | (.mk k' v) :: kvs, k, ks => if k' = k then valueAt v ks else valueAtFields kvs k ks
end

/-- The keys of the entries of a map value. -/
def fieldKeys : List member → List (List Char)
  | [] => []
  | (.mk k _) :: kvs => k :: fieldKeys kvs

mutual
/-- The maps of a nested value are Go maps whose keys contain no dot: in every map the
keys are pairwise distinct and without the separator character. -/
def Nested.plainKeys : Nested → Bool
  | .leaf _ => true
  | .list xs => plainKeysList xs
  | .map kvs => decide (fieldKeys kvs).Nodup && plainKeysFields kvs
/-- The condition plainKeys for every element of a slice. -/
def plainKeysList : List Nested → Bool
  | [] => true
  | x :: xs => x.plainKeys && plainKeysList xs
/-- The condition plainKeys for every entry of a map, whose key contains no dot. -/
def plainKeysFields : List member → Bool
  | [] => true
  | (.mk k v) :: kvs => decide ('.' ∉ k) && v.plainKeys && plainKeysFields kvs
end

/-- The input with a slice under the key a and a leaf under the key a.#, visited in this
order by flattenMap. -/
def exDottedKey : List member :=
  [.mk "a".data (.list [.leaf (.int 7)]), .mk "a.#".data (.leaf (.int 5))]

/-- The input of the from_collection test: a leaf a and a slice b of two maps. -/
def exFromCollection : List member :=
  [.mk "a".data (.leaf (.int 42)),
    .mk "b".data (.list [.map [.mk "c".data (.leaf (.int 42))],
      .map [.mk "c".data (.map [.mk "d".data (.leaf (.int 42))])]])]

mutual
/-- Decidable equality of nested values. -/
def Nested.decEq : (a b : Nested) → Decidable (a = b)
  | .leaf s1, .leaf s2 =>
    if h : s1 = s2 then isTrue (by rw [h]) else isFalse (by intro hc; cases hc; exact h rfl)
  | .list xs, .list ys =>
    match nestedListDecEq xs ys with
    | isTrue h => isTrue (by rw [h])
    | isFalse h => isFalse (by intro hc; cases hc; exact h rfl)
  | .map xs, .map ys =>
    match membersDecEq xs ys with
    | isTrue h => isTrue (by rw [h])
    | isFalse h => isFalse (by intro hc; cases hc; exact h rfl)
  | .leaf _, .list _ => isFalse (by intro h; cases h)
  | .leaf _, .map _ => isFalse (by intro h; cases h)
  | .list _, .leaf _ => isFalse (by intro h; cases h)
  | .list _, .map _ => isFalse (by intro h; cases h)
  | .map _, .leaf _ => isFalse (by intro h; cases h)
  | .map _, .list _ => isFalse (by intro h; cases h)
/-- Decidable equality of slices of nested values. -/
def nestedListDecEq : (a b : List Nested) → Decidable (a = b)
  | [], [] => isTrue rfl
  | [], _ :: _ => isFalse (by intro h; cases h)
  | _ :: _, [] => isFalse (by intro h; cases h)
  | x :: xs, y :: ys =>
    match Nested.decEq x y with
    | isTrue h1 =>
      match nestedListDecEq xs ys with
      | isTrue h2 => isTrue (by rw [h1, h2])
      | isFalse h2 => isFalse (by intro hc; cases hc; exact h2 rfl)
    | isFalse h1 => isFalse (by intro hc; cases hc; exact h1 rfl)
/-- Decidable equality of lists of map entries. -/
def membersDecEq : (a b : List member) → Decidable (a = b)
  | [], [] => isTrue rfl
  | [], _ :: _ => isFalse (by intro h; cases h)
  | _ :: _, [] => isFalse (by intro h; cases h)
  | (.mk k1 v1) :: xs, (.mk k2 v2) :: ys =>
    if hk : k1 = k2 then
      match Nested.decEq v1 v2 with
      | isTrue h1 =>
        match membersDecEq xs ys with
        | isTrue h2 => isTrue (by rw [hk, h1, h2])
        | isFalse h2 => isFalse (by intro hc; cases hc; exact h2 rfl)
      | isFalse h1 => isFalse (by intro hc; cases hc; exact h1 rfl)
    else isFalse (by intro hc; cases hc; exact hk rfl)
end

instance : DecidableEq Nested := Nested.decEq

/-- A flat map with the keys a.x and a.b.x. -/
def exNestedKey : Map :=
  ⟨[("a.x".data, .int 1), ("a.b.x".data, .int 2)]⟩

instance : DecidableEq member := fun a b =>
  match a, b with
  | .mk k1 v1, .mk k2 v2 =>
    if hk : k1 = k2 then
      if hv : v1 = v2 then isTrue (by rw [hk, hv])
      else isFalse (by intro h; cases h; exact hv rfl)
    else isFalse (by intro h; cases h; exact hk rfl)

/-! ## Map.Expand -/

/-- The value under a key of a nested Go map, with the comma-ok form. -/
def find? (k : List Char) : List member → Option Nested
  | [] => none
  | (.mk k' v) :: r => if k' = k then some v else find? k r

/-- The assignment tr[k] = v on a nested Go map. The entries of a nested Go map are kept
in the order of their keys, so that two Go maps with the same entries are the same list:
the value under an existing key is replaced, a new key is entered at its place. -/
def put (k : List Char) (v : Nested) : List member → List member
  | [] => [.mk k v]
  | (.mk k' v') :: r =>
    if k < k' then .mk k v :: .mk k' v' :: r
    else if k = k' then .mk k v :: r
    else .mk k' v' :: put k v r

/-- The body of the range loop of Map.Expand for one entry, on the map res: the walk along
ks[:len(ks)-1], which enters an empty map where a key is missing and faults where the
value under a key is not a map, and the assignment of v under the last key. -/
def assign (v : Leaf) : List (List Char) → List member → Option (List member)
  | [], _ => none
  | [k], tr => some (put k (.leaf v) tr)
  | k :: k2 :: ks, tr =>
    match find? k tr with
    | none => (assign v (k2 :: ks) []).map (fun sub => put k (.map sub) tr)
    | some (.map sub) => (assign v (k2 :: ks) sub).map (fun sub => put k (.map sub) tr)
    | some _ => none

/-- The range loop of Map.Expand over the given entries, as key segments and value. -/
def assignAll (us : List (List (List Char) × Leaf)) (res : List member) :
    Option (List member) :=
  us.foldl (fun acc u => acc.bind (assign u.2 u.1)) (some res)

/-- The end of Map.expandNestedCollections, after the loop over the entries: a map
without the key # is returned as it is; otherwise the value under # must be an int, and
the result is the slice of that length with the values under the decimal indices, nil
where an index is missing. -/
def collect (original : List member) : Option Nested :=
  match find? ['#'] original with
  | none => some (.map original)
  | some (.leaf (.int size)) =>
    if size < 0 then none
    else some (.list ((List.range size.toNat).map (fun i =>
      (find? (decimal i) original).getD (.leaf .null))))
  | some _ => none

mutual
/-- Map.expandNestedCollections on the value of an entry: a map is expanded, any other
value is left as it is. -/
def expandValue : Nested → Option Nested
  | .leaf l => some (.leaf l)
  | .list xs => some (.list xs)
  | .map kvs =>
    match expandMembers kvs with
    | none => none
    | some kvs' => collect kvs'
/-- The range loop of Map.expandNestedCollections: every entry whose value is a map gets
the expansion of that map. -/
def expandMembers : List member → Option (List member)
  | [] => some []
  | (.mk k v) :: r =>
    match expandValue v, expandMembers r with
    | some v', some r' => some (.mk k v' :: r')
    | _, _ => none
end

/-- Map.expandNestedCollections. -/
def expandNestedCollections (original : List member) : Option Nested :=
  expandValue (.map original)

/-- Map.Expand: the entries are visited in the order ord of the keys; none is a fault. -/
def Map.Expand (ord : List (List Char) → List (List Char)) (m : Map) :
    Option (List member) :=
  let ks := ord (keysOf m.m)
  match assignAll (ks.map (fun k => (Keys k, getD m.m k))) [] with
  | none => none
  | some res =>
    if !(ks.any (fun k => decide ((Keys k).getLast? = some ['#']))) then some res
    else
      match expandNestedCollections res with
      | some (.map r) => some r
      | _ => none

mutual
/-- The Go value of a nested value: the maps with their entries in the order of the keys. -/
def Nested.canon : Nested → Nested
  | .leaf l => .leaf l
  | .list xs => .list (canonList xs)
  | .map kvs => .map (canonInto kvs [])
/-- The Go values of the elements of a slice. -/
def canonList : List Nested → List Nested
  | [] => []
  | x :: xs => x.canon :: canonList xs
/-- The Go map with the entries assigned one after the other to the map acc. -/
def canonInto : List member → List member → List member
  | [], acc => acc
  | (.mk k v) :: kvs, acc => canonInto kvs (put k v.canon acc)
end

mutual
/-- No entry of a map and no element of a slice inside the value is an empty map, and no
key of a map inside the value is the key #. -/
def Nested.recordable : Nested → Bool
  | .leaf _ => true
  | .list xs => recordableList xs
  | .map kvs => !kvs.isEmpty && recordableFields kvs
/-- The condition recordable for every element of a slice. -/
def recordableList : List Nested → Bool
  | [] => true
  | x :: xs => x.recordable && recordableList xs
/-- The condition recordable for every entry of a map, whose key is not #. -/
def recordableFields : List member → Bool
  | [] => true
  | (.mk k v) :: kvs => decide (k ≠ ['#']) && v.recordable && recordableFields kvs
end

/-- The input with an empty map under the key a. -/
def exEmptyMap : List member := [.mk "a".data (.map [])]

/-- The flat map of the Expand test. -/
def exExpand : Map :=
  ⟨[("a.#".data, .int 2), ("a.0.aa".data, .int 1), ("a.0.b.#".data, .int 2),
    ("a.0.b.0.aa".data, .int 1), ("a.0.b.0.c.a".data, .int 1), ("a.0.b.1.aa".data, .int 1),
    ("a.0.b.1.c.a".data, .int 2), ("a.1.aa".data, .int 1), ("a.1.b.#".data, .int 1),
    ("a.1.b.0.aa".data, .int 1), ("a.1.b.0.c.a".data, .int 1),
    ("turbo".data, .bool false)]⟩

mutual
/-- The maps inside a nested value are in the representation of Go maps: in every map the
keys are in strictly increasing order. -/
def Nested.ordered : Nested → Prop
  | .leaf _ => True
  | .list xs => orderedList xs
  | .map kvs => (fieldKeys kvs).Pairwise (· < ·) ∧ orderedFields kvs
/-- The condition ordered for every element of a slice. -/
def orderedList : List Nested → Prop
  | [] => True
  | x :: xs => x.ordered ∧ orderedList xs
/-- The condition ordered for the value of every entry. -/
def orderedFields : List member → Prop
  | [] => True
  | (.mk _ v) :: kvs => v.ordered ∧ orderedFields kvs
end

mutual
/-- The nested Go map that the loop of Map.Expand builds for a value, before the
expansion of the collections: a slice is the map with its length under # and its elements
under their decimal indices. -/
def Nested.raw : Nested → Nested
  | .leaf l => .leaf l
  | .list xs => .map (rawListInto xs 0 (put ['#'] (.leaf (.int xs.length)) []))
  | .map kvs => .map (rawInto kvs [])
/-- The elements of a slice from index i on, assigned under their indices to the map acc. -/
def rawListInto : List Nested → Nat → List member → List member
  | [], _, acc => acc
  | x :: xs, i, acc => rawListInto xs (i + 1) (put (decimal i) x.raw acc)
/-- The entries of a map assigned one after the other to the map acc. -/
def rawInto : List member → List member → List member
  | [], acc => acc
  | (.mk k v) :: kvs, acc => rawInto kvs (put k v.raw acc)
end

/-- The map in which the walk of Map.Expand continues below a key: the map under the key,
an empty map when the key is missing, a fault when the value under the key is not a map. -/
def subMap : Option Nested → Option (List member)
  | none => some []
  | some (.map sub) => some sub
  | some _ => none

/-- The elements of a slice as entries under their decimal indices, from index i on. -/
def indexed : List Nested → Nat → List member
  | [], _ => []
  | x :: xs, i => .mk (decimal i) x :: indexed xs (i + 1)

/-- The input that the Expand test expects back: a slice a of two maps, each with a slice
b of maps, and a leaf turbo. -/
def exRoundTrip : List member :=
  [.mk "a".data (.list [
      .map [.mk "b".data (.list [
          .map [.mk "c".data (.map [.mk "a".data (.leaf (.int 1))]),
            .mk "aa".data (.leaf (.int 1))],
          .map [.mk "c".data (.map [.mk "a".data (.leaf (.int 2))]),
            .mk "aa".data (.leaf (.int 1))]]),
        .mk "aa".data (.leaf (.int 1))],
      .map [.mk "b".data (.list [
          .map [.mk "c".data (.map [.mk "a".data (.leaf (.int 1))]),
            .mk "aa".data (.leaf (.int 1))]]),
        .mk "aa".data (.leaf (.int 1))]]),
    .mk "turbo".data (.leaf (.bool false))]

/-- The input with a slice under the key a whose one element is an empty map. -/
def exEmptyElement : List member := [.mk "a".data (.list [.map []])]

/-! ## Patterns with wildcard segments -/

/-- A key path agrees with a pattern on its first segments: the path has at least as many
segments as the pattern, and at every position of the pattern the segment of the pattern
is the wildcard or equals the segment of the path. -/
def segMatches : List (List Char) → List (List Char) → Bool
  | [], _ => true
  | _ :: _, [] => false
  | p :: ps, k :: ks => (decide (p = ['*']) || decide (p = k)) && segMatches ps ks

/-- The string before a segment that follows the segments ps in a token: each of them
followed by the separator. -/
def lead : List (List Char) → List Char
  | [] => []
  | p :: ps => p ++ sep ++ lead ps

/-- The input with a map under the key a whose keys are the wildcard character and 0. -/
def exStarKey : List member :=
  [.mk "a".data (.map [.mk "*".data (.map [.mk "c".data (.leaf (.int 1))]),
    .mk "0".data (.map [.mk "c".data (.leaf (.int 2))])])]

/-- The input with the empty string as a key of the map under a. -/
def exEmptySegment : List member :=
  [.mk "a".data (.map [.mk [] (.map [.mk "c".data (.map [.mk "d".data (.leaf (.int 1))])])])]

/-- The input with a slice of one map under the key ab. -/
def exSimilarHead : List member :=
  [.mk "ab".data (.list [.map [.mk "c".data (.leaf (.int 1))]])]

/-- The input with the wildcard character as a key above a slice. -/
def exStarAbove : List member :=
  [.mk "a".data (.map [.mk "*".data
    (.map [.mk "b".data (.list [.map [.mk "c".data (.leaf (.int 1))]])])])]

/-- The input with a leaf under the key foo of the map under the key a. -/
def exLongLeaf : List member := [.mk "a".data (.map [.mk "foo".data (.leaf (.int 1))])]

/-! ## A StringTokenizer with any separator

The functions above are those of a Map made with the DefaultTokenizer. The definitions of
this section are the same functions for a StringTokenizer with the separator s, which is
free of the special characters of regular expressions, so that the pattern re of newMap
matches the strings that contain s, the wildcard character and s in a row. -/

/-- StringTokenizer.Token: strings.Join of the segments with the separator s. -/
def StringTokenizer_Token (s : List Char) : List (List Char) → List Char
  | [] => []
  | [k] => k
  | k :: k2 :: ks => k ++ s ++ StringTokenizer_Token s (k2 :: ks)

/-- The scan of strings.Split for a non-empty separator s, from the left: the first
argument counts the characters of a separator found before that are still to be passed
over; where the rest of the string starts with s a segment ends. -/
def splitScan (s : List Char) : Nat → List Char → List (List Char)
  | _, [] => [[]]
  | n + 1, _ :: cs => splitScan s n cs
  | 0, c :: cs =>
    if s.isPrefixOf (c :: cs) then [] :: splitScan s (s.length - 1) cs
    else
      match splitScan s 0 cs with
      | [] => [[c]]
      | h :: t => (c :: h) :: t

/-- StringTokenizer.Keys: strings.Split at the separator s; with the empty separator the
string is split after each character. -/
def StringTokenizer_Keys (s : List Char) (k : List Char) : List (List Char) :=
  if s = [] then k.map (fun c => [c]) else splitScan s 0 k

/-- The match of the pattern re that newMap compiles for the separator s. -/
def MatchStringWith (s x : List Char) : Bool := decide (0 ≤ Index x (s ++ ['*'] ++ s))

/-- The body of the range loop of Map.delSliceAttribute for the key k, for a tokenizer
with the separator s. -/
def delSliceBodyWith (s : List Char) (del : entries → List Char → Option entries)
    (pre : List Char) (i : Int) (prefixRemainder : List Char) (recursive : Bool)
    (m : entries) (k : List Char) : Option entries :=
  if (k.length : Int) < i + 2 then some m
  else
    match prefixTo pre i with
    | none => none
    | some head =>
      if !HasPrefix k head then some m
      else
        match suffixFrom k (i + 1) with
        | none => none
        | some tail =>
          if recursive then
            match prefixTo k (i + 1 + Index tail s) with
            | none => none
            | some kp => del m (kp ++ prefixRemainder)
          else
            match suffixFrom k (i + 1 + Index tail s) with
            | none => none
            | some keyRemainder =>
              if keyRemainder = prefixRemainder then some (delete m k)
              else if !HasPrefix keyRemainder (prefixRemainder ++ s) then some m
              else some (delete m k)

/-- Map.delSliceAttribute for a tokenizer with the separator s. -/
def delSliceAttributeWith (s : List Char) (del : entries → List Char → Option entries)
    (ord : List (List Char) → List (List Char)) (m : entries) (pre : List Char) :
    Option entries :=
  let i := Index pre ['*']
  match suffixFrom pre (i + 1) with
  | none => none
  | some prefixRemainder =>
    let recursive := decide (-1 < Index prefixRemainder ['*'])
    rangeKeys (delSliceBodyWith s del pre i prefixRemainder recursive) (ord (keysOf m)) m

/-- The body of the last range loop of Map.Del for the key k, for a tokenizer with the
separator s: the one byte of the key after the pattern is compared with s. -/
def delBodyWith (s : List Char) (pre : List Char) (m : entries) (k : List Char) :
    Option entries :=
  if !HasPrefix k pre then some m
  else
    match slice k pre.length (pre.length + 1) with
    | none => none
    | some c => if c ≠ s then some m else some (delete m k)

/-- Map.Del on the Go map for a tokenizer with the separator s; the bound on the depth of
the calls is as in delEntries. -/
def delEntriesWith (s : List Char) (ord : List (List Char) → List (List Char)) :
    Nat → entries → List Char → Option entries
  | 0, _, _ => none
  | fuel + 1, m, pre =>
    match get? m pre with
    | some _ => some (delete m pre)
    | none =>
      if MatchStringWith s pre then
        delSliceAttributeWith s (delEntriesWith s ord fuel) ord m pre
      else rangeKeys (delBodyWith s pre) (ord (keysOf m)) m

/-- Map.Del of a Map whose tokenizer has the separator s. -/
def Map.DelWith (s : List Char) (ord : List (List Char) → List (List Char)) (fuel : Nat)
    (m : Map) (pre : List Char) : Option Map :=
  (delEntriesWith s ord fuel m.m pre).map Map.mk

/-- The body of the range loop of Map.moveSliceAttribute for the key k, for a tokenizer
with the separator s. -/
def moveSliceBodyWith (s : List Char)
    (move : entries → List Char → List Char → Option entries) (original : List Char)
    (i : Int) (originalRemainder : List Char) (recursive : Bool)
    (newKeyRemainder newKeyPrefix : List Char) (m : entries) (k : List Char) :
    Option entries :=
  if (k.length : Int) ≤ i + 2 then some m
  else
    match prefixTo original i with
    | none => none
    | some head =>
      if !HasPrefix k head then some m
      else
        match suffixFrom k i with
        | none => none
        | some remainder =>
          let idLen := Index remainder s
          match suffixFrom k (i + idLen), slice k i (i + idLen) with
          | some cleanRemainder, some id =>
            let keyPrefix := newKeyPrefix ++ id
            if recursive then
              match prefixTo k (i + idLen) with
              | none => none
              | some kp => move m (kp ++ originalRemainder) (keyPrefix ++ newKeyRemainder)
            else
              match suffixFrom originalRemainder 1 with
              | none => none
              | some rest =>
                if cleanRemainder = rest then
                  some (delete (set m (keyPrefix ++ newKeyRemainder) (getD m k)) k)
                else
                  let rPrefix := rest ++ s
                  if cleanRemainder ≠ s ++ rest ∧
                      !HasPrefix cleanRemainder (s ++ rPrefix) then some m
                  else
                    match suffixFrom cleanRemainder rPrefix.length with
                    | none => none
                    | some tail =>
                      some (delete
                        (set m (keyPrefix ++ newKeyRemainder ++ tail) (getD m k)) k)
          | _, _ => none

/-- Map.moveSliceAttribute for a tokenizer with the separator s. -/
def moveSliceAttributeWith (s : List Char)
    (move : entries → List Char → List Char → Option entries)
    (ord : List (List Char) → List (List Char)) (m : entries) (original newKey : List Char) :
    Option entries :=
  let i := Index original ['*']
  match suffixFrom original (i + 1) with
  | none => none
  | some originalRemainder =>
    let recursive := decide (-1 < Index originalRemainder ['*'])
    let newKeyOffset := Index newKey ['*']
    match suffixFrom newKey (newKeyOffset + 1), prefixTo newKey newKeyOffset with
    | some newKeyRemainder, some newKeyPrefix =>
      rangeKeys (moveSliceBodyWith s move original i originalRemainder recursive
        newKeyRemainder newKeyPrefix) (ord (keysOf m)) m
    | _, _ => none

/-- The body of the last range loop of Map.Move for the key k, for a tokenizer with the
separator s. -/
def moveBodyWith (s : List Char) (original newKey : List Char) (m : entries)
    (k : List Char) : Option entries :=
  if !HasPrefix k original then some m
  else
    match slice k original.length (original.length + 1) with
    | none => none
    | some c =>
      if c ≠ s then some m
      else
        match suffixFrom k (original.length + 1) with
        | none => none
        | some rest => some (delete (set m (newKey ++ s ++ rest) (getD m k)) k)

/-- Map.Move on the Go map for a tokenizer with the separator s; the bound on the depth of
the calls is as in moveEntries. -/
def moveEntriesWith (s : List Char) (ord : List (List Char) → List (List Char)) :
    Nat → entries → List Char → List Char → Option entries
  | 0, _, _, _ => none
  | fuel + 1, m, original, newKey =>
    match get? m original with
    | some v => some (delete (set m newKey v) original)
    | none =>
      if MatchStringWith s original then
        moveSliceAttributeWith s (moveEntriesWith s ord fuel) ord m original newKey
      else rangeKeys (moveBodyWith s original newKey) (ord (keysOf m)) m

/-- Map.Move of a Map whose tokenizer has the separator s. -/
def Map.MoveWith (s : List Char) (ord : List (List Char) → List (List Char)) (fuel : Nat)
    (m : Map) (original newKey : List Char) : Option Map :=
  (moveEntriesWith s ord fuel m.m original newKey).map Map.mk

/-- The update function of Flatten for a tokenizer with the separator s. -/
def applyUpdatesWith (s : List Char) (us : List (List (List Char) × Leaf)) (m : entries) :
    entries :=
  us.foldl (fun acc u => set acc (StringTokenizer_Token s u.1) u.2) m

/-- Flatten with a StringTokenizer with the separator s, for which newMap returns no
error. -/
def FlattenWith (s : List Char) (m : List member) : Map :=
  ⟨applyUpdatesWith s (flattenMap m []) []⟩

/-- The input with the leaf b in the map under the key a. -/
def exPair : List member := [.mk "a".data (.map [.mk "b".data (.leaf (.int 1))])]

/-- No proper non-empty prefix of the separator s is also a suffix of s; every separator
of one character is of this kind. -/
def borderFree (s : List Char) : Bool :=
  (List.range s.length).all (fun n => n == 0 || s.take n != s.drop (s.length - n))

/-- A flat map with three keys under a, for the pattern a.*b.*.c. -/
def exOrder : Map :=
  ⟨[("a.0.z".data, .int 1), ("a.0b.1.c".data, .int 2), ("a.0bb.2.c".data, .int 3)]⟩

/-- The key k with its segment at position j replaced by z. -/
def renameAt (j : Nat) (z : List Char) (k : List Char) : List Char :=
  Token ((Keys k).set j z)

/-- The map r is the map m after every entry whose key satisfies q was entered again
under the key f k and deleted: no key that satisfies q is left, the value of such a key k
of m is found under f k, and a key that does not satisfy q and is none of the new keys has
the value it had. -/
def movedBy (q : List Char → Bool) (f : List Char → List Char) (m r : entries) : Prop :=
  (∀ k, q k = true → get? r k = none) ∧
    (∀ k v, q k = true → get? m k = some v → get? r (f k) = some v) ∧
    (∀ k, q k = false → (∀ k2, q k2 = true → (get? m k2).isSome = true → f k2 ≠ k) →
      get? r k = get? m k)

/-- The key path ks ends at a wildcard position of the pattern ps, its earlier segments
agreeing with the pattern. -/
def endsAtWildcard (ps ks : List (List Char)) : Bool :=
  decide (ps[ks.length - 1]? = some ['*']) && segMatches (ps.take (ks.length - 1)) ks

/-- The keys of the map have segments that are not empty and without the wildcard
character, and a key that ends at a wildcard position of the pattern ps has a last segment
of at most two characters. -/
def movable (ps : List (List Char)) (m : entries) : Prop :=
  ∀ k ∈ keysOf m, (∀ s ∈ Keys k, s ≠ [] ∧ '*' ∉ s) ∧
    (endsAtWildcard ps (Keys k) = true → ∀ x, (Keys k).getLast? = some x → x.length ≤ 2)

/-- The input with a slice under a whose one element has the keys c and x. -/
def exOverwrite : List member :=
  [.mk "a".data (.list [.map [.mk "c".data (.leaf (.int 1)), .mk "x".data (.leaf (.int 2))]])]

/-- The input with the empty string as a key of the map under a, above the leaf c. -/
def exEmptyKey : List member :=
  [.mk "a".data (.map [.mk [] (.map [.mk "c".data (.leaf (.int 1))])])]

/-- The input with the wildcard character as a key of the map under a, above maps. -/
def exStarDeep : List member :=
  [.mk "a".data (.map [.mk "*".data (.map [.mk "b".data
    (.map [.mk "k".data (.map [.mk "c".data (.leaf (.int 1))])])])])]

mutual
/-- Structural equality of two Go values, as reflect.DeepEqual decides it: equal leaves,
slices of the same length with equal elements at every index, and maps with the same
number of entries in which every key of the first holds an equal value in the second. -/
def Nested.same : Nested → Nested → Bool
  | .leaf a, w =>
    match w with
    | .leaf b => decide (a = b)
    | _ => false
  | .list xs, w =>
    match w with
    | .list ys => sameList xs ys
    | _ => false
  | .map kvs, w =>
    match w with
    | .map kvs2 => decide (kvs.length = kvs2.length) && sameFields kvs kvs2
    | _ => false
/-- Two slices have the same length and equal elements at every index. -/
def sameList : List Nested → List Nested → Bool
  | [], ys => ys.isEmpty
  | x :: xs, ys =>
    match ys with
    | y :: ys2 => x.same y && sameList xs ys2
    | [] => false
/-- Every entry of the first list has an equal value under its key in the second map. -/
def sameFields : List member → List member → Bool
  | [], _ => true
  | (.mk k v) :: kvs, kvs2 =>
    (match find? k kvs2 with
      | some w => v.same w
      | none => false) && sameFields kvs kvs2
end

/-- The Go value that the Expand test expects: the input of the test with the entries of
every map in the order of the keys. -/
def exRoundTripValue : List member :=
  [.mk "a".data (.list [
      .map [.mk "aa".data (.leaf (.int 1)),
        .mk "b".data (.list [
          .map [.mk "aa".data (.leaf (.int 1)),
            .mk "c".data (.map [.mk "a".data (.leaf (.int 1))])],
          .map [.mk "aa".data (.leaf (.int 1)),
            .mk "c".data (.map [.mk "a".data (.leaf (.int 2))])]])],
      .map [.mk "aa".data (.leaf (.int 1)),
        .mk "b".data (.list [
          .map [.mk "aa".data (.leaf (.int 1)),
            .mk "c".data (.map [.mk "a".data (.leaf (.int 1))])]])]]),
    .mk "turbo".data (.leaf (.bool false))]

/-- A flat map with the one key x.y.y. -/
def exSelfKey : Map :=
  ⟨[("x.y.y".data, .int 1)]⟩

end flatex

namespace tree

/-! ## Lemmas -/

theorem index?_last {α : Type} (xs : List α) (x : α) :
    index? (xs ++ [x]) (((xs ++ [x]).length : Int) - 1) = some x := by
  simp [index?]

theorem sliceTo_last {α : Type} (xs : List α) (x : α) :
    sliceTo (xs ++ [x]) (((xs ++ [x]).length : Int) - 1) = some xs := by
  simp [sliceTo]

theorem findMoveEdge_snoc (pat : List String) (s : String) (es : List edge) :
    findMoveEdge (pat ++ [s]) es = some (findLabel s es) := by
  induction es with
  | nil => rfl
  | cons e es ih =>
    simp only [findMoveEdge, index?_last, findLabel, ih]
    split <;> simp

theorem node.setEdges_edges (n : node) (es : List edge) : (n.setEdges es).edges = es := by
  cases n; rfl

theorem node.setEdges_self (n : node) : n.setEdges n.edges = n := by
  cases n; rfl

theorem node.setEdges_setEdges (n : node) (es es' : List edge) :
    (n.setEdges es).setEdges es' = n.setEdges es' := by
  cases n; rfl

theorem node.setEdges_depth (n : node) (es : List edge) : (n.setEdges es).depth = n.depth := by
  cases n; rfl

theorem edge.eta (e : edge) : edge.mk e.label e.n = e := by
  cases e; rfl

theorem nodeAt_append (p q : List Nat) (root : node) :
    nodeAt (p ++ q) root = (nodeAt p root).bind (nodeAt q) := by
  induction p generalizing root with
  | nil => rfl
  | cons i p ih =>
    simp only [List.cons_append, nodeAt]
    cases root.edges[i]? with
    | none => rfl
    | some e => exact ih e.n

theorem modifyAt_append (f : node → node) (p q : List Nat) (root : node) :
    modifyAt f (p ++ q) root = modifyAt (modifyAt f q) p root := by
  induction p generalizing root with
  | nil => rfl
  | cons i p ih =>
    simp only [List.cons_append, modifyAt]
    congr 2
    funext e
    exact congrArg _ (ih e.n)

theorem modifyAt_congr (f g : node → node) (p : List Nat) (root : node)
    (h : ∀ n, nodeAt p root = some n → f n = g n) :
    modifyAt f p root = modifyAt g p root := by
  induction p generalizing root with
  | nil => exact h root rfl
  | cons i p ih =>
    simp only [modifyAt]
    congr 1
    apply List.ext_getElem?
    intro m
    simp only [List.getElem?_modify]
    cases hm : root.edges[m]? with
    | none => rfl
    | some e =>
      simp only [Option.map_eq_map, Option.map_some']
      by_cases him : i = m
      · subst him
        simp only [if_true]
        rw [ih e.n]
        intro n hn
        apply h
        simp [nodeAt, hm, hn]
      · simp [him]

theorem modifyAt_id (p : List Nat) (root : node) : modifyAt (fun n => n) p root = root := by
  induction p generalizing root with
  | nil => rfl
  | cons i p ih =>
    simp only [modifyAt]
    have : (fun e : edge => edge.mk e.label (modifyAt (fun n => n) p e.n)) = fun e => e := by
      funext e
      rw [ih, edge.eta]
    rw [this]
    have h2 : List.modify (fun e : edge => e) i root.edges = root.edges := by
      apply List.ext_getElem?
      intro m
      simp only [List.getElem?_modify]
      cases root.edges[m]? <;> simp
    rw [h2, node.setEdges_self]

theorem modifyAt_eq_self (f : node → node) (p : List Nat) (root : node)
    (h : ∀ n, nodeAt p root = some n → f n = n) : modifyAt f p root = root := by
  rw [modifyAt_congr f (fun n => n) p root h, modifyAt_id]

theorem modifyAt_modifyAt (f g : node → node) (p : List Nat) (root : node) :
    modifyAt f p (modifyAt g p root) = modifyAt (fun n => f (g n)) p root := by
  induction p generalizing root with
  | nil => rfl
  | cons i p ih =>
    simp only [modifyAt, node.setEdges_edges, node.setEdges_setEdges]
    congr 1
    apply List.ext_getElem?
    intro m
    simp only [List.getElem?_modify]
    cases root.edges[m]? with
    | none => rfl
    | some e =>
      by_cases him : i = m
      · simp [him, ih, edge.label, edge.n]
      · simp [him]

theorem findLabel_lt (l : String) (es : List edge) (j : Nat) (h : findLabel l es = some j) :
    j < es.length := by
  induction es generalizing j with
  | nil => simp [findLabel] at h
  | cons e es ih =>
    simp only [findLabel] at h
    split at h
    · cases hf : findLabel l es with
      | none => simp [hf] at h
      | some k =>
        simp [hf] at h
        have := ih k hf
        simp
        omega
    · simp at h
      simp [← h]

theorem matchIdx_lt (s : String) (es : List edge) (j : Nat) (h : j ∈ matchIdx s es) :
    j < es.length := by
  unfold matchIdx at h
  split at h
  · simp [List.mem_range'] at h
    omega
  · simp at h
    exact findLabel_lt s es j h

theorem collectEdges_ptrs (grow : Nat → Nat) (step : String) (nap : nodeAndPath)
    (es : List edge) (j : Nat) (st : strStore × List nodeAndPath) :
    (collectEdges grow step nap es j st).2.map (·.n) =
      st.2.map (·.n) ++ ((if step = wildcard then List.range' j es.length
        else ((findLabel step es).map (· + j)).toList).map (fun k => nap.n ++ [k])) := by
  induction es generalizing j st with
  | nil => simp [collectEdges, findLabel]
  | cons e es ih =>
    simp only [collectEdges]
    by_cases hw : step = wildcard
    · simp only [hw, if_true] at ih ⊢
      rw [ih]
      simp [List.range'_succ]
    · simp only [hw, if_false] at ih ⊢
      by_cases hl : step = e.label
      · simp [hl, findLabel]
      · have hl' : e.label ≠ step := fun h => hl h.symm
        simp only [hl, if_false, findLabel, hl', ne_eq, not_false_eq_true, if_true]
        rw [ih]
        congr 2
        cases findLabel step es <;> simp
        omega

theorem collectStep_ptrs_aux (grow : Nat → Nat) (root : node) (step : String)
    (next : List nodeAndPath) (st : strStore × List nodeAndPath) :
    (next.foldl (fun st nap => collectEdges grow step nap (edgesAt root nap.n) 0 st) st).2.map
        (·.n) =
      st.2.map (·.n) ++ (next.map (·.n)).flatMap (fun p =>
        (matchIdx step (edgesAt root p)).map (fun k => p ++ [k])) := by
  induction next generalizing st with
  | nil => simp
  | cons nap next ih =>
    simp only [List.foldl_cons, List.map_cons, List.flatMap_cons]
    rw [ih, collectEdges_ptrs]
    simp only [matchIdx, List.append_assoc]
    congr 3
    split
    · rfl
    · cases findLabel step (edgesAt root nap.n) <;> simp

theorem collectStep_ptrs (grow : Nat → Nat) (root : node) (step : String)
    (next : List nodeAndPath) (h : strStore) :
    (collectStep grow root step next h).2.map (·.n) =
      (next.map (·.n)).flatMap (fun p =>
        (matchIdx step (edgesAt root p)).map (fun k => p ++ [k])) := by
  unfold collectStep
  rw [collectStep_ptrs_aux]
  simp

theorem collectMoveCandidates_ptrs (grow : Nat → Nat) (root : node) (pat : List String)
    (next : List nodeAndPath) (h : strStore) :
    (collectMoveCandidates grow root pat next h).2.map (·.n) =
      (next.map (·.n)).flatMap (matchFrom root pat) := by
  induction pat generalizing next h with
  | nil => simp [collectMoveCandidates, matchFrom]
  | cons s ss ih =>
    simp only [collectMoveCandidates]
    rw [ih, collectStep_ptrs, List.flatMap_assoc]
    apply List.flatMap_congr
    intro p _
    simp [matchFrom, List.flatMap_map]

theorem matchFrom_eq (root : node) (pat : List String) (p : List Nat) (n : node)
    (h : nodeAt p root = some n) :
    matchFrom root pat p = (matchPtrs pat n).map (fun c => p ++ c) := by
  induction pat generalizing p n with
  | nil => simp [matchFrom, matchPtrs]
  | cons s ss ih =>
    have he : edgesAt root p = n.edges := by simp [edgesAt, h]
    simp only [matchFrom, matchPtrs, he, List.map_flatMap]
    apply List.flatMap_congr
    intro j hj
    have hlt := matchIdx_lt s n.edges j hj
    have hget : n.edges[j]? = some n.edges[j] := List.getElem?_eq_getElem hlt
    rw [hget]
    have hn : nodeAt (p ++ [j]) root = some (n.edges[j]).n := by
      rw [nodeAt_append, h]
      simp [nodeAt, hget]
    rw [ih (p ++ [j]) _ hn]
    simp

theorem matchFrom_root (root : node) (pat : List String) :
    matchFrom root pat [] = matchPtrs pat root := by
  rw [matchFrom_eq root pat [] root rfl]
  simp

theorem updChild_nil (j : Nat) (g : node → node) : updChild j g [] = [] := by
  cases j <;> rfl

theorem updChild_zero (g : node → node) (e : edge) (es : List edge) :
    updChild 0 g (e :: es) = edge.mk e.label (g e.n) :: es := rfl

theorem updChild_succ (j : Nat) (g : node → node) (e : edge) (es : List edge) :
    updChild (j + 1) g (e :: es) = e :: updChild j g es := by
  simp [updChild, List.modify_succ_cons]

theorem updChild_id (j : Nat) (es : List edge) : updChild j (fun n => n) es = es := by
  induction es generalizing j with
  | nil => exact updChild_nil j _
  | cons e es ih =>
    cases j with
    | zero => rw [updChild_zero, edge.eta]
    | succ j => rw [updChild_succ, ih]

theorem updChild_updChild (j : Nat) (f g : node → node) (es : List edge) :
    updChild j f (updChild j g es) = updChild j (fun n => f (g n)) es := by
  induction es generalizing j with
  | nil => simp [updChild_nil]
  | cons e es ih =>
    cases j with
    | zero => simp [updChild_zero, edge.label, edge.n]
    | succ j => simp [updChild_succ, ih]

theorem updChild_append_length (done todo : List edge) (g : node → node) (e : edge) :
    updChild done.length g (done ++ e :: todo) = done ++ edge.mk e.label (g e.n) :: todo := by
  induction done with
  | nil => rfl
  | cons d done ih => simp [updChild_succ, ih]

theorem updChild_congr (j : Nat) (f g : node → node) (es : List edge)
    (h : ∀ e, es[j]? = some e → f e.n = g e.n) : updChild j f es = updChild j g es := by
  induction es generalizing j with
  | nil => simp [updChild_nil]
  | cons e es ih =>
    cases j with
    | zero => simp [updChild_zero, h e (by simp)]
    | succ j =>
      rw [updChild_succ, updChild_succ, ih]
      intro e' he'
      exact h e' (by simpa using he')

theorem modifyAt_cons (g : node → node) (j : Nat) (c : List Nat) (r : node) :
    modifyAt g (j :: c) r = r.setEdges (updChild j (modifyAt g c) r.edges) := rfl

theorem modifyAll_nil (g : node → node) (r : node) : modifyAll g [] r = r := rfl

theorem modifyAll_cons (g : node → node) (c : List Nat) (cs : List (List Nat)) (r : node) :
    modifyAll g (c :: cs) r = modifyAll g cs (modifyAt g c r) := rfl

theorem modifyAll_append (g : node → node) (cs ds : List (List Nat)) (r : node) :
    modifyAll g (cs ++ ds) r = modifyAll g ds (modifyAll g cs r) := by
  simp [modifyAll, List.foldl_append]

theorem modifyAll_map_cons (g : node → node) (j : Nat) (cs : List (List Nat)) (r : node) :
    modifyAll g (cs.map (fun c => j :: c)) r =
      r.setEdges (updChild j (modifyAll g cs) r.edges) := by
  induction cs generalizing r with
  | nil =>
    simp only [List.map_nil, modifyAll_nil]
    have : modifyAll g [] = fun n => n := rfl
    rw [this, updChild_id, node.setEdges_self]
  | cons c cs ih =>
    simp only [List.map_cons, modifyAll_cons]
    rw [ih, modifyAt_cons, node.setEdges_edges, node.setEdges_setEdges, updChild_updChild]
    rfl

theorem modifyAll_flatMap (g : node → node) (P : Nat → List (List Nat)) (js : List Nat)
    (r : node) :
    modifyAll g (js.flatMap (fun j => (P j).map (fun c => j :: c))) r =
      r.setEdges (js.foldl (fun es j => updChild j (modifyAll g (P j)) es) r.edges) := by
  induction js generalizing r with
  | nil => simp [modifyAll_nil, node.setEdges_self]
  | cons j js ih =>
    simp only [List.flatMap_cons, modifyAll_append, List.foldl_cons]
    rw [modifyAll_map_cons, ih, node.setEdges_edges, node.setEdges_setEdges]

theorem foldl_updChild_range (Φ : Nat → node → node) (T : node → node)
    (todo : List edge) (done done' : List edge) (hlen : done'.length = done.length)
    (h : ∀ i e, todo[i]? = some e → Φ (done.length + i) e.n = T e.n) :
    (List.range' done.length todo.length).foldl (fun es j => updChild j (Φ j) es)
        (done' ++ todo) = done' ++ atEvery T todo := by
  induction todo generalizing done done' with
  | nil => simp [atEvery]
  | cons e rest ih =>
    simp only [List.length_cons, List.range'_succ, List.foldl_cons]
    rw [← hlen, updChild_append_length]
    have h0 := h 0 e (by simp)
    simp only [Nat.add_zero] at h0
    rw [← hlen] at h0
    rw [h0]
    have := ih (done ++ [e]) (done' ++ [edge.mk e.label (T e.n)]) (by simp [hlen])
      (by
        intro i e' he'
        have := h (i + 1) e' (by simpa using he')
        simpa [Nat.add_assoc, Nat.add_comm 1 i] using this)
    simp only [List.length_append, List.length_singleton, List.append_assoc,
      List.singleton_append] at this
    rw [hlen, this]
    simp [atEvery]

theorem atFirst_of_findLabel_none (s : String) (g : node → node) (es : List edge)
    (h : findLabel s es = none) : atFirst s g es = es := by
  induction es with
  | nil => rfl
  | cons e es ih =>
    simp only [findLabel] at h
    split at h
    · rename_i hl
      simp only [atFirst, hl, ne_eq, not_false_eq_true, if_true]
      rw [ih]
      cases hf : findLabel s es with
      | none => rfl
      | some k => simp [hf] at h
    · simp at h

theorem atFirst_of_findLabel_some (s : String) (g : node → node) (es : List edge) (j : Nat)
    (h : findLabel s es = some j) : atFirst s g es = updChild j g es := by
  induction es generalizing j with
  | nil => simp [findLabel] at h
  | cons e es ih =>
    simp only [findLabel] at h
    split at h
    · rename_i hl
      cases hf : findLabel s es with
      | none => simp [hf] at h
      | some k =>
        simp [hf] at h
        subst h
        simp only [atFirst, hl, ne_eq, not_false_eq_true, if_true]
        rw [updChild_succ, ih k hf]
    · rename_i hl
      simp at h
      subst h
      simp [atFirst, hl, updChild_zero]

theorem modifyAll_matchPtrs (g : node → node) (pat : List String) (n : node) :
    modifyAll g (matchPtrs pat n) n = atMatched g pat n := by
  induction pat generalizing n with
  | nil => rfl
  | cons s ss ih =>
    have hP : matchPtrs (s :: ss) n = (matchIdx s n.edges).flatMap (fun j =>
        (match n.edges[j]? with
          | some (e : edge) => matchPtrs ss e.n
          | none => []).map (fun c => j :: c)) := by
      simp only [matchPtrs]
      apply List.flatMap_congr
      intro j _
      cases n.edges[j]? <;> rfl
    rw [hP, modifyAll_flatMap]
    simp only [atMatched]
    congr 1
    have hΦ : ∀ (j : Nat) (e : edge), n.edges[j]? = some e →
        modifyAll g (match n.edges[j]? with
          | some (e : edge) => matchPtrs ss e.n
          | none => []) e.n = atMatched g ss e.n := by
      intro j e he
      rw [he]
      exact ih e.n
    by_cases hw : s = wildcard
    · simp only [hw, if_true, matchIdx]
      have := foldl_updChild_range
        (fun j => modifyAll g (match n.edges[j]? with
          | some (e : edge) => matchPtrs ss e.n
          | none => [])) (atMatched g ss) n.edges [] [] rfl
        (by
          intro i e he
          simpa using hΦ i e he)
      simpa using this
    · simp only [hw, if_false, matchIdx]
      cases hf : findLabel s n.edges with
      | none => simp [atFirst_of_findLabel_none s _ _ hf]
      | some j =>
        simp only [Option.toList, List.foldl_cons, List.foldl_nil]
        rw [atFirst_of_findLabel_some s _ _ j hf]
        apply updChild_congr
        intro e he
        exact hΦ j e he

theorem moveFrontier_snoc (grow : Nat → Nat) (root : node) (pat : List String) (s : String) :
    moveFrontier grow root (pat ++ [s]) =
      some (collectMoveCandidates grow root pat [⟨[], emptySlice⟩] []) := by
  unfold moveFrontier
  rw [sliceTo_last]
  cases pat with
  | nil => simp [collectMoveCandidates]
  | cons a pat =>
    have : ((a :: pat ++ [s]).length : Int) > 1 := by
      simp only [List.length_cons, List.length_append, List.length_singleton]
      omega
    simp [this]

theorem moveFrontier_ptrs (grow : Nat → Nat) (root : node) (pat : List String) :
    (collectMoveCandidates grow root pat [⟨[], emptySlice⟩] []).2.map (·.n) =
      matchPtrs pat root := by
  rw [collectMoveCandidates_ptrs]
  simp [matchFrom_root]

theorem relabelFirst_of_findLabel_none (s d : String) (es : List edge)
    (h : findLabel s es = none) : relabelFirst s d es = es := by
  induction es with
  | nil => rfl
  | cons e es ih =>
    simp only [findLabel] at h
    split at h
    · rename_i hl
      simp only [relabelFirst, hl, ne_eq, not_false_eq_true, if_true]
      rw [ih]
      cases hf : findLabel s es with
      | none => rfl
      | some k => simp [hf] at h
    · simp at h

theorem relabelFirst_of_findLabel_some (s d : String) (es : List edge) (j : Nat)
    (h : findLabel s es = some j) :
    relabelFirst s d es = es.modify (fun e => edge.mk d e.n) j := by
  induction es generalizing j with
  | nil => simp [findLabel] at h
  | cons e es ih =>
    simp only [findLabel] at h
    split at h
    · rename_i hl
      cases hf : findLabel s es with
      | none => simp [hf] at h
      | some k =>
        simp [hf] at h
        subst h
        simp only [relabelFirst, hl, ne_eq, not_false_eq_true, if_true]
        rw [List.modify_succ_cons, ih k hf]
    · rename_i hl
      simp at h
      subst h
      simp [relabelFirst, hl]

theorem edgesAt_of_nodeAt (root : node) (c : List Nat) (n : node) (h : nodeAt c root = some n) :
    edgesAt root c = n.edges := by
  simp [edgesAt, h]

theorem edgesAt_of_nodeAt_none (root : node) (c : List Nat) (h : nodeAt c root = none) :
    edgesAt root c = [] := by
  simp [edgesAt, h]

/-- The relabel step of Tree.Move at one candidate is the relabelling of the first edge
labelled s in the node the candidate points to. -/
theorem moveCandidate_relabel (pat dpre : List String) (s d : String)
    (hlen : pat.length = dpre.length) (st : node × List edgeToMove) (nap : nodeAndPath) :
    moveCandidate (pat ++ [s]) (dpre ++ [d]) st nap =
      some (modifyAt (fun n => n.setEdges (relabelFirst s d n.edges)) nap.n st.1, st.2) := by
  unfold moveCandidate
  rw [findMoveEdge_snoc]
  have hl : ((pat ++ [s]).length : Int) = ((dpre ++ [d]).length : Int) := by
    simp [hlen]
  have hidx : index? (dpre ++ [d]) (((pat ++ [s]).length : Int) - 1) = some d := by
    rw [hl, index?_last]
  cases hn : nodeAt nap.n st.1 with
  | none =>
    rw [edgesAt_of_nodeAt_none _ _ hn]
    simp only [findLabel]
    rw [modifyAt_eq_self]
    intro n hn'
    rw [hn] at hn'
    cases hn'
  | some n =>
    rw [edgesAt_of_nodeAt _ _ n hn]
    cases hf : findLabel s n.edges with
    | none =>
      simp only
      rw [modifyAt_eq_self]
      intro n' hn'
      rw [hn] at hn'
      cases hn'
      rw [relabelFirst_of_findLabel_none s d _ hf, node.setEdges_self]
    | some i =>
      simp only [hl, if_true, index?_last]
      congr 2
      apply modifyAt_congr
      intro n' hn'
      rw [hn] at hn'
      cases hn'
      rw [relabelFirst_of_findLabel_some s d _ i hf]
      rfl

theorem moveCandidates_relabel (pat dpre : List String) (s d : String)
    (hlen : pat.length = dpre.length) (next : List nodeAndPath) (st : node × List edgeToMove) :
    moveCandidates (pat ++ [s]) (dpre ++ [d]) next st =
      some (modifyAll (fun n => n.setEdges (relabelFirst s d n.edges)) (next.map (·.n)) st.1,
        st.2) := by
  induction next generalizing st with
  | nil => rfl
  | cons nap next ih =>
    simp only [moveCandidates, moveCandidate_relabel pat dpre s d hlen, List.map_cons,
      modifyAll_cons]
    rw [ih]

/-- Tree.Move with src and dst of equal non-zero length computes the relabelling of the
first edge labelled src[-1] to dst[-1] in every node matched by src[:-1]. -/
theorem Move_relabel_eq (grow : Nat → Nat) (t : Tree) (pat dpre : List String) (s d : String)
    (hlen : pat.length = dpre.length) :
    Tree.Move grow t (pat ++ [s]) (dpre ++ [d]) =
      some ⟨atMatched (fun n => n.setEdges (relabelFirst s d n.edges)) pat t.root⟩ := by
  unfold Tree.Move
  rw [moveFrontier_snoc]
  simp only
  rw [moveCandidates_relabel pat dpre s d hlen]
  have hl : ((pat ++ [s]).length : Int) = ((dpre ++ [d]).length : Int) := by
    simp [hlen]
  simp only [hl, if_true]
  rw [moveFrontier_ptrs, modifyAll_matchPtrs]

theorem updChild_comm (i j : Nat) (f g : node → node) (es : List edge) (h : i ≠ j) :
    updChild i f (updChild j g es) = updChild j g (updChild i f es) := by
  induction es generalizing i j with
  | nil => simp [updChild_nil]
  | cons e es ih =>
    cases i with
    | zero =>
      cases j with
      | zero => exact absurd rfl h
      | succ j => simp [updChild_zero, updChild_succ]
    | succ i =>
      cases j with
      | zero => simp [updChild_zero, updChild_succ]
      | succ j =>
        simp only [updChild_succ]
        rw [ih i j (fun hij => h (by rw [hij]))]

theorem updChild_getElem? (j m : Nat) (g : node → node) (es : List edge) :
    (updChild j g es)[m]? =
      (es[m]?).map (fun e => if j = m then edge.mk e.label (g e.n) else e) := by
  simp [updChild, List.getElem?_modify]

/-- A mutation at one pointer does not change the node at another pointer of the same
length. -/
theorem nodeAt_modifyAt_of_ne (f : node → node) (c c' : List Nat) (r : node)
    (hlen : c.length = c'.length) (hne : c ≠ c') :
    nodeAt c (modifyAt f c' r) = nodeAt c r := by
  induction c generalizing c' r with
  | nil =>
    cases c' with
    | nil => exact absurd rfl hne
    | cons _ _ => simp at hlen
  | cons i c ih =>
    cases c' with
    | nil => simp at hlen
    | cons i' c' =>
      simp only [nodeAt, modifyAt_cons, node.setEdges_edges, updChild_getElem?]
      cases hm : r.edges[i]? with
      | none => rfl
      | some e =>
        simp only [Option.map_some']
        by_cases hi : i' = i
        · subst hi
          simp only [if_true, edge.n]
          apply ih
          · simpa using hlen
          · intro hcc
            exact hne (by rw [hcc])
        · simp [hi]

/-- Mutations at two different pointers of the same length commute. -/
theorem modifyAt_comm (f g : node → node) (c c' : List Nat) (r : node)
    (hlen : c.length = c'.length) (hne : c ≠ c') :
    modifyAt f c (modifyAt g c' r) = modifyAt g c' (modifyAt f c r) := by
  induction c generalizing c' r with
  | nil =>
    cases c' with
    | nil => exact absurd rfl hne
    | cons _ _ => simp at hlen
  | cons i c ih =>
    cases c' with
    | nil => simp at hlen
    | cons i' c' =>
      simp only [modifyAt_cons, node.setEdges_edges, node.setEdges_setEdges]
      congr 1
      by_cases hi : i = i'
      · subst hi
        rw [updChild_updChild, updChild_updChild]
        congr 1
        funext n
        apply ih
        · simpa using hlen
        · intro hcc
          exact hne (by rw [hcc])
      · exact updChild_comm i i' _ _ _ hi

theorem mem_matchPtrs_length (pat : List String) (n : node) (c : List Nat)
    (h : c ∈ matchPtrs pat n) : c.length = pat.length := by
  induction pat generalizing n c with
  | nil =>
    simp [matchPtrs] at h
    simp [h]
  | cons s ss ih =>
    simp only [matchPtrs, List.mem_flatMap] at h
    obtain ⟨j, _, hc⟩ := h
    cases he : n.edges[j]? with
    | none => simp [he] at hc
    | some e =>
      simp only [he, List.mem_map] at hc
      obtain ⟨c', hc', rfl⟩ := hc
      simp [ih e.n c' hc']

theorem findLabel_get (l : String) (es : List edge) (j : Nat) (h : findLabel l es = some j) :
    ∃ e, es[j]? = some e ∧ e.label = l := by
  induction es generalizing j with
  | nil => simp [findLabel] at h
  | cons e es ih =>
    simp only [findLabel] at h
    split at h
    · cases hf : findLabel l es with
      | none => simp [hf] at h
      | some k =>
        simp [hf] at h
        subst h
        simpa using ih k hf
    · rename_i hl
      simp at h
      subst h
      exact ⟨e, by simp, by simpa using hl⟩

theorem matchIdx_nodup (s : String) (es : List edge) : (matchIdx s es).Nodup := by
  unfold matchIdx
  split
  · exact List.nodup_range' 0 es.length
  · cases findLabel s es <;> simp

theorem nodup_flatMap_cons (js : List Nat) (P : Nat → List (List Nat)) (hjs : js.Nodup)
    (hP : ∀ j ∈ js, (P j).Nodup) :
    (js.flatMap (fun j => (P j).map (fun c => j :: c))).Nodup := by
  induction js with
  | nil => simp
  | cons j js ih =>
    simp only [List.flatMap_cons]
    rw [List.nodup_append]
    refine ⟨?_, ?_, ?_⟩
    · apply List.Nodup.map
      · intro a b hab
        simpa using hab
      · exact hP j (by simp)
    · apply ih
      · exact (List.nodup_cons.mp hjs).2
      · intro j' hj'
        exact hP j' (by simp [hj'])
    · intro c hc1 hc2
      simp only [List.mem_map] at hc1
      obtain ⟨c1, _, rfl⟩ := hc1
      simp only [List.mem_flatMap, List.mem_map] at hc2
      obtain ⟨j', hj', c2, _, heq⟩ := hc2
      have : j' = j := by
        injection heq
      subst this
      exact (List.nodup_cons.mp hjs).1 hj'

theorem matchPtrs_nodup (pat : List String) (n : node) : (matchPtrs pat n).Nodup := by
  induction pat generalizing n with
  | nil => simp [matchPtrs]
  | cons s ss ih =>
    have hP : matchPtrs (s :: ss) n = (matchIdx s n.edges).flatMap (fun j =>
        (match n.edges[j]? with
          | some (e : edge) => matchPtrs ss e.n
          | none => []).map (fun c => j :: c)) := by
      simp only [matchPtrs]
      apply List.flatMap_congr
      intro j _
      cases n.edges[j]? <;> rfl
    rw [hP]
    apply nodup_flatMap_cons
    · exact matchIdx_nodup s n.edges
    · intro j _
      cases n.edges[j]? with
      | none => simp
      | some e => exact ih e.n

theorem modifyAt_of_nodeAt_none (f : node → node) (c : List Nat) (r : node)
    (h : nodeAt c r = none) : modifyAt f c r = r := by
  apply modifyAt_eq_self
  intro n hn
  rw [h] at hn
  cases hn

theorem modifyAt_singleton (g : node → node) (j : Nat) (n : node) :
    modifyAt g [j] n = n.setEdges (updChild j g n.edges) := rfl

/-- The walk and the final append of embeddingEdges from a pointer are the structural
embedding into the node at that pointer. -/
theorem embedWalk_attach (l : String) (child : node) (rel : List String) (c : List Nat)
    (r : node) :
    modifyAt (attachEdge l child) (embedWalk rel c r).1 (embedWalk rel c r).2 =
      modifyAt (embedInto l child rel) c r := by
  induction rel generalizing c r with
  | nil => rfl
  | cons k ks ih =>
    simp only [embedWalk]
    cases hn : nodeAt c r with
    | none =>
      rw [edgesAt_of_nodeAt_none _ _ hn]
      simp only [findLabel, List.length_nil]
      have h1 : ∀ f, modifyAt f c r = r := fun f => modifyAt_of_nodeAt_none f c r hn
      have h2 : ∀ f, modifyAt f (c ++ [0]) r = r := by
        intro f
        apply modifyAt_of_nodeAt_none
        rw [nodeAt_append, hn]
        rfl
      rw [ih, h1, h2, h1]
    | some n =>
      rw [edgesAt_of_nodeAt _ _ n hn]
      cases hf : findLabel k n.edges with
      | some j =>
        simp only
        rw [ih, modifyAt_append]
        apply modifyAt_congr
        intro n' hn'
        rw [hn] at hn'
        cases hn'
        simp only [embedInto, hf, modifyAt_singleton]
        rw [atFirst_of_findLabel_some k _ _ j hf]
      | none =>
        simp only
        rw [ih, modifyAt_append, modifyAt_modifyAt]
        apply modifyAt_congr
        intro n' hn'
        rw [hn] at hn'
        cases hn'
        simp only [embedInto, hf, modifyAt_singleton, node.setEdges_edges,
          node.setEdges_setEdges]
        rw [updChild_append_length]
        simp [edge.label, edge.n]

theorem embedEdge_eq (rel : List String) (l : String) (r : node) (em : edgeToMove) :
    embedEdge (rel ++ [l]) r em = some (modifyAt (embedInto l em.e.n rel) em.n r) := by
  unfold embedEdge
  rw [sliceTo_last, index?_last]
  simp only
  rw [embedWalk_attach]

theorem embeddingEdges_eq (rel : List String) (l : String) (ems : List edgeToMove) (r : node) :
    embeddingEdges (rel ++ [l]) ems r = some (embedAll l rel ems r) := by
  induction ems generalizing r with
  | nil => rfl
  | cons em ems ih =>
    simp only [embeddingEdges, embedEdge_eq, embedAll, List.foldl_cons]
    exact ih _

theorem embedAll_comm (l : String) (rel : List String) (ems : List edgeToMove) (f : node → node)
    (c : List Nat) (r : node) (h : ∀ em ∈ ems, em.n.length = c.length ∧ em.n ≠ c) :
    embedAll l rel ems (modifyAt f c r) = modifyAt f c (embedAll l rel ems r) := by
  induction ems generalizing r with
  | nil => rfl
  | cons em ems ih =>
    simp only [embedAll, List.foldl_cons]
    have hem := h em (by simp)
    rw [modifyAt_comm _ f em.n c r hem.1 hem.2]
    exact ih _ (fun em' hem' => h em' (by simp [hem']))

theorem nodeAt_embedAll (l : String) (rel : List String) (ems : List edgeToMove)
    (c : List Nat) (r : node) (h : ∀ em ∈ ems, em.n.length = c.length ∧ em.n ≠ c) :
    nodeAt c (embedAll l rel ems r) = nodeAt c r := by
  induction ems generalizing r with
  | nil => rfl
  | cons em ems ih =>
    simp only [embedAll, List.foldl_cons]
    have hem := h em (by simp)
    have := ih (modifyAt (embedInto l em.e.n rel) em.n r)
      (fun em' hem' => h em' (by simp [hem']))
    simp only [embedAll] at this
    rw [this]
    exact nodeAt_modifyAt_of_ne _ c em.n r hem.1.symm (fun hc => hem.2 hc.symm)

theorem embedAll_append (l : String) (rel : List String) (ems ems' : List edgeToMove)
    (r : node) :
    embedAll l rel (ems ++ ems') r = embedAll l rel ems' (embedAll l rel ems r) := by
  simp [embedAll, List.foldl_append]

theorem detachFirst_of_findLabel_none (s : String) (es : List edge)
    (h : findLabel s es = none) : detachFirst s es = none := by
  induction es with
  | nil => rfl
  | cons e es ih =>
    simp only [findLabel] at h
    split at h
    · rename_i hl
      simp only [detachFirst, hl, ne_eq, not_false_eq_true, if_true]
      cases hf : findLabel s es with
      | none => simp [ih hf]
      | some k => simp [hf] at h
    · simp at h

theorem detachFirst_of_findLabel_some (s : String) (es : List edge) (j : Nat)
    (h : findLabel s es = some j) :
    ∃ e, es[j]? = some e ∧ detachFirst s es = some (e, es.eraseIdx j) := by
  induction es generalizing j with
  | nil => simp [findLabel] at h
  | cons e es ih =>
    simp only [findLabel] at h
    split at h
    · rename_i hl
      cases hf : findLabel s es with
      | none => simp [hf] at h
      | some k =>
        simp [hf] at h
        subst h
        obtain ⟨e', he', hd⟩ := ih k hf
        refine ⟨e', by simpa using he', ?_⟩
        simp [detachFirst, hl, hd]
    · rename_i hl
      simp at h
      subst h
      exact ⟨e, by simp, by simp [detachFirst, hl]⟩

/-- The detach step of Tree.Move at one candidate, when src and dst differ in length. -/
theorem moveCandidate_detach (pat : List String) (s : String) (dst : List String)
    (hlen : (pat ++ [s]).length ≠ dst.length) (st : node × List edgeToMove)
    (nap : nodeAndPath) :
    moveCandidate (pat ++ [s]) dst st nap =
      some (match findLabel s (edgesAt st.1 nap.n) with
        | none => st
        | some i =>
          match (edgesAt st.1 nap.n)[i]? with
          | none => st
          | some e => (modifyAt (removeEdge i) nap.n st.1, st.2 ++ [⟨nap.n, nap.p, e⟩])) := by
  unfold moveCandidate
  rw [findMoveEdge_snoc]
  have hl : ¬ (((pat ++ [s]).length : Int) = (dst.length : Int)) := by
    intro h
    exact hlen (by exact_mod_cast h)
  cases hf : findLabel s (edgesAt st.1 nap.n) with
  | none => rfl
  | some i =>
    simp only [hl, if_false]
    obtain ⟨e, he, _⟩ := findLabel_get s _ i hf
    simp [he]

theorem embed_regroup (pat : List String) (s : String) (dst : List String)
    (hlen : (pat ++ [s]).length ≠ dst.length) (l : String) (rel : List String) (L : Nat)
    (next : List nodeAndPath) (st : node × List edgeToMove)
    (hnd : (next.map (·.n)).Nodup) (hL : ∀ nap ∈ next, nap.n.length = L)
    (hems : ∀ em ∈ st.2, em.n.length = L ∧ ∀ nap ∈ next, em.n ≠ nap.n) :
    ∃ r2 ems2, moveCandidates (pat ++ [s]) dst next st = some (r2, ems2) ∧
      embedAll l rel ems2 r2 =
        modifyAll (embedMoved s l rel) (next.map (·.n)) (embedAll l rel st.2 st.1) := by
  induction next generalizing st with
  | nil => exact ⟨st.1, st.2, rfl, rfl⟩
  | cons nap next ih =>
    simp only [moveCandidates, moveCandidate_detach pat s dst hlen, List.map_cons,
      modifyAll_cons]
    have hnd' : (next.map (·.n)).Nodup := (List.nodup_cons.mp hnd).2
    have hnotin : nap.n ∉ next.map (·.n) := (List.nodup_cons.mp hnd).1
    have hL' : ∀ nap' ∈ next, nap'.n.length = L := fun nap' h => hL nap' (by simp [h])
    have hcL : nap.n.length = L := hL nap (by simp)
    have hind : ∀ em ∈ st.2, em.n.length = nap.n.length ∧ em.n ≠ nap.n := by
      intro em hem
      exact ⟨by rw [(hems em hem).1, hcL], (hems em hem).2 nap (by simp)⟩
    have hems' : ∀ em ∈ st.2, em.n.length = L ∧ ∀ nap' ∈ next, em.n ≠ nap'.n := by
      intro em hem
      exact ⟨(hems em hem).1, fun nap' h => (hems em hem).2 nap' (by simp [h])⟩
    have hnode := nodeAt_embedAll l rel st.2 nap.n st.1 hind
    have keep : modifyAt (embedMoved s l rel) nap.n (embedAll l rel st.2 st.1) =
        embedAll l rel st.2 st.1 →
        ∃ r2 ems2, moveCandidates (pat ++ [s]) dst next st = some (r2, ems2) ∧
          embedAll l rel ems2 r2 = modifyAll (embedMoved s l rel) (next.map (·.n))
            (modifyAt (embedMoved s l rel) nap.n (embedAll l rel st.2 st.1)) := by
      intro h
      rw [h]
      exact ih st hnd' hL' hems'
    cases hn : nodeAt nap.n st.1 with
    | none =>
      rw [edgesAt_of_nodeAt_none _ _ hn]
      simp only [findLabel]
      apply keep
      apply modifyAt_of_nodeAt_none
      rw [hnode, hn]
    | some n =>
      rw [edgesAt_of_nodeAt _ _ n hn]
      cases hf : findLabel s n.edges with
      | none =>
        simp only
        apply keep
        apply modifyAt_eq_self
        intro n' hn'
        rw [hnode, hn] at hn'
        cases hn'
        simp [embedMoved, detachFirst_of_findLabel_none s _ hf]
      | some i =>
        obtain ⟨e, he, hd⟩ := detachFirst_of_findLabel_some s n.edges i hf
        simp only [he]
        obtain ⟨r2, ems2, hmove, heq⟩ := ih
          (modifyAt (removeEdge i) nap.n st.1, st.2 ++ [⟨nap.n, nap.p, e⟩]) hnd' hL'
          (by
            intro em hem
            simp only [List.mem_append, List.mem_singleton] at hem
            cases hem with
            | inl h => exact hems' em h
            | inr h =>
              subst h
              refine ⟨hcL, ?_⟩
              intro nap' hnap' hc
              exact hnotin (List.mem_map.mpr ⟨nap', hnap', hc.symm⟩))
        refine ⟨r2, ems2, hmove, ?_⟩
        rw [heq]
        congr 1
        simp only
        rw [embedAll_append, embedAll_comm l rel st.2 _ nap.n st.1 hind]
        simp only [embedAll, List.foldl_cons, List.foldl_nil]
        rw [modifyAt_modifyAt]
        apply modifyAt_congr
        intro n' hn'
        have hn2 := hnode
        simp only [embedAll] at hn2
        rw [hn2, hn] at hn'
        cases hn'
        simp [embedMoved, hd, removeEdge]

/-- Tree.Move with dst longer than src computes, in every node matched by src[:-1], the
embedding of the first edge labelled src[-1] along the relative path
dst[len(src)-1 : len(dst)-1] under the label dst[-1]. -/
theorem Move_embed_eq (grow : Nat → Nat) (t : Tree) (pat dpre rel : List String) (s l : String)
    (hlen : dpre.length = pat.length) (hrel : rel ≠ []) :
    Tree.Move grow t (pat ++ [s]) (dpre ++ rel ++ [l]) =
      some ⟨atMatched (embedMoved s l rel) pat t.root⟩ := by
  have hrl : 0 < rel.length := List.length_pos.mpr hrel
  have hne : (pat ++ [s]).length ≠ (dpre ++ rel ++ [l]).length := by
    simp only [List.length_append, List.length_singleton]
    omega
  unfold Tree.Move
  rw [moveFrontier_snoc]
  simp only
  obtain ⟨r2, ems2, hmove, heq⟩ := embed_regroup pat s (dpre ++ rel ++ [l]) hne l rel
    pat.length (collectMoveCandidates grow t.root pat [⟨[], emptySlice⟩] []).2 (t.root, [])
    (by rw [moveFrontier_ptrs]; exact matchPtrs_nodup pat t.root)
    (by
      intro nap hnap
      apply mem_matchPtrs_length pat t.root
      rw [← moveFrontier_ptrs grow]
      exact List.mem_map.mpr ⟨nap, hnap, rfl⟩)
    (by simp)
  rw [hmove]
  have h1 : ¬ (((pat ++ [s]).length : Int) = ((dpre ++ rel ++ [l]).length : Int)) := by
    simp only [List.length_append, List.length_singleton]
    omega
  have h2 : ¬ (((pat ++ [s]).length : Int) > ((dpre ++ rel ++ [l]).length : Int)) := by
    simp only [List.length_append, List.length_singleton]
    omega
  have h3 : sliceFrom (dpre ++ rel ++ [l]) (((pat ++ [s]).length : Int) - 1) =
      some (rel ++ [l]) := by
    simp only [sliceFrom, List.length_append, List.length_singleton]
    have : ¬ ((((pat.length + 1 : Nat) : Int) - 1 < 0) ∨
        (((dpre.length + rel.length + 1 : Nat) : Int) < ((pat.length + 1 : Nat) : Int) - 1)) := by
      omega
    simp only [this, if_false]
    have h4 : (((pat.length + 1 : Nat) : Int) - 1).toNat = dpre.length := by
      omega
    rw [h4, List.append_assoc, List.drop_left]
  simp only [h1, h2, if_false, h3]
  rw [embeddingEdges_eq, heq, moveFrontier_ptrs]
  have h5 : embedAll l rel (t.root, ([] : List edgeToMove)).2 (t.root, ([] : List edgeToMove)).1 =
      t.root := rfl
  rw [h5, modifyAll_matchPtrs]
  rfl

theorem removeFirst_of_findLabel_none (s : String) (es : List edge)
    (h : findLabel s es = none) : removeFirst s es = es := by
  induction es with
  | nil => rfl
  | cons e es ih =>
    simp only [findLabel] at h
    split at h
    · rename_i hl
      simp only [removeFirst, hl, ne_eq, not_false_eq_true, if_true]
      rw [ih]
      cases hf : findLabel s es with
      | none => rfl
      | some k => simp [hf] at h
    · simp at h

theorem removeFirst_of_findLabel_some (s : String) (es : List edge) (j : Nat)
    (h : findLabel s es = some j) : removeFirst s es = es.eraseIdx j := by
  induction es generalizing j with
  | nil => simp [findLabel] at h
  | cons e es ih =>
    simp only [findLabel] at h
    split at h
    · rename_i hl
      cases hf : findLabel s es with
      | none => simp [hf] at h
      | some k =>
        simp [hf] at h
        subst h
        simp only [removeFirst, hl, ne_eq, not_false_eq_true, if_true]
        rw [List.eraseIdx_cons_succ, ih k hf]
    · rename_i hl
      simp at h
      subst h
      simp [removeFirst, hl]

/-- The detach loop of Tree.Move over candidates at pairwise different pointers of one
length: every candidate loses its first edge labelled s, and the detached edges are those
of the tree before the loop, in the order of the candidates. -/
theorem moveCandidates_detach (pat : List String) (s : String) (dst : List String)
    (hlen : (pat ++ [s]).length ≠ dst.length) (L : Nat)
    (next : List nodeAndPath) (st : node × List edgeToMove)
    (hnd : (next.map (·.n)).Nodup) (hL : ∀ nap ∈ next, nap.n.length = L) :
    moveCandidates (pat ++ [s]) dst next st =
      some (modifyAll (fun n => n.setEdges (removeFirst s n.edges)) (next.map (·.n)) st.1,
        st.2 ++ next.filterMap (fun nap =>
          (firstEdgeAt st.1 s nap.n).map (fun e => ⟨nap.n, nap.p, e⟩))) := by
  induction next generalizing st with
  | nil => simp [moveCandidates, modifyAll_nil]
  | cons nap next ih =>
    simp only [moveCandidates, moveCandidate_detach pat s dst hlen, List.map_cons,
      modifyAll_cons]
    have hnd' : (next.map (·.n)).Nodup := (List.nodup_cons.mp hnd).2
    have hnotin : nap.n ∉ next.map (·.n) := (List.nodup_cons.mp hnd).1
    have hL' : ∀ nap' ∈ next, nap'.n.length = L := fun nap' h => hL nap' (by simp [h])
    have hcL : nap.n.length = L := hL nap (by simp)
    have hsame : ∀ (f : node → node), ∀ nap' ∈ next,
        firstEdgeAt (modifyAt f nap.n st.1) s nap'.n = firstEdgeAt st.1 s nap'.n := by
      intro f nap' hnap'
      have hne : nap'.n ≠ nap.n := by
        intro hc
        exact hnotin (List.mem_map.mpr ⟨nap', hnap', hc⟩)
      have := nodeAt_modifyAt_of_ne f nap'.n nap.n st.1 (by rw [hL' nap' hnap', hcL]) hne
      simp only [firstEdgeAt, edgesAt, this]
    have hfm : ∀ (f : node → node),
        next.filterMap (fun nap' => (firstEdgeAt (modifyAt f nap.n st.1) s nap'.n).map
          (fun e => (⟨nap'.n, nap'.p, e⟩ : edgeToMove))) =
        next.filterMap (fun nap' => (firstEdgeAt st.1 s nap'.n).map
          (fun e => (⟨nap'.n, nap'.p, e⟩ : edgeToMove))) := by
      intro f
      apply List.filterMap_congr
      intro nap' hnap'
      rw [hsame f nap' hnap']
    cases hf : findLabel s (edgesAt st.1 nap.n) with
    | none =>
      simp only
      rw [ih st hnd' hL']
      have h1 : modifyAt (fun n => n.setEdges (removeFirst s n.edges)) nap.n st.1 = st.1 := by
        apply modifyAt_eq_self
        intro n hn
        rw [edgesAt_of_nodeAt _ _ n hn] at hf
        rw [removeFirst_of_findLabel_none s _ hf, node.setEdges_self]
      rw [h1]
      simp [List.filterMap_cons, firstEdgeAt, detachFirst_of_findLabel_none s _ hf]
    | some i =>
      obtain ⟨e, he, hd⟩ := detachFirst_of_findLabel_some s _ i hf
      simp only [he]
      rw [ih _ hnd' hL']
      have h1 : modifyAt (removeEdge i) nap.n st.1 =
          modifyAt (fun n => n.setEdges (removeFirst s n.edges)) nap.n st.1 := by
        apply modifyAt_congr
        intro n hn
        rw [edgesAt_of_nodeAt _ _ n hn] at hf
        rw [removeFirst_of_findLabel_some s _ i hf]
        rfl
      simp only
      rw [hfm, h1]
      simp [List.filterMap_cons, firstEdgeAt, hd]

/-- The walk of promoteEdges follows the segments it reads. -/
theorem promoteWalk_eq (h : strStore) (p : strSlice) (root : node) (dpre segs : List String)
    (i : Nat) (parent : List Nat) (hs : readSegs h p dpre i = some segs) :
    promoteWalk h p root dpre i parent = some (walkPtr root segs parent) := by
  induction dpre generalizing segs i parent with
  | nil =>
    simp only [readSegs, Option.some.injEq] at hs
    subst hs
    rfl
  | cons seg rest ih =>
    simp only [readSegs] at hs
    simp only [promoteWalk]
    cases hl : (if seg = wildcard then p.get? h i else some seg) with
    | none => simp [hl] at hs
    | some l =>
      simp only [hl] at hs
      cases hr : readSegs h p rest (i + 1) with
      | none => simp [hr] at hs
      | some ls =>
        simp only [hr, Option.some.injEq] at hs
        subst hs
        simp only [walkPtr]
        cases findLabel l (edgesAt root parent) with
        | none => rfl
        | some j => exact ih ls (i + 1) (parent ++ [j]) hr

/-- The walk of promoteEdges and its final append are the structural attachment at the
deepest node the segments resolve to. -/
theorem walkPtr_attach (d : String) (child : node) (segs : List String) (c : List Nat)
    (r : node) :
    modifyAt (attachEdge d child) (walkPtr r segs c) r =
      modifyAt (attachDeepest d child segs) c r := by
  induction segs generalizing c with
  | nil => rfl
  | cons k ks ih =>
    simp only [walkPtr]
    cases hn : nodeAt c r with
    | none =>
      rw [edgesAt_of_nodeAt_none _ _ hn]
      simp only [findLabel]
      rw [modifyAt_of_nodeAt_none _ c r hn, modifyAt_of_nodeAt_none _ c r hn]
    | some n =>
      rw [edgesAt_of_nodeAt _ _ n hn]
      cases hf : findLabel k n.edges with
      | some j =>
        simp only
        rw [ih, modifyAt_append]
        apply modifyAt_congr
        intro n' hn'
        rw [hn] at hn'
        cases hn'
        simp only [attachDeepest, hf, modifyAt_singleton]
        rw [atFirst_of_findLabel_some k _ _ j hf]
      | none =>
        simp only
        apply modifyAt_congr
        intro n' hn'
        rw [hn] at hn'
        cases hn'
        simp only [attachDeepest, hf]

theorem promoteEdge_eq (h : strStore) (dpre segs : List String) (d : String) (r : node)
    (em : edgeToMove) (hs : readSegs h em.p dpre 0 = some segs) :
    promoteEdge h (dpre ++ [d]) r em = some (attachDeepest d em.e.n segs r) := by
  unfold promoteEdge
  rw [sliceTo_last, index?_last]
  simp only
  rw [promoteWalk_eq h em.p r dpre segs 0 [] hs]
  simp only
  rw [walkPtr_attach]
  rfl

theorem readSegs_exact (h : strStore) (p : strSlice) (dpre : List String) (i : Nat)
    (hw : wildcard ∉ dpre) : readSegs h p dpre i = some dpre := by
  induction dpre generalizing i with
  | nil => rfl
  | cons seg rest ih =>
    have h1 : seg ≠ wildcard := fun hc => hw (by simp [hc])
    have h2 : wildcard ∉ rest := fun hc => hw (by simp [hc])
    simp [readSegs, h1, ih (i + 1) h2]

theorem promoteEdges_exact (h : strStore) (dpre : List String) (d : String)
    (hw : wildcard ∉ dpre) (ems : List edgeToMove) (r : node) :
    promoteEdges h (dpre ++ [d]) ems r =
      some ((ems.map (fun em => em.e.n)).foldl (fun r sub => attachDeepest d sub dpre r) r) := by
  induction ems generalizing r with
  | nil => rfl
  | cons em ems ih =>
    simp only [promoteEdges, promoteEdge_eq h dpre dpre d r em (readSegs_exact h em.p dpre 0 hw),
      List.map_cons, List.foldl_cons]
    exact ih _

/-- Tree.Move with a wildcard-free dst shorter than src: the first edge labelled src[-1]
of every node matched by src[:-1] is detached and then, one detached edge after the other,
appended under the label dst[-1] to the deepest node that dst[:-1] resolves to from the
root. -/
theorem Move_promote_exact_eq (grow : Nat → Nat) (t : Tree) (pat dpre : List String)
    (s d : String) (hlen : dpre.length < pat.length) (hw : wildcard ∉ dpre) :
    Tree.Move grow t (pat ++ [s]) (dpre ++ [d]) =
      some ⟨(movedSubtrees pat s t.root).foldl (fun r sub => attachDeepest d sub dpre r)
        (detachMatched pat s t.root)⟩ := by
  have hne : (pat ++ [s]).length ≠ (dpre ++ [d]).length := by
    simp only [List.length_append, List.length_singleton]
    omega
  unfold Tree.Move
  rw [moveFrontier_snoc]
  simp only
  rw [moveCandidates_detach pat s (dpre ++ [d]) hne pat.length _ (t.root, [])
    (by rw [moveFrontier_ptrs]; exact matchPtrs_nodup pat t.root)
    (by
      intro nap hnap
      apply mem_matchPtrs_length pat t.root
      rw [← moveFrontier_ptrs grow]
      exact List.mem_map.mpr ⟨nap, hnap, rfl⟩)]
  have h1 : ¬ (((pat ++ [s]).length : Int) = ((dpre ++ [d]).length : Int)) := by
    simp only [List.length_append, List.length_singleton]
    omega
  have h2 : (((pat ++ [s]).length : Int) > ((dpre ++ [d]).length : Int)) := by
    simp only [List.length_append, List.length_singleton]
    omega
  simp only [h1, h2, if_false, if_true]
  rw [promoteEdges_exact _ dpre d hw, moveFrontier_ptrs, modifyAll_matchPtrs]
  simp only [Option.map_some', List.nil_append, Option.some.injEq]
  congr 2
  simp only [movedSubtrees, ← moveFrontier_ptrs grow t.root pat, List.filterMap_map,
    List.map_filterMap]
  apply List.filterMap_congr
  intro nap _
  simp only [Function.comp]
  cases firstEdgeAt t.root s nap.n <;> rfl

theorem uniqueLabelsEdges_iff (es : List edge) :
    uniqueLabelsEdges es = true ↔ ∀ e ∈ es, e.n.uniqueLabels = true := by
  induction es with
  | nil => simp [uniqueLabelsEdges]
  | cons e es ih =>
    cases e with
    | mk l n => simp [uniqueLabelsEdges, ih, edge.n]

theorem node.uniqueLabels_iff (n : node) :
    n.uniqueLabels = true ↔
      (labelsOf n.edges).Nodup ∧ ∀ e ∈ n.edges, e.n.uniqueLabels = true := by
  cases n with
  | mk v es d c =>
    simp [node.uniqueLabels, uniqueLabelsEdges_iff, labelsOf, node.edges]

theorem child?_eq_none_iff (k : String) (es : List edge) :
    child? k es = none ↔ k ∉ labelsOf es := by
  induction es with
  | nil => simp [child?, labelsOf]
  | cons e es ih =>
    simp only [child?, labelsOf, List.map_cons, List.mem_cons, not_or]
    by_cases hl : e.label = k
    · simp [hl]
    · simp only [hl, ne_eq, not_false_eq_true, if_true]
      rw [ih]
      simp only [labelsOf]
      constructor
      · intro h
        exact ⟨fun hc => hl hc.symm, h⟩
      · intro h
        exact h.2

theorem child?_mem (k : String) (es : List edge) (c : node) (h : child? k es = some c) :
    ∃ e ∈ es, e.n = c ∧ e.label = k := by
  induction es with
  | nil => simp [child?] at h
  | cons e es ih =>
    simp only [child?] at h
    by_cases hl : e.label = k
    · simp only [hl, ne_eq, not_true_eq_false, if_false, Option.some.injEq] at h
      exact ⟨e, by simp, h, hl⟩
    · simp only [hl, ne_eq, not_false_eq_true, if_true] at h
      obtain ⟨e', he', hc⟩ := ih h
      exact ⟨e', by simp [he'], hc⟩

theorem edge.label_mk (l : String) (n : node) : (edge.mk l n).label = l := rfl

theorem edge.n_mk (l : String) (n : node) : (edge.mk l n).n = n := rfl

theorem child?_atFirst_same (k : String) (g : node → node) (es : List edge) :
    child? k (atFirst k g es) = (child? k es).map g := by
  induction es with
  | nil => rfl
  | cons e es ih =>
    by_cases hl : e.label = k
    · simp [atFirst, child?, hl, edge.label_mk, edge.n_mk]
    · simp [atFirst, child?, hl, ih]

theorem child?_atFirst_ne (k k' : String) (g : node → node) (es : List edge) (h : k ≠ k') :
    child? k' (atFirst k g es) = child? k' es := by
  induction es with
  | nil => rfl
  | cons e es ih =>
    by_cases hl : e.label = k
    · have hl' : e.label ≠ k' := by
        rw [hl]
        exact h
      have hl2 : ¬ k = k' := h
      simp [atFirst, child?, hl, hl2, edge.label_mk]
    · by_cases hl' : e.label = k'
      · have hl3 : ¬ k' = k := fun hc => h hc.symm
        simp [atFirst, child?, hl', hl3]
      · simp [atFirst, child?, hl, hl', ih]

theorem child?_append_of_some (k : String) (es : List edge) (x : edge) (c : node)
    (h : child? k es = some c) : child? k (es ++ [x]) = some c := by
  induction es with
  | nil => simp [child?] at h
  | cons e es ih =>
    by_cases hl : e.label = k
    · simpa [child?, hl] using h
    · simp only [child?, hl, ne_eq, not_false_eq_true, if_true, List.cons_append] at h ⊢
      exact ih h

theorem findLabel_eq_none_iff (k : String) (es : List edge) :
    findLabel k es = none ↔ child? k es = none := by
  induction es with
  | nil => simp [findLabel, child?]
  | cons e es ih =>
    by_cases hl : e.label = k
    · simp [findLabel, child?, hl]
    · simp [findLabel, child?, hl, ih]

theorem findLabel_child? (k : String) (es : List edge) (j : Nat) (h : findLabel k es = some j) :
    ∃ e, es[j]? = some e ∧ child? k es = some e.n := by
  induction es generalizing j with
  | nil => simp [findLabel] at h
  | cons e es ih =>
    by_cases hl : e.label = k
    · simp only [findLabel, hl, ne_eq, not_true_eq_false, if_false, Option.some.injEq] at h
      subst h
      exact ⟨e, by simp, by simp [child?, hl]⟩
    · simp only [findLabel, hl, ne_eq, not_false_eq_true, if_true] at h
      cases hf : findLabel k es with
      | none => simp [hf] at h
      | some i =>
        simp [hf] at h
        subst h
        obtain ⟨e', he', hc⟩ := ih i hf
        exact ⟨e', by simpa using he', by simpa [child?, hl] using hc⟩

theorem child?_eq_detachFirst (k : String) (es : List edge) :
    child? k es = (detachFirst k es).map (fun r => r.1.n) := by
  induction es with
  | nil => rfl
  | cons e es ih =>
    by_cases hl : e.label = k
    · simp [child?, detachFirst, hl]
    · simp only [child?, detachFirst, hl, ne_eq, not_false_eq_true, if_true, ih]
      cases detachFirst k es <;> rfl

theorem resolve_append (p q : List String) (n : node) :
    resolve (p ++ q) n = (resolve p n).bind (resolve q) := by
  induction p generalizing n with
  | nil => rfl
  | cons k ks ih =>
    simp only [List.cons_append, resolve]
    cases child? k n.edges with
    | none => rfl
    | some c => exact ih c

theorem resolve_singleton (s : String) (n : node) : resolve [s] n = child? s n.edges := by
  simp only [resolve]
  cases child? s n.edges <;> rfl

theorem resolve_uniqueLabels (p : List String) (n Q : node) (hu : n.uniqueLabels = true)
    (h : resolve p n = some Q) : Q.uniqueLabels = true := by
  induction p generalizing n with
  | nil =>
    simp only [resolve, Option.some.injEq] at h
    rw [← h]
    exact hu
  | cons k ks ih =>
    simp only [resolve] at h
    cases hc : child? k n.edges with
    | none => simp [hc] at h
    | some c =>
      simp only [hc] at h
      obtain ⟨e, he, hec, _⟩ := child?_mem k _ c hc
      have := ((node.uniqueLabels_iff n).mp hu).2 e he
      rw [hec] at this
      exact ih c this h

theorem child?_removeFirst_of_nodup (s : String) (es : List edge)
    (h : (labelsOf es).Nodup) : child? s (removeFirst s es) = none := by
  induction es with
  | nil => rfl
  | cons e es ih =>
    simp only [labelsOf, List.map_cons, List.nodup_cons] at h
    by_cases hl : e.label = s
    · simp only [removeFirst, hl, ne_eq, not_true_eq_false, if_false]
      rw [child?_eq_none_iff]
      rw [← hl]
      exact h.1
    · simp only [removeFirst, hl, ne_eq, not_false_eq_true, if_true, child?]
      exact ih h.2

/-- Resolution of an exact path in a tree changed at the nodes an exact pattern matches:
the node reached is changed only when the path is an initial part of the pattern. -/
theorem resolve_atMatched (f : node → node) (pat dpre : List String) (r : node)
    (hw : wildcard ∉ pat) (hlen : dpre.length ≤ pat.length) :
    resolve dpre (atMatched f pat r) =
      (resolve dpre r).map (fun P =>
        if pat.take dpre.length = dpre then atMatched f (pat.drop dpre.length) P else P) := by
  induction dpre generalizing pat r with
  | nil => simp [resolve]
  | cons k' ks' ih =>
    cases pat with
    | nil => simp at hlen
    | cons k ks =>
      have hk : k ≠ wildcard := fun hc => hw (by simp [hc])
      have hks : wildcard ∉ ks := fun hc => hw (by simp [hc])
      have hl : ks'.length ≤ ks.length := by simpa using hlen
      simp only [atMatched, hk, if_false, resolve, node.setEdges_edges, List.length_cons,
        List.take_succ_cons, List.drop_succ_cons, List.cons.injEq]
      by_cases hkk : k = k'
      · subst hkk
        rw [child?_atFirst_same]
        cases child? k r.edges with
        | none => rfl
        | some c =>
          simp only [Option.map_some', true_and]
          exact ih ks c hks hl
      · rw [child?_atFirst_ne k k' _ _ hkk]
        cases child? k' r.edges with
        | none => rfl
        | some c =>
          simp only [hkk, false_and, if_false]
          cases resolve ks' c <;> rfl

theorem resolve_atMatched_self (f : node → node) (pat : List String) (r : node)
    (hw : wildcard ∉ pat) :
    resolve pat (atMatched f pat r) = (resolve pat r).map f := by
  rw [resolve_atMatched f pat pat r hw (Nat.le_refl _)]
  simp [atMatched]

/-- Attaching at the deepest node of a shorter path does not change what a longer path
that resolves reaches. -/
theorem resolve_attachDeepest_longer (d : String) (sub : node) (dpre pat : List String)
    (r Q : node) (hlen : dpre.length < pat.length) (h : resolve pat r = some Q) :
    resolve pat (attachDeepest d sub dpre r) = some Q := by
  have base : ∀ (pat : List String) (r : node), 0 < pat.length → resolve pat r = some Q →
      resolve pat (attachEdge d sub r) = some Q := by
    intro pat r hp h
    cases pat with
    | nil => simp at hp
    | cons k rest =>
      simp only [resolve] at h ⊢
      cases hc : child? k r.edges with
      | none => simp [hc] at h
      | some c =>
        simp only [attachEdge, node.setEdges_edges]
        rw [child?_append_of_some k _ _ c hc]
        simpa [hc] using h
  induction dpre generalizing pat r with
  | nil => exact base pat r (by simpa using hlen) h
  | cons k' ks' ih =>
    simp only [attachDeepest]
    cases hf : findLabel k' r.edges with
    | none => exact base pat r (by omega) h
    | some j =>
      cases pat with
      | nil => simp at hlen
      | cons k rest =>
        simp only [resolve, node.setEdges_edges] at h ⊢
        cases hc : child? k r.edges with
        | none => simp [hc] at h
        | some c =>
          simp only [hc] at h
          by_cases hkk : k' = k
          · subst hkk
            rw [child?_atFirst_same, hc]
            simp only [Option.map_some']
            exact ih rest c (by simpa using hlen) h
          · rw [child?_atFirst_ne k' k _ _ hkk, hc]
            exact h

/-- A path that resolves reaches, after the attachment along it, the node with the child
attached. -/
theorem resolve_attachDeepest_self (d : String) (sub : node) (dpre : List String)
    (r P : node) (h : resolve dpre r = some P) :
    resolve dpre (attachDeepest d sub dpre r) = some (attachEdge d sub P) := by
  induction dpre generalizing r with
  | nil =>
    simp only [resolve, Option.some.injEq] at h
    simp [attachDeepest, resolve, h]
  | cons k ks ih =>
    simp only [resolve] at h
    cases hc : child? k r.edges with
    | none => simp [hc] at h
    | some c =>
      simp only [hc] at h
      simp only [attachDeepest]
      cases hf : findLabel k r.edges with
      | none =>
        rw [findLabel_eq_none_iff] at hf
        rw [hf] at hc
        cases hc
      | some j =>
        simp only [resolve, node.setEdges_edges]
        rw [child?_atFirst_same, hc]
        exact ih c h

theorem matchPtrs_exact_some (pat : List String) (n Q : node) (hw : wildcard ∉ pat)
    (h : resolve pat n = some Q) : ∃ c, matchPtrs pat n = [c] ∧ nodeAt c n = some Q := by
  induction pat generalizing n with
  | nil =>
    simp only [resolve, Option.some.injEq] at h
    exact ⟨[], rfl, by simp [nodeAt, h]⟩
  | cons k ks ih =>
    have hk : k ≠ wildcard := fun hc => hw (by simp [hc])
    have hks : wildcard ∉ ks := fun hc => hw (by simp [hc])
    simp only [resolve] at h
    cases hf : findLabel k n.edges with
    | none =>
      rw [findLabel_eq_none_iff] at hf
      simp [hf] at h
    | some j =>
      obtain ⟨e, he, hc⟩ := findLabel_child? k _ j hf
      simp only [hc] at h
      obtain ⟨c, hm, hn⟩ := ih e.n hks h
      refine ⟨j :: c, ?_, ?_⟩
      · simp [matchPtrs, matchIdx, hk, hf, he, hm]
      · simp [nodeAt, he, hn]

theorem matchPtrs_exact_none (pat : List String) (n : node) (hw : wildcard ∉ pat)
    (h : resolve pat n = none) : matchPtrs pat n = [] := by
  induction pat generalizing n with
  | nil => simp [resolve] at h
  | cons k ks ih =>
    have hk : k ≠ wildcard := fun hc => hw (by simp [hc])
    have hks : wildcard ∉ ks := fun hc => hw (by simp [hc])
    simp only [resolve] at h
    cases hf : findLabel k n.edges with
    | none => simp [matchPtrs, matchIdx, hk, hf]
    | some j =>
      obtain ⟨e, he, hc⟩ := findLabel_child? k _ j hf
      simp only [hc] at h
      simp [matchPtrs, matchIdx, hk, hf, he, ih e.n hks h]

theorem movedSubtrees_exact (pat : List String) (s : String) (root sub : node)
    (hw : wildcard ∉ pat) (h : resolve (pat ++ [s]) root = some sub) :
    movedSubtrees pat s root = [sub] := by
  rw [resolve_append] at h
  cases hq : resolve pat root with
  | none => simp [hq] at h
  | some Q =>
    simp only [hq, Option.some_bind, resolve_singleton] at h
    obtain ⟨c, hm, hn⟩ := matchPtrs_exact_some pat root Q hw hq
    rw [child?_eq_detachFirst] at h
    have he := edgesAt_of_nodeAt root c Q hn
    cases hd : detachFirst s Q.edges with
    | none => simp [hd] at h
    | some r =>
      simp only [hd, Option.map_some', Option.some.injEq] at h
      simp [movedSubtrees, hm, firstEdgeAt, he, hd, h]

/-- The promote move of one edge on exact paths: the effect seen through path resolution. -/
theorem Move_promote_exact_resolve (grow : Nat → Nat) (t : Tree) (pat dpre : List String)
    (s d : String) (sub P : node) (hlen : dpre.length < pat.length)
    (hws : wildcard ∉ pat) (hwd : wildcard ∉ dpre) (hu : t.root.uniqueLabels = true)
    (hsrc : resolve (pat ++ [s]) t.root = some sub) (hdst : resolve dpre t.root = some P) :
    ∃ t' Q, Tree.Move grow t (pat ++ [s]) (dpre ++ [d]) = some t' ∧
      resolve pat t.root = some Q ∧
      resolve pat t'.root = some (Q.setEdges (removeFirst s Q.edges)) ∧
      child? s (removeFirst s Q.edges) = none ∧
      resolve dpre t'.root = some (attachEdge d sub
        (if pat.take dpre.length = dpre then detachMatched (pat.drop dpre.length) s P else P)) := by
  have hsrc' := hsrc
  rw [resolve_append] at hsrc'
  cases hq : resolve pat t.root with
  | none => simp [hq] at hsrc'
  | some Q =>
    refine ⟨_, Q, Move_promote_exact_eq grow t pat dpre s d hlen hwd, rfl, ?_, ?_, ?_⟩
    · rw [movedSubtrees_exact pat s t.root sub hws hsrc]
      simp only [List.foldl_cons, List.foldl_nil]
      apply resolve_attachDeepest_longer d sub dpre pat _ _ hlen
      simp only [detachMatched]
      rw [resolve_atMatched_self _ pat t.root hws, hq]
      rfl
    · apply child?_removeFirst_of_nodup
      exact ((node.uniqueLabels_iff Q).mp (resolve_uniqueLabels pat t.root Q hu hq)).1
    · rw [movedSubtrees_exact pat s t.root sub hws hsrc]
      simp only [List.foldl_cons, List.foldl_nil]
      apply resolve_attachDeepest_self
      simp only [detachMatched]
      rw [resolve_atMatched _ pat dpre t.root hws (Nat.le_of_lt hlen), hdst]
      rfl

theorem labelsOf_atFirst (k : String) (g : node → node) (es : List edge) :
    labelsOf (atFirst k g es) = labelsOf es := by
  induction es with
  | nil => rfl
  | cons e es ih =>
    by_cases hl : e.label = k
    · simp [atFirst, labelsOf, hl, edge.label_mk]
    · simp only [labelsOf] at ih
      simp [atFirst, labelsOf, hl, ih]

theorem labelsOf_atEvery (g : node → node) (es : List edge) :
    labelsOf (atEvery g es) = labelsOf es := by
  simp [labelsOf, atEvery, edge.label_mk, Function.comp]

theorem labelsOf_atMatched_cons (f : node → node) (k : String) (ks : List String) (n : node) :
    labelsOf (atMatched f (k :: ks) n).edges = labelsOf n.edges := by
  simp only [atMatched, node.setEdges_edges]
  split
  · exact labelsOf_atEvery _ _
  · exact labelsOf_atFirst _ _ _

theorem attachEdge_ne (d : String) (sub n : node) : attachEdge d sub n ≠ n := by
  intro h
  have := congrArg (fun m => m.edges.length) h
  simp [attachEdge, node.setEdges_edges] at this

/-- The attachment along a path stops at the first segment that does not resolve: the node
reached by the part before it gains the child. -/
theorem resolve_attachDeepest_stop (d : String) (sub : node) (q : List String) (k : String)
    (rest : List String) (r P : node) (h : resolve q r = some P)
    (hk : child? k P.edges = none) :
    resolve q (attachDeepest d sub (q ++ k :: rest) r) = some (attachEdge d sub P) := by
  induction q generalizing r with
  | nil =>
    simp only [resolve, Option.some.injEq] at h
    subst h
    rw [← findLabel_eq_none_iff] at hk
    simp [attachDeepest, hk, resolve]
  | cons k' ks ih =>
    simp only [resolve] at h
    cases hc : child? k' r.edges with
    | none => simp [hc] at h
    | some c =>
      simp only [hc] at h
      simp only [List.cons_append, attachDeepest]
      cases hf : findLabel k' r.edges with
      | none =>
        rw [findLabel_eq_none_iff] at hf
        rw [hf] at hc
        cases hc
      | some j =>
        simp only [resolve, node.setEdges_edges]
        rw [child?_atFirst_same, hc]
        exact ih c h

theorem removeFirst_length (s : String) (es : List edge) (c : node)
    (h : child? s es = some c) : (removeFirst s es).length + 1 = es.length := by
  induction es with
  | nil => simp [child?] at h
  | cons e es ih =>
    by_cases hl : e.label = s
    · simp [removeFirst, hl]
    · simp only [child?, hl, ne_eq, not_false_eq_true, if_true] at h
      simp [removeFirst, hl, ih h]

theorem atMatched_eq_self_of_resolve_none (f : node → node) (pat : List String) (n : node)
    (hw : wildcard ∉ pat) (h : resolve pat n = none) : atMatched f pat n = n := by
  rw [← modifyAll_matchPtrs, matchPtrs_exact_none pat n hw h]
  rfl

theorem detachMatched_eq_self (pat : List String) (s : String) (n : node)
    (hw : wildcard ∉ pat) (h : resolve (pat ++ [s]) n = none) : detachMatched pat s n = n := by
  unfold detachMatched
  rw [resolve_append] at h
  cases hq : resolve pat n with
  | none => exact atMatched_eq_self_of_resolve_none _ pat n hw hq
  | some Q =>
    simp only [hq, Option.some_bind, resolve_singleton] at h
    obtain ⟨c, hm, hn⟩ := matchPtrs_exact_some pat n Q hw hq
    rw [← modifyAll_matchPtrs, hm]
    simp only [modifyAll_cons, modifyAll_nil]
    apply modifyAt_eq_self
    intro n' hn'
    rw [hn] at hn'
    cases hn'
    rw [← findLabel_eq_none_iff] at h
    rw [removeFirst_of_findLabel_none s _ h, node.setEdges_self]

theorem movedSubtrees_eq_nil (pat : List String) (s : String) (n : node)
    (hw : wildcard ∉ pat) (h : resolve (pat ++ [s]) n = none) : movedSubtrees pat s n = [] := by
  rw [resolve_append] at h
  cases hq : resolve pat n with
  | none => simp [movedSubtrees, matchPtrs_exact_none pat n hw hq]
  | some Q =>
    simp only [hq, Option.some_bind, resolve_singleton] at h
    obtain ⟨c, hm, hn⟩ := matchPtrs_exact_some pat n Q hw hq
    rw [child?_eq_detachFirst] at h
    have he := edgesAt_of_nodeAt n c Q hn
    cases hd : detachFirst s Q.edges with
    | none => simp [movedSubtrees, hm, firstEdgeAt, he, hd]
    | some r => simp [hd] at h

/-! ### Invariants of the path slices of collectMoveCandidates -/

/-- An invariant of the candidates that every append of collectMoveCandidates establishes
for the new candidate, and that is stable along a relation on stores, holds for every
candidate of one step. -/
theorem collectEdges_inv (grow : Nat → Nat) (root : node)
    (R : strStore → strStore → Prop) (Inv : strStore → nodeAndPath → Nat → Prop)
    (hrefl : ∀ h, R h h) (htrans : ∀ h1 h2 h3, R h1 h2 → R h2 h3 → R h1 h3)
    (hmono : ∀ h h' nap k, R h h' → Inv h nap k → Inv h' nap k)
    (hstep : ∀ h nap k j e, Inv h nap k → (edgesAt root nap.n)[j]? = some e →
      R h (goAppend grow h nap.p e.label).1 ∧
      Inv (goAppend grow h nap.p e.label).1 ⟨nap.n ++ [j], (goAppend grow h nap.p e.label).2⟩
        (k + 1))
    (step : String) (nap : nodeAndPath) (k : Nat) (es : List edge) (j : Nat)
    (st : strStore × List nodeAndPath)
    (hes : ∀ m e, es[m]? = some e → (edgesAt root nap.n)[j + m]? = some e)
    (hnap : Inv st.1 nap k) (hacc : ∀ a ∈ st.2, Inv st.1 a (k + 1)) :
    R st.1 (collectEdges grow step nap es j st).1 ∧
      ∀ a ∈ (collectEdges grow step nap es j st).2,
        Inv (collectEdges grow step nap es j st).1 a (k + 1) := by
  induction es generalizing j st with
  | nil => exact ⟨hrefl _, hacc⟩
  | cons e es ih =>
    have he : (edgesAt root nap.n)[j]? = some e := by
      have := hes 0 e (by simp)
      simpa using this
    have hes' : ∀ m e', es[m]? = some e' → (edgesAt root nap.n)[j + 1 + m]? = some e' := by
      intro m e' hm
      have := hes (m + 1) e' (by simpa using hm)
      rw [← this]
      congr 1
      omega
    obtain ⟨hR, hnew⟩ := hstep st.1 nap k j e hnap he
    have hacc' : ∀ a ∈ st.2 ++ [⟨nap.n ++ [j], (goAppend grow st.1 nap.p e.label).2⟩],
        Inv (goAppend grow st.1 nap.p e.label).1 a (k + 1) := by
      intro a ha
      simp only [List.mem_append, List.mem_singleton] at ha
      cases ha with
      | inl h => exact hmono _ _ _ _ hR (hacc a h)
      | inr h =>
        rw [h]
        exact hnew
    simp only [collectEdges]
    by_cases hw : step = wildcard
    · simp only [hw, if_true]
      have := ih (j + 1)
        ((goAppend grow st.1 nap.p e.label).1,
          st.2 ++ [⟨nap.n ++ [j], (goAppend grow st.1 nap.p e.label).2⟩])
        hes' (hmono _ _ _ _ hR hnap) hacc'
      simp only [hw, if_true] at this
      exact ⟨htrans _ _ _ hR this.1, this.2⟩
    · simp only [hw, if_false]
      by_cases hl : step = e.label
      · simp only [hl, if_true]
        exact ⟨hR, hacc'⟩
      · simp only [hl, if_false]
        have := ih (j + 1) st hes' hnap hacc
        simp only [hw, if_false] at this
        exact this

theorem collectStep_inv (grow : Nat → Nat) (root : node)
    (R : strStore → strStore → Prop) (Inv : strStore → nodeAndPath → Nat → Prop)
    (hrefl : ∀ h, R h h) (htrans : ∀ h1 h2 h3, R h1 h2 → R h2 h3 → R h1 h3)
    (hmono : ∀ h h' nap k, R h h' → Inv h nap k → Inv h' nap k)
    (hstep : ∀ h nap k j e, Inv h nap k → (edgesAt root nap.n)[j]? = some e →
      R h (goAppend grow h nap.p e.label).1 ∧
      Inv (goAppend grow h nap.p e.label).1 ⟨nap.n ++ [j], (goAppend grow h nap.p e.label).2⟩
        (k + 1))
    (step : String) (k : Nat) (next : List nodeAndPath) (h : strStore)
    (hnext : ∀ a ∈ next, Inv h a k) :
    R h (collectStep grow root step next h).1 ∧
      ∀ a ∈ (collectStep grow root step next h).2,
        Inv (collectStep grow root step next h).1 a (k + 1) := by
  unfold collectStep
  suffices hgen : ∀ (next : List nodeAndPath) (st : strStore × List nodeAndPath),
      (∀ a ∈ next, Inv st.1 a k) → (∀ a ∈ st.2, Inv st.1 a (k + 1)) →
      R st.1 (next.foldl (fun st nap =>
        collectEdges grow step nap (edgesAt root nap.n) 0 st) st).1 ∧
      ∀ a ∈ (next.foldl (fun st nap =>
        collectEdges grow step nap (edgesAt root nap.n) 0 st) st).2,
        Inv (next.foldl (fun st nap =>
          collectEdges grow step nap (edgesAt root nap.n) 0 st) st).1 a (k + 1) by
    exact hgen next (h, []) hnext (by simp)
  intro next
  induction next with
  | nil =>
    intro st _ hacc
    exact ⟨hrefl _, hacc⟩
  | cons nap next ih =>
    intro st hnext hacc
    simp only [List.foldl_cons]
    obtain ⟨hR, hacc'⟩ := collectEdges_inv grow root R Inv hrefl htrans hmono hstep step nap k
      (edgesAt root nap.n) 0 st (by intro m e hm; simpa using hm) (hnext nap (by simp)) hacc
    obtain ⟨hR2, hfin⟩ := ih _
      (fun a ha => hmono _ _ _ _ hR (hnext a (by simp [ha]))) hacc'
    exact ⟨htrans _ _ _ hR hR2, hfin⟩

theorem collectMoveCandidates_inv (grow : Nat → Nat) (root : node)
    (R : strStore → strStore → Prop) (Inv : strStore → nodeAndPath → Nat → Prop)
    (hrefl : ∀ h, R h h) (htrans : ∀ h1 h2 h3, R h1 h2 → R h2 h3 → R h1 h3)
    (hmono : ∀ h h' nap k, R h h' → Inv h nap k → Inv h' nap k)
    (hstep : ∀ h nap k j e, Inv h nap k → (edgesAt root nap.n)[j]? = some e →
      R h (goAppend grow h nap.p e.label).1 ∧
      Inv (goAppend grow h nap.p e.label).1 ⟨nap.n ++ [j], (goAppend grow h nap.p e.label).2⟩
        (k + 1))
    (pat : List String) (k : Nat) (next : List nodeAndPath) (h : strStore)
    (hnext : ∀ a ∈ next, Inv h a k) :
    ∀ a ∈ (collectMoveCandidates grow root pat next h).2,
      Inv (collectMoveCandidates grow root pat next h).1 a (k + pat.length) := by
  induction pat generalizing k next h with
  | nil => simpa [collectMoveCandidates] using hnext
  | cons s ss ih =>
    simp only [collectMoveCandidates, List.length_cons]
    obtain ⟨_, hacc⟩ := collectStep_inv grow root R Inv hrefl htrans hmono hstep s k next h hnext
    have := ih (k + 1) _ _ hacc
    rw [Nat.add_assoc, Nat.add_comm 1] at this
    exact this

theorem getD_modify_set_length (h : strStore) (arr b i : Nat) (x : String) :
    ((h.modify (fun a => a.set i x) arr).getD b []).length = (h.getD b []).length := by
  simp only [List.getD_eq_getElem?_getD, List.getElem?_modify]
  cases h[b]? with
  | none => rfl
  | some a =>
    by_cases hab : arr = b
    · simp [hab]
    · simp [hab]

theorem getD_append_singleton_of_lt (h : strStore) (new : List String) (a : Nat)
    (ha : a < h.length) : (h ++ [new]).getD a [] = h.getD a [] := by
  simp only [List.getD_eq_getElem?_getD]
  rw [List.getElem?_append_left ha]

theorem getD_append_singleton_length (h : strStore) (new : List String) :
    (h ++ [new]).getD h.length [] = new := by
  simp [List.getD_eq_getElem?_getD]

theorem getD_of_length_le (h : strStore) (a : Nat) (ha : h.length ≤ a) : h.getD a [] = [] := by
  simp [List.getD_eq_getElem?_getD, List.getElem?_eq_none ha]

theorem storeLe_goAppend (grow : Nat → Nat) (h : strStore) (s : strSlice) (x : String) :
    storeLe h (goAppend grow h s x).1 := by
  intro a
  unfold goAppend
  split
  · simp only
    rw [getD_modify_set_length]
  · simp only
    by_cases ha : a < h.length
    · rw [getD_append_singleton_of_lt h _ a ha]
    · rw [getD_of_length_le h a (by omega)]
      simp

theorem sliceWf_goAppend (grow : Nat → Nat) (h : strStore) (nap : nodeAndPath) (k : Nat)
    (c : List Nat) (x : String) (hwf : sliceWf h nap k) :
    sliceWf (goAppend grow h nap.p x).1 ⟨c, (goAppend grow h nap.p x).2⟩ (k + 1) := by
  obtain ⟨h1, h2, h3⟩ := hwf
  unfold goAppend
  split
  · rename_i hlt
    refine ⟨by simp [h1], by simp; omega, ?_⟩
    simp only
    rw [getD_modify_set_length]
    exact h3
  · rename_i hlt
    refine ⟨by simp [h1], by simp, ?_⟩
    simp only
    rw [getD_append_singleton_length]
    simp only [List.length_append, List.length_take, List.length_singleton,
      List.length_replicate]
    omega

theorem collectMoveCandidates_wf (grow : Nat → Nat) (root : node) (pat : List String) :
    ∀ a ∈ (collectMoveCandidates grow root pat [⟨[], emptySlice⟩] []).2,
      sliceWf (collectMoveCandidates grow root pat [⟨[], emptySlice⟩] []).1 a pat.length := by
  have := collectMoveCandidates_inv grow root storeLe sliceWf
    (fun h a => Nat.le_refl _)
    (fun h1 h2 h3 h12 h23 a => Nat.le_trans (h12 a) (h23 a))
    (fun h h' nap k hR hI => ⟨hI.1, hI.2.1, Nat.le_trans hI.2.2 (hR _)⟩)
    (fun h nap k j e hI _ =>
      ⟨storeLe_goAppend grow h nap.p e.label, sliceWf_goAppend grow h nap k _ e.label hI⟩)
    pat 0 [⟨[], emptySlice⟩] []
    (by
      intro a ha
      simp only [List.mem_singleton] at ha
      subst ha
      simp [sliceWf, emptySlice])
  simpa using this

theorem get?_of_sliceWf (h : strStore) (nap : nodeAndPath) (k i : Nat)
    (hwf : sliceWf h nap k) (hi : i < k) : ∃ v, nap.p.get? h (i : Int) = some v := by
  obtain ⟨h1, h2, h3⟩ := hwf
  unfold strSlice.get?
  have hc : ¬ ((i : Int) < 0 ∨ (nap.p.len : Int) ≤ (i : Int)) := by omega
  simp only [hc, if_false, Int.toNat_ofNat]
  have hlt : i < (h.getD nap.p.arr []).length := by omega
  exact ⟨_, List.getElem?_eq_getElem hlt⟩

/-- On a well-formed slice at least as long as the segments, every read of the walk of
promoteEdges succeeds. -/
theorem readSegs_of_sliceWf (h : strStore) (nap : nodeAndPath) (k : Nat) (dpre : List String)
    (i : Nat) (hwf : sliceWf h nap k) (hlen : i + dpre.length ≤ k) :
    ∃ segs, readSegs h nap.p dpre i = some segs := by
  induction dpre generalizing i with
  | nil => exact ⟨[], rfl⟩
  | cons seg rest ih =>
    simp only [List.length_cons] at hlen
    obtain ⟨ls, hls⟩ := ih (i + 1) (by omega)
    simp only [readSegs, hls]
    by_cases hw : seg = wildcard
    · obtain ⟨v, hv⟩ := get?_of_sliceWf h nap k i hwf (by omega)
      simp [hw, hv]
    · simp [hw]

theorem promoteEdges_eq (h : strStore) (dpre : List String) (d : String)
    (F : edgeToMove → List String) (ems : List edgeToMove) (r : node)
    (hF : ∀ em ∈ ems, readSegs h em.p dpre 0 = some (F em)) :
    promoteEdges h (dpre ++ [d]) ems r =
      some (ems.foldl (fun r em => attachDeepest d em.e.n (F em) r) r) := by
  induction ems generalizing r with
  | nil => rfl
  | cons em ems ih =>
    simp only [promoteEdges, promoteEdge_eq h dpre (F em) d r em (hF em (by simp)),
      List.foldl_cons]
    exact ih _ (fun em' hem' => hF em' (by simp [hem']))

theorem foldl_filterMap_map {α β γ : Type} (f : γ → β → γ) (g : α → Option β) (l : List α)
    (init : γ) :
    (l.filterMap g).foldl f init =
      l.foldl (fun r a => match g a with
        | some b => f r b
        | none => r) init := by
  induction l generalizing init with
  | nil => rfl
  | cons a l ih =>
    simp only [List.filterMap_cons, List.foldl_cons]
    cases g a with
    | none => exact ih init
    | some b => simpa using ih (f init b)

/-- Tree.Move with dst shorter than src: the first edge labelled src[-1] of every node
matched by src[:-1] is detached and then, one detached edge after the other, appended
under the label dst[-1] to the deepest node that the segments read for the edge resolve to
from the root. -/
theorem Move_promote_eq (grow : Nat → Nat) (t : Tree) (pat dpre : List String)
    (s d : String) (hlen : dpre.length < pat.length) :
    Tree.Move grow t (pat ++ [s]) (dpre ++ [d]) =
      some ⟨(promoteSegs grow pat s dpre t.root).foldl
        (fun r m => attachDeepest d m.2 m.1 r) (detachMatched pat s t.root)⟩ := by
  have hne : (pat ++ [s]).length ≠ (dpre ++ [d]).length := by
    simp only [List.length_append, List.length_singleton]
    omega
  unfold Tree.Move
  rw [moveFrontier_snoc]
  simp only
  rw [moveCandidates_detach pat s (dpre ++ [d]) hne pat.length _ (t.root, [])
    (by rw [moveFrontier_ptrs]; exact matchPtrs_nodup pat t.root)
    (by
      intro nap hnap
      apply mem_matchPtrs_length pat t.root
      rw [← moveFrontier_ptrs grow]
      exact List.mem_map.mpr ⟨nap, hnap, rfl⟩)]
  have h1 : ¬ (((pat ++ [s]).length : Int) = ((dpre ++ [d]).length : Int)) := by
    simp only [List.length_append, List.length_singleton]
    omega
  have h2 : (((pat ++ [s]).length : Int) > ((dpre ++ [d]).length : Int)) := by
    simp only [List.length_append, List.length_singleton]
    omega
  simp only [h1, h2, if_false, if_true, List.nil_append]
  rw [promoteEdges_eq _ dpre d
    (fun em => segsOf (collectMoveCandidates grow t.root pat [⟨[], emptySlice⟩] []).1 em.p dpre)]
  · rw [moveFrontier_ptrs, modifyAll_matchPtrs]
    simp only [Option.map_some', Option.some.injEq]
    congr 1
    simp only [promoteSegs, detachMatched, foldl_filterMap_map]
    congr 1
    funext r nap
    cases firstEdgeAt t.root s nap.n <;> rfl
  · intro em hem
    simp only [List.mem_filterMap] at hem
    obtain ⟨nap, hnap, hopt⟩ := hem
    cases hfe : firstEdgeAt t.root s nap.n with
    | none => simp [hfe] at hopt
    | some e =>
      simp only [hfe, Option.map_some', Option.some.injEq] at hopt
      subst hopt
      simp only
      obtain ⟨segs, hsegs⟩ := readSegs_of_sliceWf _ nap pat.length dpre 0
        (collectMoveCandidates_wf grow t.root pat nap hnap) (by omega)
      simp [segsOf, hsegs]

theorem labelsAt_snoc (c : List Nat) (j : Nat) (root : node) (e : edge)
    (h : (edgesAt root c)[j]? = some e) :
    labelsAt (c ++ [j]) root = labelsAt c root ++ [e.label] ∧
      (labelsAt c root).length = c.length := by
  induction c generalizing root with
  | nil =>
    simp only [edgesAt, nodeAt] at h
    simp [labelsAt, h]
  | cons i c ih =>
    simp only [edgesAt, nodeAt] at h
    cases hi : root.edges[i]? with
    | none => simp [hi] at h
    | some ei =>
      simp only [hi] at h
      have := ih ei.n (by simpa [edgesAt] using h)
      simp [labelsAt, hi, this.1, this.2]

theorem getD_modify_set_getElem? (h : strStore) (arr b i m : Nat) (x : String) (hne : m ≠ i) :
    ((h.modify (fun a => a.set i x) arr).getD b [])[m]? = (h.getD b [])[m]? := by
  simp only [List.getD_eq_getElem?_getD, List.getElem?_modify]
  cases h[b]? with
  | none => rfl
  | some a =>
    by_cases hab : arr = b
    · simp [hab, List.getElem?_set_ne hne.symm]
    · simp [hab]

theorem storeKeep3_goAppend (grow : Nat → Nat) (h : strStore) (s : strSlice) (x : String)
    (hs : s.len < s.cap → 3 ≤ s.len) : storeKeep3 h (goAppend grow h s x).1 := by
  intro a i v hi hv
  unfold goAppend
  split
  · rename_i hlt
    simp only
    rw [getD_modify_set_getElem? h s.arr a s.len i x (by have := hs hlt; omega)]
    exact hv
  · simp only
    by_cases ha : a < h.length
    · rw [getD_append_singleton_of_lt h _ a ha]
      exact hv
    · rw [getD_of_length_le h a (by omega)] at hv
      simp at hv

theorem newArray_getElem?_lt (old : List String) (k i : Nat) (x : String) (pad : List String)
    (hik : i < k) (hlen : i < old.length) : (old.take k ++ [x] ++ pad)[i]? = old[i]? := by
  rw [List.append_assoc, List.getElem?_append_left (by simp; omega),
    List.getElem?_take_of_lt hik]

theorem newArray_getElem?_eq (old : List String) (k : Nat) (x : String) (pad : List String)
    (hlen : k ≤ old.length) : (old.take k ++ [x] ++ pad)[k]? = some x := by
  have h1 : (old.take k).length = k := by simp; omega
  rw [List.append_assoc, List.getElem?_append_right (by omega), h1]
  simp

theorem sliceLabels3_goAppend (grow : Nat → Nat) (hg0 : grow 0 = 1) (hg1 : grow 1 = 2)
    (root : node) (h : strStore) (nap : nodeAndPath) (k j : Nat) (e : edge)
    (hI : sliceLabels3 root h nap k) (he : (edgesAt root nap.n)[j]? = some e) :
    sliceLabels3 root (goAppend grow h nap.p e.label).1
      ⟨nap.n ++ [j], (goAppend grow h nap.p e.label).2⟩ (k + 1) := by
  obtain ⟨h1, h2, h3, h4⟩ := hI
  obtain ⟨hl1, _⟩ := labelsAt_snoc nap.n j root e he
  have hold : ∀ i, i < k → i < 3 → i < (h.getD nap.p.arr []).length := by
    intro i hik hi3
    have := h4 i hik hi3
    rw [List.getElem?_eq_getElem (by omega : i < (labelsAt nap.n root).length)] at this
    by_contra hc
    rw [List.getElem?_eq_none (by omega)] at this
    cases this
  unfold goAppend
  split
  · rename_i hlt
    have hk3 : 3 ≤ k := by
      by_contra hc
      have := h2 (by omega)
      omega
    refine ⟨by simp [h1], fun hc => by omega, by simp [hl1, h3], ?_⟩
    intro i _ hi3
    simp only
    rw [getD_modify_set_getElem? h nap.p.arr nap.p.arr nap.p.len i e.label (by omega), hl1,
      List.getElem?_append_left (by omega)]
    exact h4 i (by omega) hi3
  · rename_i hlt
    refine ⟨by simp [h1], ?_, by simp [hl1, h3], ?_⟩
    · intro hk
      show max (grow nap.p.cap) (nap.p.len + 1) = k + 1
      have hc := h2 (by omega)
      rw [hc, h1]
      have : k = 0 ∨ k = 1 := by omega
      cases this with
      | inl h0 => subst h0; simp [hg0]
      | inr h1' => subst h1'; simp [hg1]
    · intro i hik hi3
      show ((h ++ [(h.getD nap.p.arr []).take nap.p.len ++ [e.label] ++
        List.replicate (max (grow nap.p.cap) (nap.p.len + 1) - (nap.p.len + 1)) ""]).getD
          h.length [])[i]? = (labelsAt (nap.n ++ [j]) root)[i]?
      rw [getD_append_singleton_length, hl1, h1]
      by_cases hlt2 : i < k
      · rw [newArray_getElem?_lt _ k i _ _ hlt2 (hold i hlt2 hi3),
          List.getElem?_append_left (by omega)]
        exact h4 i hlt2 hi3
      · have hik' : i = k := by omega
        subst hik'
        have hlen : i ≤ (h.getD nap.p.arr []).length := by
          cases i with
          | zero => exact Nat.zero_le _
          | succ i' =>
            have := hold i' (by omega) (by omega)
            omega
        rw [newArray_getElem?_eq _ i _ _ hlen, List.getElem?_append_right (by omega), h3]
        simp

theorem collectMoveCandidates_labels3 (grow : Nat → Nat) (hg0 : grow 0 = 1) (hg1 : grow 1 = 2)
    (root : node) (pat : List String) :
    ∀ a ∈ (collectMoveCandidates grow root pat [⟨[], emptySlice⟩] []).2,
      sliceLabels3 root (collectMoveCandidates grow root pat [⟨[], emptySlice⟩] []).1 a
        pat.length := by
  have := collectMoveCandidates_inv grow root storeKeep3 (sliceLabels3 root)
    (fun h a i v _ hv => hv)
    (fun h1 h2 h3 h12 h23 a i v hi hv => h23 a i v hi (h12 a i v hi hv))
    (fun h h' nap k hR hI => ⟨hI.1, hI.2.1, hI.2.2.1, fun i hik hi3 => by
      have h4 := hI.2.2.2 i hik hi3
      have hlt : i < (labelsAt nap.n root).length := by rw [hI.2.2.1]; exact hik
      rw [List.getElem?_eq_getElem hlt] at h4 ⊢
      exact hR _ i _ hi3 h4⟩)
    (fun h nap k j e hI he =>
      ⟨storeKeep3_goAppend grow h nap.p e.label (fun hlt => by
          by_contra hc
          have h2 := hI.2.1 (by have := hI.1; omega)
          have h1 := hI.1
          omega),
        sliceLabels3_goAppend grow hg0 hg1 root h nap k j e hI he⟩)
    pat 0 [⟨[], emptySlice⟩] []
    (by
      intro a ha
      simp only [List.mem_singleton] at ha
      subst ha
      simp [sliceLabels3, emptySlice, labelsAt])
  simpa using this

/-- With the wildcards of the segments at indices below three, the walk of promoteEdges
reads, for a wildcard at index i, label i of the path to the candidate. -/
theorem readSegs_of_sliceLabels3 (root : node) (h : strStore) (nap : nodeAndPath) (k : Nat)
    (dpre : List String) (i : Nat) (hI : sliceLabels3 root h nap k)
    (hlen : i + dpre.length ≤ k) (hwi : ∀ m, dpre[m]? = some wildcard → i + m < 3) :
    readSegs h nap.p dpre i = some (substAt (labelsAt nap.n root) dpre i) := by
  induction dpre generalizing i with
  | nil => rfl
  | cons seg rest ih =>
    simp only [List.length_cons] at hlen
    have hrest := ih (i + 1) (by omega) (by
      intro m hm
      have := hwi (m + 1) (by simpa using hm)
      omega)
    simp only [readSegs, hrest, substAt]
    by_cases hw : seg = wildcard
    · have hi3 : i < 3 := by
        have := hwi 0 (by simp [hw])
        omega
      obtain ⟨h1, _, h3, h4⟩ := hI
      have hget : nap.p.get? h (i : Int) = (labelsAt nap.n root)[i]? := by
        unfold strSlice.get?
        have hc : ¬ ((i : Int) < 0 ∨ (nap.p.len : Int) ≤ (i : Int)) := by omega
        simp only [hc, if_false, Int.toNat_ofNat]
        exact h4 i (by omega) hi3
      have hlt : i < (labelsAt nap.n root).length := by omega
      simp [hw, hget, List.getElem?_eq_getElem hlt, List.getD_eq_getElem?_getD]
    · simp [hw]

theorem promoteSegs_eq_movedEdges (grow : Nat → Nat) (hg0 : grow 0 = 1) (hg1 : grow 1 = 2)
    (pat dpre : List String) (s : String) (root : node) (hlen : dpre.length < pat.length)
    (hwi : ∀ m, dpre[m]? = some wildcard → m < 3) :
    promoteSegs grow pat s dpre root =
      (movedEdges pat s root).map (fun m => (substAt m.1 dpre 0, m.2)) := by
  simp only [promoteSegs, movedEdges, ← moveFrontier_ptrs grow root pat, List.filterMap_map,
    List.map_filterMap]
  apply List.filterMap_congr
  intro nap hnap
  have hI := collectMoveCandidates_labels3 grow hg0 hg1 root pat nap hnap
  have hr := readSegs_of_sliceLabels3 root _ nap pat.length dpre 0 hI (by omega)
    (by simpa using hwi)
  simp only [Function.comp, segsOf, hr, Option.getD_some]
  cases firstEdgeAt root s nap.n <;> rfl

theorem SetDepthEdges_labels : ∀ (es : List edge) (d : Nat),
    (SetDepthEdges es d).map (fun e => e.label) = es.map (fun e => e.label)
  | [], _ => rfl
  | (.mk l n) :: es, d => by
    simp only [SetDepthEdges, List.map_cons, edge.label_mk]
    rw [SetDepthEdges_labels es d]

mutual
theorem SetDepth_uniqueLabels : ∀ (n : node) (d : Nat),
    (n.SetDepth d).uniqueLabels = n.uniqueLabels
  | .mk v es dep c, d => by
    simp only [node.SetDepth, node.uniqueLabels]
    rw [SetDepthEdges_uniqueLabels es (d + 1), SetDepthEdges_labels es (d + 1)]
theorem SetDepthEdges_uniqueLabels : ∀ (es : List edge) (d : Nat),
    uniqueLabelsEdges (SetDepthEdges es d) = uniqueLabelsEdges es
  | [], _ => rfl
  | (.mk l n) :: es, d => by
    simp only [SetDepthEdges, uniqueLabelsEdges]
    rw [SetDepth_uniqueLabels n d, SetDepthEdges_uniqueLabels es d]
end

theorem uniqueLabels_setEdges (n : node) (es : List edge) :
    (n.setEdges es).uniqueLabels = true ↔
      (labelsOf es).Nodup ∧ ∀ e ∈ es, e.n.uniqueLabels = true := by
  rw [node.uniqueLabels_iff, node.setEdges_edges]

theorem mem_atFirst (k : String) (g : node → node) (es : List edge) (e' : edge)
    (h : e' ∈ atFirst k g es) :
    e' ∈ es ∨ ∃ c, child? k es = some c ∧ e'.n = g c := by
  induction es with
  | nil => simp [atFirst] at h
  | cons e es ih =>
    by_cases hl : e.label = k
    · simp only [atFirst, hl, ne_eq, not_true_eq_false, if_false, List.mem_cons] at h
      cases h with
      | inl h1 =>
        right
        exact ⟨e.n, by simp [child?, hl], by rw [h1, edge.n_mk]⟩
      | inr h1 =>
        left
        simp [h1]
    · simp only [atFirst, hl, ne_eq, not_false_eq_true, if_true, List.mem_cons] at h
      cases h with
      | inl h1 =>
        left
        simp [h1]
      | inr h1 =>
        cases ih h1 with
        | inl h2 =>
          left
          simp [h2]
        | inr h2 =>
          right
          simpa [child?, hl] using h2

/-- Unique labels are kept by a change of the matched nodes that keeps them at every
matched node. -/
theorem uniqueLabels_atMatched (f : node → node) (ok : node → Bool)
    (hf : ∀ Q, Q.uniqueLabels = true → ok Q = true → (f Q).uniqueLabels = true)
    (pat : List String) (n : node) (hu : n.uniqueLabels = true)
    (hok : allMatched ok pat n = true) : (atMatched f pat n).uniqueLabels = true := by
  induction pat generalizing n with
  | nil => exact hf n hu hok
  | cons k ks ih =>
    obtain ⟨hnd, hch⟩ := (node.uniqueLabels_iff n).mp hu
    simp only [atMatched]
    rw [uniqueLabels_setEdges]
    by_cases hw : k = wildcard
    · simp only [allMatched, hw, if_true, List.all_eq_true] at hok
      simp only [hw, if_true]
      refine ⟨by rw [labelsOf_atEvery]; exact hnd, ?_⟩
      intro e' he'
      simp only [atEvery, List.mem_map] at he'
      obtain ⟨e, he, rfl⟩ := he'
      rw [edge.n_mk]
      exact ih e.n (hch e he) (hok e he)
    · simp only [allMatched, hw, if_false] at hok
      simp only [hw, if_false]
      refine ⟨by rw [labelsOf_atFirst]; exact hnd, ?_⟩
      intro e' he'
      cases mem_atFirst k _ _ e' he' with
      | inl h1 => exact hch e' h1
      | inr h1 =>
        obtain ⟨c, hc, hec⟩ := h1
        rw [hec]
        obtain ⟨e, he, hen, _⟩ := child?_mem k _ c hc
        simp only [hc] at hok
        apply ih c _ hok
        rw [← hen]
        exact hch e he

theorem removeFirst_sublist (s : String) (es : List edge) :
    List.Sublist (removeFirst s es) es := by
  induction es with
  | nil => exact List.Sublist.slnil
  | cons e es ih =>
    by_cases hl : e.label = s
    · simp only [removeFirst, hl, ne_eq, not_true_eq_false, if_false]
      exact List.sublist_cons_self e es
    · simp only [removeFirst, hl, ne_eq, not_false_eq_true, if_true]
      exact List.Sublist.cons₂ e ih

theorem uniqueLabels_of_sublist (n : node) (es : List edge) (hu : n.uniqueLabels = true)
    (hs : List.Sublist es n.edges) : (n.setEdges es).uniqueLabels = true := by
  obtain ⟨hnd, hch⟩ := (node.uniqueLabels_iff n).mp hu
  rw [uniqueLabels_setEdges]
  refine ⟨?_, fun e he => hch e (hs.subset he)⟩
  exact List.Nodup.sublist (List.Sublist.map _ hs) hnd

theorem allMatched_true (pat : List String) (n : node) :
    allMatched (fun _ => true) pat n = true := by
  induction pat generalizing n with
  | nil => rfl
  | cons k ks ih =>
    simp only [allMatched]
    split
    · simp only [List.all_eq_true]
      intro e _
      exact ih e.n
    · cases child? k n.edges with
      | none => rfl
      | some c => exact ih c

theorem uniqueLabels_detachMatched (pat : List String) (s : String) (n : node)
    (hu : n.uniqueLabels = true) : (detachMatched pat s n).uniqueLabels = true := by
  unfold detachMatched
  apply uniqueLabels_atMatched _ (fun _ => true) _ pat n hu (allMatched_true pat n)
  intro Q hQ _
  exact uniqueLabels_of_sublist Q _ hQ (removeFirst_sublist s Q.edges)

theorem labelsOf_relabelFirst_nodup (s d : String) (es : List edge)
    (hnd : (labelsOf es).Nodup) (hd : d = s ∨ d ∉ labelsOf es) :
    (labelsOf (relabelFirst s d es)).Nodup := by
  induction es with
  | nil => simpa [relabelFirst] using hnd
  | cons e es ih =>
    simp only [labelsOf, List.map_cons, List.nodup_cons] at hnd
    by_cases hl : e.label = s
    · simp only [relabelFirst, hl, ne_eq, not_true_eq_false, if_false, labelsOf, List.map_cons,
        edge.label_mk, List.nodup_cons]
      refine ⟨?_, hnd.2⟩
      cases hd with
      | inl h1 =>
        rw [h1, ← hl]
        exact hnd.1
      | inr h1 =>
        intro hc
        exact h1 (by simp [labelsOf, hc])
    · simp only [relabelFirst, hl, ne_eq, not_false_eq_true, if_true, labelsOf, List.map_cons,
        List.nodup_cons]
      have hd' : d = s ∨ d ∉ labelsOf es := by
        cases hd with
        | inl h1 => exact Or.inl h1
        | inr h1 =>
          right
          intro hc
          exact h1 (by simp only [labelsOf, List.map_cons, List.mem_cons]; exact Or.inr hc)
      refine ⟨?_, ih hnd.2 hd'⟩
      intro hc
      have hmem : ∀ (es : List edge), e.label ∈ labelsOf (relabelFirst s d es) →
          e.label ∈ labelsOf es ∨ e.label = d := by
        intro es
        induction es with
        | nil => simp [relabelFirst, labelsOf]
        | cons e2 es2 ih2 =>
          by_cases hl2 : e2.label = s
          · simp only [relabelFirst, hl2, ne_eq, not_true_eq_false, if_false, labelsOf,
              List.map_cons, edge.label_mk, List.mem_cons]
            intro h
            cases h with
            | inl h => exact Or.inr h
            | inr h => exact Or.inl (Or.inr h)
          · simp only [relabelFirst, hl2, ne_eq, not_false_eq_true, if_true, labelsOf,
              List.map_cons, List.mem_cons]
            intro h
            cases h with
            | inl h => exact Or.inl (Or.inl h)
            | inr h =>
              cases ih2 h with
              | inl h3 => exact Or.inl (Or.inr h3)
              | inr h3 => exact Or.inr h3
      cases hmem es hc with
      | inl h3 => exact hnd.1 h3
      | inr h3 =>
        cases hd with
        | inl h4 => exact hl (by rw [h3, h4])
        | inr h4 => exact h4 (by simp [labelsOf, h3])

theorem mem_relabelFirst_child (s d : String) (es : List edge) (e' : edge)
    (h : e' ∈ relabelFirst s d es) : ∃ e ∈ es, e'.n = e.n := by
  induction es with
  | nil => simp [relabelFirst] at h
  | cons e es ih =>
    by_cases hl : e.label = s
    · simp only [relabelFirst, hl, ne_eq, not_true_eq_false, if_false, List.mem_cons] at h
      cases h with
      | inl h1 => exact ⟨e, by simp, by rw [h1, edge.n_mk]⟩
      | inr h1 => exact ⟨e', by simp [h1], rfl⟩
    · simp only [relabelFirst, hl, ne_eq, not_false_eq_true, if_true, List.mem_cons] at h
      cases h with
      | inl h1 => exact ⟨e, by simp, by rw [h1]⟩
      | inr h1 =>
        obtain ⟨e2, he2, hn⟩ := ih h1
        exact ⟨e2, by simp [he2], hn⟩

theorem uniqueLabels_relabel (s d : String) (Q : node) (hu : Q.uniqueLabels = true)
    (hok : relabelOk s d Q = true) :
    (Q.setEdges (relabelFirst s d Q.edges)).uniqueLabels = true := by
  obtain ⟨hnd, hch⟩ := (node.uniqueLabels_iff Q).mp hu
  have hok' : (child? s Q.edges = none ∨ d = s) ∨ d ∉ labelsOf Q.edges := by
    simpa [relabelOk] using hok
  clear hok
  rename' hok' => hok
  rw [uniqueLabels_setEdges]
  constructor
  · rcases hok with (h1 | h1) | h1
    · rw [← findLabel_eq_none_iff] at h1
      rw [relabelFirst_of_findLabel_none s d _ h1]
      exact hnd
    · exact labelsOf_relabelFirst_nodup s d _ hnd (Or.inl h1)
    · exact labelsOf_relabelFirst_nodup s d _ hnd (Or.inr h1)
  · intro e' he'
    obtain ⟨e, he, hn⟩ := mem_relabelFirst_child s d _ e' he'
    rw [hn]
    exact hch e he

theorem uniqueLabels_attachEdge (d : String) (child n : node) (hu : n.uniqueLabels = true)
    (hc : child.uniqueLabels = true) (hd : d ∉ labelsOf n.edges) :
    (attachEdge d child n).uniqueLabels = true := by
  obtain ⟨hnd, hch⟩ := (node.uniqueLabels_iff n).mp hu
  simp only [attachEdge]
  rw [uniqueLabels_setEdges]
  constructor
  · simp only [labelsOf, List.map_append, List.map_cons, List.map_nil, edge.label_mk]
    rw [List.nodup_append]
    refine ⟨hnd, by simp, ?_⟩
    intro a ha hb
    simp only [List.mem_singleton] at hb
    subst hb
    exact hd ha
  · intro e he
    simp only [List.mem_append, List.mem_singleton] at he
    cases he with
    | inl h => exact hch e h
    | inr h =>
      rw [h, edge.n_mk, SetDepth_uniqueLabels]
      exact hc

theorem not_contains_iff (d : String) (l : List String) :
    (!(l.contains d)) = true ↔ d ∉ l := by
  simp

theorem freeAlong_newNode (l : String) (rel : List String) (depth : Nat) :
    freeAlong l rel (newNode depth) = true := by
  cases rel with
  | nil => simp [freeAlong, newNode, node.edges, labelsOf]
  | cons k ks => simp [freeAlong, newNode, node.edges, child?]

theorem uniqueLabels_newNode (depth : Nat) : (newNode depth).uniqueLabels = true := by
  simp [newNode, node.uniqueLabels, uniqueLabelsEdges]

theorem uniqueLabels_embedInto (l : String) (child : node) (rel : List String) (n : node)
    (hu : n.uniqueLabels = true) (hc : child.uniqueLabels = true)
    (hfree : freeAlong l rel n = true) : (embedInto l child rel n).uniqueLabels = true := by
  induction rel generalizing n with
  | nil =>
    simp only [freeAlong] at hfree
    exact uniqueLabels_attachEdge l child n hu hc ((not_contains_iff _ _).mp hfree)
  | cons k ks ih =>
    obtain ⟨hnd, hch⟩ := (node.uniqueLabels_iff n).mp hu
    simp only [embedInto]
    cases hf : findLabel k n.edges with
    | some j =>
      simp only
      rw [uniqueLabels_setEdges]
      refine ⟨by rw [labelsOf_atFirst]; exact hnd, ?_⟩
      intro e' he'
      cases mem_atFirst k _ _ e' he' with
      | inl h1 => exact hch e' h1
      | inr h1 =>
        obtain ⟨c, hcc, hec⟩ := h1
        rw [hec]
        obtain ⟨e, he, hen, _⟩ := child?_mem k _ c hcc
        simp only [freeAlong, hcc] at hfree
        apply ih c _ hfree
        rw [← hen]
        exact hch e he
    | none =>
      simp only
      rw [uniqueLabels_setEdges]
      have hk : k ∉ labelsOf n.edges := by
        rw [← child?_eq_none_iff, ← findLabel_eq_none_iff]
        exact hf
      constructor
      · simp only [labelsOf, List.map_append, List.map_cons, List.map_nil, edge.label_mk]
        rw [List.nodup_append]
        refine ⟨hnd, by simp, ?_⟩
        intro a ha hb
        simp only [List.mem_singleton] at hb
        subst hb
        exact hk ha
      · intro e he
        simp only [List.mem_append, List.mem_singleton] at he
        cases he with
        | inl h => exact hch e h
        | inr h =>
          rw [h, edge.n_mk]
          exact ih _ (uniqueLabels_newNode _) (freeAlong_newNode l ks _)

theorem detachFirst_some (s : String) (es : List edge) (e : edge) (rest : List edge)
    (h : detachFirst s es = some (e, rest)) : e ∈ es ∧ rest = removeFirst s es := by
  induction es generalizing rest with
  | nil => simp [detachFirst] at h
  | cons e0 es ih =>
    by_cases hl : e0.label = s
    · simp only [detachFirst, hl, ne_eq, not_true_eq_false, if_false, Option.some.injEq,
        Prod.mk.injEq] at h
      simp [removeFirst, hl, h.1.symm, h.2.symm]
    · simp only [detachFirst, hl, ne_eq, not_false_eq_true, if_true] at h
      cases hd : detachFirst s es with
      | none => simp [hd] at h
      | some r =>
        simp only [hd, Option.map_some', Option.some.injEq, Prod.mk.injEq] at h
        obtain ⟨r1, r2⟩ := r
        simp only at h
        obtain ⟨h1, h2⟩ := ih r2 (by rw [hd, h.1])
        refine ⟨by simp [h1], ?_⟩
        simp [removeFirst, hl, ← h.2, h2]

theorem uniqueLabels_embedMoved (s l : String) (rel : List String) (Q : node)
    (hu : Q.uniqueLabels = true) (hok : embedOk s l rel Q = true) :
    (embedMoved s l rel Q).uniqueLabels = true := by
  simp only [embedMoved]
  simp only [embedOk] at hok
  cases hd : detachFirst s Q.edges with
  | none => exact hu
  | some r =>
    obtain ⟨e, rest⟩ := r
    simp only [hd] at hok
    simp only
    obtain ⟨he, hrest⟩ := detachFirst_some s _ e rest hd
    apply uniqueLabels_embedInto l e.n rel _ _ _ hok
    · rw [hrest]
      exact uniqueLabels_of_sublist Q _ hu (removeFirst_sublist s Q.edges)
    · exact ((node.uniqueLabels_iff Q).mp hu).2 e he

theorem uniqueLabels_attachDeepest (d : String) (sub : node) (segs : List String) (n : node)
    (hu : n.uniqueLabels = true) (hc : sub.uniqueLabels = true)
    (hfree : freeDeepest d segs n = true) : (attachDeepest d sub segs n).uniqueLabels = true := by
  induction segs generalizing n with
  | nil =>
    simp only [freeDeepest] at hfree
    exact uniqueLabels_attachEdge d sub n hu hc ((not_contains_iff _ _).mp hfree)
  | cons k ks ih =>
    obtain ⟨hnd, hch⟩ := (node.uniqueLabels_iff n).mp hu
    simp only [attachDeepest]
    cases hf : findLabel k n.edges with
    | some j =>
      simp only
      rw [uniqueLabels_setEdges]
      refine ⟨by rw [labelsOf_atFirst]; exact hnd, ?_⟩
      intro e' he'
      cases mem_atFirst k _ _ e' he' with
      | inl h1 => exact hch e' h1
      | inr h1 =>
        obtain ⟨c, hcc, hec⟩ := h1
        rw [hec]
        obtain ⟨e, he, hen, _⟩ := child?_mem k _ c hcc
        simp only [freeDeepest, hcc] at hfree
        apply ih c _ hfree
        rw [← hen]
        exact hch e he
    | none =>
      simp only
      have hcn : child? k n.edges = none := (findLabel_eq_none_iff k _).mp hf
      simp only [freeDeepest, hcn] at hfree
      exact uniqueLabels_attachEdge d sub n hu hc ((not_contains_iff _ _).mp hfree)

theorem uniqueLabels_promote_fold (d : String) (ms : List (List String × node)) (r : node)
    (hu : r.uniqueLabels = true) (hsub : ∀ m ∈ ms, m.2.uniqueLabels = true)
    (hfree : promoteFree d ms r = true) :
    (ms.foldl (fun r m => attachDeepest d m.2 m.1 r) r).uniqueLabels = true := by
  induction ms generalizing r with
  | nil => exact hu
  | cons m ms ih =>
    simp only [promoteFree, Bool.and_eq_true] at hfree
    simp only [List.foldl_cons]
    apply ih _ _ (fun m' hm' => hsub m' (by simp [hm'])) hfree.2
    exact uniqueLabels_attachDeepest d m.2 m.1 r hu (hsub m (by simp)) hfree.1

theorem nodeAt_uniqueLabels (c : List Nat) (root n : node) (hu : root.uniqueLabels = true)
    (h : nodeAt c root = some n) : n.uniqueLabels = true := by
  induction c generalizing root with
  | nil =>
    simp only [nodeAt, Option.some.injEq] at h
    rw [← h]
    exact hu
  | cons i c ih =>
    simp only [nodeAt] at h
    cases hi : root.edges[i]? with
    | none => simp [hi] at h
    | some e =>
      simp only [hi] at h
      exact ih e.n (((node.uniqueLabels_iff root).mp hu).2 e (List.getElem?_mem hi)) h

theorem firstEdgeAt_uniqueLabels (root : node) (s : String) (c : List Nat) (e : edge)
    (hu : root.uniqueLabels = true) (h : firstEdgeAt root s c = some e) :
    e.n.uniqueLabels = true := by
  simp only [firstEdgeAt, edgesAt] at h
  cases hn : nodeAt c root with
  | none => simp [hn, detachFirst] at h
  | some n =>
    simp only [hn] at h
    cases hd : detachFirst s n.edges with
    | none => simp [hd] at h
    | some r =>
      simp only [hd, Option.map_some', Option.some.injEq] at h
      obtain ⟨he, _⟩ := detachFirst_some s _ r.1 r.2 (by rw [hd])
      rw [← h]
      exact ((node.uniqueLabels_iff n).mp (nodeAt_uniqueLabels c root n hu hn)).2 _ he

theorem promoteSegs_uniqueLabels (grow : Nat → Nat) (pat : List String) (s : String)
    (dpre : List String) (root : node) (hu : root.uniqueLabels = true) :
    ∀ m ∈ promoteSegs grow pat s dpre root, m.2.uniqueLabels = true := by
  intro m hm
  simp only [promoteSegs, List.mem_filterMap] at hm
  obtain ⟨nap, _, hopt⟩ := hm
  cases hfe : firstEdgeAt root s nap.n with
  | none => simp [hfe] at hopt
  | some e =>
    simp only [hfe, Option.map_some', Option.some.injEq] at hopt
    rw [← hopt]
    exact firstEdgeAt_uniqueLabels root s nap.n e hu hfe

/-- Tree.Move on non-empty src and dst returns a tree with unique labels when it starts
from one and no node receives the moved edge while it has another edge labelled
dst[-1]. -/
theorem Move_uniqueLabels (grow : Nat → Nat) (t : Tree) (pat dall : List String) (s d : String)
    (hu : t.root.uniqueLabels = true)
    (hfree : collisionFree grow t.root pat s dall d = true) :
    ∃ t', Tree.Move grow t (pat ++ [s]) (dall ++ [d]) = some t' ∧
      t'.root.uniqueLabels = true := by
  unfold collisionFree at hfree
  by_cases h1 : dall.length = pat.length
  · simp only [h1, if_true] at hfree
    refine ⟨_, Move_relabel_eq grow t pat dall s d h1.symm, ?_⟩
    exact uniqueLabels_atMatched _ (relabelOk s d) (fun Q hQ hok => uniqueLabels_relabel s d Q hQ hok)
      pat t.root hu hfree
  · simp only [h1, if_false] at hfree
    by_cases h2 : dall.length < pat.length
    · simp only [h2, if_true] at hfree
      refine ⟨_, Move_promote_eq grow t pat dall s d h2, ?_⟩
      exact uniqueLabels_promote_fold d _ _ (uniqueLabels_detachMatched pat s t.root hu)
        (promoteSegs_uniqueLabels grow pat s dall t.root hu) hfree
    · simp only [h2, if_false] at hfree
      have hsplit : dall = dall.take pat.length ++ dall.drop pat.length :=
        (List.take_append_drop _ _).symm
      have hrel : dall.drop pat.length ≠ [] := by
        intro hc
        have := congrArg List.length hc
        simp at this
        omega
      have htk : (dall.take pat.length).length = pat.length := by
        simp
        omega
      have hmove := Move_embed_eq grow t pat (dall.take pat.length) (dall.drop pat.length) s d
        htk hrel
      rw [← hsplit] at hmove
      refine ⟨_, hmove, ?_⟩
      exact uniqueLabels_atMatched _ (embedOk s d (dall.drop pat.length))
        (fun Q hQ hok => uniqueLabels_embedMoved s d _ Q hQ hok) pat t.root hu hfree

/-- Tree.Move returns normally whenever src and dst are not empty. -/
theorem Move_returns_of_nonempty (grow : Nat → Nat) (t : Tree) (pat dall : List String)
    (s d : String) : ∃ t', Tree.Move grow t (pat ++ [s]) (dall ++ [d]) = some t' := by
  by_cases h1 : dall.length = pat.length
  · exact ⟨_, Move_relabel_eq grow t pat dall s d h1.symm⟩
  · by_cases h2 : dall.length < pat.length
    · exact ⟨_, Move_promote_eq grow t pat dall s d h2⟩
    · have hsplit : dall = dall.take pat.length ++ dall.drop pat.length :=
        (List.take_append_drop _ _).symm
      have hrel : dall.drop pat.length ≠ [] := by
        intro hc
        have := congrArg List.length hc
        simp at this
        omega
      have htk : (dall.take pat.length).length = pat.length := by
        simp
        omega
      have hmove := Move_embed_eq grow t pat (dall.take pat.length) (dall.drop pat.length) s d
        htk hrel
      rw [← hsplit] at hmove
      exact ⟨_, hmove⟩

theorem relabelFirst_same (s : String) (es : List edge) : relabelFirst s s es = es := by
  induction es with
  | nil => rfl
  | cons e es ih =>
    by_cases hl : e.label = s
    · simp only [relabelFirst, hl, ne_eq, not_true_eq_false, if_false]
      rw [← hl, edge.eta]
    · simp [relabelFirst, hl, ih]

theorem atFirst_id (k : String) (g : node → node) (es : List edge) (hg : ∀ n, g n = n) :
    atFirst k g es = es := by
  induction es with
  | nil => rfl
  | cons e es ih =>
    by_cases hl : e.label = k
    · simp only [atFirst, hl, ne_eq, not_true_eq_false, if_false, hg]
      rw [← hl, edge.eta]
    · simp [atFirst, hl, ih]

theorem atMatched_id (f : node → node) (hf : ∀ n, f n = n) (pat : List String) (n : node) :
    atMatched f pat n = n := by
  induction pat generalizing n with
  | nil => exact hf n
  | cons k ks ih =>
    simp only [atMatched]
    split
    · have : atEvery (atMatched f ks) n.edges = n.edges := by
        simp only [atEvery, ih, edge.eta, List.map_id']
      rw [this, node.setEdges_self]
    · rw [atFirst_id k _ _ ih, node.setEdges_self]

/-- Tree.Move of a non-empty path onto itself returns the tree unchanged. -/
theorem Move_same_path (grow : Nat → Nat) (t : Tree) (pat : List String) (s : String) :
    Tree.Move grow t (pat ++ [s]) (pat ++ [s]) = some t := by
  rw [Move_relabel_eq grow t pat pat s s rfl, atMatched_id]
  intro n
  rw [relabelFirst_same, node.setEdges_self]

mutual
theorem expand_SetDepth : ∀ (n : node) (d : Nat), (n.SetDepth d).expand = n.expand
  | .mk v es dep c, d => by
    cases es with
    | nil => simp [node.SetDepth, SetDepthEdges, node.expand]
    | cons e rest =>
      cases e with
      | mk l n0 =>
        have h := expandEdges_SetDepth (edge.mk l n0 :: rest) (d + 1)
        simp only [SetDepthEdges] at h
        simp only [node.SetDepth, SetDepthEdges, node.expand, h]
theorem expandEdges_SetDepth : ∀ (es : List edge) (d : Nat),
    expandEdges (SetDepthEdges es d) = expandEdges es
  | [], _ => rfl
  | (.mk l n) :: es, d => by
    simp only [SetDepthEdges, expandEdges]
    rw [expand_SetDepth n d, expandEdges_SetDepth es d]
end

theorem child?_of_getElem?_nodup (es : List edge) (j : Nat) (e : edge)
    (hnd : (labelsOf es).Nodup) (h : es[j]? = some e) : child? e.label es = some e.n := by
  induction es generalizing j with
  | nil => simp at h
  | cons e0 es ih =>
    simp only [labelsOf, List.map_cons, List.nodup_cons] at hnd
    cases j with
    | zero =>
      simp only [List.getElem?_cons_zero, Option.some.injEq] at h
      subst h
      simp [child?]
    | succ j =>
      simp only [List.getElem?_cons_succ] at h
      have hne : e0.label ≠ e.label := by
        intro hc
        apply hnd.1
        rw [hc]
        exact List.mem_map.mpr ⟨e, List.getElem?_mem h, rfl⟩
      simp only [child?, hne, ne_eq, not_false_eq_true, if_true]
      exact ih j hnd.2 h

theorem child?_atEvery (k : String) (g : node → node) (es : List edge) :
    child? k (atEvery g es) = (child? k es).map g := by
  induction es with
  | nil => rfl
  | cons e es ih =>
    simp only [atEvery] at ih
    by_cases hl : e.label = k
    · simp [atEvery, child?, hl, edge.label_mk, edge.n_mk]
    · simp [atEvery, child?, hl, edge.label_mk, ih]

/-- In a tree with unique labels, the concrete path of a matched node resolves, after a
change of the matched nodes, to the changed node. -/
theorem resolve_labelsAt_atMatched (f : node → node) (pat : List String) (root Q : node)
    (c : List Nat) (hu : root.uniqueLabels = true) (hc : c ∈ matchPtrs pat root)
    (hQ : nodeAt c root = some Q) :
    resolve (labelsAt c root) (atMatched f pat root) = some (f Q) := by
  induction pat generalizing root c with
  | nil =>
    simp only [matchPtrs, List.mem_singleton] at hc
    subst hc
    simp only [nodeAt, Option.some.injEq] at hQ
    simp [labelsAt, resolve, atMatched, hQ]
  | cons k ks ih =>
    obtain ⟨hnd, hch⟩ := (node.uniqueLabels_iff root).mp hu
    simp only [matchPtrs, List.mem_flatMap] at hc
    obtain ⟨j, hj, hc'⟩ := hc
    cases he : root.edges[j]? with
    | none => simp [he] at hc'
    | some e =>
      simp only [he, List.mem_map] at hc'
      obtain ⟨c', hc'm, rfl⟩ := hc'
      simp only [nodeAt, he] at hQ
      have hchild := child?_of_getElem?_nodup root.edges j e hnd he
      have hue := hch e (List.getElem?_mem he)
      simp only [labelsAt, he, resolve, atMatched, node.setEdges_edges]
      by_cases hw : k = wildcard
      · simp only [hw, if_true]
        rw [child?_atEvery, hchild]
        exact ih e.n c' hue hc'm hQ
      · simp only [hw, if_false]
        simp only [matchIdx, hw, if_false, Option.mem_toList, Option.mem_def] at hj
        obtain ⟨e2, he2, hlab⟩ := findLabel_get k _ j hj
        rw [he] at he2
        cases he2
        rw [hlab, child?_atFirst_same, ← hlab, hchild]
        exact ih e.n c' hue hc'm hQ

theorem resolve_labelsAt (root Q : node) (c : List Nat) (hu : root.uniqueLabels = true)
    (hQ : nodeAt c root = some Q) : resolve (labelsAt c root) root = some Q := by
  induction c generalizing root with
  | nil =>
    simp only [nodeAt, Option.some.injEq] at hQ
    simp [labelsAt, resolve, hQ]
  | cons j c ih =>
    obtain ⟨hnd, hch⟩ := (node.uniqueLabels_iff root).mp hu
    simp only [nodeAt] at hQ
    cases he : root.edges[j]? with
    | none => simp [he] at hQ
    | some e =>
      simp only [he] at hQ
      simp only [labelsAt, he, resolve, child?_of_getElem?_nodup root.edges j e hnd he]
      exact ih e.n (hch e (List.getElem?_mem he)) hQ

theorem child?_relabelFirst_src (s d : String) (es : List edge) (hnd : (labelsOf es).Nodup)
    (hne : d ≠ s) : child? s (relabelFirst s d es) = none := by
  induction es with
  | nil => rfl
  | cons e es ih =>
    simp only [labelsOf, List.map_cons, List.nodup_cons] at hnd
    by_cases hl : e.label = s
    · have hds : ¬ d = s := hne
      simp only [relabelFirst, hl, ne_eq, not_true_eq_false, if_false, child?, edge.label_mk,
        hds, not_false_eq_true, if_true]
      rw [child?_eq_none_iff, ← hl]
      exact hnd.1
    · simp only [relabelFirst, hl, ne_eq, not_false_eq_true, if_true, child?]
      exact ih hnd.2

theorem child?_relabelFirst_dst (s d : String) (es : List edge) (sub : node)
    (hsub : child? s es = some sub) (hd : d ∉ labelsOf (removeFirst s es)) :
    child? d (relabelFirst s d es) = some sub := by
  induction es with
  | nil => simp [child?] at hsub
  | cons e es ih =>
    by_cases hl : e.label = s
    · simp only [child?, hl, ne_eq, not_true_eq_false, if_false, Option.some.injEq] at hsub
      simp [relabelFirst, hl, child?, edge.label_mk, edge.n_mk, hsub]
    · simp only [child?, hl, ne_eq, not_false_eq_true, if_true] at hsub
      simp only [removeFirst, hl, ne_eq, not_false_eq_true, if_true, labelsOf, List.map_cons,
        List.mem_cons, not_or] at hd
      have hne : e.label ≠ d := fun hc => hd.1 hc.symm
      simp only [relabelFirst, hl, ne_eq, not_false_eq_true, if_true, child?, hne]
      exact ih hsub hd.2

theorem child?_append_of_none (k : String) (es : List edge) (x : edge)
    (h : child? k es = none) : child? k (es ++ [x]) = child? k [x] := by
  induction es with
  | nil => rfl
  | cons e es ih =>
    by_cases hl : e.label = k
    · simp [child?, hl] at h
    · simp only [child?, hl, ne_eq, not_false_eq_true, if_true, List.cons_append] at h ⊢
      exact ih h

/-- After the embedding along a free relative path, the path followed by the label
resolves to the embedded child (with some depth). -/
theorem resolve_embedInto (l : String) (child : node) (rel : List String) (n : node)
    (hfree : freeAlong l rel n = true) :
    ∃ dep, resolve (rel ++ [l]) (embedInto l child rel n) = some (child.SetDepth dep) := by
  induction rel generalizing n with
  | nil =>
    simp only [freeAlong] at hfree
    have hl : child? l n.edges = none := by
      rw [child?_eq_none_iff]
      exact (not_contains_iff _ _).mp hfree
    refine ⟨n.depth + 1, ?_⟩
    simp only [List.nil_append, embedInto, attachEdge, resolve_singleton, node.setEdges_edges]
    rw [child?_append_of_none l _ _ hl]
    simp [child?, edge.label_mk, edge.n_mk]
  | cons k ks ih =>
    simp only [List.cons_append, embedInto]
    cases hf : findLabel k n.edges with
    | some j =>
      obtain ⟨e, _, hc⟩ := findLabel_child? k _ j hf
      simp only [freeAlong, hc] at hfree
      obtain ⟨dep, hdep⟩ := ih e.n hfree
      refine ⟨dep, ?_⟩
      simp only [resolve, node.setEdges_edges]
      rw [child?_atFirst_same, hc]
      exact hdep
    | none =>
      have hcn : child? k n.edges = none := (findLabel_eq_none_iff k _).mp hf
      obtain ⟨dep, hdep⟩ := ih (newNode (n.depth + 1)) (freeAlong_newNode l ks _)
      refine ⟨dep, ?_⟩
      simp only [resolve, node.setEdges_edges]
      rw [child?_append_of_none k _ _ hcn]
      simp only [child?, edge.label_mk, ne_eq, not_true_eq_false, if_false, edge.n_mk]
      exact hdep

theorem child?_embedInto_other (l s : String) (child : node) (k : String) (ks : List String)
    (n : node) (hks : k ≠ s) (hs : child? s n.edges = none) :
    child? s (embedInto l child (k :: ks) n).edges = none := by
  simp only [embedInto]
  cases hf : findLabel k n.edges with
  | some j =>
    simp only [node.setEdges_edges]
    rw [child?_atFirst_ne k s _ _ hks]
    exact hs
  | none =>
    simp only [node.setEdges_edges]
    rw [child?_append_of_none s _ _ hs]
    simp [child?, edge.label_mk, hks]

theorem labelsAt_of_mem_matchPtrs_exact (pat : List String) (root : node) (c : List Nat)
    (hw : wildcard ∉ pat) (hc : c ∈ matchPtrs pat root) : labelsAt c root = pat := by
  induction pat generalizing root c with
  | nil =>
    simp only [matchPtrs, List.mem_singleton] at hc
    subst hc
    rfl
  | cons k ks ih =>
    have hk : k ≠ wildcard := fun hc => hw (by simp [hc])
    have hks : wildcard ∉ ks := fun hc => hw (by simp [hc])
    simp only [matchPtrs, List.mem_flatMap] at hc
    obtain ⟨j, hj, hc'⟩ := hc
    simp only [matchIdx, hk, if_false, Option.mem_toList, Option.mem_def] at hj
    obtain ⟨e, he, hlab⟩ := findLabel_get k _ j hj
    simp only [he, List.mem_map] at hc'
    obtain ⟨c', hc'm, rfl⟩ := hc'
    simp [labelsAt, he, hlab, ih e.n c' hks hc'm]

theorem not_mem_of_freeDeepest (d : String) (dall : List String) (r P : node)
    (h : resolve dall r = some P) (hfree : freeDeepest d dall r = true) :
    d ∉ labelsOf P.edges := by
  induction dall generalizing r with
  | nil =>
    simp only [resolve, Option.some.injEq] at h
    subst h
    exact (not_contains_iff _ _).mp hfree
  | cons k ks ih =>
    simp only [resolve] at h
    cases hc : child? k r.edges with
    | none => simp [hc] at h
    | some c =>
      simp only [hc] at h
      simp only [freeDeepest, hc] at hfree
      exact ih c h hfree

theorem Get_append (t : Tree) (q p : List String) (n : node) (h : resolve q t.root = some n) :
    t.Get (q ++ p) = (resolve p n).map (fun m => m.expand) := by
  simp [Tree.Get, resolve_append, h]

/-- Move followed by Get for a relabel or embed move: the source path is absent and the
destination holds the moved value, when the destination is free and does not run through
the source position. -/
theorem Move_then_Get_aux (grow : Nat → Nat) (t : Tree) (pat dall : List String) (s d : String)
    (c : List Nat) (Q sub : node) (hu : t.root.uniqueLabels = true)
    (hc : c ∈ matchPtrs pat t.root) (hQ : nodeAt c t.root = some Q)
    (hsub : child? s Q.edges = some sub)
    (hlen : pat.length ≤ dall.length) (hhead : (dall.drop pat.length ++ [d]).head? ≠ some s)
    (hfree : freeAlong d (dall.drop pat.length) (Q.setEdges (removeFirst s Q.edges)) = true) :
    ∃ t', Tree.Move grow t (pat ++ [s]) (dall ++ [d]) = some t' ∧
      t.Get (labelsAt c t.root ++ [s]) = some sub.expand ∧
      t'.Get (labelsAt c t.root ++ [s]) = none ∧
      t'.Get (labelsAt c t.root ++ dall.drop pat.length ++ [d]) = some sub.expand := by
  have hQu := nodeAt_uniqueLabels c t.root Q hu hQ
  have hnd := ((node.uniqueLabels_iff Q).mp hQu).1
  have hbefore : t.Get (labelsAt c t.root ++ [s]) = some sub.expand := by
    rw [Get_append t _ _ Q (resolve_labelsAt t.root Q c hu hQ), resolve_singleton, hsub]
    rfl
  · by_cases heq : pat.length = dall.length
    · -- relabel
      have hdrop : dall.drop pat.length = [] := by
        rw [heq]
        exact List.drop_length dall
      rw [hdrop] at hhead hfree ⊢
      have hds : d ≠ s := by
        intro hc'
        apply hhead
        simp [hc']
      have hdl : d ∉ labelsOf (removeFirst s Q.edges) := by
        simp only [freeAlong, node.setEdges_edges] at hfree
        exact (not_contains_iff _ _).mp hfree
      refine ⟨_, Move_relabel_eq grow t pat dall s d heq, hbefore, ?_, ?_⟩
      · rw [Get_append _ _ _ _ (resolve_labelsAt_atMatched _ pat t.root Q c hu hc hQ),
          resolve_singleton, node.setEdges_edges, child?_relabelFirst_src s d _ hnd hds]
        rfl
      · rw [List.append_nil,
          Get_append _ _ _ _ (resolve_labelsAt_atMatched _ pat t.root Q c hu hc hQ),
          resolve_singleton, node.setEdges_edges, child?_relabelFirst_dst s d _ sub hsub hdl]
        rfl
    · -- embed
      have hsplit : dall = dall.take pat.length ++ dall.drop pat.length :=
        (List.take_append_drop _ _).symm
      have hrel : dall.drop pat.length ≠ [] := by
        intro hc'
        have := congrArg List.length hc'
        simp at this
        omega
      have htk : (dall.take pat.length).length = pat.length := by
        simp
        omega
      have hmove := Move_embed_eq grow t pat (dall.take pat.length) (dall.drop pat.length) s d
        htk hrel
      rw [← hsplit] at hmove
      have hdet := hsub
      rw [child?_eq_detachFirst] at hdet
      cases hd : detachFirst s Q.edges with
      | none => simp [hd] at hdet
      | some r =>
        obtain ⟨e, rest⟩ := r
        simp only [hd, Option.map_some', Option.some.injEq] at hdet
        obtain ⟨_, hrest⟩ := detachFirst_some s _ e rest hd
        have hfQ : embedMoved s d (dall.drop pat.length) Q =
            embedInto d sub (dall.drop pat.length) (Q.setEdges (removeFirst s Q.edges)) := by
          simp [embedMoved, hd, hdet, hrest]
        have hres := resolve_labelsAt_atMatched (embedMoved s d (dall.drop pat.length)) pat
          t.root Q c hu hc hQ
        rw [hfQ] at hres
        refine ⟨_, hmove, hbefore, ?_, ?_⟩
        · rw [Get_append _ _ _ _ hres, resolve_singleton]
          cases hr : dall.drop pat.length with
          | nil => exact absurd hr hrel
          | cons k ks =>
            rw [hr] at hhead
            have hks : k ≠ s := by
              intro hc'
              apply hhead
              simp [hc']
            rw [child?_embedInto_other d s sub k ks _ hks]
            · rfl
            · rw [node.setEdges_edges]
              exact child?_removeFirst_of_nodup s _ hnd
        · obtain ⟨dep, hdep⟩ := resolve_embedInto d sub (dall.drop pat.length) _ hfree
          rw [List.append_assoc, Get_append _ _ _ _ hres, hdep]
          simp [expand_SetDepth]

theorem atFirst_atFirst (k : String) (f g : node → node) (es : List edge) :
    atFirst k g (atFirst k f es) = atFirst k (fun n => g (f n)) es := by
  induction es with
  | nil => rfl
  | cons e es ih =>
    by_cases hl : e.label = k
    · simp [atFirst, hl, edge.label_mk, edge.n_mk]
    · simp [atFirst, hl, ih]

theorem atEvery_atEvery (f g : node → node) (es : List edge) :
    atEvery g (atEvery f es) = atEvery (fun n => g (f n)) es := by
  simp [atEvery, edge.label_mk, edge.n_mk]

theorem atMatched_atMatched (f g : node → node) (pat : List String) (n : node) :
    atMatched g pat (atMatched f pat n) = atMatched (fun m => g (f m)) pat n := by
  induction pat generalizing n with
  | nil => rfl
  | cons k ks ih =>
    simp only [atMatched, node.setEdges_edges, node.setEdges_setEdges]
    congr 1
    split
    · rw [atEvery_atEvery]
      congr 1
      funext m
      exact ih m
    · rw [atFirst_atFirst]
      congr 1
      funext m
      exact ih m

theorem atMatched_append (f : node → node) (p q : List String) (n : node) :
    atMatched f (p ++ q) n = atMatched (atMatched f q) p n := by
  induction p generalizing n with
  | nil => rfl
  | cons k ks ih =>
    simp only [List.cons_append, atMatched]
    congr 1
    split
    · congr 1
      funext m
      exact ih m
    · congr 1
      funext m
      exact ih m

theorem atFirst_congr (k : String) (f g : node → node) (es : List edge)
    (h : ∀ c, child? k es = some c → f c = g c) : atFirst k f es = atFirst k g es := by
  induction es with
  | nil => rfl
  | cons e es ih =>
    by_cases hl : e.label = k
    · simp [atFirst, hl, h e.n (by simp [child?, hl])]
    · simp only [atFirst, hl, ne_eq, not_false_eq_true, if_true]
      rw [ih]
      intro c hc
      exact h c (by simpa [child?, hl] using hc)

/-- On an exact pattern a change of the matched nodes only depends on what it does to the
node the pattern resolves to. -/
theorem atMatched_congr_exact (f g : node → node) (pat : List String) (n : node)
    (hw : wildcard ∉ pat) (h : ∀ Q, resolve pat n = some Q → f Q = g Q) :
    atMatched f pat n = atMatched g pat n := by
  induction pat generalizing n with
  | nil => exact h n rfl
  | cons k ks ih =>
    have hk : k ≠ wildcard := fun hc => hw (by simp [hc])
    have hks : wildcard ∉ ks := fun hc => hw (by simp [hc])
    simp only [atMatched, hk, if_false]
    congr 1
    apply atFirst_congr
    intro c hc
    apply ih c hks
    intro Q hQ
    apply h
    simp [resolve, hc, hQ]

theorem attachDeepest_eq_atMatched (d : String) (sub : node) (dpre : List String) (r P : node)
    (hw : wildcard ∉ dpre) (h : resolve dpre r = some P) :
    attachDeepest d sub dpre r = atMatched (attachEdge d sub) dpre r := by
  induction dpre generalizing r with
  | nil => rfl
  | cons k ks ih =>
    have hk : k ≠ wildcard := fun hc => hw (by simp [hc])
    have hks : wildcard ∉ ks := fun hc => hw (by simp [hc])
    simp only [resolve] at h
    cases hc : child? k r.edges with
    | none => simp [hc] at h
    | some c =>
      simp only [hc] at h
      cases hf : findLabel k r.edges with
      | none =>
        rw [findLabel_eq_none_iff] at hf
        rw [hf] at hc
        cases hc
      | some j =>
        simp only [attachDeepest, hf, atMatched, hk, if_false]
        congr 1
        apply atFirst_congr
        intro c' hc'
        rw [hc] at hc'
        cases hc'
        exact ih c hks h

mutual
theorem SetDepth_SetDepth : ∀ (n : node) (a b : Nat), (n.SetDepth a).SetDepth b = n.SetDepth b
  | .mk v es dep c, a, b => by
    simp only [node.SetDepth]
    rw [SetDepthEdges_SetDepthEdges es (a + 1) (b + 1)]
theorem SetDepthEdges_SetDepthEdges : ∀ (es : List edge) (a b : Nat),
    SetDepthEdges (SetDepthEdges es a) b = SetDepthEdges es b
  | [], _, _ => rfl
  | (.mk l n) :: es, a, b => by
    simp only [SetDepthEdges]
    rw [SetDepth_SetDepth n a b, SetDepthEdges_SetDepthEdges es a b]
end

theorem detachFirst_append_fresh (d : String) (es : List edge) (x : node)
    (hd : d ∉ labelsOf es) :
    detachFirst d (es ++ [edge.mk d x]) = some (edge.mk d x, es) := by
  induction es with
  | nil => simp [detachFirst, edge.label_mk]
  | cons e es ih =>
    simp only [labelsOf, List.map_cons, List.mem_cons, not_or] at hd
    have hne : e.label ≠ d := fun hc => hd.1 hc.symm
    have h2 := ih hd.2
    show detachFirst d (e :: (es ++ [edge.mk d x])) = some (edge.mk d x, e :: es)
    simp only [detachFirst, hne, ne_eq, not_false_eq_true, if_true, h2]
    rfl

theorem atMatched_depth (f : node → node) (k : String) (ks : List String) (n : node) :
    (atMatched f (k :: ks) n).depth = n.depth := by
  simp [atMatched, node.setEdges_depth]

/-- Embedding a child along an exact relative path into a node whose matched descendant has
just lost its edge s puts the child back as last edge of that descendant. -/
theorem embedInto_detachMatched (s : String) (ch : node) (rel : List String) (P Q : node)
    (hw : wildcard ∉ rel) (h : resolve rel P = some Q) :
    embedInto s ch rel (detachMatched rel s P) =
      atMatched (fun m => attachEdge s ch (m.setEdges (removeFirst s m.edges))) rel P := by
  induction rel generalizing P with
  | nil => rfl
  | cons k ks ih =>
    have hk : k ≠ wildcard := fun hc => hw (by simp [hc])
    have hks : wildcard ∉ ks := fun hc => hw (by simp [hc])
    simp only [resolve] at h
    cases hc : child? k P.edges with
    | none => simp [hc] at h
    | some c =>
      simp only [hc] at h
      cases hf : findLabel k P.edges with
      | none =>
        rw [findLabel_eq_none_iff] at hf
        rw [hf] at hc
        cases hc
      | some j =>
        have hf' : ∃ j', findLabel k (atFirst k
            (atMatched (fun n => n.setEdges (removeFirst s n.edges)) ks) P.edges) = some j' := by
          cases hf2 : findLabel k (atFirst k
              (atMatched (fun n => n.setEdges (removeFirst s n.edges)) ks) P.edges) with
          | some j' => exact ⟨j', rfl⟩
          | none =>
            rw [findLabel_eq_none_iff, child?_atFirst_same, hc] at hf2
            cases hf2
        obtain ⟨j', hj'⟩ := hf'
        simp only [detachMatched, atMatched, hk, if_false, embedInto, node.setEdges_edges, hj',
          node.setEdges_setEdges]
        congr 1
        rw [atFirst_atFirst]
        apply atFirst_congr
        intro c' hc'
        rw [hc] at hc'
        cases hc'
        exact ih c hks h

theorem relabelFirst_back (s d : String) (es : List edge) (hd : d ∉ labelsOf es) :
    relabelFirst d s (relabelFirst s d es) = es := by
  induction es with
  | nil => rfl
  | cons e es ih =>
    simp only [labelsOf, List.map_cons, List.mem_cons, not_or] at hd
    have hne : e.label ≠ d := fun hc => hd.1 hc.symm
    by_cases hl : e.label = s
    · simp only [relabelFirst, hl, ne_eq, not_true_eq_false, if_false, edge.label_mk, edge.n_mk]
      rw [← hl, edge.eta]
    · simp only [relabelFirst, hl, ne_eq, not_false_eq_true, if_true, hne]
      rw [ih hd.2]

/-- A relabel on an exact path followed by the relabel back restores the tree. -/
theorem Move_relabel_round_trip (grow : Nat → Nat) (t : Tree) (pat : List String) (s d : String)
    (Q : node) (hw : wildcard ∉ pat) (hQ : resolve pat t.root = some Q)
    (hd : d ∉ labelsOf Q.edges) :
    (Tree.Move grow t (pat ++ [s]) (pat ++ [d])).bind
      (fun t1 => Tree.Move grow t1 (pat ++ [d]) (pat ++ [s])) = some t := by
  rw [Move_relabel_eq grow t pat pat s d rfl]
  simp only [Option.some_bind]
  rw [Move_relabel_eq grow _ pat pat d s rfl]
  simp only
  rw [atMatched_atMatched, atMatched_congr_exact _ (fun n => n) pat t.root hw, atMatched_id]
  · intro n
    rfl
  · intro Q' hQ'
    rw [hQ] at hQ'
    cases hQ'
    simp only [node.setEdges_edges, node.setEdges_setEdges]
    rw [relabelFirst_back s d _ hd, node.setEdges_self]

/-- A promote on exact paths followed by the embed back puts the edge back under its
parent, as last edge. -/
theorem Move_promote_round_trip (grow : Nat → Nat) (t : Tree) (dpre rel : List String)
    (s d : String) (P Q sub : node) (hrel : rel ≠ []) (hw : wildcard ∉ dpre ++ rel)
    (hP : resolve dpre t.root = some P) (hQ : resolve rel P = some Q)
    (hsub : child? s Q.edges = some sub) (hd : d ∉ labelsOf P.edges) :
    (Tree.Move grow t (dpre ++ rel ++ [s]) (dpre ++ [d])).bind
      (fun t1 => Tree.Move grow t1 (dpre ++ [d]) (dpre ++ rel ++ [s])) =
      some ⟨atMatched (embedMoved s s []) (dpre ++ rel) t.root⟩ := by
  have hwd : wildcard ∉ dpre := fun hc => hw (by simp [hc])
  have hwr : wildcard ∉ rel := fun hc => hw (by simp [hc])
  have hlen : dpre.length < (dpre ++ rel).length := by
    have := List.length_pos.mpr hrel
    simp only [List.length_append]
    omega
  have hsrc : resolve (dpre ++ rel ++ [s]) t.root = some sub := by
    rw [resolve_append, resolve_append, hP]
    simp [hQ, resolve_singleton, hsub]
  rw [Move_promote_exact_eq grow t (dpre ++ rel) dpre s d hlen hwd,
    movedSubtrees_exact (dpre ++ rel) s t.root sub hw hsrc]
  simp only [Option.some_bind, List.foldl_cons, List.foldl_nil]
  rw [Move_embed_eq grow _ dpre dpre rel d s rfl hrel]
  simp only [Option.some.injEq, Tree.mk.injEq]
  have hr1 : detachMatched (dpre ++ rel) s t.root =
      atMatched (detachMatched rel s) dpre t.root := by
    simp only [detachMatched]
    rw [atMatched_append]
    rfl
  have hres1 : resolve dpre (detachMatched (dpre ++ rel) s t.root) =
      some (detachMatched rel s P) := by
    rw [hr1, resolve_atMatched_self _ dpre t.root hwd, hP]
    rfl
  rw [attachDeepest_eq_atMatched d sub dpre _ _ hwd hres1, hr1, atMatched_atMatched,
    atMatched_atMatched, atMatched_append]
  apply atMatched_congr_exact _ _ dpre t.root hwd
  intro P' hP'
  rw [hP] at hP'
  cases hP'
  have hlab : labelsOf (detachMatched rel s P).edges = labelsOf P.edges := by
    cases hr : rel with
    | nil => exact absurd hr hrel
    | cons k ks =>
      simp only [detachMatched]
      exact labelsOf_atMatched_cons _ k ks P
  have hd1 : d ∉ labelsOf (detachMatched rel s P).edges := by
    rw [hlab]
    exact hd
  simp only [embedMoved, attachEdge, node.setEdges_edges]
  rw [detachFirst_append_fresh d _ _ hd1]
  simp only [node.setEdges_setEdges, node.setEdges_self, edge.n_mk]
  rw [embedInto_detachMatched s _ rel P Q hwr hQ]
  apply atMatched_congr_exact _ _ rel P hwr
  intro Q' hQ'
  rw [hQ] at hQ'
  cases hQ'
  have hdet := hsub
  rw [child?_eq_detachFirst] at hdet
  cases hdf : detachFirst s Q.edges with
  | none => simp [hdf] at hdet
  | some r =>
    obtain ⟨e, rest⟩ := r
    simp only [hdf, Option.map_some', Option.some.injEq] at hdet
    obtain ⟨_, hrest⟩ := detachFirst_some s _ e rest hdf
    simp only [embedMoved, hdf, embedInto, attachEdge, node.setEdges_edges,
      node.setEdges_depth, node.setEdges_setEdges]
    rw [SetDepth_SetDepth, hdet, hrest]

theorem modifyAll_eq_self (f : node → node) (cs : List (List Nat)) (r : node)
    (h : ∀ c ∈ cs, ∀ n, nodeAt c r = some n → f n = n) : modifyAll f cs r = r := by
  induction cs with
  | nil => rfl
  | cons c cs ih =>
    rw [modifyAll_cons, modifyAt_eq_self f c r (h c (by simp))]
    exact ih (fun c' hc' => h c' (by simp [hc']))

theorem atMatched_eq_self (f : node → node) (pat : List String) (r : node)
    (h : ∀ c ∈ matchPtrs pat r, ∀ n, nodeAt c r = some n → f n = n) :
    atMatched f pat r = r := by
  rw [← modifyAll_matchPtrs]
  exact modifyAll_eq_self f _ r h

theorem movedSubtrees_eq_nil_iff (pat : List String) (s : String) (root : node) :
    movedSubtrees pat s root = [] ↔
      ∀ c ∈ matchPtrs pat root, detachFirst s (edgesAt root c) = none := by
  simp only [movedSubtrees, List.filterMap_eq_nil_iff, firstEdgeAt, Option.map_eq_none']

/-- Tree.Move on non-empty src and dst whose src matches no edge returns the tree
unchanged. -/
theorem Move_no_match_eq (grow : Nat → Nat) (t : Tree) (pat dall : List String) (s d : String)
    (h : movedSubtrees pat s t.root = []) :
    Tree.Move grow t (pat ++ [s]) (dall ++ [d]) = some t := by
  rw [movedSubtrees_eq_nil_iff] at h
  have hnode : ∀ c ∈ matchPtrs pat t.root, ∀ n, nodeAt c t.root = some n →
      detachFirst s n.edges = none := by
    intro c hc n hn
    have := h c hc
    rwa [edgesAt_of_nodeAt _ _ n hn] at this
  have hfind : ∀ c ∈ matchPtrs pat t.root, ∀ n, nodeAt c t.root = some n →
      findLabel s n.edges = none := by
    intro c hc n hn
    rw [findLabel_eq_none_iff, child?_eq_detachFirst, hnode c hc n hn]
    rfl
  by_cases h1 : dall.length = pat.length
  · rw [Move_relabel_eq grow t pat dall s d h1.symm, atMatched_eq_self]
    intro c hc n hn
    rw [relabelFirst_of_findLabel_none s d _ (hfind c hc n hn), node.setEdges_self]
  · by_cases h2 : dall.length < pat.length
    · rw [Move_promote_eq grow t pat dall s d h2]
      have hseg : promoteSegs grow pat s dall t.root = [] := by
        simp only [promoteSegs, List.filterMap_eq_nil_iff, Option.map_eq_none', firstEdgeAt]
        intro nap hnap
        apply h
        rw [← moveFrontier_ptrs grow]
        exact List.mem_map.mpr ⟨nap, hnap, rfl⟩
      rw [hseg]
      simp only [List.foldl_nil, detachMatched]
      rw [atMatched_eq_self]
      intro c hc n hn
      rw [removeFirst_of_findLabel_none s _ (hfind c hc n hn), node.setEdges_self]
    · have hsplit : dall = dall.take pat.length ++ dall.drop pat.length :=
        (List.take_append_drop _ _).symm
      have hrel : dall.drop pat.length ≠ [] := by
        intro hc
        have := congrArg List.length hc
        simp at this
        omega
      have htk : (dall.take pat.length).length = pat.length := by
        simp
        omega
      have hmove := Move_embed_eq grow t pat (dall.take pat.length) (dall.drop pat.length) s d
        htk hrel
      rw [← hsplit] at hmove
      rw [hmove, atMatched_eq_self]
      intro c hc n hn
      simp [embedMoved, hnode c hc n hn]

theorem findLabel_of_getElem?_nodup (es : List edge) (j : Nat) (e : edge)
    (hnd : (labelsOf es).Nodup) (h : es[j]? = some e) : findLabel e.label es = some j := by
  induction es generalizing j with
  | nil => simp at h
  | cons e0 es ih =>
    simp only [labelsOf, List.map_cons, List.nodup_cons] at hnd
    cases j with
    | zero =>
      simp only [List.getElem?_cons_zero, Option.some.injEq] at h
      subst h
      simp [findLabel]
    | succ j =>
      simp only [List.getElem?_cons_succ] at h
      have hne : e0.label ≠ e.label := by
        intro hc
        apply hnd.1
        rw [hc]
        exact List.mem_map.mpr ⟨e, List.getElem?_mem h, rfl⟩
      simp [findLabel, hne, ih j hnd.2 h]

theorem mem_matchIdx_iff (k : String) (es : List edge) (j : Nat) (hnd : (labelsOf es).Nodup) :
    j ∈ matchIdx k es ↔ ∃ e, es[j]? = some e ∧ (k = wildcard ∨ k = e.label) := by
  unfold matchIdx
  by_cases hw : k = wildcard
  · simp only [hw, if_true, List.mem_range', true_or, and_true]
    constructor
    · rintro ⟨i, hi, rfl⟩
      exact ⟨_, List.getElem?_eq_getElem (by omega)⟩
    · rintro ⟨e, he⟩
      have := (List.getElem?_eq_some.mp he).1
      exact ⟨j, this, by omega⟩
  · simp only [hw, if_false, Option.mem_toList, Option.mem_def, false_or]
    constructor
    · intro hf
      obtain ⟨e, he, hl⟩ := findLabel_get k es j hf
      exact ⟨e, he, hl.symm⟩
    · rintro ⟨e, he, hl⟩
      rw [hl]
      exact findLabel_of_getElem?_nodup es j e hnd he

/-- In a tree with unique labels the pointers matched by a pattern are those of the nodes
whose path from the start node agrees with the pattern. -/
theorem mem_matchPtrs_iff (pat : List String) (n : node) (c : List Nat)
    (hu : n.uniqueLabels = true) :
    c ∈ matchPtrs pat n ↔
      (nodeAt c n).isSome = true ∧ matchesPattern pat (labelsAt c n) = true := by
  induction pat generalizing n c with
  | nil =>
    simp only [matchPtrs, List.mem_singleton]
    constructor
    · rintro rfl
      simp [nodeAt, labelsAt, matchesPattern]
    · rintro ⟨h1, h2⟩
      cases c with
      | nil => rfl
      | cons j c' =>
        simp only [nodeAt] at h1
        cases he : n.edges[j]? with
        | none => simp [he] at h1
        | some e => simp [labelsAt, he, matchesPattern] at h2
  | cons k ks ih =>
    obtain ⟨hnd, hch⟩ := (node.uniqueLabels_iff n).mp hu
    simp only [matchPtrs, List.mem_flatMap]
    constructor
    · rintro ⟨j, hj, hc⟩
      obtain ⟨e, he, hk⟩ := (mem_matchIdx_iff k n.edges j hnd).mp hj
      simp only [he, List.mem_map] at hc
      obtain ⟨c', hc', rfl⟩ := hc
      have := (ih e.n c' (hch e (List.getElem?_mem he))).mp hc'
      simp only [nodeAt, he, labelsAt, matchesPattern, this.1, this.2, Bool.and_true,
        Bool.or_eq_true, decide_eq_true_eq, true_and]
      exact hk
    · rintro ⟨h1, h2⟩
      cases c with
      | nil => simp [labelsAt, matchesPattern] at h2
      | cons j c' =>
        simp only [nodeAt] at h1
        cases he : n.edges[j]? with
        | none => simp [he] at h1
        | some e =>
          simp only [he] at h1
          simp only [labelsAt, he, matchesPattern, Bool.and_eq_true, Bool.or_eq_true,
            decide_eq_true_eq] at h2
          refine ⟨j, (mem_matchIdx_iff k n.edges j hnd).mpr ⟨e, he, h2.1⟩, ?_⟩
          simp only [he, List.mem_map]
          exact ⟨c', (ih e.n c' (hch e (List.getElem?_mem he))).mpr ⟨h1, h2.2⟩, rfl⟩

theorem labelsAt_snoc_length (c : List Nat) (root Q : node) (h : nodeAt c root = some Q) :
    (labelsAt c root).length = c.length := by
  induction c generalizing root with
  | nil => rfl
  | cons j c ih =>
    simp only [nodeAt] at h
    cases he : root.edges[j]? with
    | none => simp [he] at h
    | some e =>
      simp only [he] at h
      simp [labelsAt, he, ih e.n h]
theorem readSegs_length (h : strStore) (p : strSlice) (dpre segs : List String) (i : Nat)
    (hs : readSegs h p dpre i = some segs) : segs.length = dpre.length := by
  induction dpre generalizing segs i with
  | nil =>
    simp only [readSegs, Option.some.injEq] at hs
    subst hs
    rfl
  | cons seg rest ih =>
    simp only [readSegs] at hs
    cases hl : (if seg = wildcard then p.get? h i else some seg) with
    | none => simp [hl] at hs
    | some l =>
      simp only [hl] at hs
      cases hr : readSegs h p rest (i + 1) with
      | none => simp [hr] at hs
      | some ls =>
        simp only [hr, Option.some.injEq] at hs
        subst hs
        simp [ih ls (i + 1) hr]

theorem promoteSegs_length (grow : Nat → Nat) (pat : List String) (s : String)
    (dall : List String) (root : node) (hlen : dall.length < pat.length) :
    ∀ m ∈ promoteSegs grow pat s dall root, m.1.length = dall.length := by
  intro m hm
  simp only [promoteSegs, List.mem_filterMap] at hm
  obtain ⟨nap, hnap, hopt⟩ := hm
  cases hfe : firstEdgeAt root s nap.n with
  | none => simp [hfe] at hopt
  | some e =>
    simp only [hfe, Option.map_some', Option.some.injEq] at hopt
    obtain ⟨segs, hsegs⟩ := readSegs_of_sliceWf _ nap pat.length dall 0
      (collectMoveCandidates_wf grow root pat nap hnap) (by omega)
    rw [← hopt]
    simp only [segsOf, hsegs, Option.getD_some]
    exact readSegs_length _ _ _ _ _ hsegs

theorem resolve_promote_fold (d : String) (ms : List (List String × node)) (q : List String)
    (r X : node) (hlen : ∀ m ∈ ms, m.1.length < q.length) (h : resolve q r = some X) :
    resolve q (ms.foldl (fun r m => attachDeepest d m.2 m.1 r) r) = some X := by
  induction ms generalizing r with
  | nil => exact h
  | cons m ms ih =>
    simp only [List.foldl_cons]
    apply ih _ (fun m' hm' => hlen m' (by simp [hm']))
    exact resolve_attachDeepest_longer d m.2 m.1 q r X (hlen m (by simp)) h

theorem labelsOf_embedInto (l : String) (child : node) (rel : List String) (n : node) :
    ∃ extra, labelsOf (embedInto l child rel n).edges = labelsOf n.edges ++ extra := by
  cases rel with
  | nil => exact ⟨[l], by simp [embedInto, attachEdge, node.setEdges_edges, labelsOf,
      edge.label_mk]⟩
  | cons k ks =>
    simp only [embedInto]
    cases findLabel k n.edges with
    | some j => exact ⟨[], by simp [node.setEdges_edges, labelsOf_atFirst]⟩
    | none => exact ⟨[k], by simp [node.setEdges_edges, labelsOf, edge.label_mk]⟩

theorem labelsOf_embedMoved (s l : String) (rel : List String) (Q : node) :
    ∃ extra, labelsOf (embedMoved s l rel Q).edges = labelsOf (removeFirst s Q.edges) ++ extra := by
  simp only [embedMoved]
  cases hd : detachFirst s Q.edges with
  | none =>
    have hf : findLabel s Q.edges = none := by
      rw [findLabel_eq_none_iff, child?_eq_detachFirst, hd]
      rfl
    exact ⟨[], by simp [removeFirst_of_findLabel_none s _ hf]⟩
  | some r =>
    obtain ⟨e, rest⟩ := r
    obtain ⟨_, hrest⟩ := detachFirst_some s _ e rest hd
    obtain ⟨extra, hex⟩ := labelsOf_embedInto l e.n rel (Q.setEdges rest)
    exact ⟨extra, by simpa [node.setEdges_edges, hrest] using hex⟩

/-- After a promote or embed move the matched parent is still reached by its path and
keeps its other edges in order. -/
theorem Move_parent_stays_aux (grow : Nat → Nat) (t : Tree) (pat dall : List String)
    (s d : String) (c : List Nat) (Q : node) (hu : t.root.uniqueLabels = true)
    (hc : c ∈ matchPtrs pat t.root) (hQ : nodeAt c t.root = some Q)
    (hne : dall.length ≠ pat.length) :
    ∃ t' Q', Tree.Move grow t (pat ++ [s]) (dall ++ [d]) = some t' ∧
      resolve (labelsAt c t.root) t'.root = some Q' ∧
      (∃ extra, labelsOf Q'.edges = labelsOf (removeFirst s Q.edges) ++ extra) ∧
      (dall.length < pat.length → Q' = Q.setEdges (removeFirst s Q.edges)) := by
  by_cases h2 : dall.length < pat.length
  · refine ⟨_, Q.setEdges (removeFirst s Q.edges), Move_promote_eq grow t pat dall s d h2, ?_,
      ⟨[], by simp [node.setEdges_edges]⟩, fun _ => rfl⟩
    apply resolve_promote_fold
    · intro m hm
      rw [promoteSegs_length grow pat s dall t.root h2 m hm,
        (labelsAt_snoc_length c t.root Q hQ)]
      rw [mem_matchPtrs_length pat t.root c hc]
      exact h2
    · exact resolve_labelsAt_atMatched _ pat t.root Q c hu hc hQ
  · have hsplit : dall = dall.take pat.length ++ dall.drop pat.length :=
      (List.take_append_drop _ _).symm
    have hrel : dall.drop pat.length ≠ [] := by
      intro hc'
      have := congrArg List.length hc'
      simp at this
      omega
    have htk : (dall.take pat.length).length = pat.length := by
      simp
      omega
    have hmove := Move_embed_eq grow t pat (dall.take pat.length) (dall.drop pat.length) s d
      htk hrel
    rw [← hsplit] at hmove
    exact ⟨_, _, hmove, resolve_labelsAt_atMatched _ pat t.root Q c hu hc hQ,
      labelsOf_embedMoved s d _ Q, fun h => absurd h h2⟩

theorem digitChar_toNat (d : Nat) (h : d < 10) : (digitChar d).toNat = 48 + d := by
  interval_cases d <;> rfl

theorem parseDigits_digitChar (d : Nat) (h : d < 10) (cs : List Char) (a : Nat) :
    parseDigits (digitChar d :: cs) a = parseDigits cs (10 * a + d) := by
  have hd := digitChar_toNat d h
  simp only [parseDigits, hd]
  rw [if_pos (by omega)]
  congr 2
  omega

theorem parseDigits_itoaAux : ∀ (fuel n : Nat), n < fuel →
    ∃ k : Nat, ∀ (acc : List Char) (a : Nat),
      parseDigits (itoaAux fuel n acc) a = parseDigits acc (a * 10 ^ k + n)
  | 0, n, h => by omega
  | fuel + 1, n, h => by
    by_cases hn : n < 10
    · refine ⟨1, fun acc a => ?_⟩
      simp only [itoaAux, if_pos hn]
      rw [parseDigits_digitChar n hn]
      congr 1
      omega
    · have hlt : n / 10 < fuel := by omega
      obtain ⟨k, hk⟩ := parseDigits_itoaAux fuel (n / 10) hlt
      refine ⟨k + 1, fun acc a => ?_⟩
      simp only [itoaAux, if_neg hn]
      rw [hk, parseDigits_digitChar (n % 10) (Nat.mod_lt _ (by decide))]
      congr 1
      rw [pow_succ]
      have := Nat.div_add_mod n 10
      nlinarith [this]

theorem itoaAux_ne_nil : ∀ (fuel n : Nat) (acc : List Char), acc ≠ [] ∨ 0 < fuel →
    itoaAux fuel n acc ≠ []
  | 0, n, acc, h => by
    rcases h with h | h
    · simpa [itoaAux] using h
    · omega
  | fuel + 1, n, acc, _ => by
    by_cases hn : n < 10
    · simp [itoaAux, hn]
    · simp only [itoaAux, if_neg hn]
      exact itoaAux_ne_nil fuel _ _ (Or.inl (by simp))

theorem parseLabel_itoa (n : Nat) : parseLabel (itoa n) = some n := by
  obtain ⟨k, hk⟩ := parseDigits_itoaAux (n + 1) n (by omega)
  have hne := itoaAux_ne_nil (n + 1) n [] (Or.inr (by omega))
  unfold parseLabel itoa
  show (match itoaAux (n + 1) n [] with
    | [] => none
    | cs => parseDigits cs 0) = some n
  cases hc : itoaAux (n + 1) n [] with
  | nil => exact absurd hc hne
  | cons c cs =>
    show parseDigits (c :: cs) 0 = some n
    rw [← hc, hk]
    simp [parseDigits]

theorem labelLt_itoa (a b : Nat) : labelLt (itoa a) (itoa b) = decide (a < b) := by
  simp [labelLt, parseLabel_itoa]

theorem itoa_injective (a b : Nat) (h : itoa a = itoa b) : a = b := by
  have := congrArg parseLabel h
  simpa [parseLabel_itoa] using this

theorem sortKV_of_sorted : ∀ (l : List (String × Value)),
    l.Pairwise (fun a b => labelLt a.1 b.1 = true) → sortKV l = l
  | [], _ => rfl
  | [e], _ => rfl
  | e :: x :: xs, h => by
    have ih := sortKV_of_sorted (x :: xs) (List.Pairwise.of_cons h)
    show insertKV e (sortKV (x :: xs)) = _
    rw [ih]
    have hex : labelLt e.1 x.1 = true := (List.pairwise_cons.1 h).1 x (by simp)
    simp [insertKV, hex]

theorem enumFrom_itoa_sorted : ∀ (xs : List Value) (i : Nat),
    ((xs.enumFrom i).map (fun p => (itoa p.1, p.2))).Pairwise
      (fun a b => labelLt a.1 b.1 = true)
  | [], _ => List.Pairwise.nil
  | x :: xs, i => by
    simp only [List.enumFrom_cons, List.map_cons]
    refine List.Pairwise.cons ?_ (enumFrom_itoa_sorted xs (i + 1))
    intro b hb
    obtain ⟨p, hp, rfl⟩ := List.mem_map.1 hb
    have := List.le_fst_of_mem_enumFrom hp
    simp only [labelLt_itoa, decide_eq_true_eq]
    omega

theorem expand_mk_collection (v : nodeValue) (es : List edge) (d : Nat) (h : es ≠ []) :
    (node.mk v es d true).expand =
      Value.list ((sortKV (expandEdges es)).map (fun kv => kv.2)) := by
  cases es with
  | nil => exact absurd rfl h
  | cons e rest => simp [node.expand]

theorem expand_mk_map (v : nodeValue) (es : List edge) (d : Nat) (h : es ≠ []) :
    (node.mk v es d false).expand =
      Value.map ((expandEdges es).map (fun kv => field.mk kv.1 kv.2)) := by
  cases es with
  | nil => exact absurd rfl h
  | cons e rest => simp [node.expand]

theorem fields_map_id (l : List field) :
    (l.map (fun f => match f with | .mk k v => (k, v))).map
      (fun kv => field.mk kv.1 kv.2) = l := by
  induction l with
  | nil => rfl
  | cons f fs ih => cases f; simp only [List.map_cons, ih]

theorem enumFrom_map_snd (xs : List Value) (i : Nat) :
    ((xs.enumFrom i).map (fun p => (itoa p.1, p.2))).map (fun kv => kv.2) = xs := by
  induction xs generalizing i with
  | nil => rfl
  | cons x xs ih => simp only [List.enumFrom_cons, List.map_cons, ih]

mutual
theorem expand_build : ∀ (v : Value) (d : Nat), (build v d).expand = v
  | .scalar s, d => rfl
  | .list [], d => rfl
  | .list (x :: xs), d => by
    have h := expandEdges_buildList (x :: xs) 0 (d + 1)
    have hne : buildList (x :: xs) 0 (d + 1) ≠ [] := by simp [buildList]
    show (node.mk .absent (buildList (x :: xs) 0 (d + 1)) d true).expand = _
    rw [expand_mk_collection _ _ _ hne, h, sortKV_of_sorted _ (enumFrom_itoa_sorted _ _),
      enumFrom_map_snd]
  | .map [], d => rfl
  | .map (kv :: kvs), d => by
    have h := expandEdges_buildFields (kv :: kvs) (d + 1)
    have hne : buildFields (kv :: kvs) (d + 1) ≠ [] := by cases kv; simp [buildFields]
    show (node.mk .absent (buildFields (kv :: kvs) (d + 1)) d false).expand = _
    rw [expand_mk_map _ _ _ hne, h, fields_map_id]
theorem expandEdges_buildList : ∀ (xs : List Value) (i d : Nat),
    expandEdges (buildList xs i d) = (xs.enumFrom i).map (fun p => (itoa p.1, p.2))
  | [], _, _ => rfl
  | x :: xs, i, d => by
    simp only [buildList, expandEdges, List.enumFrom_cons, List.map_cons]
    rw [expand_build x d, expandEdges_buildList xs (i + 1) d]
theorem expandEdges_buildFields : ∀ (kvs : List field) (d : Nat),
    expandEdges (buildFields kvs d) = kvs.map (fun f => match f with | .mk k v => (k, v))
  | [], _ => rfl
  | (.mk k v) :: kvs, d => by
    simp only [buildFields, expandEdges, List.map_cons]
    rw [expand_build v d, expandEdges_buildFields kvs d]
end

theorem labelLe_iff (a b : String) : labelLe a b ↔ labelLt b a = false := by
  unfold labelLe labelLt
  cases parseLabel a <;> cases parseLabel b <;> simp

theorem labelLt_asymm (a b : String) (h : labelLt a b = true) : labelLt b a = false := by
  unfold labelLt at *
  cases ha : parseLabel a <;> cases hb : parseLabel b <;> simp [ha, hb] at h ⊢
  · exact le_of_lt h
  · omega

theorem labelLe_trans (a b c : String) (h1 : labelLt b a = false) (h2 : labelLt c b = false) :
    labelLt c a = false := by
  unfold labelLt at *
  cases ha : parseLabel a <;> cases hb : parseLabel b <;> cases hc : parseLabel c <;>
    simp [ha, hb, hc] at h1 h2 ⊢
  · exact le_trans h1 h2
  · omega

theorem mem_insertEdge (e x : edge) (es : List edge) :
    x ∈ insertEdge e es ↔ x = e ∨ x ∈ es := by
  induction es with
  | nil => simp [insertEdge]
  | cons y ys ih =>
    unfold insertEdge
    split
    · simp
    · simp only [List.mem_cons, ih]
      tauto

theorem mem_sortEdges (x : edge) (es : List edge) : x ∈ sortEdges es ↔ x ∈ es := by
  induction es with
  | nil => simp [sortEdges]
  | cons y ys ih => simp [sortEdges, mem_insertEdge, ih]

theorem sortedEdges_insertEdge (e : edge) (es : List edge) (h : sortedEdges es) :
    sortedEdges (insertEdge e es) := by
  induction es with
  | nil => simp [insertEdge, sortedEdges]
  | cons y ys ih =>
    unfold sortedEdges at h ih ⊢
    obtain ⟨hy, hys⟩ := List.pairwise_cons.1 h
    unfold insertEdge
    split
    · rename_i hlt
      refine List.Pairwise.cons ?_ h
      intro b hb
      have hye : labelLt y.label e.label = false := labelLt_asymm _ _ hlt
      rcases List.mem_cons.1 hb with rfl | hb
      · exact hye
      · exact labelLe_trans _ _ _ hye (hy b hb)
    · rename_i hlt
      refine List.Pairwise.cons ?_ (ih hys)
      intro b hb
      rcases (mem_insertEdge e b ys).1 hb with rfl | hb
      · simpa using hlt
      · exact hy b hb

theorem sortedEdges_sortEdges (es : List edge) : sortedEdges (sortEdges es) := by
  induction es with
  | nil => simp [sortEdges, sortedEdges]
  | cons y ys ih => exact sortedEdges_insertEdge y _ ih

theorem sort_edges (n : node) : ∃ es, n.sort.edges = sortEdges es := by
  cases n with
  | mk v es d c => exact ⟨sortChildren es, rfl⟩

mutual
theorem everyNode_sort : ∀ (n : node), everyNode (fun m => sortedEdges m.edges) n.sort
  | .mk v es d c => by
    intro ptr m hm
    cases ptr with
    | nil =>
      simp only [nodeAt, Option.some.injEq] at hm
      subst hm
      exact sortedEdges_sortEdges _
    | cons i is =>
      simp only [nodeAt] at hm
      cases he : (node.mk v es d c).sort.edges[i]? with
      | none => simp [he] at hm
      | some e =>
        simp only [he] at hm
        have hmem : e ∈ sortEdges (sortChildren es) := List.getElem?_mem he
        rw [mem_sortEdges] at hmem
        exact everyNode_sortChildren es e hmem is m hm
theorem everyNode_sortChildren : ∀ (es : List edge) (e : edge), e ∈ sortChildren es →
    everyNode (fun m => sortedEdges m.edges) e.n
  | [], e, h => by simp [sortChildren] at h
  | (.mk l n) :: es, e, h => by
    simp only [sortChildren, List.mem_cons] at h
    rcases h with rfl | h
    · exact everyNode_sort n
    · exact everyNode_sortChildren es e h
end

theorem Del_nil (n : node) : n.Del [] = n := rfl

theorem Del_snoc (pat : List String) (s : String) (n : node) :
    n.Del (pat ++ [s]) =
      atMatched (fun m => m.setEdges (if s = wildcard then [] else removeFirst s m.edges))
        pat n := by
  simp [node.Del]

theorem Del_snoc_literal (pat : List String) (s : String) (n : node) (hs : s ≠ wildcard) :
    n.Del (pat ++ [s]) = detachMatched pat s n := by
  rw [Del_snoc]
  simp [detachMatched, hs]

theorem Del_singleton (s : String) (n : node) :
    n.Del [s] = n.setEdges (if s = wildcard then [] else removeFirst s n.edges) := by
  have := Del_snoc [] s n
  simpa [atMatched] using this

theorem Del_cons (k : String) (ks : List String) (s : String) (n : node) :
    n.Del (k :: (ks ++ [s])) =
      n.setEdges (if k = wildcard then atEvery (fun m => m.Del (ks ++ [s])) n.edges
        else atFirst k (fun m => m.Del (ks ++ [s])) n.edges) := by
  have h := Del_snoc (k :: ks) s n
  rw [List.cons_append] at h
  rw [h]
  simp only [atMatched]
  have hf : (fun m : node => m.Del (ks ++ [s])) =
      atMatched (fun m => m.setEdges (if s = wildcard then [] else removeFirst s m.edges))
        ks := by
    funext m
    exact Del_snoc ks s m
  rw [hf]

theorem resolve_setEdges (q : List String) (l : String) (n : node) (es : List edge) :
    resolve (l :: q) (n.setEdges es) = (child? l es).bind (resolve q) := by
  simp only [resolve, node.setEdges_edges]
  cases child? l es <;> rfl

theorem resolve_cons (q : List String) (l : String) (n : node) :
    resolve (l :: q) n = (child? l n.edges).bind (resolve q) := by
  simp only [resolve]
  cases child? l n.edges <;> rfl

theorem child?_removeFirst_ne (s l : String) (es : List edge) (h : s ≠ l) :
    child? l (removeFirst s es) = child? l es := by
  induction es with
  | nil => rfl
  | cons e es ih =>
    by_cases hs : e.label = s
    · have hl : e.label ≠ l := by rw [hs]; exact h
      rw [removeFirst, if_neg (by simpa using hs), child?, if_pos hl]
    · by_cases hl : e.label = l
      · rw [removeFirst, if_pos hs, child?, if_neg (by simpa using hl), child?,
          if_neg (by simpa using hl)]
      · rw [removeFirst, if_pos hs, child?, if_pos hl, child?, if_pos hl, ih]

theorem child?_uniqueLabels (k : String) (n c : node) (hu : n.uniqueLabels = true)
    (h : child? k n.edges = some c) : c.uniqueLabels = true := by
  have := resolve_uniqueLabels [k] n c hu (by simp [resolve, h])
  exact this

/-- After Del of a pattern with a literal last segment no exact path that agrees with the
pattern resolves. -/
theorem resolve_Del_matching (pat : List String) (s : String) (hs : s ≠ wildcard) :
    ∀ (n : node) (q : List String), n.uniqueLabels = true →
      matchesPattern (pat ++ [s]) q = true → resolve q (n.Del (pat ++ [s])) = none := by
  induction pat with
  | nil =>
    intro n q hu hm
    cases q with
    | nil => simp [matchesPattern] at hm
    | cons l q' =>
      cases q' with
      | cons l2 q2 => simp [matchesPattern] at hm
      | nil =>
        simp only [List.nil_append, matchesPattern, Bool.and_true, Bool.or_eq_true,
          decide_eq_true_eq] at hm
        have hl : s = l := by
          rcases hm with h | h
          · exact absurd h hs
          · exact h
        subst hl
        rw [List.nil_append, Del_singleton, if_neg hs, resolve_setEdges,
          child?_removeFirst_of_nodup s n.edges ((node.uniqueLabels_iff n).mp hu).1]
        rfl
  | cons k ks ih =>
    intro n q hu hm
    cases q with
    | nil => simp [matchesPattern] at hm
    | cons l q' =>
      simp only [List.cons_append, matchesPattern, Bool.and_eq_true, Bool.or_eq_true,
        decide_eq_true_eq] at hm
      rw [List.cons_append, Del_cons, resolve_setEdges]
      have hch : child? l (if k = wildcard then atEvery (fun m => m.Del (ks ++ [s])) n.edges
          else atFirst k (fun m => m.Del (ks ++ [s])) n.edges) =
          (child? l n.edges).map (fun m => m.Del (ks ++ [s])) := by
        by_cases hk : k = wildcard
        · rw [if_pos hk, child?_atEvery]
        · rw [if_neg hk]
          rcases hm.1 with h | h
          · exact absurd h hk
          · subst h
            rw [child?_atFirst_same]
      rw [hch]
      cases hc : child? l n.edges with
      | none => rfl
      | some c =>
        simp only [Option.map_some', Option.some_bind]
        exact ih c q' (child?_uniqueLabels l n c hu hc) hm.2

/-- After Del of a pattern with a literal last segment an exact path that does not pass
through a matching edge resolves as before, to the node with the rest of the pattern
deleted below it when the path runs along the pattern. -/
theorem resolve_Del_other (pat : List String) (s : String) (hs : s ≠ wildcard) :
    ∀ (n m : node) (q : List String), resolve q n = some m →
      matchesPattern (pat ++ [s]) (q.take (pat.length + 1)) = false →
      resolve q (n.Del (pat ++ [s])) =
        some (if matchesPattern (pat.take q.length) q = true
          then m.Del ((pat ++ [s]).drop q.length) else m) := by
  induction pat with
  | nil =>
    intro n m q hq hm
    cases q with
    | nil =>
      simp only [resolve, Option.some.injEq] at hq
      subst hq
      simp [resolve, matchesPattern]
    | cons l q' =>
      have hsl : s ≠ l := by
        intro h
        subst h
        simp [matchesPattern] at hm
      rw [List.nil_append, Del_singleton, if_neg hs, resolve_setEdges,
        child?_removeFirst_ne s l _ hsl, ← resolve_cons, hq]
      simp [matchesPattern]
  | cons k ks ih =>
    intro n m q hq hm
    cases q with
    | nil =>
      simp only [resolve, Option.some.injEq] at hq
      subst hq
      simp [resolve, matchesPattern]
    | cons l q' =>
      rw [resolve_cons] at hq
      cases hc : child? l n.edges with
      | none => simp [hc] at hq
      | some c =>
        simp only [hc, Option.some_bind] at hq
        simp only [List.cons_append, List.length_cons, List.take_succ_cons, matchesPattern,
          Bool.and_eq_false_iff, Bool.or_eq_false_iff, decide_eq_false_iff_not] at hm
        rw [List.cons_append, Del_cons, resolve_setEdges]
        by_cases hkl : k = wildcard ∨ k = l
        · have hm2 : matchesPattern (ks ++ [s]) (q'.take (ks.length + 1)) = false := by
            rcases hm with h | h
            · rcases hkl with h1 | h1
              · exact absurd h1 h.1
              · exact absurd h1 h.2
            · exact h
          have hch : child? l (if k = wildcard then
              atEvery (fun m => m.Del (ks ++ [s])) n.edges
              else atFirst k (fun m => m.Del (ks ++ [s])) n.edges) =
              (child? l n.edges).map (fun m => m.Del (ks ++ [s])) := by
            by_cases hk : k = wildcard
            · rw [if_pos hk, child?_atEvery]
            · rw [if_neg hk]
              rcases hkl with h | h
              · exact absurd h hk
              · subst h
                rw [child?_atFirst_same]
          rw [hch, hc]
          simp only [Option.map_some', Option.some_bind]
          rw [ih c m q' hq hm2]
          have hd : (decide (k = wildcard) || decide (k = l)) = true := by
            simpa using hkl
          simp [matchesPattern, hd]
        · have hk : k ≠ wildcard := fun h => hkl (Or.inl h)
          have hl : k ≠ l := fun h => hkl (Or.inr h)
          rw [if_neg hk, child?_atFirst_ne k l _ _ hl, hc]
          simp only [Option.some_bind]
          rw [hq]
          simp [matchesPattern, hk, hl]

theorem node.setEdges_Value (n : node) (es : List edge) : (n.setEdges es).Value = n.Value := by
  cases n; rfl

theorem node.setEdges_isCollection (n : node) (es : List edge) :
    (n.setEdges es).isCollection = n.isCollection := by
  cases n; rfl

theorem atEvery_nil (g : node → node) : atEvery g [] = [] := rfl

theorem atFirst_nil (k : String) (g : node → node) : atFirst k g [] = [] := rfl

/-- Del keeps the fields of the node it is called on, only edges are lost: the labels that
remain are in their old order. -/
theorem Del_fields (ks : List String) (n : node) :
    (n.Del ks).Value = n.Value ∧ (n.Del ks).depth = n.depth ∧
      (n.Del ks).isCollection = n.isCollection ∧
      (labelsOf (n.Del ks).edges).Sublist (labelsOf n.edges) ∧
      (n.edges = [] → n.Del ks = n) := by
  rcases List.eq_nil_or_concat ks with rfl | ⟨pat, s, rfl⟩
  · exact ⟨rfl, rfl, rfl, List.Sublist.refl _, fun _ => rfl⟩
  · rw [List.concat_eq_append] at *
    cases pat with
    | nil =>
      rw [List.nil_append, Del_singleton]
      refine ⟨node.setEdges_Value _ _, node.setEdges_depth _ _, node.setEdges_isCollection _ _,
        ?_, ?_⟩
      · rw [node.setEdges_edges]
        split
        · exact List.nil_sublist _
        · exact (removeFirst_sublist s n.edges).map _
      · intro he
        rw [he]
        simp only [removeFirst, ite_self]
        rw [← he, node.setEdges_self]
    | cons k ks =>
      rw [List.cons_append, Del_cons]
      refine ⟨node.setEdges_Value _ _, node.setEdges_depth _ _, node.setEdges_isCollection _ _,
        ?_, ?_⟩
      · rw [node.setEdges_edges]
        split
        · rw [labelsOf_atEvery]
        · rw [labelsOf_atFirst]
      · intro he
        rw [he]
        simp only [atEvery_nil, atFirst_nil, ite_self]
        rw [← he, node.setEdges_self]

theorem atMatched_congr_unique (f g : node → node)
    (h : ∀ m : node, m.uniqueLabels = true → f m = g m) (pat : List String) :
    ∀ n : node, n.uniqueLabels = true → atMatched f pat n = atMatched g pat n := by
  induction pat with
  | nil => intro n hu; exact h n hu
  | cons k ks ih =>
    intro n hu
    obtain ⟨_, hch⟩ := (node.uniqueLabels_iff n).mp hu
    simp only [atMatched]
    congr 1
    by_cases hk : k = wildcard
    · rw [if_pos hk, if_pos hk]
      unfold atEvery
      apply List.map_congr_left
      intro e he
      rw [ih e.n (hch e he)]
    · rw [if_neg hk, if_neg hk]
      apply atFirst_congr
      intro c hc
      exact ih c (child?_uniqueLabels k n c hu hc)

theorem removeFirst_idem_of_nodup (s : String) (es : List edge) (h : (labelsOf es).Nodup) :
    removeFirst s (removeFirst s es) = removeFirst s es := by
  apply removeFirst_of_findLabel_none
  rw [findLabel_eq_none_iff]
  exact child?_removeFirst_of_nodup s es h

/-- Del twice is Del once on a tree with unique labels. -/
theorem Del_idem (ks : List String) (n : node) (hu : n.uniqueLabels = true) :
    (n.Del ks).Del ks = n.Del ks := by
  rcases List.eq_nil_or_concat ks with rfl | ⟨pat, s, rfl⟩
  · rfl
  · rw [List.concat_eq_append, Del_snoc, Del_snoc, atMatched_atMatched]
    apply atMatched_congr_unique _ _ _ pat n hu
    intro m hm
    by_cases hs : s = wildcard
    · simp [hs, node.setEdges_setEdges]
    · simp only [if_neg hs, node.setEdges_edges, node.setEdges_setEdges]
      rw [removeFirst_idem_of_nodup s m.edges ((node.uniqueLabels_iff m).mp hm).1]

theorem matchIdx_valid (s : String) (es : List edge) (j : Nat) (h : j ∈ matchIdx s es) :
    ∃ e, es[j]? = some e := by
  unfold matchIdx at h
  split at h
  · simp only [List.mem_range'_1, zero_add] at h
    exact ⟨es[j], List.getElem?_eq_getElem h.2⟩
  · simp only [Option.mem_toList, Option.mem_def] at h
    obtain ⟨e, he, _⟩ := findLabel_get s es j h
    exact ⟨e, he⟩

theorem matchPtrs_cons_eq_nil (k : String) (ks : List String) (n : node)
    (h : matchPtrs (k :: ks) n = []) :
    ∀ j ∈ matchIdx k n.edges, ∀ e, n.edges[j]? = some e → matchPtrs ks e.n = [] := by
  intro j hj e he
  simp only [matchPtrs, List.flatMap_eq_nil_iff] at h
  have := h j hj
  simpa [he] using this

theorem matchIdx_eq_nil_of_matchPtrs (s : String) (n : node) (h : matchPtrs [s] n = []) :
    matchIdx s n.edges = [] := by
  apply List.eq_nil_iff_forall_not_mem.2
  intro j hj
  obtain ⟨e, he⟩ := matchIdx_valid s n.edges j hj
  have := matchPtrs_cons_eq_nil s [] n h j hj e he
  simp [matchPtrs] at this

/-- Del of a pattern for which the resolver finds no node leaves the node as it was. -/
theorem Del_eq_self_of_no_match (ks : List String) :
    ∀ n : node, matchPtrs ks n = [] → n.Del ks = n := by
  rcases List.eq_nil_or_concat ks with rfl | ⟨pat, s, rfl⟩
  · intro n _; rfl
  · rw [List.concat_eq_append]
    induction pat with
    | nil =>
      intro n h
      have hm := matchIdx_eq_nil_of_matchPtrs s n h
      rw [List.nil_append, Del_singleton]
      unfold matchIdx at hm
      by_cases hs : s = wildcard
      · rw [if_pos hs] at hm
        rw [if_pos hs]
        have : n.edges = [] := by
          cases hes : n.edges with
          | nil => rfl
          | cons e es => rw [hes] at hm; simp [List.range'] at hm
        rw [← this, node.setEdges_self]
      · rw [if_neg hs] at hm
        rw [if_neg hs]
        have hf : findLabel s n.edges = none := by
          cases hfl : findLabel s n.edges with
          | none => rfl
          | some j => rw [hfl] at hm; simp at hm
        rw [removeFirst_of_findLabel_none s _ hf, node.setEdges_self]
    | cons k ks ih =>
      intro n h
      rw [List.cons_append] at h
      have hch := matchPtrs_cons_eq_nil k (ks ++ [s]) n h
      rw [List.cons_append, Del_cons]
      by_cases hk : k = wildcard
      · rw [if_pos hk]
        have : atEvery (fun m => m.Del (ks ++ [s])) n.edges = n.edges := by
          unfold atEvery
          apply List.ext_getElem?
          intro j
          rw [List.getElem?_map]
          cases he : n.edges[j]? with
          | none => rfl
          | some e =>
            have hj : j ∈ matchIdx k n.edges := by
              unfold matchIdx
              rw [if_pos hk]
              have := (List.getElem?_eq_some_iff.1 he).1
              simp only [List.mem_range'_1, zero_add]
              omega
            simp only [Option.map_some']
            rw [ih e.n (hch j hj e he)]
            cases e
            rfl
        rw [this, node.setEdges_self]
      · rw [if_neg hk]
        cases hfl : findLabel k n.edges with
        | none => rw [atFirst_of_findLabel_none k _ _ hfl, node.setEdges_self]
        | some j =>
          obtain ⟨e, he, hl⟩ := findLabel_get k n.edges j hfl
          have hj : j ∈ matchIdx k n.edges := by
            unfold matchIdx
            rw [if_neg hk, hfl]
            simp
          have hc : child? k n.edges = some e.n := by
            have := findLabel_child? k n.edges j hfl
            simpa [he] using this
          have : atFirst k (fun m => m.Del (ks ++ [s])) n.edges =
              atFirst k (fun m => m) n.edges := by
            apply atFirst_congr
            intro c hc'
            rw [hc] at hc'
            cases hc'
            exact ih e.n (hch j hj e he)
          rw [this, atFirst_id k _ _ (fun _ => rfl), node.setEdges_self]

theorem Add_cons_of_some (k : String) (ks : List String) (v : Value) (n c : node)
    (h : child? k n.edges = some c) :
    n.Add (k :: ks) v = n.setEdges (atFirst k (node.Add ks v) n.edges) := by
  simp only [node.Add, h]

/-- After Add of a value at an exact path that resolved, the path resolves to the node
built from the value. -/
theorem resolve_Add_self (v : Value) (dst : List String) :
    ∀ (n D : node), resolve dst n = some D →
      resolve dst (n.Add dst v) = some (build v D.depth) := by
  induction dst with
  | nil =>
    intro n D h
    simp only [resolve, Option.some.injEq] at h
    subst h
    rfl
  | cons k ks ih =>
    intro n D h
    rw [resolve_cons] at h
    cases hc : child? k n.edges with
    | none => simp [hc] at h
    | some c =>
      simp only [hc, Option.some_bind] at h
      rw [Add_cons_of_some k ks v n c hc, resolve_setEdges, child?_atFirst_same, hc]
      simp only [Option.map_some', Option.some_bind]
      exact ih c D h

/-- After Add at an exact path that resolved, a path that does not pass through it
resolves to a node with the labels it had. -/
theorem resolve_Add_other (v : Value) (dst : List String) :
    ∀ (n P1 : node) (q : List String), (resolve dst n).isSome = true →
      ¬ dst <+: q → resolve q (n.Add dst v) = some P1 →
      ∃ P, resolve q n = some P ∧ labelsOf P1.edges = labelsOf P.edges := by
  induction dst with
  | nil =>
    intro n P1 q _ hp _
    exact absurd (List.nil_prefix) hp
  | cons k ks ih =>
    intro n P1 q hd hp hq
    rw [resolve_cons] at hd
    cases hc : child? k n.edges with
    | none => simp [hc] at hd
    | some c =>
      simp only [hc, Option.some_bind] at hd
      rw [Add_cons_of_some k ks v n c hc] at hq
      cases q with
      | nil =>
        simp only [resolve, Option.some.injEq] at hq
        subst hq
        exact ⟨n, rfl, by rw [node.setEdges_edges, labelsOf_atFirst]⟩
      | cons l q' =>
        rw [resolve_setEdges] at hq
        by_cases hl : k = l
        · subst hl
          rw [child?_atFirst_same, hc] at hq
          simp only [Option.map_some', Option.some_bind] at hq
          have hp' : ¬ ks <+: q' := by
            intro h
            exact hp ((List.prefix_cons_inj k).2 h)
          obtain ⟨P, hP, hl⟩ := ih c P1 q' hd hp' hq
          refine ⟨P, ?_, hl⟩
          rw [resolve_cons, hc]
          exact hP
        · rw [child?_atFirst_ne k l _ _ hl] at hq
          refine ⟨P1, ?_, rfl⟩
          rw [resolve_cons]
          exact hq

theorem matchesPattern_exact (p : List String) (hw : wildcard ∉ p) :
    ∀ q : List String, matchesPattern p q = true ↔ p = q := by
  induction p with
  | nil =>
    intro q
    cases q <;> simp [matchesPattern]
  | cons k ks ih =>
    intro q
    simp only [List.mem_cons, not_or] at hw
    cases q with
    | nil => simp [matchesPattern]
    | cons l q' =>
      have hk : k ≠ wildcard := fun h => hw.1 h.symm
      simp [matchesPattern, hk, ih hw.2 q']

/-- After Del of an exact path whose parent has pairwise distinct labels the path does
not resolve. -/
theorem resolve_Del_exact (pat : List String) (s : String) (n : node)
    (hw : wildcard ∉ pat) (hs : s ≠ wildcard)
    (hnd : ∀ P, resolve pat n = some P → (labelsOf P.edges).Nodup) :
    resolve (pat ++ [s]) (n.Del (pat ++ [s])) = none := by
  rw [Del_snoc_literal pat s n hs, resolve_append]
  unfold detachMatched
  rw [resolve_atMatched_self _ pat n hw]
  cases hP : resolve pat n with
  | none => rfl
  | some P =>
    simp only [Option.map_some', Option.some_bind]
    rw [resolve_setEdges, child?_removeFirst_of_nodup s P.edges (hnd P hP)]
    rfl

theorem node.setEdges_eq_mk (n : node) (es : List edge) :
    n.setEdges es = node.mk n.Value es n.depth n.isCollection := by
  cases n; rfl

theorem labelsOf_removeFirst (s : String) (es : List edge) :
    labelsOf (removeFirst s es) = (labelsOf es).erase s := by
  induction es with
  | nil => rfl
  | cons e es ih =>
    by_cases hl : e.label = s
    · simp [removeFirst, labelsOf, hl]
    · simp only [labelsOf] at ih
      simp [removeFirst, labelsOf, hl, ih, List.erase_cons_tail]

/-- The node that a promote move on exact paths leaves at dst[:-1] before the attachment
keeps the value, the depth, the collection flag and the edge labels of the old node. -/
theorem detachMatched_below (pat dpre : List String) (s : String) (P : node)
    (hlen : dpre.length < pat.length) :
    (if pat.take dpre.length = dpre then detachMatched (pat.drop dpre.length) s P
      else P).Value = P.Value ∧
    (if pat.take dpre.length = dpre then detachMatched (pat.drop dpre.length) s P
      else P).depth = P.depth ∧
    (if pat.take dpre.length = dpre then detachMatched (pat.drop dpre.length) s P
      else P).isCollection = P.isCollection ∧
    labelsOf (if pat.take dpre.length = dpre then detachMatched (pat.drop dpre.length) s P
      else P).edges = labelsOf P.edges := by
  split
  · cases hd : pat.drop dpre.length with
    | nil =>
      have := congrArg List.length hd
      simp at this
      omega
    | cons k ks =>
      simp only [detachMatched]
      exact ⟨by simp [atMatched, node.setEdges_Value], atMatched_depth _ k ks P,
        by simp [atMatched, node.setEdges_isCollection], labelsOf_atMatched_cons _ k ks P⟩
  · exact ⟨rfl, rfl, rfl, rfl⟩

theorem substAt_length (labels : List String) (dall : List String) (i : Nat) :
    (substAt labels dall i).length = dall.length := by
  induction dall generalizing i with
  | nil => rfl
  | cons seg rest ih => simp [substAt, ih]

theorem substAt_exact (labels : List String) (dall : List String) (i : Nat)
    (hw : wildcard ∉ dall) : substAt labels dall i = dall := by
  induction dall generalizing i with
  | nil => rfl
  | cons seg rest ih =>
    have h1 : seg ≠ wildcard := fun hc => hw (by simp [hc])
    have h2 : wildcard ∉ rest := fun hc => hw (by simp [hc])
    simp [substAt, h1, ih (i + 1) h2]

/-- The segments of a promote move with a wildcard-free dst[:-1] are dst[:-1] itself for
every detached edge. -/
theorem promoteSegs_exact (grow : Nat → Nat) (pat dall : List String) (s : String)
    (root : node) (hw : wildcard ∉ dall) :
    promoteSegs grow pat s dall root =
      (movedEdges pat s root).map (fun m => (substAt m.1 dall 0, m.2)) := by
  simp only [promoteSegs, movedEdges, ← moveFrontier_ptrs grow root pat, List.filterMap_map,
    List.map_filterMap]
  apply List.filterMap_congr
  intro nap _
  simp only [Function.comp, segsOf, readSegs_exact _ _ dall 0 hw, Option.getD_some]
  cases firstEdgeAt root s nap.n with
  | none => rfl
  | some e => simp [substAt_exact _ dall 0 hw]

theorem takeWhile_ne_split {α : Type} [DecidableEq α] (l : List α) (c : α) (h : c ∈ l) :
    ∃ rest, l = l.takeWhile (fun x => decide (x ≠ c)) ++ c :: rest := by
  induction l with
  | nil => simp at h
  | cons x xs ih =>
    by_cases hx : x = c
    · subst hx
      exact ⟨xs, by simp [List.takeWhile]⟩
    · have hm : c ∈ xs := by
        rcases List.mem_cons.1 h with h | h
        · exact absurd h.symm hx
        · exact h
      obtain ⟨rest, hr⟩ := ih hm
      refine ⟨rest, ?_⟩
      simp only [List.takeWhile, hx, ne_eq, not_false_eq_true, decide_True, List.cons_append]
      rw [← hr]

/-- Move followed by Get for a promote move: the source path of a matched node is absent,
and the destination holds the moved value when, at the turn of its edge, the segments of the
destination resolve to a node without an edge labelled d. -/
theorem Move_then_Get_promote (grow : Nat → Nat) (t : Tree) (pat dall : List String)
    (s d : String) (c : List Nat) (Q sub : node) (hu : t.root.uniqueLabels = true)
    (hc : c ∈ matchPtrs pat t.root) (hQ : nodeAt c t.root = some Q)
    (hsub : child? s Q.edges = some sub) (hlen : dall.length < pat.length)
    (hsegs : promoteSegs grow pat s dall t.root =
      (movedEdges pat s t.root).map (fun m => (substAt m.1 dall 0, m.2)))
    (hres : (resolve (substAt (labelsAt c t.root) dall 0)
      (promoteBefore pat s d dall t.root c)).isSome = true)
    (hfree : freeDeepest d (substAt (labelsAt c t.root) dall 0)
      (promoteBefore pat s d dall t.root c) = true) :
    ∃ t', Tree.Move grow t (pat ++ [s]) (dall ++ [d]) = some t' ∧
      t'.Get (labelsAt c t.root ++ [s]) = none ∧
      t'.Get (substAt (labelsAt c t.root) dall 0 ++ [d]) = some sub.expand := by
  have hQu := nodeAt_uniqueLabels c t.root Q hu hQ
  have hnd := ((node.uniqueLabels_iff Q).mp hQu).1
  obtain ⟨t', Q', hmove, hQ', _, hQeq⟩ :=
    Move_parent_stays_aux grow t pat dall s d c Q hu hc hQ (Nat.ne_of_lt hlen)
  refine ⟨t', hmove, ?_, ?_⟩
  · rw [Get_append _ _ _ _ hQ', resolve_singleton, hQeq hlen, node.setEdges_edges,
      child?_removeFirst_of_nodup s _ hnd]
    rfl
  · have hm2 := Move_promote_eq grow t pat dall s d hlen
    rw [hmove] at hm2
    have ht : t' = ⟨(promoteSegs grow pat s dall t.root).foldl
        (fun r m => attachDeepest d m.2 m.1 r) (detachMatched pat s t.root)⟩ :=
      Option.some.inj hm2
    obtain ⟨rest, hsplit⟩ := takeWhile_ne_split (matchPtrs pat t.root) c hc
    have hgc : (firstEdgeAt t.root s c).map (fun e => (labelsAt c t.root, e.n)) =
        some (labelsAt c t.root, sub) := by
      rw [child?_eq_detachFirst] at hsub
      simp only [firstEdgeAt, edgesAt_of_nodeAt t.root c Q hQ]
      cases hd : detachFirst s Q.edges with
      | none => simp [hd] at hsub
      | some r =>
        simp only [hd, Option.map_some', Option.some.injEq] at hsub
        simp [hsub]
    have hme : movedEdges pat s t.root =
        ((matchPtrs pat t.root).takeWhile (fun c2 => decide (c2 ≠ c))).filterMap (fun c2 =>
          (firstEdgeAt t.root s c2).map (fun e => (labelsAt c2 t.root, e.n))) ++
        (labelsAt c t.root, sub) :: rest.filterMap (fun c2 =>
          (firstEdgeAt t.root s c2).map (fun e => (labelsAt c2 t.root, e.n))) := by
      unfold movedEdges
      conv_lhs => rw [hsplit]
      rw [List.filterMap_append, List.filterMap_cons, hgc]
    cases hX : resolve (substAt (labelsAt c t.root) dall 0)
        (promoteBefore pat s d dall t.root c) with
    | none => simp [hX] at hres
    | some X =>
      have hdX := not_mem_of_freeDeepest d _ _ X hX hfree
      have hroot : t'.root = (rest.filterMap (fun c2 =>
          (firstEdgeAt t.root s c2).map (fun e => (labelsAt c2 t.root, e.n)))).foldl
          (fun r m => attachDeepest d m.2 (substAt m.1 dall 0) r)
          (attachDeepest d sub (substAt (labelsAt c t.root) dall 0)
            (promoteBefore pat s d dall t.root c)) := by
        rw [ht, hsegs, List.foldl_map, hme, List.foldl_append, List.foldl_cons]
        rfl
      have hfin : resolve (substAt (labelsAt c t.root) dall 0 ++ [d]) t'.root =
          some (sub.SetDepth (X.depth + 1)) := by
        rw [hroot, ← List.foldl_map (fun (m : List String × node) => (substAt m.1 dall 0, m.2))
          (fun r (m : List String × node) => attachDeepest d m.2 m.1 r)]
        apply resolve_promote_fold
        · intro m hm
          obtain ⟨m0, _, rfl⟩ := List.mem_map.1 hm
          simp [substAt_length]
        · rw [resolve_append, resolve_attachDeepest_self d sub _ _ X hX]
          simp only [Option.some_bind, resolve_singleton, attachEdge, node.setEdges_edges]
          rw [child?_append_of_none d _ _ ((child?_eq_none_iff d _).mpr hdX)]
          simp [child?, edge.label_mk, edge.n_mk]
      show (resolve _ t'.root).map _ = _
      rw [hfin]
      simp [expand_SetDepth]

/-- In an edge list with distinct labels, removing the first edge with a label and removing
every edge with that label are the same. -/
theorem removeFirst_eq_filter (s : String) (es : List edge) (h : (labelsOf es).Nodup) :
    removeFirst s es = es.filter (fun e => decide (e.label ≠ s)) := by
  induction es with
  | nil => rfl
  | cons e es ih =>
    simp only [labelsOf, List.map_cons, List.nodup_cons] at h
    by_cases hl : e.label = s
    · have hall : ∀ x ∈ es, x.label ≠ s := by
        intro x hx hxs
        apply h.1
        rw [hl, ← hxs]
        exact List.mem_map_of_mem _ hx
      simp only [removeFirst, hl, ne_eq, not_true_eq_false, if_false, decide_False,
        List.filter_cons_of_neg, Bool.false_eq_true, not_false_eq_true]
      rw [List.filter_eq_self.2]
      intro x hx
      simpa using hall x hx
    · simp only [labelsOf] at ih
      simp [removeFirst, hl, ih h.2]

end tree

namespace flatex

theorem get?_set_self (m : entries) (k : List Char) (v : Leaf) : get? (set m k v) k = some v := by
  induction m with
  | nil => simp [set, get?]
  | cons e r ih =>
    obtain ⟨k', v'⟩ := e
    by_cases h : k' = k
    · simp [set, get?, h]
    · simp [set, get?, h, ih]

theorem get?_set_ne (m : entries) (k k2 : List Char) (v : Leaf) (h : k2 ≠ k) :
    get? (set m k v) k2 = get? m k2 := by
  induction m with
  | nil => simp [set, get?, h.symm]
  | cons e r ih =>
    obtain ⟨k', v'⟩ := e
    by_cases h' : k' = k
    · subst h'
      simp [set, get?, h.symm]
    · by_cases h2 : k' = k2
      · subst h2
        simp [set, get?, h']
      · simp [set, get?, h', h2, ih]

theorem get?_filter (m : entries) (q : List Char → Bool) (k : List Char) :
    get? (m.filter (fun e => q e.1)) k = if q k then get? m k else none := by
  induction m with
  | nil => simp [get?]
  | cons e r ih =>
    obtain ⟨k', v'⟩ := e
    by_cases hq : q k' = true
    · by_cases h : k' = k
      · subst h
        simp [List.filter, hq, get?]
      · simp [List.filter, hq, get?, h, ih]
    · by_cases h : k' = k
      · subst h
        simp [List.filter, hq, get?, ih]
      · simp [List.filter, hq, get?, h, ih]

theorem get?_delete_self (m : entries) (k : List Char) : get? (delete m k) k = none := by
  unfold delete
  rw [get?_filter m (fun x => decide (x ≠ k)) k]
  simp

theorem get?_delete_ne (m : entries) (k k2 : List Char) (h : k2 ≠ k) :
    get? (delete m k) k2 = get? m k2 := by
  unfold delete
  rw [get?_filter m (fun x => decide (x ≠ k)) k2]
  simp [h]

theorem get?_isSome_iff (m : entries) (k : List Char) :
    (get? m k).isSome = true ↔ k ∈ keysOf m := by
  induction m with
  | nil => simp [get?, keysOf]
  | cons e r ih =>
    obtain ⟨k', v'⟩ := e
    have hk : keysOf ((k', v') :: r) = k' :: keysOf r := rfl
    rw [hk, List.mem_cons]
    by_cases h : k' = k
    · subst h
      simp only [get?, if_true, Option.isSome_some, true_or]
    · have : ¬ k = k' := fun h' => h h'.symm
      simp only [get?, h, if_false, ih, this, false_or]

theorem get?_eq_none_iff (m : entries) (k : List Char) :
    get? m k = none ↔ k ∉ keysOf m := by
  rw [← get?_isSome_iff]
  cases get? m k <;> simp

theorem HasPrefix_iff (s p : List Char) : HasPrefix s p = true ↔ p <+: s := by
  unfold HasPrefix
  exact List.isPrefixOf_iff_prefix

theorem slice_append_cons (p : List Char) (c : Char) (r : List Char) :
    slice (p ++ c :: r) p.length (p.length + 1) = some [c] := by
  unfold slice
  rw [if_pos]
  · simp
  · simp only [List.length_append, List.length_cons]
    omega

theorem suffixFrom_append (p r : List Char) : suffixFrom (p ++ r) p.length = some r := by
  unfold suffixFrom slice
  rw [if_pos]
  · simp
  · simp

theorem suffixFrom_append_succ (p : List Char) (c : Char) (r : List Char) :
    suffixFrom (p ++ c :: r) (p.length + 1) = some r := by
  have := suffixFrom_append (p ++ [c]) r
  simpa using this

theorem prefix_ne_cases (k p : List Char) (h : p <+: k) (hne : k ≠ p) :
    ∃ c r, k = p ++ c :: r := by
  obtain ⟨t, rfl⟩ := h
  cases t with
  | nil => simp at hne
  | cons c r => exact ⟨c, r, rfl⟩

theorem HasPrefix_append_sep (p : List Char) (c : Char) (r : List Char) :
    HasPrefix (p ++ c :: r) (p ++ sep) = decide (c = '.') := by
  rw [Bool.eq_iff_iff, HasPrefix_iff, decide_eq_true_iff]
  unfold sep
  constructor
  · intro h
    have h2 := (List.prefix_append_right_inj p).1 h
    have := List.cons_prefix_cons.1 h2
    exact this.1.symm
  · rintro rfl
    exact (List.prefix_append_right_inj p).2 (List.cons_prefix_cons.2 ⟨rfl, List.nil_prefix⟩)

theorem HasPrefix_of_sep (k p : List Char) (h : HasPrefix k (p ++ sep) = true) :
    HasPrefix k p = true ∧ k ≠ p := by
  rw [HasPrefix_iff] at h ⊢
  obtain ⟨t, rfl⟩ := h
  refine ⟨⟨sep ++ t, by simp⟩, ?_⟩
  intro he
  have := congrArg List.length he
  simp [sep] at this

/-- The body of the last loop of Map.Del on a key other than the pattern: the key is
deleted when it starts with the pattern followed by the separator. -/
theorem delBody_eq (pre k : List Char) (m : entries) (hk : k ≠ pre) :
    delBody pre m k = some (if HasPrefix k (pre ++ sep) then delete m k else m) := by
  unfold delBody
  by_cases hp : HasPrefix k pre = true
  · obtain ⟨c, r, rfl⟩ := prefix_ne_cases k pre ((HasPrefix_iff _ _).1 hp) hk
    rw [hp, HasPrefix_append_sep, slice_append_cons]
    by_cases hc : c = '.'
    · simp [hc, sep]
    · simp [hc, sep]
  · have hp2 : HasPrefix k (pre ++ sep) = false := by
      cases h : HasPrefix k (pre ++ sep) with
      | false => rfl
      | true => exact absurd (HasPrefix_of_sep k pre h).1 hp
    simp only [Bool.not_eq_true] at hp
    simp [hp, hp2]

/-- The body of the last loop of Map.Move on a key other than the pattern: a key that
starts with the pattern followed by the separator is entered again under the new key
followed by the separator and the rest, and deleted. -/
theorem moveBody_eq (original newKey k : List Char) (m : entries) (hk : k ≠ original) :
    moveBody original newKey m k =
      some (if HasPrefix k (original ++ sep) then
        delete (set m (newKey ++ sep ++ k.drop (original.length + 1)) (getD m k)) k
      else m) := by
  unfold moveBody
  by_cases hp : HasPrefix k original = true
  · obtain ⟨c, r, rfl⟩ := prefix_ne_cases k original ((HasPrefix_iff _ _).1 hp) hk
    rw [hp, HasPrefix_append_sep, slice_append_cons, suffixFrom_append_succ]
    have hd : (original ++ c :: r).drop (original.length + 1) = r := by
      have : original ++ c :: r = (original ++ [c]) ++ r := by simp
      rw [this, List.drop_left' (by simp)]
    rw [hd]
    by_cases hc : c = '.'
    · simp [hc, sep]
    · simp [hc, sep]
  · have hp2 : HasPrefix k (original ++ sep) = false := by
      cases h : HasPrefix k (original ++ sep) with
      | false => rfl
      | true => exact absurd (HasPrefix_of_sep k original h).1 hp
    simp only [Bool.not_eq_true] at hp
    simp [hp, hp2]

/-- A range loop whose body deletes the key it visits when the key satisfies P and does
nothing otherwise removes the visited keys that satisfy P. -/
theorem rangeKeys_delete (P : List Char → Bool) (body : entries → List Char → Option entries)
    (ks : List (List Char))
    (hbody : ∀ k ∈ ks, ∀ m, body m k = some (if P k then delete m k else m)) :
    ∀ m, rangeKeys body ks m =
      some (m.filter (fun e => !(P e.1 && decide (e.1 ∈ ks)))) := by
  induction ks with
  | nil => intro m; simp [rangeKeys]
  | cons k ks ih =>
    intro m
    have ih' := ih (fun k' hk' => hbody k' (List.mem_cons_of_mem _ hk'))
    unfold rangeKeys
    cases hg : get? m k with
    | none =>
      simp only
      rw [ih' m]
      congr 1
      apply List.filter_congr
      intro e he
      have hne : e.1 ≠ k := by
        intro h
        have := (get?_eq_none_iff m k).1 hg
        exact this (h ▸ List.mem_map_of_mem _ he)
      simp [hne]
    | some v =>
      simp only
      rw [hbody k (List.mem_cons_self _ _) m]
      simp only
      rw [ih']
      congr 1
      by_cases hP : P k = true
      · rw [if_pos hP]
        unfold delete
        rw [List.filter_filter]
        apply List.filter_congr
        intro e _
        by_cases hek : e.1 = k
        · simp [hek, hP]
        · simp [hek]
      · rw [if_neg hP]
        apply List.filter_congr
        intro e _
        by_cases hek : e.1 = k
        · simp [hek, hP]
        · simp [hek]

theorem getD_of_get? (m : entries) (k : List Char) (v : Leaf) (h : get? m k = some v) :
    getD m k = v := by
  simp [getD, h]

theorem Keys_ne_nil (s : List Char) : Keys s ≠ [] := by
  induction s with
  | nil => simp [Keys]
  | cons c cs ih =>
    unfold Keys
    split
    · simp
    · split <;> simp

theorem Keys_dotfree (k : List Char) (h : '.' ∉ k) : Keys k = [k] := by
  induction k with
  | nil => rfl
  | cons c cs ih =>
    simp only [List.mem_cons, not_or] at h
    have hc : c ≠ '.' := fun e => h.1 e.symm
    simp [Keys, hc, ih h.2]

theorem Keys_append_sep (k t : List Char) (h : '.' ∉ k) :
    Keys (k ++ '.' :: t) = k :: Keys t := by
  induction k with
  | nil => simp [Keys]
  | cons c cs ih =>
    simp only [List.mem_cons, not_or] at h
    have hc : c ≠ '.' := fun e => h.1 e.symm
    simp [Keys, hc, ih h.2]

theorem Token_cons_cons (k k2 : List Char) (ks : List (List Char)) :
    Token (k :: k2 :: ks) = k ++ '.' :: Token (k2 :: ks) := by
  simp [Token, sep]

/-- Keys after Token gives the segments back when there is a segment and no segment
contains a dot. -/
theorem Keys_Token : ∀ (p : List (List Char)), p ≠ [] → (∀ s ∈ p, '.' ∉ s) →
    Keys (Token p) = p
  | [], h, _ => absurd rfl h
  | [k], _, hd => by
    simp only [Token]
    exact Keys_dotfree k (hd k (by simp))
  | k :: k2 :: ks, _, hd => by
    rw [Token_cons_cons, Keys_append_sep k _ (hd k (by simp)),
      Keys_Token (k2 :: ks) (by simp) (fun s hs => hd s (List.mem_cons_of_mem _ hs))]

theorem Token_injective (p q : List (List Char)) (hp : p ≠ []) (hq : q ≠ [])
    (hdp : ∀ s ∈ p, '.' ∉ s) (hdq : ∀ s ∈ q, '.' ∉ s) (h : Token p = Token q) : p = q := by
  rw [← Keys_Token p hp hdp, ← Keys_Token q hq hdq, h]

theorem parseDigits_digits : ∀ (cs : List Char) (a r : Nat), tree.parseDigits cs a = some r →
    ∀ c ∈ cs, 48 ≤ c.toNat ∧ c.toNat ≤ 57
  | [], _, _, _ => by simp
  | c :: cs, a, r, h => by
    simp only [tree.parseDigits] at h
    split at h
    · rename_i hc
      intro c' hc'
      rcases List.mem_cons.1 hc' with rfl | hc'
      · exact hc
      · exact parseDigits_digits cs _ r h c' hc'
    · cases h

theorem decimal_digits (n : Nat) : ∀ c ∈ decimal n, 48 ≤ c.toNat ∧ c.toNat ≤ 57 := by
  have h := tree.parseLabel_itoa n
  unfold tree.parseLabel at h
  unfold decimal
  cases hd : (tree.itoa n).data with
  | nil => simp
  | cons c cs =>
    rw [hd] at h
    exact parseDigits_digits (c :: cs) 0 n h

theorem decimal_dotfree (n : Nat) : '.' ∉ decimal n := by
  intro h
  have := decimal_digits n '.' h
  revert this
  decide

theorem decimal_ne_hash (n : Nat) : decimal n ≠ ['#'] := by
  intro h
  have := decimal_digits n '#' (by rw [h]; simp)
  revert this
  decide

theorem decimal_chars_injective (a b : Nat) (h : decimal a = decimal b) : a = b := by
  apply tree.itoa_injective
  unfold decimal at h
  exact String.ext h

theorem snoc_prefix_unique (ks p : List (List Char)) (a b : List Char)
    (h1 : (ks ++ [a]) <+: p) (h2 : (ks ++ [b]) <+: p) : a = b := by
  obtain ⟨t1, rfl⟩ := h1
  obtain ⟨t2, h⟩ := h2
  simp only [List.append_assoc, List.append_cancel_left_eq, List.singleton_append,
    List.cons.injEq] at h
  exact h.1.symm

mutual
theorem flatten_extends : ∀ (v : Nested) (ks : List (List Char)) (u : List (List Char) × Leaf),
    u ∈ flatten v ks → ks <+: u.1
  | .leaf l, ks, u, h => by
    simp only [flatten, List.mem_singleton] at h
    subst h
    exact List.prefix_refl _
  | .list xs, ks, u, h => by
    simp only [flatten, List.mem_cons] at h
    rcases h with rfl | h
    · exact List.prefix_append _ _
    · obtain ⟨j, _, _, hp⟩ := flattenSlice_extends xs ks 0 u h
      exact (List.prefix_append _ _).trans hp
  | .map kvs, ks, u, h => by
    simp only [flatten] at h
    obtain ⟨k, _, hp⟩ := flattenMap_extends kvs ks u h
    exact (List.prefix_append _ _).trans hp
theorem flattenMap_extends : ∀ (kvs : List member) (ks : List (List Char))
    (u : List (List Char) × Leaf), u ∈ flattenMap kvs ks →
    ∃ k ∈ fieldKeys kvs, (ks ++ [k]) <+: u.1
  | [], _, _, h => by simp [flattenMap] at h
  | (.mk k v) :: kvs, ks, u, h => by
    simp only [flattenMap, List.mem_append] at h
    rcases h with h | h
    · exact ⟨k, by simp [fieldKeys], flatten_extends v _ u h⟩
    · obtain ⟨k', hk', hp⟩ := flattenMap_extends kvs ks u h
      exact ⟨k', by simp [fieldKeys, hk'], hp⟩
theorem flattenSlice_extends : ∀ (xs : List Nested) (ks : List (List Char)) (i : Nat)
    (u : List (List Char) × Leaf), u ∈ flattenSlice xs ks i →
    ∃ j, i ≤ j ∧ j < i + xs.length ∧ (ks ++ [decimal j]) <+: u.1
  | [], _, _, _, h => by simp [flattenSlice] at h
  | x :: xs, ks, i, u, h => by
    simp only [flattenSlice, List.mem_append] at h
    rcases h with h | h
    · exact ⟨i, le_refl _, by simp, flatten_extends x _ u h⟩
    · obtain ⟨j, h1, h2, hp⟩ := flattenSlice_extends xs ks (i + 1) u h
      exact ⟨j, by omega, by simp only [List.length_cons]; omega, hp⟩
end

mutual
theorem flatten_dotfree : ∀ (v : Nested) (ks : List (List Char)) (u : List (List Char) × Leaf),
    v.plainKeys = true → (∀ s ∈ ks, '.' ∉ s) → u ∈ flatten v ks → ∀ s ∈ u.1, '.' ∉ s
  | .leaf l, ks, u, _, hks, h => by
    simp only [flatten, List.mem_singleton] at h
    subst h
    exact hks
  | .list xs, ks, u, hv, hks, h => by
    simp only [flatten, List.mem_cons] at h
    rcases h with rfl | h
    · intro s hs
      rcases List.mem_append.1 hs with hs | hs
      · exact hks s hs
      · simp only [List.mem_singleton] at hs
        subst hs
        decide
    · exact flattenSlice_dotfree xs ks 0 u (by simpa [Nested.plainKeys] using hv) hks h
  | .map kvs, ks, u, hv, hks, h => by
    simp only [flatten] at h
    simp only [Nested.plainKeys, Bool.and_eq_true] at hv
    exact flattenMap_dotfree kvs ks u hv.2 hks h
theorem flattenMap_dotfree : ∀ (kvs : List member) (ks : List (List Char))
    (u : List (List Char) × Leaf), plainKeysFields kvs = true → (∀ s ∈ ks, '.' ∉ s) →
    u ∈ flattenMap kvs ks → ∀ s ∈ u.1, '.' ∉ s
  | [], _, _, _, _, h => by simp [flattenMap] at h
  | (.mk k v) :: kvs, ks, u, hv, hks, h => by
    simp only [plainKeysFields, Bool.and_eq_true, decide_eq_true_eq] at hv
    simp only [flattenMap, List.mem_append] at h
    rcases h with h | h
    · apply flatten_dotfree v (ks ++ [k]) u hv.1.2 _ h
      intro s hs
      rcases List.mem_append.1 hs with hs | hs
      · exact hks s hs
      · simp only [List.mem_singleton] at hs
        subst hs
        exact hv.1.1
    · exact flattenMap_dotfree kvs ks u hv.2 hks h
theorem flattenSlice_dotfree : ∀ (xs : List Nested) (ks : List (List Char)) (i : Nat)
    (u : List (List Char) × Leaf), plainKeysList xs = true → (∀ s ∈ ks, '.' ∉ s) →
    u ∈ flattenSlice xs ks i → ∀ s ∈ u.1, '.' ∉ s
  | [], _, _, _, _, _, h => by simp [flattenSlice] at h
  | x :: xs, ks, i, u, hv, hks, h => by
    simp only [plainKeysList, Bool.and_eq_true] at hv
    simp only [flattenSlice, List.mem_append] at h
    rcases h with h | h
    · apply flatten_dotfree x (ks ++ [decimal i]) u hv.1 _ h
      intro s hs
      rcases List.mem_append.1 hs with hs | hs
      · exact hks s hs
      · simp only [List.mem_singleton] at hs
        subst hs
        exact decimal_dotfree i
    · exact flattenSlice_dotfree xs ks (i + 1) u hv.2 hks h
end

mutual
theorem flatten_nodup : ∀ (v : Nested) (ks : List (List Char)), v.plainKeys = true →
    ((flatten v ks).map (fun u => u.1)).Nodup
  | .leaf l, ks, _ => by simp [flatten]
  | .list xs, ks, hv => by
    simp only [flatten, List.map_cons, List.nodup_cons]
    refine ⟨?_, flattenSlice_nodup xs ks 0 (by simpa [Nested.plainKeys] using hv)⟩
    intro hm
    obtain ⟨u, hu, he⟩ := List.mem_map.1 hm
    obtain ⟨j, _, _, hp⟩ := flattenSlice_extends xs ks 0 u hu
    rw [he] at hp
    exact decimal_ne_hash j (snoc_prefix_unique ks _ _ _ hp (List.prefix_refl _))
  | .map kvs, ks, hv => by
    simp only [Nested.plainKeys, Bool.and_eq_true, decide_eq_true_eq] at hv
    simp only [flatten]
    exact flattenMap_nodup kvs ks hv.1 hv.2
theorem flattenMap_nodup : ∀ (kvs : List member) (ks : List (List Char)),
    (fieldKeys kvs).Nodup → plainKeysFields kvs = true →
    ((flattenMap kvs ks).map (fun u => u.1)).Nodup
  | [], _, _, _ => by simp [flattenMap]
  | (.mk k v) :: kvs, ks, hnd, hv => by
    simp only [plainKeysFields, Bool.and_eq_true, decide_eq_true_eq] at hv
    simp only [fieldKeys, List.nodup_cons] at hnd
    simp only [flattenMap, List.map_append]
    refine List.Nodup.append (flatten_nodup v _ hv.1.2) (flattenMap_nodup kvs ks hnd.2 hv.2) ?_
    intro p hp1 hp2
    obtain ⟨u1, hu1, he1⟩ := List.mem_map.1 hp1
    obtain ⟨u2, hu2, he2⟩ := List.mem_map.1 hp2
    have h1 := flatten_extends v _ u1 hu1
    obtain ⟨k', hk', h2⟩ := flattenMap_extends kvs ks u2 hu2
    rw [he1] at h1
    rw [he2] at h2
    have := snoc_prefix_unique ks p k k' h1 h2
    exact hnd.1 (this ▸ hk')
theorem flattenSlice_nodup : ∀ (xs : List Nested) (ks : List (List Char)) (i : Nat),
    plainKeysList xs = true → ((flattenSlice xs ks i).map (fun u => u.1)).Nodup
  | [], _, _, _ => by simp [flattenSlice]
  | x :: xs, ks, i, hv => by
    simp only [plainKeysList, Bool.and_eq_true] at hv
    simp only [flattenSlice, List.map_append]
    refine List.Nodup.append (flatten_nodup x _ hv.1) (flattenSlice_nodup xs ks (i + 1) hv.2) ?_
    intro p hp1 hp2
    obtain ⟨u1, hu1, he1⟩ := List.mem_map.1 hp1
    obtain ⟨u2, hu2, he2⟩ := List.mem_map.1 hp2
    have h1 := flatten_extends x _ u1 hu1
    obtain ⟨j, hj, _, h2⟩ := flattenSlice_extends xs ks (i + 1) u2 hu2
    rw [he1] at h1
    rw [he2] at h2
    have := decimal_chars_injective _ _ (snoc_prefix_unique ks p _ _ h1 h2)
    omega
end

theorem applyUpdates_cons (u : List (List Char) × Leaf) (us : List (List (List Char) × Leaf))
    (m : entries) : applyUpdates (u :: us) m = applyUpdates us (set m (Token u.1) u.2) := rfl

theorem get?_applyUpdates_of_not_mem : ∀ (us : List (List (List Char) × Leaf)) (m : entries)
    (K : List Char), K ∉ us.map (fun u => Token u.1) →
    get? (applyUpdates us m) K = get? m K
  | [], _, _, _ => rfl
  | u :: us, m, K, h => by
    simp only [List.map_cons, List.mem_cons, not_or] at h
    rw [applyUpdates_cons, get?_applyUpdates_of_not_mem us _ K h.2, get?_set_ne _ _ _ _ h.1]

/-- After the updates, a key holds the value of the one call that wrote it when no two
calls write the same key. -/
theorem get?_applyUpdates_of_mem : ∀ (us : List (List (List Char) × Leaf)) (m : entries)
    (u : List (List Char) × Leaf), (us.map (fun u => Token u.1)).Nodup → u ∈ us →
    get? (applyUpdates us m) (Token u.1) = some u.2
  | [], _, _, _, h => by simp at h
  | u1 :: us, m, u, hnd, h => by
    simp only [List.map_cons, List.nodup_cons] at hnd
    rw [applyUpdates_cons]
    rcases List.mem_cons.1 h with rfl | h
    · rw [get?_applyUpdates_of_not_mem us _ _ hnd.1, get?_set_self]
    · exact get?_applyUpdates_of_mem us _ u hnd.2 h

/-- A value stored by the updates is the value of one of the calls, or was in the map. -/
theorem get?_applyUpdates_source : ∀ (us : List (List (List Char) × Leaf)) (m : entries)
    (K : List Char) (v : Leaf), get? (applyUpdates us m) K = some v →
    (∃ u ∈ us, Token u.1 = K ∧ u.2 = v) ∨ get? m K = some v
  | [], _, _, _, h => Or.inr h
  | u1 :: us, m, K, v, h => by
    rw [applyUpdates_cons] at h
    rcases get?_applyUpdates_source us _ K v h with ⟨u, hu, h1, h2⟩ | h'
    · exact Or.inl ⟨u, List.mem_cons_of_mem _ hu, h1, h2⟩
    · by_cases hk : K = Token u1.1
      · subst hk
        rw [get?_set_self] at h'
        cases h'
        exact Or.inl ⟨u1, List.mem_cons_self _ _, rfl, rfl⟩
      · rw [get?_set_ne _ _ _ _ hk] at h'
        exact Or.inr h'

mutual
theorem flatten_valueAt : ∀ (v w : Nested) (p ks : List (List Char)), valueAt v p = some w →
    ∀ u ∈ flatten w (ks ++ p), u ∈ flatten v ks
  | .leaf l, w, p, ks, h => by
    cases p with
    | nil =>
      simp only [valueAt, Option.some.injEq] at h
      subst h
      simp
    | cons k p => simp [valueAt] at h
  | .list xs, w, p, ks, h => by
    cases p with
    | nil =>
      simp only [valueAt, Option.some.injEq] at h
      subst h
      simp
    | cons k p =>
      simp only [valueAt] at h
      intro u hu
      simp only [flatten, List.mem_cons]
      exact Or.inr (flattenSlice_valueAt xs w 0 k p ks h u hu)
  | .map kvs, w, p, ks, h => by
    cases p with
    | nil =>
      simp only [valueAt, Option.some.injEq] at h
      subst h
      simp
    | cons k p =>
      simp only [valueAt] at h
      intro u hu
      simp only [flatten]
      exact flattenMap_valueAt kvs w k p ks h u hu
theorem flattenSlice_valueAt : ∀ (xs : List Nested) (w : Nested) (i : Nat) (k : List Char)
    (p ks : List (List Char)), valueAtList xs i k p = some w →
    ∀ u ∈ flatten w (ks ++ k :: p), u ∈ flattenSlice xs ks i
  | [], _, _, _, _, _, h => by simp [valueAtList] at h
  | x :: xs, w, i, k, p, ks, h => by
    simp only [valueAtList] at h
    intro u hu
    simp only [flattenSlice, List.mem_append]
    split at h
    · rename_i hk
      subst hk
      left
      apply flatten_valueAt x w p (ks ++ [decimal i]) h
      simpa using hu
    · exact Or.inr (flattenSlice_valueAt xs w (i + 1) k p ks h u hu)
theorem flattenMap_valueAt : ∀ (kvs : List member) (w : Nested) (k : List Char)
    (p ks : List (List Char)), valueAtFields kvs k p = some w →
    ∀ u ∈ flatten w (ks ++ k :: p), u ∈ flattenMap kvs ks
  | [], _, _, _, _, h => by simp [valueAtFields] at h
  | (.mk k' v) :: kvs, w, k, p, ks, h => by
    simp only [valueAtFields] at h
    intro u hu
    simp only [flattenMap, List.mem_append]
    split at h
    · rename_i hk
      subst hk
      left
      apply flatten_valueAt v w p (ks ++ [k']) h
      simpa using hu
    · exact Or.inr (flattenMap_valueAt kvs w k p ks h u hu)
end

theorem flattenSlice_leaf : ∀ (xs : List Nested) (ks : List (List Char)) (i j : Nat) (l : Leaf),
    xs[j]? = some (.leaf l) → (ks ++ [decimal (i + j)], l) ∈ flattenSlice xs ks i
  | [], _, _, _, _, h => by simp at h
  | x :: xs, ks, i, j, l, h => by
    simp only [flattenSlice, List.mem_append]
    cases j with
    | zero =>
      simp only [List.getElem?_cons_zero, Option.some.injEq] at h
      subst h
      left
      simp [flatten]
    | succ j =>
      simp only [List.getElem?_cons_succ] at h
      right
      have := flattenSlice_leaf xs ks (i + 1) j l h
      rwa [show i + 1 + j = i + (j + 1) by omega] at this

/-- The keys written by Flatten for an input whose map keys are distinct and contain no
dot are pairwise distinct. -/
theorem flattenMap_tokens_nodup (m : List member) (h : (Nested.map m).plainKeys = true) :
    ((flattenMap m []).map (fun u => Token u.1)).Nodup := by
  have hnd := flatten_nodup (.map m) [] h
  simp only [flatten] at hnd
  have hmap : (flattenMap m []).map (fun u => Token u.1) =
      ((flattenMap m []).map (fun u => u.1)).map Token := by
    rw [List.map_map]
    rfl
  rw [hmap]
  apply List.Nodup.map_on _ hnd
  intro p hp q hq he
  obtain ⟨u1, hu1, rfl⟩ := List.mem_map.1 hp
  obtain ⟨u2, hu2, rfl⟩ := List.mem_map.1 hq
  have hne : ∀ u ∈ flattenMap m [], u.1 ≠ [] := by
    intro u hu hnil
    obtain ⟨k, _, hp⟩ := flattenMap_extends m [] u hu
    rw [hnil] at hp
    simp at hp
  have hdf : ∀ u ∈ flattenMap m [], ∀ s ∈ u.1, '.' ∉ s := by
    intro u hu
    exact flatten_dotfree (.map m) [] u h (by simp) (by simpa [flatten] using hu)
  exact Token_injective _ _ (hne u1 hu1) (hne u2 hu2) (hdf u1 hu1) (hdf u2 hu2) he

/-- A range loop that goes through any list of keys, the keys of entries that its body
creates among them, and whose body enters the value of a visited key that satisfies P
again under the key f k and deletes the visited key, for every key but o: when o is not a
key, no new key satisfies P or is o, and f is injective on the keys that satisfy P, the loop
returns, the values move from k to f k and everything else stays. -/
theorem rangeKeys_moveAny (P : List Char → Bool) (f : List Char → List Char)
    (body : entries → List Char → Option entries) (o : List Char)
    (hinj : ∀ k k2, P k = true → P k2 = true → f k = f k2 → k = k2)
    (hbody : ∀ k, k ≠ o → ∀ m', body m' k =
      some (if P k then delete (set m' (f k) (getD m' k)) k else m')) :
    ∀ (ks : List (List Char)) (m : entries), get? m o = none →
      (∀ k, P k = true → (get? m k).isSome = true → P (f k) = false ∧ f k ≠ o) →
      ∃ m', rangeKeys body ks m = some m' ∧
        (∀ k ∈ ks, P k = true → ∀ v, get? m k = some v → get? m' (f k) = some v) ∧
        (∀ k ∈ ks, P k = true → get? m' k = none) ∧
        (∀ x, P x = false →
          (∀ k ∈ ks, P k = true → (get? m k).isSome = true → f k ≠ x) →
          get? m' x = get? m x) ∧
        (∀ x, x ∉ ks → P x = true → get? m' x = get? m x) := by
  intro ks
  induction ks with
  | nil =>
    intro m _ _
    exact ⟨m, rfl, by simp, by simp, fun _ _ _ => rfl, fun _ _ _ => rfl⟩
  | cons k1 ks ih =>
    intro m ho hPf
    have hskip : (P k1 = true → get? m k1 = none) →
        (∀ m', rangeKeys body ks m = some m' →
        (∀ k ∈ ks, P k = true → ∀ v, get? m k = some v → get? m' (f k) = some v) →
        (∀ k ∈ ks, P k = true → get? m' k = none) →
        (∀ x, P x = false →
          (∀ k ∈ ks, P k = true → (get? m k).isSome = true → f k ≠ x) →
          get? m' x = get? m x) →
        (∀ x, x ∉ ks → P x = true → get? m' x = get? m x) →
        (∀ k ∈ k1 :: ks, P k = true → ∀ v, get? m k = some v → get? m' (f k) = some v) ∧
        (∀ k ∈ k1 :: ks, P k = true → get? m' k = none) ∧
        (∀ x, P x = false →
          (∀ k ∈ k1 :: ks, P k = true → (get? m k).isSome = true → f k ≠ x) →
          get? m' x = get? m x) ∧
        (∀ x, x ∉ k1 :: ks → P x = true → get? m' x = get? m x)) := by
      intro hk1none m' _ h1 h2 h3 h4
      refine ⟨?_, ?_, ?_, ?_⟩
      · intro k hk hP v hv
        rcases List.mem_cons.1 hk with rfl | hk
        · rw [hk1none hP] at hv; cases hv
        · exact h1 k hk hP v hv
      · intro k hk hP
        rcases List.mem_cons.1 hk with rfl | hk
        · by_cases hin : k ∈ ks
          · exact h2 k hin hP
          · rw [h4 k hin hP]
            exact hk1none hP
        · exact h2 k hk hP
      · intro x hx hf
        exact h3 x hx (fun k hk hP hs => hf k (List.mem_cons_of_mem _ hk) hP hs)
      · intro x hx hP
        exact h4 x (fun h => hx (List.mem_cons_of_mem _ h)) hP
    unfold rangeKeys
    cases hg : get? m k1 with
    | none =>
      simp only
      obtain ⟨m', hr, h1, h2, h3, h4⟩ := ih m ho hPf
      exact ⟨m', hr, hskip (fun _ => hg) m' hr h1 h2 h3 h4⟩
    | some v1 =>
      simp only
      have hk1o : k1 ≠ o := fun h => by rw [h, ho] at hg; cases hg
      rw [hbody k1 hk1o m]
      by_cases hP1 : P k1 = true
      · simp only [hP1, if_true]
        obtain ⟨hPf1, hfo⟩ := hPf k1 hP1 (by rw [hg]; rfl)
        have hne1 : f k1 ≠ k1 := fun h => by rw [h, hP1] at hPf1; cases hPf1
        rw [getD_of_get? m k1 v1 hg]
        have hm1 : ∀ x, x ≠ k1 → x ≠ f k1 →
            get? (delete (set m (f k1) v1) k1) x = get? m x := by
          intro x hx1 hx2
          rw [get?_delete_ne _ _ _ hx1, get?_set_ne _ _ _ _ hx2]
        have hmP : ∀ x, P x = true → x ≠ k1 →
            get? (delete (set m (f k1) v1) k1) x = get? m x := by
          intro x hPx hx
          exact hm1 x hx (fun h => by rw [h, hPf1] at hPx; cases hPx)
        have hmN : ∀ x, P x = false → x ≠ f k1 →
            get? (delete (set m (f k1) v1) k1) x = get? m x := by
          intro x hPx hx
          exact hm1 x (fun h => by rw [h, hP1] at hPx; cases hPx) hx
        have hdel : get? (delete (set m (f k1) v1) k1) k1 = none := get?_delete_self _ _
        have ho1 : get? (delete (set m (f k1) v1) k1) o = none := by
          rw [hm1 o (fun h => hk1o h.symm) (fun h => hfo h.symm)]
          exact ho
        have hPf' : ∀ k, P k = true → (get? (delete (set m (f k1) v1) k1) k).isSome = true →
            P (f k) = false ∧ f k ≠ o := by
          intro k hP hs
          by_cases hk : k = k1
          · rw [hk, hdel] at hs
            cases hs
          · rw [hmP k hP hk] at hs
            exact hPf k hP hs
        obtain ⟨m', hr, h1, h2, h3, h4⟩ := ih (delete (set m (f k1) v1) k1) ho1 hPf'
        refine ⟨m', hr, ?_, ?_, ?_, ?_⟩
        · intro k hk hP v hv
          by_cases hkk : k = k1
          · subst hkk
            rw [hg] at hv
            cases hv
            rw [h3 (f k) hPf1 (fun k2 hk2 hP2 hs h => by
                have := hinj k2 k hP2 hP h
                rw [this, hdel] at hs
                cases hs),
              get?_delete_ne _ _ _ hne1, get?_set_self]
          · rcases List.mem_cons.1 hk with rfl | hk
            · exact absurd rfl hkk
            · apply h1 k hk hP v
              rw [hmP k hP hkk]
              exact hv
        · intro k hk hP
          by_cases hin : k ∈ ks
          · exact h2 k hin hP
          · rcases List.mem_cons.1 hk with rfl | hk
            · rw [h4 k hin hP]
              exact hdel
            · exact absurd hk hin
        · intro x hx hf
          have hx2 : x ≠ f k1 := fun h =>
            hf k1 (List.mem_cons_self _ _) hP1 (by simp [hg]) h.symm
          rw [h3 x hx, hmN x hx hx2]
          intro k hk hP hs
          apply hf k (List.mem_cons_of_mem _ hk) hP
          by_cases hkk : k = k1
          · rw [hkk, hg]
            rfl
          · rw [hmP k hP hkk] at hs
            exact hs
        · intro x hx hP
          have hx1 : x ≠ k1 := fun h => hx (h ▸ List.mem_cons_self _ _)
          rw [h4 x (fun h => hx (List.mem_cons_of_mem _ h)) hP, hmP x hP hx1]
      · simp only [hP1, Bool.false_eq_true, if_false]
        obtain ⟨m', hr, h1, h2, h3, h4⟩ := ih m ho hPf
        exact ⟨m', hr, hskip (fun h => absurd h hP1) m' hr h1 h2 h3 h4⟩

/-- Map.Move on a key present in the map and a new key other than it: the call returns,
the map then holds at the new key the value formerly at the key, the key is absent, and
every other key is unchanged. -/
theorem Move_existing_key (ord : List (List Char) → List (List Char)) (fuel : Nat) (m : Map)
    (original newKey : List Char) (v : Leaf) (h : get? m.m original = some v)
    (hne : newKey ≠ original) :
    ∃ m', m.Move ord (fuel + 1) original newKey = some m' ∧
      get? m'.m newKey = some v ∧ get? m'.m original = none ∧
      ∀ k, k ≠ original → k ≠ newKey → get? m'.m k = get? m.m k := by
  refine ⟨⟨delete (set m.m newKey v) original⟩, ?_, ?_, ?_, ?_⟩
  · simp [Map.Move, moveEntries, h]
  · show get? (delete (set m.m newKey v) original) newKey = some v
    rw [get?_delete_ne _ _ _ hne, get?_set_self]
  · exact get?_delete_self _ _
  · intro k h1 h2
    show get? (delete (set m.m newKey v) original) k = get? m.m k
    rw [get?_delete_ne _ _ _ h1, get?_set_ne _ _ _ _ h2]

/-- The from_struct test: the key b.a is moved to c. -/
theorem Move_existing_key_witness :
    ∃ m', Map.Move id (0 + 1) exNestedStruct "b.a".data "c".data = some m' ∧
      get? m'.m "c".data = some (.int 42) ∧ get? m'.m "b.a".data = none ∧
      ∀ k, k ≠ "b.a".data → k ≠ "c".data → get? m'.m k = get? exNestedStruct.m k :=
  Move_existing_key id 0 exNestedStruct "b.a".data "c".data (.int 42) (by decide) (by decide)

theorem find?_put_self (k : List Char) (v : Nested) (l : List member) :
    find? k (put k v l) = some v := by
  induction l with
  | nil => simp [put, find?]
  | cons e r ih =>
    obtain ⟨k', v'⟩ := e
    unfold put
    split
    · simp [find?]
    · split
      · simp [find?]
      · rename_i h1 h2
        have : ¬ k' = k := fun h => h2 h.symm
        simp [find?, this, ih]

theorem find?_put_ne (k k2 : List Char) (v : Nested) (l : List member) (h : k2 ≠ k) :
    find? k2 (put k v l) = find? k2 l := by
  induction l with
  | nil => simp [put, find?, h.symm]
  | cons e r ih =>
    obtain ⟨k', v'⟩ := e
    unfold put
    split
    · simp [find?, h.symm]
    · split
      · rename_i h1 h2
        subst h2
        simp [find?, h.symm]
      · by_cases hk : k' = k2
        · simp [find?, hk]
        · simp [find?, hk, ih]

theorem mem_fieldKeys_put (k x : List Char) (v : Nested) (l : List member) :
    x ∈ fieldKeys (put k v l) ↔ x = k ∨ x ∈ fieldKeys l := by
  induction l with
  | nil => simp [put, fieldKeys]
  | cons e r ih =>
    obtain ⟨k', v'⟩ := e
    unfold put
    split
    · simp [fieldKeys]
    · split
      · rename_i h1 h2
        subst h2
        simp [fieldKeys]
      · simp only [fieldKeys, List.mem_cons, ih]
        tauto

theorem find?_eq_none_iff (k : List Char) (l : List member) :
    find? k l = none ↔ k ∉ fieldKeys l := by
  induction l with
  | nil => simp [find?, fieldKeys]
  | cons e r ih =>
    obtain ⟨k', v'⟩ := e
    by_cases hk : k' = k
    · simp [find?, fieldKeys, hk]
    · have : ¬ k = k' := fun h => hk h.symm
      simp [find?, fieldKeys, hk, this, ih]

theorem sorted_put (k : List Char) (v : Nested) (l : List member)
    (h : (fieldKeys l).Pairwise (· < ·)) : (fieldKeys (put k v l)).Pairwise (· < ·) := by
  induction l with
  | nil => simp [put, fieldKeys]
  | cons e r ih =>
    obtain ⟨k', v'⟩ := e
    simp only [fieldKeys, List.pairwise_cons] at h
    unfold put
    split
    · rename_i hlt
      simp only [fieldKeys, List.pairwise_cons, List.mem_cons]
      refine ⟨?_, h⟩
      rintro x (rfl | hx)
      · exact hlt
      · exact lt_trans hlt (h.1 x hx)
    · split
      · rename_i h1 h2
        subst h2
        simp only [fieldKeys, List.pairwise_cons]
        exact h
      · rename_i h1 h2
        simp only [fieldKeys, List.pairwise_cons]
        refine ⟨?_, ih h.2⟩
        intro x hx
        rcases (mem_fieldKeys_put k x v r).1 hx with rfl | hx
        · rcases lt_trichotomy x k' with h3 | h3 | h3
          · exact absurd h3 h1
          · exact absurd h3 h2
          · exact h3
        · exact h.1 x hx

/-- Two nested Go maps with the same value under every key are the same list. -/
theorem sorted_ext : ∀ (l1 l2 : List member), (fieldKeys l1).Pairwise (· < ·) →
    (fieldKeys l2).Pairwise (· < ·) → (∀ k, find? k l1 = find? k l2) → l1 = l2
  | [], [], _, _, _ => rfl
  | [], (.mk k v) :: r, _, _, h => by
    have := h k
    simp [find?] at this
  | (.mk k v) :: r, [], _, _, h => by
    have := h k
    simp [find?] at this
  | (.mk k1 v1) :: r1, (.mk k2 v2) :: r2, h1, h2, h => by
    simp only [fieldKeys, List.pairwise_cons] at h1 h2
    have hk : k1 = k2 := by
      by_contra hne
      have e1 := h k1
      have e2 := h k2
      have hne' : ¬ k2 = k1 := fun h => hne h.symm
      simp only [find?, if_true, hne', if_false] at e1
      simp only [find?, if_true, hne, if_false] at e2
      have m1 : k1 ∈ fieldKeys r2 := by
        by_contra hn
        rw [(find?_eq_none_iff k1 r2).2 hn] at e1
        exact absurd e1 (by simp)
      have m2 : k2 ∈ fieldKeys r1 := by
        by_contra hn
        rw [(find?_eq_none_iff k2 r1).2 hn] at e2
        exact absurd e2 (by simp)
      exact lt_asymm (h1.1 k2 m2) (h2.1 k1 m1)
    subst hk
    have hv : v1 = v2 := by
      have := h k1
      simpa [find?] using this
    subst hv
    have hr : r1 = r2 := by
      apply sorted_ext r1 r2 h1.2 h2.2
      intro k
      by_cases hk : k1 = k
      · subst hk
        rw [(find?_eq_none_iff k1 r1).2 (fun hm => lt_irrefl _ (h1.1 k1 hm)),
          (find?_eq_none_iff k1 r2).2 (fun hm => lt_irrefl _ (h2.1 k1 hm))]
      · have := h k
        simpa [find?, hk] using this
    rw [hr]

theorem put_comm (k k2 : List Char) (v v2 : Nested) (l : List member)
    (h : (fieldKeys l).Pairwise (· < ·)) (hne : k ≠ k2) :
    put k v (put k2 v2 l) = put k2 v2 (put k v l) := by
  apply sorted_ext _ _ (sorted_put _ _ _ (sorted_put _ _ _ h))
    (sorted_put _ _ _ (sorted_put _ _ _ h))
  intro x
  by_cases h1 : x = k
  · subst h1
    rw [find?_put_self, find?_put_ne _ _ _ _ hne, find?_put_self]
  · by_cases h2 : x = k2
    · subst h2
      rw [find?_put_ne _ _ _ _ h1, find?_put_self, find?_put_self]
    · rw [find?_put_ne _ _ _ _ h1, find?_put_ne _ _ _ _ h2, find?_put_ne _ _ _ _ h2,
        find?_put_ne _ _ _ _ h1]

theorem put_put (k : List Char) (v v2 : Nested) (l : List member) :
    put k v (put k v2 l) = put k v l := by
  induction l with
  | nil => simp [put]
  | cons e r ih =>
    obtain ⟨k', v'⟩ := e
    by_cases h1 : k < k'
    · simp [put, h1]
    · by_cases h2 : k = k'
      · subst h2
        simp [put]
      · simp [put, h1, h2, ih]

theorem assign_cons_cons (v : Leaf) (k k2 : List Char) (ks : List (List Char))
    (z : List member) :
    assign v (k :: k2 :: ks) z =
      (subMap (find? k z)).bind (fun s =>
        (assign v (k2 :: ks) s).map (fun s' => put k (.map s') z)) := by
  simp only [assign]
  cases h : find? k z with
  | none => simp [subMap]
  | some x =>
    cases x with
    | leaf l => simp [subMap]
    | list xs => simp [subMap]
    | map sub => simp [subMap]

theorem assign_singleton (v : Leaf) (k : List Char) (z : List member) :
    assign v [k] z = some (put k (.leaf v) z) := rfl

theorem orderedFields_put (k : List Char) (v : Nested) (l : List member)
    (hl : orderedFields l) (hv : v.ordered) : orderedFields (put k v l) := by
  induction l with
  | nil => simp [put, orderedFields, hv]
  | cons e r ih =>
    obtain ⟨k', v'⟩ := e
    simp only [orderedFields] at hl
    unfold put
    split
    · simp only [orderedFields]
      exact ⟨hv, hl⟩
    · split
      · simp only [orderedFields]
        exact ⟨hv, hl.2⟩
      · simp only [orderedFields]
        exact ⟨hl.1, ih hl.2⟩

theorem ordered_of_find? (k : List Char) (v : Nested) (l : List member)
    (hl : orderedFields l) (h : find? k l = some v) : v.ordered := by
  induction l with
  | nil => simp [find?] at h
  | cons e r ih =>
    obtain ⟨k', v'⟩ := e
    simp only [orderedFields] at hl
    simp only [find?] at h
    split at h
    · cases h
      exact hl.1
    · exact ih hl.2 h

theorem ordered_map_put (k : List Char) (v : Nested) (l : List member)
    (hl : (Nested.map l).ordered) (hv : v.ordered) : (Nested.map (put k v l)).ordered := by
  simp only [Nested.ordered] at hl ⊢
  exact ⟨sorted_put k v l hl.1, orderedFields_put k v l hl.2 hv⟩

theorem ordered_subMap (k : List Char) (z s : List member) (hz : (Nested.map z).ordered)
    (h : subMap (find? k z) = some s) : (Nested.map s).ordered := by
  cases hf : find? k z with
  | none =>
    rw [hf] at h
    simp only [subMap, Option.some.injEq] at h
    subst h
    simp [Nested.ordered, fieldKeys, orderedFields]
  | some x =>
    rw [hf] at h
    cases x with
    | leaf l => simp [subMap] at h
    | list xs => simp [subMap] at h
    | map sub =>
      simp only [subMap, Option.some.injEq] at h
      subst h
      simp only [Nested.ordered] at hz
      exact ordered_of_find? k _ z hz.2 hf

theorem assign_ordered (v : Leaf) : ∀ (p : List (List Char)) (z z' : List member),
    (Nested.map z).ordered → assign v p z = some z' → (Nested.map z').ordered
  | [], _, _, _, h => by simp [assign] at h
  | [k], z, z', hz, h => by
    simp only [assign, Option.some.injEq] at h
    subst h
    exact ordered_map_put k _ z hz (by simp [Nested.ordered])
  | k :: k2 :: ks, z, z', hz, h => by
    rw [assign_cons_cons] at h
    cases hs : subMap (find? k z) with
    | none => simp [hs] at h
    | some s =>
      simp only [hs, Option.some_bind, Option.map_eq_some'] at h
      obtain ⟨s', hs', rfl⟩ := h
      exact ordered_map_put k _ z hz
        (assign_ordered v (k2 :: ks) s s' (ordered_subMap k z s hz hs) hs')

theorem subMap_put_ne (k k2 : List Char) (v : Nested) (z : List member) (h : k2 ≠ k) :
    subMap (find? k2 (put k v z)) = subMap (find? k2 z) := by
  rw [find?_put_ne _ _ _ _ h]

theorem subMap_put_self (k : List Char) (s z : List member) :
    subMap (find? k (put k (.map s) z)) = some s := by
  rw [find?_put_self]
  rfl

/-- The head of an assignment: the value entered under the first key depends only on the
value found under that key. -/
theorem assign_head (v : Leaf) (k : List Char) (ps : List (List Char)) :
    ∃ F : Option Nested → Option Nested,
      ∀ z : List member, assign v (k :: ps) z = (F (find? k z)).map (fun X => put k X z) := by
  cases ps with
  | nil => exact ⟨fun _ => some (.leaf v), fun z => rfl⟩
  | cons k2 ks =>
    refine ⟨fun o => (subMap o).bind (fun s => (assign v (k2 :: ks) s).map Nested.map),
      fun z => ?_⟩
    rw [assign_cons_cons]
    show _ = Option.map (fun X => put k X z)
      ((subMap (find? k z)).bind (fun s => (assign v (k2 :: ks) s).map Nested.map))
    cases subMap (find? k z) with
    | none => rfl
    | some s =>
      simp only [Option.some_bind, Option.map_map]
      rfl

/-- The assignments of two entries whose key paths are not one the beginning of the other
can be made in either order. -/
theorem assign_comm (v w : Leaf) : ∀ (p q : List (List Char)) (z : List member),
    (Nested.map z).ordered → ¬ p <+: q → ¬ q <+: p →
    (assign v p z).bind (assign w q) = (assign w q z).bind (assign v p)
  | [], q, _, _, hp, _ => absurd List.nil_prefix hp
  | _ :: _, [], _, _, _, hq => absurd List.nil_prefix hq
  | k :: ps, k' :: qs, z, hz, hp, hq => by
    by_cases hk : k = k'
    · subst hk
      have hp' : ¬ ps <+: qs := fun h => hp ((List.prefix_cons_inj k).2 h)
      have hq' : ¬ qs <+: ps := fun h => hq ((List.prefix_cons_inj k).2 h)
      cases ps with
      | nil => exact absurd List.nil_prefix hp'
      | cons k2 ks =>
        cases qs with
        | nil => exact absurd List.nil_prefix hq'
        | cons k2' ks' =>
          rw [assign_cons_cons, assign_cons_cons]
          cases hs : subMap (find? k z) with
          | none => rfl
          | some s =>
            have ih := assign_comm v w (k2 :: ks) (k2' :: ks') s
              (ordered_subMap k z s hz hs) hp' hq'
            simp only [Option.some_bind]
            have e1 : ∀ s1 : List member,
                assign w (k :: k2' :: ks') (put k (.map s1) z) =
                  (assign w (k2' :: ks') s1).map (fun s' => put k (.map s') z) := by
              intro s1
              rw [assign_cons_cons, subMap_put_self]
              simp only [Option.some_bind, put_put]
            have e2 : ∀ s1 : List member,
                assign v (k :: k2 :: ks) (put k (.map s1) z) =
                  (assign v (k2 :: ks) s1).map (fun s' => put k (.map s') z) := by
              intro s1
              rw [assign_cons_cons, subMap_put_self]
              simp only [Option.some_bind, put_put]
            have l1 : ((assign v (k2 :: ks) s).map (fun s' => put k (.map s') z)).bind
                (assign w (k :: k2' :: ks')) =
                ((assign v (k2 :: ks) s).bind (assign w (k2' :: ks'))).map
                  (fun s' => put k (.map s') z) := by
              cases assign v (k2 :: ks) s with
              | none => rfl
              | some s1 => simp only [Option.map_some', Option.some_bind, e1]
            have l2 : ((assign w (k2' :: ks') s).map (fun s' => put k (.map s') z)).bind
                (assign v (k :: k2 :: ks)) =
                ((assign w (k2' :: ks') s).bind (assign v (k2 :: ks))).map
                  (fun s' => put k (.map s') z) := by
              cases assign w (k2' :: ks') s with
              | none => rfl
              | some s1 => simp only [Option.map_some', Option.some_bind, e2]
            rw [l1, l2, ih]
    · obtain ⟨F, hF⟩ := assign_head v k ps
      obtain ⟨G, hG⟩ := assign_head w k' qs
      simp only [Nested.ordered] at hz
      have hk' : k' ≠ k := fun h => hk h.symm
      rw [hF z, hG z]
      cases hf : F (find? k z) with
      | none =>
        cases hg : G (find? k' z) with
        | none => rfl
        | some Y =>
          simp only [Option.map_none', Option.none_bind, Option.map_some', Option.some_bind]
          rw [hF, find?_put_ne _ _ _ _ hk, hf]
          rfl
      | some X =>
        simp only [Option.map_some', Option.some_bind]
        rw [hG, find?_put_ne _ _ _ _ hk']
        cases hg : G (find? k' z) with
        | none => rfl
        | some Y =>
          simp only [Option.map_some', Option.some_bind]
          rw [hF, find?_put_ne _ _ _ _ hk, hf]
          simp only [Option.map_some']
          rw [put_comm k' k Y X z hz.1 hk']

theorem assignAll_nil (z : List member) : assignAll [] z = some z := rfl

theorem assignAll_cons (u : List (List Char) × Leaf) (us : List (List (List Char) × Leaf))
    (z : List member) :
    assignAll (u :: us) z = (assign u.2 u.1 z).bind (assignAll us) := by
  unfold assignAll
  simp only [List.foldl, Option.some_bind]
  cases assign u.2 u.1 z with
  | some z' => rfl
  | none =>
    simp only [Option.none_bind]
    induction us with
    | nil => rfl
    | cons u' us ih => simpa [List.foldl] using ih

theorem assignAll_append (us vs : List (List (List Char) × Leaf)) (z : List member) :
    assignAll (us ++ vs) z = (assignAll us z).bind (assignAll vs) := by
  induction us generalizing z with
  | nil => simp [assignAll_nil]
  | cons u us ih =>
    rw [List.cons_append, assignAll_cons, assignAll_cons]
    cases assign u.2 u.1 z with
    | none => rfl
    | some z' => simp only [Option.some_bind, ih]

theorem assignAll_ordered : ∀ (us : List (List (List Char) × Leaf)) (z z' : List member),
    (Nested.map z).ordered → assignAll us z = some z' → (Nested.map z').ordered
  | [], z, z', hz, h => by
    simp only [assignAll_nil, Option.some.injEq] at h
    exact h ▸ hz
  | u :: us, z, z', hz, h => by
    rw [assignAll_cons] at h
    cases ha : assign u.2 u.1 z with
    | none => simp [ha] at h
    | some z1 =>
      simp only [ha, Option.some_bind] at h
      exact assignAll_ordered us z1 z' (assign_ordered u.2 u.1 z z1 hz ha) h

/-- The loop of Map.Expand gives the same map for every order in which it visits entries
whose key paths are pairwise not one the beginning of the other. -/
theorem assignAll_perm (us us' : List (List (List Char) × Leaf)) (hp : us.Perm us')
    (hinc : ∀ x ∈ us, ∀ y ∈ us, x ≠ y → ¬ x.1 <+: y.1)
    (z : List member) (hz : (Nested.map z).ordered) :
    assignAll us z = assignAll us' z := by
  classical
  let g : Option (List member) → List (List Char) × Leaf → Option (List member) :=
    fun acc u => acc.bind (fun t => if (Nested.map t).ordered then assign u.2 u.1 t else none)
  have hg : ∀ (l : List (List (List Char) × Leaf)) (acc : Option (List member)),
      (∀ t, acc = some t → (Nested.map t).ordered) →
      l.foldl g acc = l.foldl (fun acc u => acc.bind (assign u.2 u.1)) acc := by
    intro l
    induction l with
    | nil => intro acc _; rfl
    | cons u l ih =>
      intro acc hacc
      simp only [List.foldl]
      have hstep : g acc u = acc.bind (assign u.2 u.1) := by
        cases acc with
        | none => rfl
        | some t => simp [g, hacc t rfl]
      rw [hstep]
      apply ih
      intro t ht
      cases acc with
      | none => simp at ht
      | some t0 =>
        simp only [Option.some_bind] at ht
        exact assign_ordered u.2 u.1 t0 t (hacc t0 rfl) ht
  have hcomm : ∀ x ∈ us, ∀ y ∈ us, ∀ acc, g (g acc x) y = g (g acc y) x := by
    intro x hx y hy acc
    by_cases hxy : x = y
    · rw [hxy]
    cases acc with
    | none => rfl
    | some t =>
      by_cases ht : (Nested.map t).ordered
      · have h1 : g (some t) x = assign x.2 x.1 t := by simp [g, ht]
        have h2 : g (some t) y = assign y.2 y.1 t := by simp [g, ht]
        have h3 : ∀ (o : Option (List member)) (u : List (List Char) × Leaf),
            (∀ t', o = some t' → (Nested.map t').ordered) → g o u = o.bind (assign u.2 u.1) := by
          intro o u ho
          cases o with
          | none => rfl
          | some t' => simp [g, ho t' rfl]
        rw [h1, h2, h3 _ y (fun t' h => assign_ordered x.2 x.1 t t' ht h),
          h3 _ x (fun t' h => assign_ordered y.2 y.1 t t' ht h)]
        exact assign_comm x.2 y.2 x.1 y.1 t ht (hinc x hx y hy hxy)
          (hinc y hy x hx (fun h => hxy h.symm))
      · simp [g, ht]
  have := hp.foldl_eq' hcomm (some z)
  rw [hg us (some z) (fun t ht => by cases ht; exact hz),
    hg us' (some z) (fun t ht => by cases ht; exact hz)] at this
  exact this

theorem set_of_not_mem (m : entries) (k : List Char) (v : Leaf) (h : k ∉ keysOf m) :
    set m k v = m ++ [(k, v)] := by
  induction m with
  | nil => rfl
  | cons e r ih =>
    obtain ⟨k', v'⟩ := e
    have hk : keysOf ((k', v') :: r) = k' :: keysOf r := rfl
    rw [hk, List.mem_cons, not_or] at h
    have hne : ¬ k' = k := fun e => h.1 e.symm
    simp [set, hne, ih h.2]

/-- The updates of Flatten enter one entry per call, in the order of the calls, when no
two calls have the same key. -/
theorem applyUpdates_eq_map : ∀ (us : List (List (List Char) × Leaf)) (m : entries),
    (us.map (fun u => Token u.1)).Nodup → (∀ u ∈ us, Token u.1 ∉ keysOf m) →
    applyUpdates us m = m ++ us.map (fun u => (Token u.1, u.2))
  | [], m, _, _ => by simp [applyUpdates]
  | u :: us, m, hnd, hfresh => by
    simp only [List.map_cons, List.nodup_cons] at hnd
    rw [applyUpdates_cons, set_of_not_mem m _ _ (hfresh u (List.mem_cons_self _ _)),
      applyUpdates_eq_map us _ hnd.2]
    · simp
    · intro u' hu'
      have hk : keysOf (m ++ [(Token u.1, u.2)]) = keysOf m ++ [Token u.1] := by
        simp [keysOf]
      rw [hk, List.mem_append, not_or]
      refine ⟨hfresh u' (List.mem_cons_of_mem _ hu'), ?_⟩
      simp only [List.mem_singleton]
      intro he
      exact hnd.1 (he ▸ List.mem_map_of_mem (fun u => Token u.1) hu')

mutual
theorem flatten_incomparable : ∀ (v : Nested) (ks : List (List Char)), v.plainKeys = true →
    ∀ x ∈ flatten v ks, ∀ y ∈ flatten v ks, x.1 <+: y.1 → x.1 = y.1
  | .leaf l, ks, _ => by
    intro x hx y hy _
    simp only [flatten, List.mem_singleton] at hx hy
    rw [hx, hy]
  | .list xs, ks, hv => by
    intro x hx y hy hp
    simp only [flatten, List.mem_cons] at hx hy
    have hs := flattenSlice_incomparable xs ks 0 (by simpa [Nested.plainKeys] using hv)
    rcases hx with rfl | hx
    · rcases hy with rfl | hy
      · rfl
      · obtain ⟨j, _, _, hj⟩ := flattenSlice_extends xs ks 0 y hy
        exact absurd (snoc_prefix_unique ks y.1 _ _ hj hp) (decimal_ne_hash j)
    · rcases hy with rfl | hy
      · obtain ⟨j, _, _, hj⟩ := flattenSlice_extends xs ks 0 x hx
        exact absurd (snoc_prefix_unique ks _ _ _ (hj.trans hp) (List.prefix_refl _))
          (decimal_ne_hash j)
      · exact hs x hx y hy hp
  | .map kvs, ks, hv => by
    simp only [Nested.plainKeys, Bool.and_eq_true, decide_eq_true_eq] at hv
    simp only [flatten]
    exact flattenMap_incomparable kvs ks hv.1 hv.2
theorem flattenMap_incomparable : ∀ (kvs : List member) (ks : List (List Char)),
    (fieldKeys kvs).Nodup → plainKeysFields kvs = true →
    ∀ x ∈ flattenMap kvs ks, ∀ y ∈ flattenMap kvs ks, x.1 <+: y.1 → x.1 = y.1
  | [], _, _, _ => by
    intro x hx
    simp [flattenMap] at hx
  | (.mk k v) :: kvs, ks, hnd, hv => by
    simp only [plainKeysFields, Bool.and_eq_true, decide_eq_true_eq] at hv
    simp only [fieldKeys, List.nodup_cons] at hnd
    intro x hx y hy hp
    simp only [flattenMap, List.mem_append] at hx hy
    rcases hx with hx | hx
    · rcases hy with hy | hy
      · exact flatten_incomparable v _ hv.1.2 x hx y hy hp
      · obtain ⟨k', hk', h2⟩ := flattenMap_extends kvs ks y hy
        have h1 := (flatten_extends v _ x hx).trans hp
        exact absurd ((snoc_prefix_unique ks y.1 k k' h1 h2) ▸ hk') hnd.1
    · rcases hy with hy | hy
      · obtain ⟨k', hk', h2⟩ := flattenMap_extends kvs ks x hx
        have h1 := flatten_extends v _ y hy
        exact absurd ((snoc_prefix_unique ks y.1 k k' h1 (h2.trans hp)) ▸ hk') hnd.1
      · exact flattenMap_incomparable kvs ks hnd.2 hv.2 x hx y hy hp
theorem flattenSlice_incomparable : ∀ (xs : List Nested) (ks : List (List Char)) (i : Nat),
    plainKeysList xs = true →
    ∀ x ∈ flattenSlice xs ks i, ∀ y ∈ flattenSlice xs ks i, x.1 <+: y.1 → x.1 = y.1
  | [], _, _, _ => by
    intro x hx
    simp [flattenSlice] at hx
  | v :: xs, ks, i, hv => by
    simp only [plainKeysList, Bool.and_eq_true] at hv
    intro x hx y hy hp
    simp only [flattenSlice, List.mem_append] at hx hy
    rcases hx with hx | hx
    · rcases hy with hy | hy
      · exact flatten_incomparable v _ hv.1 x hx y hy hp
      · obtain ⟨j, hj, _, h2⟩ := flattenSlice_extends xs ks (i + 1) y hy
        have h1 := (flatten_extends v _ x hx).trans hp
        have := decimal_chars_injective _ _ (snoc_prefix_unique ks y.1 _ _ h1 h2)
        omega
    · rcases hy with hy | hy
      · obtain ⟨j, hj, _, h2⟩ := flattenSlice_extends xs ks (i + 1) x hx
        have h1 := flatten_extends v _ y hy
        have := decimal_chars_injective _ _ (snoc_prefix_unique ks y.1 _ _ h1 (h2.trans hp))
        omega
      · exact flattenSlice_incomparable xs ks (i + 1) hv.2 x hx y hy hp
end

mutual
theorem flatten_shift : ∀ (v : Nested) (ks : List (List Char)),
    flatten v ks = (flatten v []).map (fun u => (ks ++ u.1, u.2))
  | .leaf l, ks => by simp [flatten]
  | .list xs, ks => by
    simp only [flatten, List.map_cons, List.nil_append]
    rw [flattenSlice_shift xs ks 0]
  | .map kvs, ks => by
    simp only [flatten]
    exact flattenMap_shift kvs ks
theorem flattenMap_shift : ∀ (kvs : List member) (ks : List (List Char)),
    flattenMap kvs ks = (flattenMap kvs []).map (fun u => (ks ++ u.1, u.2))
  | [], _ => rfl
  | (.mk k v) :: kvs, ks => by
    simp only [flattenMap, List.map_append, List.nil_append]
    rw [flattenMap_shift kvs ks, flatten_shift v (ks ++ [k]), flatten_shift v [k]]
    simp [List.map_map, Function.comp_def]
theorem flattenSlice_shift : ∀ (xs : List Nested) (ks : List (List Char)) (i : Nat),
    flattenSlice xs ks i = (flattenSlice xs [] i).map (fun u => (ks ++ u.1, u.2))
  | [], _, _ => rfl
  | v :: xs, ks, i => by
    simp only [flattenSlice, List.map_append, List.nil_append]
    rw [flattenSlice_shift xs ks (i + 1), flatten_shift v (ks ++ [decimal i]),
      flatten_shift v [decimal i]]
    simp [List.map_map, Function.comp_def]
end

theorem assignAll_below_aux (k : List Char) (z : List member) :
    ∀ (us : List (List (List Char) × Leaf)) (s : List member), (∀ u ∈ us, u.1 ≠ []) →
    assignAll (us.map (fun u => (k :: u.1, u.2))) (put k (.map s) z) =
      (assignAll us s).map (fun s' => put k (.map s') z)
  | [], s, _ => rfl
  | u :: us, s, hne => by
    obtain ⟨p, v⟩ := u
    cases p with
    | nil => exact absurd rfl (hne _ (List.mem_cons_self _ _))
    | cons k2 ks =>
      rw [List.map_cons, assignAll_cons, assignAll_cons]
      simp only
      rw [assign_cons_cons, subMap_put_self]
      simp only [Option.some_bind]
      cases ha : assign v (k2 :: ks) s with
      | none => rfl
      | some s1 =>
        simp only [Option.map_some', Option.some_bind, put_put]
        exact assignAll_below_aux k z us s1 (fun u hu => hne u (List.mem_cons_of_mem _ hu))

/-- The loop of Map.Expand over entries that all lie below a key that is not yet in the
map enters under the key the map built from the rest of their key paths. -/
theorem assignAll_below (k : List Char) (z : List member)
    (us : List (List (List Char) × Leaf)) (hus : us ≠ []) (hne : ∀ u ∈ us, u.1 ≠ [])
    (hk : find? k z = none) :
    assignAll (us.map (fun u => (k :: u.1, u.2))) z =
      (assignAll us []).map (fun s' => put k (.map s') z) := by
  cases us with
  | nil => exact absurd rfl hus
  | cons u us =>
    obtain ⟨p, v⟩ := u
    cases p with
    | nil => exact absurd rfl (hne _ (List.mem_cons_self _ _))
    | cons k2 ks =>
      rw [List.map_cons, assignAll_cons, assignAll_cons]
      simp only
      rw [assign_cons_cons, hk]
      simp only [subMap, Option.some_bind]
      cases ha : assign v (k2 :: ks) [] with
      | none => rfl
      | some s1 =>
        simp only [Option.map_some', Option.some_bind]
        exact assignAll_below_aux k z us s1 (fun u hu => hne u (List.mem_cons_of_mem _ hu))

theorem flatten_ne_nil : ∀ (v : Nested) (ks : List (List Char)), v.recordable = true →
    flatten v ks ≠ []
  | .leaf l, ks, _ => by simp [flatten]
  | .list xs, ks, _ => by simp [flatten]
  | .map [], ks, h => by simp [Nested.recordable] at h
  | .map ((.mk k v) :: kvs), ks, h => by
    simp only [Nested.recordable, recordableFields, Bool.and_eq_true] at h
    simp only [flatten, flattenMap, ne_eq, List.append_eq_nil, not_and]
    intro h1
    exact absurd h1 (flatten_ne_nil v _ h.2.1.2)

theorem flatten_below (v : Nested) (k : List Char) :
    flatten v [k] = (flatten v []).map (fun u => (k :: u.1, u.2)) := by
  rw [flatten_shift v [k]]
  rfl

theorem flatten_root_ne_nil (kvs : List member) :
    ∀ u ∈ flattenMap kvs [], u.1 ≠ [] := by
  intro u hu hnil
  obtain ⟨k, _, hp⟩ := flattenMap_extends kvs [] u hu
  rw [hnil] at hp
  simp at hp

theorem flattenSlice_root_ne_nil (xs : List Nested) (i : Nat) :
    ∀ u ∈ flattenSlice xs [] i, u.1 ≠ [] := by
  intro u hu hnil
  obtain ⟨j, _, _, hp⟩ := flattenSlice_extends xs [] i u hu
  rw [hnil] at hp
  simp at hp

mutual
theorem assignAll_flatten : ∀ (v : Nested) (k : List Char) (z : List member),
    v.recordable = true → v.plainKeys = true → find? k z = none →
    assignAll (flatten v [k]) z = some (put k v.raw z)
  | .leaf l, k, z, _, _, _ => rfl
  | .list xs, k, z, hr, hp, hk => by
    rw [flatten_below]
    have hne : ∀ u ∈ flatten (.list xs) [], u.1 ≠ [] := by
      intro u hu
      simp only [flatten, List.nil_append, List.mem_cons] at hu
      rcases hu with rfl | hu
      · simp
      · exact flattenSlice_root_ne_nil xs 0 u hu
    rw [assignAll_below k z _ (by simp [flatten]) hne hk]
    simp only [flatten, List.nil_append]
    rw [assignAll_cons]
    simp only [assign_singleton, Option.some_bind]
    rw [assignAll_flattenSlice xs 0 _ (by simpa [Nested.recordable] using hr)
      (by simpa [Nested.plainKeys] using hp)]
    · rfl
    · intro j _
      rw [find?_put_ne _ _ _ _ (decimal_ne_hash j)]
      rfl
  | .map kvs, k, z, hr, hp, hk => by
    simp only [Nested.plainKeys, Bool.and_eq_true, decide_eq_true_eq] at hp
    have hr' : recordableFields kvs = true := by
      simp only [Nested.recordable, Bool.and_eq_true] at hr
      exact hr.2
    rw [flatten_below]
    have hne : ∀ u ∈ flatten (.map kvs) [], u.1 ≠ [] := by
      intro u hu
      simp only [flatten] at hu
      exact flatten_root_ne_nil kvs u hu
    rw [assignAll_below k z _ (flatten_ne_nil (.map kvs) [] hr) hne hk]
    simp only [flatten]
    rw [assignAll_flattenMap kvs [] hr' hp.2 hp.1 (fun _ _ => rfl)]
    rfl
theorem assignAll_flattenMap : ∀ (kvs : List member) (z : List member),
    recordableFields kvs = true → plainKeysFields kvs = true → (fieldKeys kvs).Nodup →
    (∀ k ∈ fieldKeys kvs, find? k z = none) →
    assignAll (flattenMap kvs []) z = some (rawInto kvs z)
  | [], z, _, _, _, _ => rfl
  | (.mk k v) :: kvs, z, hr, hp, hnd, hfresh => by
    simp only [recordableFields, Bool.and_eq_true] at hr
    simp only [plainKeysFields, Bool.and_eq_true] at hp
    simp only [fieldKeys, List.nodup_cons] at hnd
    simp only [flattenMap, List.nil_append]
    rw [assignAll_append, assignAll_flatten v k z hr.1.2 hp.1.2
      (hfresh k (by simp [fieldKeys]))]
    simp only [Option.some_bind]
    rw [assignAll_flattenMap kvs _ hr.2 hp.2 hnd.2]
    · rfl
    · intro k' hk'
      have hne : k' ≠ k := fun h => hnd.1 (h ▸ hk')
      rw [find?_put_ne _ _ _ _ hne]
      exact hfresh k' (by simp [fieldKeys, hk'])
theorem assignAll_flattenSlice : ∀ (xs : List Nested) (i : Nat) (z : List member),
    recordableList xs = true → plainKeysList xs = true →
    (∀ j, i ≤ j → find? (decimal j) z = none) →
    assignAll (flattenSlice xs [] i) z = some (rawListInto xs i z)
  | [], _, z, _, _, _ => rfl
  | v :: xs, i, z, hr, hp, hfresh => by
    simp only [recordableList, Bool.and_eq_true] at hr
    simp only [plainKeysList, Bool.and_eq_true] at hp
    simp only [flattenSlice, List.nil_append]
    rw [assignAll_append, assignAll_flatten v (decimal i) z hr.1 hp.1 (hfresh i (le_refl _))]
    simp only [Option.some_bind]
    rw [assignAll_flattenSlice xs (i + 1) _ hr.2 hp.2]
    · rfl
    · intro j hj
      have hne : decimal j ≠ decimal i := fun h => by
        have := decimal_chars_injective _ _ h
        omega
      rw [find?_put_ne _ _ _ _ hne]
      exact hfresh j (by omega)
end

theorem expandMembers_cons (k : List Char) (v : Nested) (r : List member) :
    expandMembers (.mk k v :: r) =
      (expandValue v).bind (fun v' => (expandMembers r).map (fun r' => .mk k v' :: r')) := by
  simp only [expandMembers]
  cases expandValue v <;> cases expandMembers r <;> rfl

/-- The loop of expandNestedCollections after an assignment under a new key. -/
theorem expandMembers_put (k : List Char) (X : Nested) :
    ∀ (l : List member), k ∉ fieldKeys l →
    expandMembers (put k X l) =
      (expandValue X).bind (fun X' => (expandMembers l).map (fun l' => put k X' l'))
  | [], _ => by
    simp only [put, expandMembers_cons]
    cases expandValue X <;> rfl
  | (.mk k' v') :: r, h => by
    simp only [fieldKeys, List.mem_cons, not_or] at h
    by_cases h1 : k < k'
    · simp only [put, h1, if_true]
      rw [expandMembers_cons, expandMembers_cons]
      cases expandValue X with
      | none => rfl
      | some X' =>
        simp only [Option.some_bind]
        cases expandValue v' with
        | none => rfl
        | some v'' =>
          simp only [Option.some_bind]
          cases expandMembers r with
          | none => rfl
          | some r' => simp [put, h1]
    · simp only [put, h1, if_false, h.1]
      rw [expandMembers_cons, expandMembers_cons, expandMembers_put k X r h.2]
      cases expandValue X with
      | none =>
        cases expandValue v' <;> rfl
      | some X' =>
        simp only [Option.some_bind]
        cases expandValue v' with
        | none => rfl
        | some v'' =>
          simp only [Option.some_bind]
          cases expandMembers r with
          | none => rfl
          | some r' => simp [put, h1, h.1]

theorem mem_fieldKeys_rawInto (kvs : List member) (acc : List member) (x : List Char) :
    x ∈ fieldKeys (rawInto kvs acc) ↔ x ∈ fieldKeys kvs ∨ x ∈ fieldKeys acc := by
  induction kvs generalizing acc with
  | nil => simp [rawInto, fieldKeys]
  | cons e r ih =>
    obtain ⟨k, v⟩ := e
    simp only [rawInto, ih, mem_fieldKeys_put, fieldKeys, List.mem_cons]
    tauto

theorem valueAt_nil (v : Nested) : valueAt v [] = some v := by
  cases v <;> rfl

/-- The value under a key after the entries of a map with distinct keys were assigned. -/
theorem find?_canonInto : ∀ (kvs acc : List member) (k : List Char), (fieldKeys kvs).Nodup →
    find? k (canonInto kvs acc) =
      match valueAtFields kvs k [] with
      | some v => some v.canon
      | none => find? k acc
  | [], acc, k, _ => rfl
  | (.mk k1 v1) :: r, acc, k, hnd => by
    simp only [fieldKeys, List.nodup_cons] at hnd
    simp only [canonInto, valueAtFields]
    rw [find?_canonInto r _ k hnd.2]
    by_cases hk : k1 = k
    · subst hk
      have hnone : valueAtFields r k1 [] = none := by
        have hn : k1 ∉ fieldKeys r := hnd.1
        clear hnd
        induction r with
        | nil => rfl
        | cons e r ih =>
          obtain ⟨k2, v2⟩ := e
          simp only [fieldKeys, List.mem_cons, not_or] at hn
          have : ¬ k2 = k1 := fun h => hn.1 h.symm
          simp only [valueAtFields, this, if_false]
          exact ih hn.2
      rw [hnone, if_pos rfl, valueAt_nil, find?_put_self]
    · rw [if_neg hk]
      cases valueAtFields r k [] with
      | some v => rfl
      | none =>
        simp only
        rw [find?_put_ne _ _ _ _ (fun h => hk h.symm)]

theorem valueAtFields_of_not_mem (k : List Char) (p : List (List Char)) :
    ∀ (kvs : List member), k ∉ fieldKeys kvs → valueAtFields kvs k p = none
  | [], _ => rfl
  | (.mk k2 v2) :: r, hn => by
    simp only [fieldKeys, List.mem_cons, not_or] at hn
    have : ¬ k2 = k := fun h => hn.1 h.symm
    simp only [valueAtFields, this, if_false]
    exact valueAtFields_of_not_mem k p r hn.2

theorem mem_fieldKeys_indexed (xs : List Nested) (i : Nat) (k : List Char) :
    k ∈ fieldKeys (indexed xs i) ↔ ∃ j, i ≤ j ∧ j < i + xs.length ∧ k = decimal j := by
  induction xs generalizing i with
  | nil =>
    simp only [indexed, fieldKeys, List.not_mem_nil, List.length_nil, false_iff]
    rintro ⟨j, h1, h2, _⟩
    omega
  | cons x xs ih =>
    simp only [indexed, fieldKeys, List.mem_cons, ih, List.length_cons]
    constructor
    · rintro (rfl | ⟨j, h1, h2, rfl⟩)
      · exact ⟨i, le_refl _, by omega, rfl⟩
      · exact ⟨j, by omega, by omega, rfl⟩
    · rintro ⟨j, h1, h2, rfl⟩
      by_cases hj : j = i
      · exact Or.inl (by rw [hj])
      · exact Or.inr ⟨j, by omega, by omega, rfl⟩

theorem nodup_fieldKeys_indexed (xs : List Nested) (i : Nat) :
    (fieldKeys (indexed xs i)).Nodup := by
  induction xs generalizing i with
  | nil => simp [indexed, fieldKeys]
  | cons x xs ih =>
    simp only [indexed, fieldKeys, List.nodup_cons]
    refine ⟨?_, ih (i + 1)⟩
    intro hm
    obtain ⟨j, h1, _, he⟩ := (mem_fieldKeys_indexed xs (i + 1) _).1 hm
    have := decimal_chars_injective _ _ he
    omega

theorem valueAtFields_indexed (xs : List Nested) (i j : Nat) :
    valueAtFields (indexed xs i) (decimal (i + j)) [] = xs[j]? := by
  induction xs generalizing i j with
  | nil => rfl
  | cons x xs ih =>
    simp only [indexed, valueAtFields]
    cases j with
    | zero => simp [valueAt_nil]
    | succ j =>
      have hne : ¬ decimal i = decimal (i + (j + 1)) := fun h => by
        have := decimal_chars_injective _ _ h
        omega
      rw [if_neg hne, show i + (j + 1) = (i + 1) + j by omega, ih]
      simp

theorem not_mem_fieldKeys_of_recordable (kvs : List member) (h : recordableFields kvs = true) :
    ['#'] ∉ fieldKeys kvs := by
  induction kvs with
  | nil => simp [fieldKeys]
  | cons e r ih =>
    obtain ⟨k, v⟩ := e
    simp only [recordableFields, Bool.and_eq_true, decide_eq_true_eq] at h
    simp only [fieldKeys, List.mem_cons, not_or]
    exact ⟨fun e => h.1.1 e.symm, ih h.2⟩

theorem canonList_getElem? (xs : List Nested) (j : Nat) :
    (canonList xs)[j]? = (xs[j]?).map Nested.canon := by
  induction xs generalizing j with
  | nil => simp [canonList]
  | cons x xs ih =>
    cases j with
    | zero => simp [canonList]
    | succ j => simp [canonList, ih]

theorem canonList_length (xs : List Nested) : (canonList xs).length = xs.length := by
  induction xs with
  | nil => rfl
  | cons x xs ih => simp [canonList, ih]

/-- The end of expandNestedCollections on the map a slice was recorded as gives the slice
of the Go values of the elements. -/
theorem collect_indexed (xs : List Nested) :
    collect (canonInto (indexed xs 0) (put ['#'] (.leaf (.int xs.length)) [])) =
      some (.list (canonList xs)) := by
  have hfind : ∀ k, find? k (canonInto (indexed xs 0) (put ['#'] (.leaf (.int xs.length)) [])) =
      match valueAtFields (indexed xs 0) k [] with
      | some v => some v.canon
      | none => find? k (put ['#'] (.leaf (.int xs.length)) []) :=
    fun k => find?_canonInto _ _ k (nodup_fieldKeys_indexed xs 0)
  have hhash : valueAtFields (indexed xs 0) ['#'] [] = none := by
    apply valueAtFields_of_not_mem
    intro hm
    obtain ⟨j, _, _, he⟩ := (mem_fieldKeys_indexed xs 0 _).1 hm
    exact decimal_ne_hash j he.symm
  unfold collect
  rw [hfind ['#'], hhash]
  simp only [find?_put_self]
  rw [if_neg (by omega)]
  congr 2
  apply List.ext_getElem?
  intro j
  rw [canonList_getElem?, List.getElem?_map]
  by_cases hj : j < xs.length
  · rw [List.getElem?_range (by simpa using hj)]
    simp only [Option.map_some']
    rw [hfind (decimal j)]
    have := valueAtFields_indexed xs 0 j
    rw [Nat.zero_add] at this
    rw [this, List.getElem?_eq_getElem hj]
    rfl
  · rw [List.getElem?_eq_none (by simpa using hj), List.getElem?_eq_none (by omega)]
    rfl

theorem expandValue_map (kvs : List member) :
    expandValue (.map kvs) = (expandMembers kvs).bind collect := by
  simp only [expandValue]
  cases expandMembers kvs <;> rfl

mutual
/-- The expansion of the map Map.Expand builds for a value gives the Go value. -/
theorem expandValue_raw : ∀ (v : Nested), v.recordable = true → v.plainKeys = true →
    expandValue v.raw = some v.canon
  | .leaf l, _, _ => rfl
  | .list xs, hr, hp => by
    simp only [Nested.raw, Nested.canon]
    rw [expandValue_map, expandMembers_rawListInto xs 0 _ (put ['#'] (.leaf (.int xs.length)) [])
      (by simpa [Nested.recordable] using hr) (by simpa [Nested.plainKeys] using hp)]
    · simp only [Option.some_bind]
      exact collect_indexed xs
    · intro j _ hm
      rw [mem_fieldKeys_put] at hm
      rcases hm with hm | hm
      · exact decimal_ne_hash j hm
      · simp [fieldKeys] at hm
    · rfl
  | .map kvs, hr, hp => by
    simp only [Nested.plainKeys, Bool.and_eq_true, decide_eq_true_eq] at hp
    have hr' : recordableFields kvs = true := by
      simp only [Nested.recordable, Bool.and_eq_true] at hr
      exact hr.2
    simp only [Nested.raw, Nested.canon]
    rw [expandValue_map, expandMembers_rawInto kvs [] [] hr' hp.2 hp.1
      (by simp [fieldKeys]) rfl]
    simp only [Option.some_bind]
    unfold collect
    rw [find?_canonInto kvs [] ['#'] hp.1,
      valueAtFields_of_not_mem ['#'] [] kvs (not_mem_fieldKeys_of_recordable kvs hr')]
    rfl
theorem expandMembers_rawInto : ∀ (kvs acc acc' : List member),
    recordableFields kvs = true → plainKeysFields kvs = true → (fieldKeys kvs).Nodup →
    (∀ k ∈ fieldKeys kvs, k ∉ fieldKeys acc) → expandMembers acc = some acc' →
    expandMembers (rawInto kvs acc) = some (canonInto kvs acc')
  | [], acc, acc', _, _, _, _, h => h
  | (.mk k v) :: kvs, acc, acc', hr, hp, hnd, hfresh, h => by
    simp only [recordableFields, Bool.and_eq_true] at hr
    simp only [plainKeysFields, Bool.and_eq_true] at hp
    simp only [fieldKeys, List.nodup_cons] at hnd
    simp only [rawInto, canonInto]
    apply expandMembers_rawInto kvs _ _ hr.2 hp.2 hnd.2
    · intro k' hk' hm
      rw [mem_fieldKeys_put] at hm
      rcases hm with hm | hm
      · exact hnd.1 (hm ▸ hk')
      · exact hfresh k' (by simp [fieldKeys, hk']) hm
    · rw [expandMembers_put k _ acc (hfresh k (by simp [fieldKeys])),
        expandValue_raw v hr.1.2 hp.1.2, h]
      rfl
theorem expandMembers_rawListInto : ∀ (xs : List Nested) (i : Nat) (acc acc' : List member),
    recordableList xs = true → plainKeysList xs = true →
    (∀ j, i ≤ j → decimal j ∉ fieldKeys acc) → expandMembers acc = some acc' →
    expandMembers (rawListInto xs i acc) = some (canonInto (indexed xs i) acc')
  | [], _, acc, acc', _, _, _, h => h
  | x :: xs, i, acc, acc', hr, hp, hfresh, h => by
    simp only [recordableList, Bool.and_eq_true] at hr
    simp only [plainKeysList, Bool.and_eq_true] at hp
    simp only [rawListInto, indexed, canonInto]
    apply expandMembers_rawListInto xs (i + 1) _ _ hr.2 hp.2
    · intro j hj hm
      rw [mem_fieldKeys_put] at hm
      rcases hm with hm | hm
      · have := decimal_chars_injective _ _ hm
        omega
      · exact hfresh j (by omega) hm
    · rw [expandMembers_put (decimal i) _ acc (hfresh i (le_refl _)),
        expandValue_raw x hr.1 hp.1, h]
      rfl
end

mutual
/-- Without a key path that ends in #, the map Map.Expand builds for a value is the Go
value itself. -/
theorem raw_eq_canon : ∀ (v : Nested) (ks : List (List Char)),
    (∀ u ∈ flatten v ks, u.1.getLast? ≠ some ['#']) → v.raw = v.canon
  | .leaf l, _, _ => rfl
  | .list xs, ks, h => by
    have := h (ks ++ [['#']], .int xs.length) (by simp [flatten])
    simp at this
  | .map kvs, ks, h => by
    simp only [Nested.raw, Nested.canon]
    rw [rawInto_eq_canonInto kvs ks [] (fun u hu => h u (by simp only [flatten]; exact hu))]
theorem rawInto_eq_canonInto : ∀ (kvs : List member) (ks : List (List Char))
    (acc : List member), (∀ u ∈ flattenMap kvs ks, u.1.getLast? ≠ some ['#']) →
    rawInto kvs acc = canonInto kvs acc
  | [], _, _, _ => rfl
  | (.mk k v) :: kvs, ks, acc, h => by
    simp only [rawInto, canonInto]
    rw [raw_eq_canon v (ks ++ [k]) (fun u hu => h u (by
        simp only [flattenMap, List.mem_append]
        exact Or.inl hu)),
      rawInto_eq_canonInto kvs ks _ (fun u hu => h u (by
        simp only [flattenMap, List.mem_append]
        exact Or.inr hu))]
end

theorem splitScan_ne_nil (s : List Char) : ∀ (str : List Char) (n : Nat),
    splitScan s n str ≠ [] := by
  intro str
  induction str with
  | nil => intro n; cases n <;> simp [splitScan]
  | cons c cs ih =>
    intro n
    cases n with
    | succ n => simpa [splitScan] using ih n
    | zero =>
      unfold splitScan
      split
      · simp
      · split <;> simp

theorem splitScan_skip (s : List Char) : ∀ (a b : List Char),
    splitScan s a.length (a ++ b) = splitScan s 0 b := by
  intro a
  induction a with
  | nil => intro b; rfl
  | cons c cs ih =>
    intro b
    simpa [splitScan] using ih b

theorem splitScan_zero_cons (s : List Char) (c : Char) (cs : List Char) :
    splitScan s 0 (c :: cs) =
      if s.isPrefixOf (c :: cs) then [] :: splitScan s (s.length - 1) cs
      else
        match splitScan s 0 cs with
        | [] => [[c]]
        | h :: t => (c :: h) :: t := by
  rw [splitScan]

theorem splitScan_separator (s : List Char) (hs : s ≠ []) (rest : List Char) :
    splitScan s 0 (s ++ rest) = [] :: splitScan s 0 rest := by
  cases s with
  | nil => exact absurd rfl hs
  | cons c s' =>
    have hp : (c :: s').isPrefixOf (c :: (s' ++ rest)) = true :=
      List.isPrefixOf_iff_prefix.2 ⟨rest, rfl⟩
    show splitScan (c :: s') 0 (c :: (s' ++ rest)) = _
    rw [splitScan_zero_cons, if_pos hp]
    have := splitScan_skip (c :: s') s' rest
    simpa using this

theorem splitScan_cons (s : List Char) (c : Char) (cs : List Char)
    (hp : ¬ s <+: c :: cs) (h : List Char) (t : List (List Char))
    (hk : splitScan s 0 cs = h :: t) : splitScan s 0 (c :: cs) = (c :: h) :: t := by
  have hp' : ¬ s.isPrefixOf (c :: cs) = true := fun e => hp (List.isPrefixOf_iff_prefix.1 e)
  rw [splitScan_zero_cons, if_neg hp', hk]

theorem StringTokenizer_Token_cons (s : List Char) (c : Char) (h : List Char)
    (t : List (List Char)) :
    StringTokenizer_Token s ((c :: h) :: t) = c :: StringTokenizer_Token s (h :: t) := by
  cases t <;> simp [StringTokenizer_Token]

/-- Token after the scan of Keys gives the string back. -/
theorem Token_splitScan (s : List Char) (hs : s ≠ []) : ∀ (n : Nat) (str : List Char),
    str.length ≤ n → StringTokenizer_Token s (splitScan s 0 str) = str := by
  intro n
  induction n with
  | zero =>
    intro str h
    have : str = [] := List.length_eq_zero.1 (Nat.le_zero.1 h)
    subst this
    rfl
  | succ n ih =>
    intro str h
    cases str with
    | nil => rfl
    | cons c cs =>
      by_cases hp : s <+: c :: cs
      · obtain ⟨rest, hr⟩ := hp
        rw [← hr, splitScan_separator s hs rest]
        have hlen : rest.length ≤ n := by
          have h1 := congrArg List.length hr
          have h2 : 0 < s.length := List.length_pos.2 hs
          simp only [List.length_append, List.length_cons] at h1 h
          omega
        have hi := ih rest hlen
        cases hk : splitScan s 0 rest with
        | nil => exact absurd hk (splitScan_ne_nil s rest 0)
        | cons a t =>
          rw [hk] at hi
          simp [StringTokenizer_Token, hi]
      · cases hk : splitScan s 0 cs with
        | nil => exact absurd hk (splitScan_ne_nil s cs 0)
        | cons a t =>
          rw [splitScan_cons s c cs hp a t hk, StringTokenizer_Token_cons, ← hk,
            ih cs (by simpa using h)]

theorem borderFree_spec (s : List Char) (hb : borderFree s = true) (u : List Char)
    (hu : u ≠ []) (hne : u.length < s.length) (hp : u <+: s) (hsuf : u <:+ s) : False := by
  unfold borderFree at hb
  rw [List.all_eq_true] at hb
  have h1 := hb u.length (List.mem_range.2 hne)
  have hpos : u.length ≠ 0 := fun e => hu (List.length_eq_zero.1 e)
  have h2 : s.take u.length = u := List.prefix_iff_eq_take.1 hp ▸ rfl
  have h3 : s.drop (s.length - u.length) = u := by
    obtain ⟨v, rfl⟩ := hsuf
    simp
  simp [hpos, h2, h3] at h1

/-- A separator without a border does not start a string that begins with a non-empty
segment free of it and goes on with the separator. -/
theorem not_prefix_of_borderFree (s : List Char) (hb : borderFree s = true)
    (c : Char) (seg rest : List Char) (hin : ¬ s <:+: c :: seg) :
    ¬ s <+: (c :: seg) ++ s ++ rest := by
  intro hp
  have hseg : (c :: seg) <+: (c :: seg) ++ s ++ rest := ⟨s ++ rest, by simp⟩
  by_cases hl : s.length ≤ (c :: seg).length
  · exact hin (List.prefix_of_prefix_length_le hp hseg hl).isInfix
  · have hl' : (c :: seg).length ≤ s.length := by omega
    obtain ⟨u, hu⟩ := List.prefix_of_prefix_length_le hseg hp hl'
    have hlen := congrArg List.length hu
    simp only [List.length_append, List.length_cons] at hlen hl
    have hu2 : u <+: s ++ rest := by
      have hp2 : (c :: seg) ++ u <+: (c :: seg) ++ (s ++ rest) := by
        rw [hu]
        simpa using hp
      exact (List.prefix_append_right_inj _).1 hp2
    have hu3 : u <+: s :=
      List.prefix_of_prefix_length_le hu2 ⟨rest, rfl⟩ (by omega)
    refine borderFree_spec s hb u ?_ (by omega) hu3 ⟨c :: seg, hu⟩
    intro e
    subst e
    simp at hlen
    omega

theorem splitScan_segment (s : List Char) (hs : s ≠ []) (hb : borderFree s = true)
    (rest : List Char) : ∀ (seg : List Char), ¬ s <:+: seg →
    splitScan s 0 (seg ++ s ++ rest) = seg :: splitScan s 0 rest := by
  intro seg
  induction seg with
  | nil => intro _; simpa using splitScan_separator s hs rest
  | cons c seg ih =>
    intro hin
    have hin' : ¬ s <:+: seg := fun h => hin (h.trans (List.suffix_cons c seg).isInfix)
    have hp := not_prefix_of_borderFree s hb c seg rest hin
    exact splitScan_cons s c (seg ++ s ++ rest) (by simpa using hp) seg _ (ih hin')

theorem splitScan_last (s : List Char) : ∀ (seg : List Char), ¬ s <:+: seg →
    splitScan s 0 seg = [seg] := by
  intro seg
  induction seg with
  | nil => intro _; rfl
  | cons c seg ih =>
    intro hin
    have hin' : ¬ s <:+: seg := fun h => hin (h.trans (List.suffix_cons c seg).isInfix)
    exact splitScan_cons s c seg (fun h => hin h.isInfix) seg [] (ih hin')

/-- The scan of Keys after Token gives the segments back. -/
theorem splitScan_Token (s : List Char) (hs : s ≠ []) (hb : borderFree s = true) :
    ∀ (ks : List (List Char)), ks ≠ [] → (∀ k ∈ ks, ¬ s <:+: k) →
    splitScan s 0 (StringTokenizer_Token s ks) = ks
  | [], h, _ => absurd rfl h
  | [k], _, hd => by
    simp only [StringTokenizer_Token]
    exact splitScan_last s k (hd k (by simp))
  | k :: k2 :: ks, _, hd => by
    simp only [StringTokenizer_Token]
    rw [splitScan_segment s hs hb _ k (hd k (by simp)),
      splitScan_Token s hs hb (k2 :: ks) (by simp)
        (fun x hx => hd x (List.mem_cons_of_mem _ hx))]

theorem StringTokenizer_Token_sep : ∀ (ks : List (List Char)),
    StringTokenizer_Token sep ks = Token ks
  | [] => rfl
  | [_] => rfl
  | k :: k2 :: ks => by
    simp only [StringTokenizer_Token, Token, StringTokenizer_Token_sep (k2 :: ks)]

theorem StringTokenizer_Keys_sep : ∀ (k : List Char), StringTokenizer_Keys sep k = Keys k := by
  intro k
  have h : ∀ k : List Char, splitScan ['.'] 0 k = Keys k := by
    intro k
    induction k with
    | nil => rfl
    | cons c cs ih =>
      by_cases hc : c = '.'
      · subst hc
        simp [splitScan_zero_cons, Keys, ih]
      · have hc' : ¬ '.' = c := fun e => hc e.symm
        simp only [splitScan_zero_cons, List.isPrefixOf, Keys, hc, ih, if_false,
          beq_iff_eq, hc', Bool.and_true, decide_False, Bool.false_eq_true, Bool.false_and]
  simp [StringTokenizer_Keys, sep, h]

theorem delEntriesWith_sep : delEntriesWith sep = delEntries := by
  funext ord fuel
  induction fuel with
  | zero => rfl
  | succ n ih =>
    funext m pre
    show (match get? m pre with
      | some _ => some (delete m pre)
      | none => if MatchStringWith sep pre then
          delSliceAttributeWith sep (delEntriesWith sep ord n) ord m pre
        else rangeKeys (delBodyWith sep pre) (ord (keysOf m)) m) = _
    rw [ih]
    rfl

theorem moveEntriesWith_sep : moveEntriesWith sep = moveEntries := by
  funext ord fuel
  induction fuel with
  | zero => rfl
  | succ n ih =>
    funext m o nk
    show (match get? m o with
      | some v => some (delete (set m nk v) o)
      | none => if MatchStringWith sep o then
          moveSliceAttributeWith sep (moveEntriesWith sep ord n) ord m o nk
        else rangeKeys (moveBodyWith sep o nk) (ord (keysOf m)) m) = _
    rw [ih]
    rfl

theorem borderFree_singleton (c : Char) : borderFree [c] = true := by
  simp [borderFree, List.range_succ]

theorem indexFrom_single_of_not_mem (c : Char) : ∀ (s : List Char) (i : Nat), c ∉ s →
    indexFrom [c] s i = -1 := by
  intro s
  induction s with
  | nil => intro i _; simp [indexFrom]
  | cons a s ih =>
    intro i h
    simp only [List.mem_cons, not_or] at h
    have : ¬ ([c].isPrefixOf (a :: s)) = true := by
      simp [List.isPrefixOf, h.1]
    rw [indexFrom, if_neg this, ih (i + 1) h.2]

theorem indexFrom_single_append (c : Char) (R : List Char) : ∀ (A : List Char) (i : Nat),
    c ∉ A → indexFrom [c] (A ++ c :: R) i = ((i + A.length : Nat) : Int) := by
  intro A
  induction A with
  | nil =>
    intro i _
    have : ([c].isPrefixOf (c :: R)) = true := by simp [List.isPrefixOf]
    simp [indexFrom, this]
  | cons a A ih =>
    intro i h
    simp only [List.mem_cons, not_or] at h
    have : ¬ ([c].isPrefixOf (a :: (A ++ c :: R))) = true := by
      simp [List.isPrefixOf, h.1]
    rw [List.cons_append, indexFrom, if_neg this, ih (i + 1) h.2]
    simp only [List.length_cons]
    congr 1
    omega

theorem Index_single_append (c : Char) (A R : List Char) (h : c ∉ A) :
    Index (A ++ c :: R) [c] = (A.length : Int) := by
  unfold Index
  rw [indexFrom_single_append c R A 0 h]
  simp

theorem Index_single_of_not_mem (c : Char) (s : List Char) (h : c ∉ s) :
    Index s [c] = -1 :=
  indexFrom_single_of_not_mem c s 0 h

theorem indexFrom_nonneg (sub : List Char) : ∀ (s : List Char) (i : Nat),
    sub <:+: s → 0 ≤ indexFrom sub s i := by
  intro s
  induction s with
  | nil =>
    intro i h
    have : sub = [] := List.infix_nil.1 h
    simp [indexFrom, this]
  | cons a s ih =>
    intro i h
    rw [indexFrom]
    by_cases hp : (sub.isPrefixOf (a :: s)) = true
    · rw [if_pos hp]
      exact Int.ofNat_nonneg i
    · rw [if_neg hp]
      apply ih
      rcases List.infix_cons_iff.1 h with h1 | h1
      · exact absurd (List.isPrefixOf_iff_prefix.2 h1) hp
      · exact h1

theorem MatchString_contains (s : List Char) (h : ['.', '*', '.'] <:+: s) :
    MatchString s = true := by
  unfold MatchString Index
  exact decide_eq_true (indexFrom_nonneg _ s 0 h)

theorem prefixTo_append (A B : List Char) : prefixTo (A ++ B) (A.length : Int) = some A := by
  unfold prefixTo slice
  rw [if_pos]
  · simp
  · simp

theorem delSliceBody_no_head (del : entries → List Char → Option entries)
    (A R : List Char) (r : Bool) (m : entries) (k : List Char) (h : ¬ A <+: k) :
    delSliceBody del (A ++ '*' :: R) (A.length : Int) R r m k = some m := by
  unfold delSliceBody
  have hp : HasPrefix k A = false := by
    cases hh : HasPrefix k A with
    | false => rfl
    | true => exact absurd ((HasPrefix_iff _ _).1 hh) h
  rw [prefixTo_append]
  simp only [hp]
  split <;> rfl

theorem delSliceBody_short (del : entries → List Char → Option entries)
    (A R : List Char) (r : Bool) (m : entries) (w : List Char) (h : w.length < 2) :
    delSliceBody del (A ++ '*' :: R) (A.length : Int) R r m (A ++ w) = some m := by
  unfold delSliceBody
  rw [if_pos]
  simp only [List.length_append, Nat.cast_add]
  omega

theorem delSliceBody_mid (del : entries → List Char → Option entries)
    (A R : List Char) (r : Bool) (m : entries) (c : Char) (x T : List Char) (hx : '.' ∉ x) :
    delSliceBody del (A ++ '*' :: R) (A.length : Int) R r m (A ++ c :: x ++ '.' :: T) =
      if r then del m (A ++ c :: x ++ R)
      else some (if '.' :: T = R ∨ HasPrefix ('.' :: T) (R ++ sep) = true then
        delete m (A ++ c :: x ++ '.' :: T) else m) := by
  unfold delSliceBody
  have hlen : ¬ (((A ++ c :: x ++ '.' :: T).length : Nat) : Int) < (A.length : Int) + 2 := by
    simp only [List.length_append, List.length_cons, Nat.cast_add]
    omega
  have hpre : HasPrefix (A ++ c :: x ++ '.' :: T) A = true :=
    (HasPrefix_iff _ _).2 ⟨c :: x ++ '.' :: T, by simp⟩
  have hsuf : suffixFrom (A ++ c :: x ++ '.' :: T) ((A.length : Int) + 1) =
      some (x ++ '.' :: T) := by
    have := suffixFrom_append_succ A c (x ++ '.' :: T)
    simpa using this
  have hidx : Index (x ++ '.' :: T) sep = (x.length : Int) := Index_single_append '.' x T hx
  have hcast : (A.length : Int) + 1 + (x.length : Int) = ((A ++ c :: x).length : Nat) := by
    simp only [List.length_append, List.length_cons, Nat.cast_add, Nat.cast_one]
    omega
  have hpt : prefixTo (A ++ c :: x ++ '.' :: T) ((A.length : Int) + 1 + (x.length : Int)) =
      some (A ++ c :: x) := by
    rw [hcast]
    have := prefixTo_append (A ++ c :: x) ('.' :: T)
    simpa using this
  have hst : suffixFrom (A ++ c :: x ++ '.' :: T) ((A.length : Int) + 1 + (x.length : Int)) =
      some ('.' :: T) := by
    rw [hcast]
    have := suffixFrom_append (A ++ c :: x) ('.' :: T)
    simpa using this
  rw [if_neg hlen, prefixTo_append]
  simp only [hpre, Bool.not_true, Bool.false_eq_true, if_false, hsuf, hidx, hpt, hst]
  cases r with
  | true => simp
  | false =>
    simp only [Bool.false_eq_true, if_false]
    by_cases h1 : '.' :: T = R
    · simp [h1]
    · by_cases h2 : HasPrefix ('.' :: T) (R ++ sep) = true
      · simp [h1, h2]
      · simp [h1, h2]

theorem delSliceBody_last (del : entries → List Char → Option entries)
    (A R : List Char) (r : Bool) (m : entries) (c : Char) (t : List Char) (ht : t ≠ [])
    (hd : '.' ∉ t) :
    delSliceBody del (A ++ '*' :: R) (A.length : Int) R r m (A ++ c :: t) =
      if r then del m (A ++ R)
      else some (if c :: t = R ∨ HasPrefix (c :: t) (R ++ sep) = true then
        delete m (A ++ c :: t) else m) := by
  unfold delSliceBody
  have hlen : ¬ (((A ++ c :: t).length : Nat) : Int) < (A.length : Int) + 2 := by
    have := List.length_pos.2 ht
    simp only [List.length_append, List.length_cons, Nat.cast_add]
    omega
  have hpre : HasPrefix (A ++ c :: t) A = true := (HasPrefix_iff _ _).2 ⟨c :: t, rfl⟩
  have hsuf : suffixFrom (A ++ c :: t) ((A.length : Int) + 1) = some t :=
    suffixFrom_append_succ A c t
  have hidx : Index t sep = -1 := Index_single_of_not_mem '.' t hd
  have hcast : (A.length : Int) + 1 + -1 = (A.length : Nat) := by omega
  have hpt : prefixTo (A ++ c :: t) ((A.length : Int) + 1 + -1) = some A := by
    rw [hcast]
    exact prefixTo_append A (c :: t)
  have hst : suffixFrom (A ++ c :: t) ((A.length : Int) + 1 + -1) = some (c :: t) := by
    rw [hcast]
    exact suffixFrom_append A (c :: t)
  rw [if_neg hlen, prefixTo_append]
  simp only [hpre, Bool.not_true, Bool.false_eq_true, if_false, hsuf, hidx, hpt, hst]
  cases r with
  | true => simp
  | false =>
    simp only [Bool.false_eq_true, if_false]
    by_cases h1 : c :: t = R
    · simp [h1]
    · by_cases h2 : HasPrefix (c :: t) (R ++ sep) = true
      · simp [h1, h2]
      · simp [h1, h2]

theorem Token_lead : ∀ (pre : List (List Char)) (x : List Char) (rest : List (List Char)),
    Token (pre ++ x :: rest) = lead pre ++ Token (x :: rest)
  | [], _, _ => rfl
  | [p], x, rest => by
    simp [Token_cons_cons, lead, sep]
  | p :: q :: pre, x, rest => by
    have ih := Token_lead (q :: pre) x rest
    rw [List.cons_append, List.cons_append, Token_cons_cons, ← List.cons_append, ih]
    simp [lead, sep]

theorem Token_cons_of_ne_nil (x : List Char) (rest : List (List Char)) (h : rest ≠ []) :
    Token (x :: rest) = x ++ '.' :: Token rest := by
  cases rest with
  | nil => exact absurd rfl h
  | cons y ys => exact Token_cons_cons x y ys

theorem lead_eq_Token (post : List (List Char)) (h : post ≠ []) :
    lead post = Token post ++ sep := by
  have := Token_lead post [] []
  cases post with
  | nil => exact absurd rfl h
  | cons p ps =>
    induction ps generalizing p with
    | nil => simp [lead, Token]
    | cons q qs ih =>
      rw [Token_cons_cons, lead, ih q (by simp) (Token_lead _ _ _)]
      simp [sep]

theorem Keys_mem_dotfree : ∀ (k s : List Char), s ∈ Keys k → '.' ∉ s := by
  intro k
  induction k with
  | nil =>
    intro s hs
    simp [Keys] at hs
    simp [hs]
  | cons c cs ih =>
    intro s hs
    unfold Keys at hs
    by_cases hc : c = '.'
    · rw [if_pos hc] at hs
      rcases List.mem_cons.1 hs with h | h
      · simp [h]
      · exact ih s h
    · rw [if_neg hc] at hs
      cases hk : Keys cs with
      | nil => exact absurd hk (Keys_ne_nil cs)
      | cons h t =>
        rw [hk] at hs
        rcases List.mem_cons.1 hs with h1 | h1
        · rw [h1]
          intro hm
          rcases List.mem_cons.1 hm with h2 | h2
          · exact hc h2.symm
          · exact ih h (by rw [hk]; exact List.mem_cons_self _ _) h2
        · exact ih s (by rw [hk]; exact List.mem_cons_of_mem _ h1)

theorem Token_Keys (k : List Char) : Token (Keys k) = k := by
  have h := Token_splitScan sep (by simp [sep]) k.length k (Nat.le_refl _)
  have h2 := StringTokenizer_Keys_sep k
  unfold StringTokenizer_Keys at h2
  rw [if_neg (by simp [sep])] at h2
  rw [h2, StringTokenizer_Token_sep] at h
  exact h

theorem mem_Token (c : Char) : ∀ (ks : List (List Char)), c ∈ Token ks →
    c = '.' ∨ ∃ s ∈ ks, c ∈ s
  | [], h => by simp [Token] at h
  | [k], h => Or.inr ⟨k, by simp, by simpa [Token] using h⟩
  | k :: k2 :: ks, h => by
    rw [Token_cons_cons] at h
    rcases List.mem_append.1 h with h1 | h1
    · exact Or.inr ⟨k, by simp, h1⟩
    · rcases List.mem_cons.1 h1 with h2 | h2
      · exact Or.inl h2
      · rcases mem_Token c (k2 :: ks) h2 with h3 | ⟨s, hs, hc⟩
        · exact Or.inl h3
        · exact Or.inr ⟨s, List.mem_cons_of_mem _ hs, hc⟩

theorem star_not_mem_of_Keys (k : List Char) (h : ∀ s ∈ Keys k, '*' ∉ s) : '*' ∉ k := by
  intro hm
  rw [← Token_Keys k] at hm
  rcases mem_Token '*' _ hm with h1 | ⟨s, hs, hc⟩
  · exact absurd h1 (by decide)
  · exact h s hs hc

theorem star_not_mem_lead : ∀ (pre : List (List Char)), (∀ s ∈ pre, '*' ∉ s) →
    '*' ∉ lead pre
  | [], _ => by simp [lead]
  | p :: pre, h => by
    simp only [lead, sep, List.mem_append, List.mem_cons, List.mem_singleton, not_or]
    refine ⟨⟨h p (by simp), ?_⟩, star_not_mem_lead pre (fun s hs => h s (List.mem_cons_of_mem _ hs))⟩
    simp

theorem dot_split_unique : ∀ (a b X Y : List Char), '.' ∉ a → '.' ∉ b →
    a ++ '.' :: X <+: b ++ '.' :: Y → a = b ∧ X <+: Y := by
  intro a
  induction a with
  | nil =>
    intro b X Y _ hb h
    cases b with
    | nil => exact ⟨rfl, (List.cons_prefix_cons.1 h).2⟩
    | cons d b =>
      have := (List.cons_prefix_cons.1 h).1
      exact absurd (this ▸ List.mem_cons_self _ _) hb
  | cons c a ih =>
    intro b X Y ha hb h
    cases b with
    | nil =>
      have := (List.cons_prefix_cons.1 h).1
      exact absurd (this ▸ List.mem_cons_self _ _) ha
    | cons d b =>
      have h1 := List.cons_prefix_cons.1 h
      have := ih b X Y (fun hm => ha (List.mem_cons_of_mem _ hm))
        (fun hm => hb (List.mem_cons_of_mem _ hm)) h1.2
      exact ⟨by rw [h1.1, this.1], this.2⟩

/-- A token that starts with the lead of dot-free segments has these segments first and
at least one more. -/
theorem segments_of_lead : ∀ (pre ks : List (List Char)), (∀ s ∈ pre, '.' ∉ s) →
    (∀ s ∈ ks, '.' ∉ s) → ks ≠ [] → lead pre <+: Token ks →
    ∃ x rest, ks = pre ++ x :: rest := by
  intro pre
  induction pre with
  | nil =>
    intro ks _ _ hne _
    cases ks with
    | nil => exact absurd rfl hne
    | cons x rest => exact ⟨x, rest, rfl⟩
  | cons p pre ih =>
    intro ks hp hk hne h
    cases ks with
    | nil => exact absurd rfl hne
    | cons k0 ks =>
      cases ks with
      | nil =>
        exfalso
        simp only [Token, lead, sep] at h
        obtain ⟨t, ht⟩ := h
        have : '.' ∈ k0 := by rw [← ht]; simp
        exact hk k0 (by simp) this
      | cons k1 ks =>
        rw [Token_cons_cons] at h
        simp only [lead, sep, List.append_assoc, List.singleton_append] at h
        have h1 := dot_split_unique p k0 _ _ (hp p (by simp)) (hk k0 (by simp)) h
        obtain ⟨x, rest, hx⟩ := ih (k1 :: ks) (fun s hs => hp s (List.mem_cons_of_mem _ hs))
          (fun s hs => hk s (List.mem_cons_of_mem _ hs)) (by simp) h1.2
        exact ⟨x, rest, by rw [hx, h1.1]; rfl⟩

theorem segMatches_cons_cons (p k : List Char) (ps ks : List (List Char)) :
    segMatches (p :: ps) (k :: ks) = true ↔
      (p = ['*'] ∨ p = k) ∧ segMatches ps ks = true := by
  simp [segMatches]

theorem segMatches_split : ∀ (pre : List (List Char)) (p : List Char)
    (post ks : List (List Char)), (∀ s ∈ pre, s ≠ ['*']) →
    (segMatches (pre ++ p :: post) ks = true ↔
      ∃ x rest, ks = pre ++ x :: rest ∧ (p = ['*'] ∨ p = x) ∧ segMatches post rest = true) := by
  intro pre
  induction pre with
  | nil =>
    intro p post ks _
    cases ks with
    | nil => simp [segMatches]
    | cons k ks =>
      rw [List.nil_append, segMatches_cons_cons]
      constructor
      · intro h
        exact ⟨k, ks, rfl, h⟩
      · rintro ⟨x, rest, he, h⟩
        rw [List.nil_append] at he
        cases he
        exact h
  | cons q pre ih =>
    intro p post ks hq
    cases ks with
    | nil => simp [segMatches]
    | cons k ks =>
      have hq1 : q ≠ ['*'] := hq q (by simp)
      have ih' := ih p post ks (fun s hs => hq s (List.mem_cons_of_mem _ hs))
      rw [List.cons_append, segMatches_cons_cons, ih']
      constructor
      · rintro ⟨h0, x, rest, he, h⟩
        rcases h0 with h0 | h0
        · exact absurd h0 hq1
        · exact ⟨x, rest, by rw [he, h0]; rfl, h⟩
      · rintro ⟨x, rest, he, h⟩
        rw [List.cons_append] at he
        cases he
        exact ⟨Or.inr rfl, x, rest, rfl, h⟩

theorem segMatches_literal : ∀ (post rest : List (List Char)), (∀ s ∈ post, s ≠ ['*']) →
    (segMatches post rest = true ↔ post <+: rest) := by
  intro post
  induction post with
  | nil => intro rest _; simp [segMatches]
  | cons p post ih =>
    intro rest hp
    cases rest with
    | nil => simp [segMatches]
    | cons r rest =>
      have hp1 : p ≠ ['*'] := hp p (by simp)
      simp only [segMatches, hp1, decide_False, Bool.false_or, Bool.and_eq_true,
        decide_eq_true_eq, ih rest (fun s hs => hp s (List.mem_cons_of_mem _ hs)),
        List.cons_prefix_cons]

theorem segMatches_nil_right (ps : List (List Char)) (h : ps ≠ []) :
    segMatches ps [] = false := by
  cases ps with
  | nil => exact absurd rfl h
  | cons p ps => rfl

/-- A range loop whose body, at each visited key, removes some of the keys that satisfy Q,
the visited key among them when it satisfies Q, removes every visited key that satisfies
Q. -/
theorem rangeKeys_sweep (Q : List Char → Bool) (I : entries → Prop)
    (hI : ∀ (m : entries) (f : List Char × Leaf → Bool), I m → I (m.filter f))
    (body : entries → List Char → Option entries) (ks : List (List Char))
    (hbody : ∀ k ∈ ks, ∀ m, I m → ∃ q : List Char → Bool,
      body m k = some (m.filter (fun e => !q e.1)) ∧ (∀ x, q x = true → Q x = true) ∧
        (Q k = true → q k = true)) :
    ∀ m, I m → ∃ d : List Char → Bool,
      rangeKeys body ks m = some (m.filter (fun e => !d e.1)) ∧
        (∀ x, d x = true → Q x = true) ∧
        (∀ k ∈ ks, Q k = true → get? (m.filter (fun e => !d e.1)) k = none) := by
  induction ks with
  | nil =>
    intro m _
    refine ⟨fun _ => false, ?_, ?_, ?_⟩
    · simp [rangeKeys]
    · intro x h; cases h
    · intro k hk; cases hk
  | cons k ks ih =>
    intro m hm
    have ih' := ih (fun k' hk' => hbody k' (List.mem_cons_of_mem _ hk'))
    unfold rangeKeys
    cases hg : get? m k with
    | none =>
      obtain ⟨d, h1, h2, h3⟩ := ih' m hm
      refine ⟨d, by simpa using h1, h2, ?_⟩
      intro k' hk' hQ
      rcases List.mem_cons.1 hk' with rfl | hk'
      · rw [get?_filter m (fun x => !d x) k', hg]
        simp
      · exact h3 k' hk' hQ
    | some v =>
      obtain ⟨q, hq1, hq2, hq3⟩ := hbody k (List.mem_cons_self _ _) m hm
      obtain ⟨d, h1, h2, h3⟩ := ih' _ (hI m (fun e => !q e.1) hm)
      have he : (m.filter (fun e => !q e.1)).filter (fun e => !d e.1) =
          m.filter (fun e => !(q e.1 || d e.1)) := by
        rw [List.filter_filter]
        apply List.filter_congr
        intro e _
        cases q e.1 <;> cases d e.1 <;> rfl
      refine ⟨fun x => q x || d x, ?_, ?_, ?_⟩
      · simp only [hq1]
        rw [h1, he]
      · intro x hx
        rcases Bool.or_eq_true _ _ ▸ hx with h | h
        · exact hq2 x h
        · exact h2 x h
      · intro k' hk' hQ
        rcases List.mem_cons.1 hk' with rfl | hk'
        · rw [get?_filter m (fun x => !(q x || d x)) k']
          simp [hq3 hQ]
        · rw [← he]
          exact h3 k' hk' hQ

/-- The loop of rangeKeys_sweep over all the keys of the map removes exactly the keys that
satisfy Q. -/
theorem rangeKeys_sweep_all (Q : List Char → Bool) (I : entries → Prop)
    (hI : ∀ (m : entries) (f : List Char × Leaf → Bool), I m → I (m.filter f))
    (body : entries → List Char → Option entries) (ks : List (List Char))
    (hbody : ∀ k ∈ ks, ∀ m, I m → ∃ q : List Char → Bool,
      body m k = some (m.filter (fun e => !q e.1)) ∧ (∀ x, q x = true → Q x = true) ∧
        (Q k = true → q k = true))
    (m : entries) (hm : I m) (hall : ∀ k ∈ keysOf m, k ∈ ks) :
    rangeKeys body ks m = some (m.filter (fun e => !Q e.1)) := by
  obtain ⟨d, h1, h2, h3⟩ := rangeKeys_sweep Q I hI body ks hbody m hm
  rw [h1]
  congr 1
  apply List.filter_congr
  intro e he
  have hk : e.1 ∈ keysOf m := List.mem_map_of_mem _ he
  cases hQ : Q e.1 with
  | false =>
    cases hd : d e.1 with
    | false => rfl
    | true => rw [h2 e.1 hd] at hQ; cases hQ
  | true =>
    have h4 := h3 e.1 (hall _ hk) hQ
    rw [get?_filter m (fun x => !d x) e.1] at h4
    cases hd : d e.1 with
    | true => rfl
    | false =>
      rw [hd] at h4
      simp only [Bool.not_false, if_true] at h4
      exact absurd hk ((get?_eq_none_iff m e.1).1 h4)

theorem exists_first_split (a : List Char) : ∀ (l : List (List Char)), a ∈ l →
    ∃ pre post, l = pre ++ a :: post ∧ a ∉ pre := by
  intro l
  induction l with
  | nil => intro h; cases h
  | cons b l ih =>
    intro h
    by_cases hb : b = a
    · exact ⟨[], l, by rw [hb]; rfl, by simp⟩
    · rcases List.mem_cons.1 h with h1 | h1
      · exact absurd h1.symm hb
      · obtain ⟨pre, post, he, hn⟩ := ih h1
        refine ⟨b :: pre, post, by rw [he]; rfl, ?_⟩
        intro hm
        rcases List.mem_cons.1 hm with h2 | h2
        · exact hb h2.symm
        · exact hn h2

theorem segMatches_of_decomposition (pre : List (List Char)) (p x : List Char)
    (post rest ks : List (List Char)) (hpre : ∀ s ∈ pre, s ≠ ['*'])
    (hk : ks = pre ++ x :: rest) :
    segMatches (pre ++ p :: post) ks = true ↔
      (p = ['*'] ∨ p = x) ∧ segMatches post rest = true := by
  rw [segMatches_split pre p post ks hpre]
  constructor
  · rintro ⟨x2, rest2, he, h⟩
    rw [hk] at he
    have := List.append_cancel_left he
    cases this
    exact h
  · intro h
    exact ⟨x, rest, hk, h⟩

theorem segMatches_wildcard_of_segment (pre : List (List Char)) (s : List Char)
    (post ks : List (List Char)) (hpre : ∀ s ∈ pre, s ≠ ['*'])
    (h : segMatches (pre ++ s :: post) ks = true) :
    segMatches (pre ++ ['*'] :: post) ks = true := by
  obtain ⟨x, rest, hk, _, h2⟩ := (segMatches_split pre s post ks hpre).1 h
  exact (segMatches_split pre ['*'] post ks hpre).2 ⟨x, rest, hk, Or.inl rfl, h2⟩

theorem tail_test_last (c : Char) (t X : List Char) (hc : c ≠ '.') :
    ¬ (c :: t = '.' :: X ∨ HasPrefix (c :: t) (('.' :: X) ++ sep) = true) := by
  rintro (h | h)
  · cases h
    exact hc rfl
  · have := (HasPrefix_iff _ _).1 h
    rw [List.cons_append] at this
    exact hc (List.cons_prefix_cons.1 this).1.symm

theorem tail_test_mid (post rest : List (List Char)) (hpost : post ≠ []) (hrest : rest ≠ [])
    (hdp : ∀ s ∈ post, '.' ∉ s) (hdr : ∀ s ∈ rest, '.' ∉ s) :
    ('.' :: Token rest = '.' :: Token post ∨
      HasPrefix ('.' :: Token rest) (('.' :: Token post) ++ sep) = true) ↔ post <+: rest := by
  constructor
  · rintro (h | h)
    · have : Token rest = Token post := (List.cons.inj h).2
      rw [Token_injective rest post hrest hpost hdr hdp this]
    · have h1 := (HasPrefix_iff _ _).1 h
      rw [List.cons_append] at h1
      have h2 := (List.cons_prefix_cons.1 h1).2
      rw [← lead_eq_Token post hpost] at h2
      obtain ⟨y, r2, he⟩ := segments_of_lead post rest hdp hdr hrest h2
      exact ⟨y :: r2, he.symm⟩
  · rintro ⟨t, ht⟩
    cases t with
    | nil =>
      left
      rw [List.append_nil] at ht
      rw [ht]
    | cons y r2 =>
      right
      rw [HasPrefix_iff, List.cons_append, ← lead_eq_Token post hpost, ← ht, Token_lead]
      exact List.cons_prefix_cons.2 ⟨rfl, List.prefix_append _ _⟩

theorem filter_not_false (m : entries) : m.filter (fun _ => !false) = m := by
  simp

theorem keysOf_filter_subset (m : entries) (f : List Char × Leaf → Bool) (k : List Char)
    (h : k ∈ keysOf (m.filter f)) : k ∈ keysOf m := by
  unfold keysOf at h ⊢
  obtain ⟨e, he, rfl⟩ := List.mem_map.1 h
  exact List.mem_map_of_mem _ (List.mem_filter.1 he).1

/-- The loop of Map.delSliceAttribute for a pattern with its first wildcard after the
segments pre, on a map whose keys have segments that are not empty and without the
wildcard character, when the calls of Map.Del for the patterns with that wildcard replaced
remove the keys that agree with those patterns: the keys that agree with the pattern are
removed. -/
theorem delSliceAttribute_wildcard (ord : List (List Char) → List (List Char))
    (hord : ∀ ks, (ord ks).Perm ks) (del : entries → List Char → Option entries)
    (pre post : List (List Char)) (hpre : ∀ s ∈ pre, '*' ∉ s ∧ '.' ∉ s)
    (hpost : ∀ s ∈ post, s = ['*'] ∨ ('*' ∉ s ∧ '.' ∉ s)) (hne : post ≠ [])
    (hrec : ['*'] ∈ post → ∀ s : List Char, '*' ∉ s → '.' ∉ s → ∀ m' : entries,
      (∀ k ∈ keysOf m', ∀ s ∈ Keys k, s ≠ [] ∧ '*' ∉ s) →
      del m' (Token (pre ++ s :: post)) =
        some (m'.filter (fun e => !segMatches (pre ++ s :: post) (Keys e.1))))
    (m : entries) (hm : ∀ k ∈ keysOf m, ∀ s ∈ Keys k, s ≠ [] ∧ '*' ∉ s) :
    delSliceAttribute del ord m (Token (pre ++ ['*'] :: post)) =
      some (m.filter (fun e => !segMatches (pre ++ ['*'] :: post) (Keys e.1))) := by
  have hpat : Token (pre ++ ['*'] :: post) = lead pre ++ '*' :: ('.' :: Token post) := by
    rw [Token_lead, Token_cons_of_ne_nil _ _ hne]
    rfl
  have hA : '*' ∉ lead pre := star_not_mem_lead pre (fun s hs => (hpre s hs).1)
  have hlit : ∀ s ∈ pre, s ≠ ['*'] := by
    intro s hs he
    exact (hpre s hs).1 (by rw [he]; simp)
  have hdpre : ∀ s ∈ pre, '.' ∉ s := fun s hs => (hpre s hs).2
  have hr : decide (-1 < Index ('.' :: Token post) ['*']) = decide (['*'] ∈ post) := by
    by_cases hs : ['*'] ∈ post
    · have hin : '*' ∈ '.' :: Token post := by
        obtain ⟨l, r, he, _⟩ := exists_first_split ['*'] post hs
        rw [he, Token_lead]
        cases r with
        | nil => simp [Token]
        | cons y ys => simp [Token_cons_cons]
      obtain ⟨s1, s2, he⟩ := List.append_of_mem hin
      have hnn : 0 ≤ Index ('.' :: Token post) ['*'] :=
        indexFrom_nonneg ['*'] _ 0 ⟨s1, s2, by rw [he]; simp⟩
      simp only [hs, decide_True, decide_eq_true_eq]
      omega
    · have hnot : '*' ∉ '.' :: Token post := by
        intro hin
        rcases List.mem_cons.1 hin with h1 | h1
        · exact absurd h1 (by decide)
        · rcases mem_Token '*' post h1 with h2 | ⟨s, hs2, hc⟩
          · exact absurd h2 (by decide)
          · rcases hpost s hs2 with h3 | h3
            · exact hs (h3 ▸ hs2)
            · exact h3.1 hc
      rw [Index_single_of_not_mem '*' _ hnot]
      simp [hs]
  unfold delSliceAttribute
  simp only [hpat, Index_single_append '*' (lead pre) ('.' :: Token post) hA,
    suffixFrom_append_succ, hr]
  rw [← hpat]
  apply rangeKeys_sweep_all (fun x => segMatches (pre ++ ['*'] :: post) (Keys x))
    (fun m' => ∀ k ∈ keysOf m', ∀ s ∈ Keys k, s ≠ [] ∧ '*' ∉ s)
    (fun m' f h k hk => h k (keysOf_filter_subset m' f k hk)) _ _ _ m hm
    (fun k hk => (hord _).mem_iff.2 hk)
  intro k hk m' hm'
  have hkm : k ∈ keysOf m := (hord _).mem_iff.1 hk
  have hgood := hm k hkm
  have hdot := Keys_mem_dotfree k
  have hT : Token (Keys k) = k := Token_Keys k
  rw [hpat]
  by_cases hdec : ∃ x rest, Keys k = pre ++ x :: rest
  · obtain ⟨x, rest, hx⟩ := hdec
    have hxin : x ∈ Keys k := by rw [hx]; simp
    have hQ := segMatches_of_decomposition pre ['*'] x post rest (Keys k) hlit hx
    obtain ⟨c, x', rfl⟩ : ∃ c x', x = c :: x' := by
      cases x with
      | nil => exact absurd rfl (hgood [] hxin).1
      | cons c x' => exact ⟨c, x', rfl⟩
    have hc : c ≠ '.' := fun e => hdot _ hxin (by rw [e]; simp)
    have hx'd : '.' ∉ x' := fun h => hdot _ hxin (List.mem_cons_of_mem _ h)
    cases rest with
    | nil =>
      have hk' : k = lead pre ++ c :: x' := by
        rw [← hT, hx, Token_lead]
        rfl
      have hnQ : ¬ segMatches (pre ++ ['*'] :: post) (Keys k) = true := by
        rw [hQ, segMatches_nil_right post hne]
        simp
      by_cases hx' : x' = []
      · refine ⟨fun _ => false, ?_, fun x h => absurd h (by simp), fun h => absurd h hnQ⟩
        rw [hk', hx', delSliceBody_short _ _ _ _ _ [c] (by simp)]
        simp
      · by_cases hs : ['*'] ∈ post
        · refine ⟨fun y => segMatches (pre ++ [] :: post) (Keys y), ?_,
            fun y h => segMatches_wildcard_of_segment pre [] post (Keys y) hlit h,
            fun h => absurd h hnQ⟩
          rw [hk', delSliceBody_last _ _ _ _ _ c x' hx' hx'd]
          simp only [hs, decide_True, if_true]
          have := hrec hs [] (by simp) (by simp) m' hm'
          rw [Token_lead, Token_cons_of_ne_nil _ _ hne] at this
          exact this
        · refine ⟨fun _ => false, ?_, fun x h => absurd h (by simp), fun h => absurd h hnQ⟩
          rw [hk', delSliceBody_last _ _ _ _ _ c x' hx' hx'd]
          simp only [hs, decide_False, Bool.false_eq_true, if_false,
            if_neg (tail_test_last c x' (Token post) hc)]
          simp
    | cons y ys =>
      have hk' : k = lead pre ++ c :: x' ++ '.' :: Token (y :: ys) := by
        rw [← hT, hx, Token_lead, Token_cons_cons]
        simp
      have hrd : ∀ s ∈ y :: ys, '.' ∉ s := by
        intro s hs
        exact hdot s (by rw [hx]; simp [List.mem_cons.1 hs])
      by_cases hs : ['*'] ∈ post
      · refine ⟨fun z => segMatches (pre ++ (c :: x') :: post) (Keys z), ?_,
          fun z h => segMatches_wildcard_of_segment pre (c :: x') post (Keys z) hlit h, ?_⟩
        · rw [hk', delSliceBody_mid _ _ _ _ _ c x' _ hx'd]
          simp only [hs, decide_True, if_true]
          have := hrec hs (c :: x') (hgood _ hxin).2 (hdot _ hxin) m' hm'
          rw [Token_lead, Token_cons_of_ne_nil _ _ hne] at this
          rw [← this]
          congr 1
          simp
        · intro h
          have h2 := hQ.1 h
          exact (segMatches_of_decomposition pre (c :: x') (c :: x') post (y :: ys) (Keys k)
            hlit hx).2 ⟨Or.inr rfl, h2.2⟩
      · have hpl : ∀ s ∈ post, s ≠ ['*'] := fun s hs2 he => hs (he ▸ hs2)
        have hpd : ∀ s ∈ post, '.' ∉ s := by
          intro s hs2
          rcases hpost s hs2 with h3 | h3
          · exact absurd h3 (hpl s hs2)
          · exact h3.2
        have hcond := tail_test_mid post (y :: ys) hne (by simp) hpd hrd
        have hQ2 : segMatches (pre ++ ['*'] :: post) (Keys k) = true ↔ post <+: y :: ys := by
          rw [hQ, segMatches_literal post (y :: ys) hpl]
          simp
        refine ⟨fun z => decide (z = k) && segMatches (pre ++ ['*'] :: post) (Keys k), ?_,
          ?_, ?_⟩
        · have hb := delSliceBody_mid del (lead pre) ('.' :: Token post) false m' c x'
            (Token (y :: ys)) hx'd
          rw [← hk'] at hb
          simp only [hs, decide_False]
          rw [hb]
          simp only [Bool.false_eq_true, if_false]
          congr 1
          by_cases hp : post <+: y :: ys
          · rw [if_pos (hcond.2 hp), hQ2.2 hp]
            unfold delete
            apply List.filter_congr
            intro e _
            simp
          · have hn : ¬ segMatches (pre ++ ['*'] :: post) (Keys k) = true :=
              fun h => hp (hQ2.1 h)
            rw [if_neg (fun h => hp (hcond.1 h))]
            simp only [Bool.not_eq_true] at hn
            simp [hn]
        · intro z hz
          simp only [Bool.and_eq_true, decide_eq_true_eq] at hz
          rw [hz.1]
          exact hz.2
        · intro h
          simp [h]
  · have hnp : ¬ lead pre <+: k := by
      intro hp
      exact hdec (segments_of_lead pre (Keys k) hdpre hdot (Keys_ne_nil k)
        (by rw [hT]; exact hp))
    refine ⟨fun _ => false, ?_, fun x h => absurd h (by simp), ?_⟩
    · rw [delSliceBody_no_head _ _ _ _ _ _ hnp]
      simp
    · intro h
      obtain ⟨x, rest, hx, _⟩ := (segMatches_split pre ['*'] post (Keys k) hlit).1 h
      exact absurd ⟨x, rest, hx⟩ hdec

theorem getLast?_append_cons_of_ne_nil (pre : List (List Char)) (s : List Char)
    (post : List (List Char)) (h : post ≠ []) :
    (pre ++ s :: post).getLast? = post.getLast? := by
  have : pre ++ s :: post = (pre ++ [s]) ++ post := by simp
  rw [this, List.getLast?_append_of_ne_nil _ h]

theorem mem_tail_append_cons (x : List Char) (pre : List (List Char)) (s : List Char)
    (post : List (List Char)) (h : x ∈ post) : x ∈ (pre ++ s :: post).tail := by
  cases pre with
  | nil => exact h
  | cons p pre => simp [h]

/-- A token of segments with a wildcard segment that is neither the first nor the last is
matched by the collection pattern. -/
theorem MatchString_Token (ps : List (List Char)) (h2 : ps.getLast? ≠ some ['*'])
    (h3 : ['*'] ∈ ps.tail) : MatchString (Token ps) = true := by
  cases ps with
  | nil => simp at h3
  | cons a t =>
    obtain ⟨l, r2, he⟩ := List.append_of_mem (show ['*'] ∈ t from h3)
    have hr2 : r2 ≠ [] := by
      intro e
      apply h2
      rw [he, e]
      have : a :: (l ++ [['*']]) = (a :: l) ++ [['*']] := rfl
      rw [this, List.getLast?_append_of_ne_nil _ (by simp)]
      rfl
    apply MatchString_contains
    have hT : Token (a :: t) = Token (a :: l) ++ ['.', '*', '.'] ++ Token r2 := by
      rw [he]
      have : a :: (l ++ ['*'] :: r2) = (a :: l) ++ ['*'] :: r2 := rfl
      rw [this, Token_lead, lead_eq_Token (a :: l) (by simp), Token_cons_of_ne_nil _ _ hr2]
      simp [sep]
    rw [hT]
    exact ⟨Token (a :: l), Token r2, rfl⟩

theorem delEntries_wildcard_step (ord : List (List Char) → List (List Char))
    (hord : ∀ ks, (ord ks).Perm ks) (n : Nat) (ps : List (List Char))
    (h1 : ∀ s ∈ ps, s = ['*'] ∨ ('*' ∉ s ∧ '.' ∉ s)) (h2 : ps.getLast? ≠ some ['*'])
    (h3 : ['*'] ∈ ps.tail)
    (ih : ∀ ps' : List (List Char), (∀ s ∈ ps', s = ['*'] ∨ ('*' ∉ s ∧ '.' ∉ s)) →
      ps'.getLast? ≠ some ['*'] → ['*'] ∈ ps'.tail → ps'.count ['*'] + 1 ≤ ps.count ['*'] →
      ∀ m' : entries, (∀ k ∈ keysOf m', ∀ s ∈ Keys k, s ≠ [] ∧ '*' ∉ s) →
      delEntries ord n m' (Token ps') =
        some (m'.filter (fun e => !segMatches ps' (Keys e.1))))
    (m : entries) (hm : ∀ k ∈ keysOf m, ∀ s ∈ Keys k, s ≠ [] ∧ '*' ∉ s) :
    delEntries ord (n + 1) m (Token ps) =
      some (m.filter (fun e => !segMatches ps (Keys e.1))) := by
  have hmatch := MatchString_Token ps h2 h3
  obtain ⟨pre, post, he, hn⟩ := exists_first_split ['*'] ps (List.mem_of_mem_tail h3)
  subst he
  have hne : post ≠ [] := by
    intro e
    apply h2
    rw [e, List.getLast?_append_of_ne_nil _ (by simp)]
    rfl
  have hpre : ∀ s ∈ pre, '*' ∉ s ∧ '.' ∉ s := by
    intro s hs
    rcases h1 s (List.mem_append_left _ hs) with h | h
    · exact absurd (h ▸ hs) hn
    · exact h
  have hpost : ∀ s ∈ post, s = ['*'] ∨ ('*' ∉ s ∧ '.' ∉ s) :=
    fun s hs => h1 s (List.mem_append_right _ (List.mem_cons_of_mem _ hs))
  have hstar : '*' ∈ Token (pre ++ ['*'] :: post) := by
    rw [Token_lead, Token_cons_of_ne_nil _ _ hne]
    simp
  have hnokey : get? m (Token (pre ++ ['*'] :: post)) = none := by
    rw [get?_eq_none_iff]
    intro hk
    exact star_not_mem_of_Keys _ (fun s hs => (hm _ hk s hs).2) hstar
  rw [delEntries]
  simp only [hnokey, hmatch, if_true]
  apply delSliceAttribute_wildcard ord hord (delEntries ord n) pre post hpre hpost hne _ m hm
  intro hs s hs1 hs2 m' hm'
  have hsne : s ≠ ['*'] := fun e => hs1 (by rw [e]; simp)
  apply ih (pre ++ s :: post) _ _ (mem_tail_append_cons _ pre s post hs) _ m' hm'
  · intro t ht
    rcases List.mem_append.1 ht with h | h
    · exact Or.inr (hpre t h)
    · rcases List.mem_cons.1 h with h | h
      · exact Or.inr (h ▸ ⟨hs1, hs2⟩)
      · exact hpost t h
  · rw [getLast?_append_cons_of_ne_nil pre s post hne,
      ← getLast?_append_cons_of_ne_nil pre ['*'] post hne]
    exact h2
  · simp only [List.count_append, List.count_cons_self]
    rw [List.count_cons_of_ne hsne.symm]
    omega

/-- Map.Del on a map whose keys have segments that are not empty and without the wildcard
character, for a pattern of segments that are the wildcard or free of the wildcard
character and of the dot, with a wildcard segment that is neither the first nor the last:
with a bound on the depth of the calls of at least the number of wildcard segments, the
result is the map without the keys that agree with the pattern on their first segments,
for every order of the visits. -/
theorem delEntries_wildcard (ord : List (List Char) → List (List Char))
    (hord : ∀ ks, (ord ks).Perm ks) : ∀ (n : Nat) (ps : List (List Char)),
    (∀ s ∈ ps, s = ['*'] ∨ ('*' ∉ s ∧ '.' ∉ s)) → ps.getLast? ≠ some ['*'] →
    ['*'] ∈ ps.tail → ps.count ['*'] ≤ n + 1 →
    ∀ m : entries, (∀ k ∈ keysOf m, ∀ s ∈ Keys k, s ≠ [] ∧ '*' ∉ s) →
    delEntries ord (n + 1) m (Token ps) =
      some (m.filter (fun e => !segMatches ps (Keys e.1))) := by
  intro n
  induction n with
  | zero =>
    intro ps h1 h2 h3 h4 m hm
    apply delEntries_wildcard_step ord hord 0 ps h1 h2 h3 _ m hm
    intro ps' _ _ h3' hc
    have : 0 < ps'.count ['*'] := List.count_pos_iff.2 (List.mem_of_mem_tail h3')
    omega
  | succ n ih =>
    intro ps h1 h2 h3 h4 m hm
    apply delEntries_wildcard_step ord hord (n + 1) ps h1 h2 h3 _ m hm
    intro ps' h1' h2' h3' hc m' hm'
    exact ih ps' h1' h2' h3' (by omega) m' hm'

theorem rangeKeys_cons_none (body : entries → List Char → Option entries) (k : List Char)
    (ks : List (List Char)) (m : entries) (hk : (get? m k).isSome = true)
    (hb : body m k = none) : rangeKeys body (k :: ks) m = none := by
  unfold rangeKeys
  cases hg : get? m k with
  | none => rw [hg] at hk; cases hk
  | some v => simp only [hb]

theorem movedBy_none (f : List Char → List Char) (m : entries) :
    movedBy (fun _ => false) f m m :=
  ⟨fun _ h => absurd h (by simp), fun _ _ h => absurd h (by simp), fun _ _ _ => rfl⟩

theorem movedBy_single (f : List Char → List Char) (m : entries) (k : List Char) (v : Leaf)
    (hv : get? m k = some v) (hne : f k ≠ k) :
    movedBy (fun x => decide (x = k)) f m (delete (set m (f k) v) k) := by
  refine ⟨?_, ?_, ?_⟩
  · intro x hx
    simp only [decide_eq_true_eq] at hx
    rw [hx, get?_delete_self]
  · intro x w hx hw
    simp only [decide_eq_true_eq] at hx
    subst hx
    rw [hv] at hw
    cases hw
    rw [get?_delete_ne _ _ _ hne, get?_set_self]
  · intro x hx hfree
    simp only [decide_eq_false_iff_not] at hx
    have h1 : f k ≠ x := hfree k (by simp) (by rw [hv]; rfl)
    rw [get?_delete_ne _ _ _ hx, get?_set_ne _ _ _ _ (fun e => h1 e.symm)]

theorem movedBy_trans (Q : List Char → Bool) (f : List Char → List Char)
    (hQf : ∀ k, Q k = true → Q (f k) = false)
    (hinj : ∀ k k2, Q k = true → Q k2 = true → f k = f k2 → k = k2)
    (d q : List Char → Bool) (hd : ∀ x, d x = true → Q x = true)
    (hq : ∀ x, q x = true → Q x = true) (m0 m1 m2 : entries)
    (h1 : movedBy d f m0 m1) (h2 : movedBy q f m1 m2) :
    movedBy (fun x => d x || q x) f m0 m2 := by
  obtain ⟨a1, b1, c1⟩ := h1
  obtain ⟨a2, b2, c2⟩ := h2
  have hfQ : ∀ k k2, Q k = true → Q k2 = true → f k2 ≠ k := by
    intro k k2 hk hk2 e
    have := hQf k2 hk2
    rw [e, hk] at this
    cases this
  have hkeep : ∀ k, Q k = true → d k = false → get? m1 k = get? m0 k := by
    intro k hk hdk
    exact c1 k hdk (fun k2 h2 _ => hfQ k k2 hk (hd k2 h2))
  refine ⟨?_, ?_, ?_⟩
  · intro k hk
    simp only [Bool.or_eq_true] at hk
    cases hqk : q k with
    | true => exact a2 k hqk
    | false =>
      have hdk : d k = true := by
        rcases hk with h | h
        · exact h
        · rw [hqk] at h; cases h
      rw [c2 k hqk (fun k2 h2 _ => hfQ k k2 (hd k hdk) (hq k2 h2))]
      exact a1 k hdk
  · intro k v hk hv
    simp only [Bool.or_eq_true] at hk
    have hQk : Q k = true := hk.elim (hd k) (hq k)
    cases hdk : d k with
    | true =>
      have hq' : q (f k) = false := by
        cases h : q (f k) with
        | false => rfl
        | true => exact absurd (hq _ h) (by rw [hQf k hQk]; simp)
      rw [c2 (f k) hq']
      · exact b1 k v hdk hv
      · intro k2 h2 hp e
        have := hinj k2 k (hq k2 h2) hQk e
        rw [this, a1 k hdk] at hp
        cases hp
    | false =>
      have hqk : q k = true := by
        rcases hk with h | h
        · rw [hdk] at h; cases h
        · exact h
      exact b2 k v hqk (by rw [hkeep k hQk hdk]; exact hv)
  · intro k hk hfree
    simp only [Bool.or_eq_false_iff] at hk
    rw [c2 k hk.2, c1 k hk.1]
    · intro k2 h2 hp
      exact hfree k2 (by simp [h2]) hp
    · intro k2 h2 hp
      cases hdk2 : d k2 with
      | true => rw [a1 k2 hdk2] at hp; cases hp
      | false =>
        apply hfree k2 (by simp [h2])
        rw [← hkeep k2 (hq k2 h2) hdk2]
        exact hp

theorem movedBy_all (Q : List Char → Bool) (f : List Char → List Char)
    (hQf : ∀ k, Q k = true → Q (f k) = false) (d : List Char → Bool)
    (hd : ∀ x, d x = true → Q x = true) (m r : entries) (h : movedBy d f m r)
    (hall : ∀ k, Q k = true → (get? m k).isSome = true → d k = true) :
    movedBy Q f m r := by
  obtain ⟨a1, b1, c1⟩ := h
  have hfQ : ∀ k k2, Q k = true → Q k2 = true → f k2 ≠ k := by
    intro k k2 hk hk2 e
    have := hQf k2 hk2
    rw [e, hk] at this
    cases this
  refine ⟨?_, ?_, ?_⟩
  · intro k hk
    cases hdk : d k with
    | true => exact a1 k hdk
    | false =>
      rw [c1 k hdk (fun k2 h2 _ => hfQ k k2 hk (hd k2 h2))]
      cases hg : get? m k with
      | none => rfl
      | some v =>
        have := hall k hk (by rw [hg]; rfl)
        rw [hdk] at this
        cases this
  · intro k v hk hv
    exact b1 k v (hall k hk (by rw [hv]; rfl)) hv
  · intro k hk hfree
    have hdk : d k = false := by
      cases h : d k with
      | false => rfl
      | true => rw [hd k h] at hk; cases hk
    exact c1 k hdk (fun k2 h2 hp => hfree k2 (hd k2 h2) hp)

/-- A range loop whose body, at each visited key, moves some of the keys that satisfy Q,
the visited key among them when it satisfies Q, moves every visited key that satisfies
Q. -/
theorem rangeKeys_moveSweep (Q : List Char → Bool) (f : List Char → List Char)
    (hQf : ∀ k, Q k = true → Q (f k) = false)
    (hinj : ∀ k k2, Q k = true → Q k2 = true → f k = f k2 → k = k2)
    (I : entries → Prop)
    (hI : ∀ (q : List Char → Bool) (m r : entries), (∀ x, q x = true → Q x = true) →
      I m → movedBy q f m r → I r)
    (body : entries → List Char → Option entries) (ks : List (List Char))
    (hbody : ∀ k ∈ ks, ∀ m, I m → (get? m k).isSome = true → ∃ (q : List Char → Bool)
      (r : entries), body m k = some r ∧ (∀ x, q x = true → Q x = true) ∧
        (Q k = true → q k = true) ∧ movedBy q f m r) :
    ∀ m, I m → ∃ (d : List Char → Bool) (r : entries), rangeKeys body ks m = some r ∧
      (∀ x, d x = true → Q x = true) ∧ movedBy d f m r ∧
      (∀ k ∈ ks, Q k = true → get? r k = none) := by
  have hfQ : ∀ k k2, Q k = true → Q k2 = true → f k2 ≠ k := by
    intro k k2 hk hk2 e
    have := hQf k2 hk2
    rw [e, hk] at this
    cases this
  induction ks with
  | nil =>
    intro m _
    exact ⟨fun _ => false, m, rfl, fun _ h => absurd h (by simp), movedBy_none f m,
      fun _ hk => absurd hk (by simp)⟩
  | cons k ks ih =>
    intro m hm
    have ih' := ih (fun k' hk' => hbody k' (List.mem_cons_of_mem _ hk'))
    unfold rangeKeys
    cases hg : get? m k with
    | none =>
      obtain ⟨d, r, h1, h2, h3, h4⟩ := ih' m hm
      refine ⟨d, r, by simpa using h1, h2, h3, ?_⟩
      intro k' hk' hQ
      rcases List.mem_cons.1 hk' with rfl | hk'
      · cases hdk : d k' with
        | true => exact h3.1 k' hdk
        | false =>
          rw [h3.2.2 k' hdk (fun k2 hk2 _ => hfQ k' k2 hQ (h2 k2 hk2))]
          exact hg
      · exact h4 k' hk' hQ
    | some v =>
      obtain ⟨q, m1, hb, hq1, hq2, hq3⟩ := hbody k (List.mem_cons_self _ _) m hm
        (by rw [hg]; rfl)
      obtain ⟨d, r, h1, h2, h3, h4⟩ := ih' m1 (hI q m m1 hq1 hm hq3)
      have hcomb := movedBy_trans Q f hQf hinj q d hq1 h2 m m1 r hq3 h3
      refine ⟨fun x => q x || d x, r, ?_, ?_, hcomb, ?_⟩
      · simp only [hb]
        exact h1
      · intro x hx
        simp only [Bool.or_eq_true] at hx
        exact hx.elim (hq1 x) (h2 x)
      · intro k' hk' hQ
        rcases List.mem_cons.1 hk' with rfl | hk'
        · exact hcomb.1 k' (by simp [hq2 hQ])
        · exact h4 k' hk' hQ

/-- The loop of rangeKeys_moveSweep over all the keys of the map moves exactly the keys
that satisfy Q. -/
theorem rangeKeys_moveSweep_all (Q : List Char → Bool) (f : List Char → List Char)
    (hQf : ∀ k, Q k = true → Q (f k) = false)
    (hinj : ∀ k k2, Q k = true → Q k2 = true → f k = f k2 → k = k2)
    (I : entries → Prop)
    (hI : ∀ (q : List Char → Bool) (m r : entries), (∀ x, q x = true → Q x = true) →
      I m → movedBy q f m r → I r)
    (body : entries → List Char → Option entries) (ks : List (List Char))
    (hbody : ∀ k ∈ ks, ∀ m, I m → (get? m k).isSome = true → ∃ (q : List Char → Bool)
      (r : entries), body m k = some r ∧ (∀ x, q x = true → Q x = true) ∧
        (Q k = true → q k = true) ∧ movedBy q f m r)
    (m : entries) (hm : I m) (hall : ∀ k ∈ keysOf m, k ∈ ks) :
    ∃ r, rangeKeys body ks m = some r ∧ movedBy Q f m r := by
  obtain ⟨d, r, h1, h2, h3, h4⟩ := rangeKeys_moveSweep Q f hQf hinj I hI body ks hbody m hm
  refine ⟨r, h1, movedBy_all Q f hQf d h2 m r h3 ?_⟩
  intro k hk hp
  have hkin : k ∈ keysOf m := (get?_isSome_iff m k).1 hp
  cases hdk : d k with
  | true => rfl
  | false =>
    have hfQ : ∀ k2, d k2 = true → (get? m k2).isSome = true → f k2 ≠ k := by
      intro k2 hk2 _ e
      have := hQf k2 (h2 k2 hk2)
      rw [e, hk] at this
      cases this
    have := h4 k (hall k hkin) hk
    rw [h3.2.2 k hdk hfQ] at this
    rw [this] at hp
    cases hp

theorem moveSliceBody_no_head (move : entries → List Char → List Char → Option entries)
    (A oR nR nP : List Char) (r : Bool) (m : entries) (k : List Char) (h : ¬ A <+: k) :
    moveSliceBody move (A ++ '*' :: oR) (A.length : Int) oR r nR nP m k = some m := by
  unfold moveSliceBody
  have hp : HasPrefix k A = false := by
    cases hh : HasPrefix k A with
    | false => rfl
    | true => exact absurd ((HasPrefix_iff _ _).1 hh) h
  rw [prefixTo_append]
  simp only [hp]
  split <;> rfl

theorem moveSliceBody_short (move : entries → List Char → List Char → Option entries)
    (A oR nR nP : List Char) (r : Bool) (m : entries) (w : List Char) (h : w.length ≤ 2) :
    moveSliceBody move (A ++ '*' :: oR) (A.length : Int) oR r nR nP m (A ++ w) = some m := by
  unfold moveSliceBody
  rw [if_pos]
  simp only [List.length_append, Nat.cast_add]
  omega

theorem slice_middle (A x B : List Char) :
    slice (A ++ x ++ B) (A.length : Int) ((A.length : Int) + (x.length : Int)) = some x := by
  unfold slice
  rw [if_pos]
  · simp
  · simp only [List.length_append, Nat.cast_add]
    omega

theorem moveSliceBody_mid (move : entries → List Char → List Char → Option entries)
    (A oR nR nP : List Char) (r : Bool) (m : entries) (x T : List Char) (hx : '.' ∉ x)
    (hlen : 2 < x.length + 1 + T.length) :
    moveSliceBody move (A ++ '*' :: oR) (A.length : Int) oR r nR nP m (A ++ x ++ '.' :: T) =
      if r then move m (A ++ x ++ oR) (nP ++ x ++ nR)
      else
        match suffixFrom oR 1 with
        | none => none
        | some rest =>
          if '.' :: T = rest then
            some (delete (set m (nP ++ x ++ nR) (getD m (A ++ x ++ '.' :: T)))
              (A ++ x ++ '.' :: T))
          else if '.' :: T ≠ sep ++ rest ∧ (!HasPrefix ('.' :: T) (sep ++ (rest ++ sep))) = true
          then some m
          else
            match suffixFrom ('.' :: T) ((rest ++ sep).length : Nat) with
            | none => none
            | some tail =>
              some (delete (set m (nP ++ x ++ nR ++ tail) (getD m (A ++ x ++ '.' :: T)))
                (A ++ x ++ '.' :: T)) := by
  unfold moveSliceBody
  have hl : ¬ (((A ++ x ++ '.' :: T).length : Nat) : Int) ≤ (A.length : Int) + 2 := by
    simp only [List.length_append, List.length_cons, Nat.cast_add]
    omega
  have hpre : HasPrefix (A ++ x ++ '.' :: T) A = true :=
    (HasPrefix_iff _ _).2 ⟨x ++ '.' :: T, by simp⟩
  have hsuf : suffixFrom (A ++ x ++ '.' :: T) (A.length : Int) = some (x ++ '.' :: T) := by
    have := suffixFrom_append A (x ++ '.' :: T)
    simpa using this
  have hidx : Index (x ++ '.' :: T) sep = (x.length : Int) := Index_single_append '.' x T hx
  have hcast : (A.length : Int) + (x.length : Int) = ((A ++ x).length : Nat) := by
    simp only [List.length_append, Nat.cast_add]
  have hst : suffixFrom (A ++ x ++ '.' :: T) ((A.length : Int) + (x.length : Int)) =
      some ('.' :: T) := by
    rw [hcast]
    exact suffixFrom_append (A ++ x) ('.' :: T)
  have hsl : slice (A ++ x ++ '.' :: T) (A.length : Int) ((A.length : Int) + (x.length : Int))
      = some x := slice_middle A x ('.' :: T)
  have hpt : prefixTo (A ++ x ++ '.' :: T) ((A.length : Int) + (x.length : Int)) =
      some (A ++ x) := by
    rw [hcast]
    exact prefixTo_append (A ++ x) ('.' :: T)
  rw [if_neg hl, prefixTo_append]
  simp only [hpre, Bool.not_true, Bool.false_eq_true, if_false, hsuf, hidx, hst, hsl, hpt]

theorem suffixFrom_cons_one (c : Char) (W : List Char) : suffixFrom (c :: W) 1 = some W := by
  have := suffixFrom_append_succ [] c W
  simpa using this

theorem moveSliceBody_mid_last (move : entries → List Char → List Char → Option entries)
    (A W nR nP : List Char) (m : entries) (x T : List Char) (hx : '.' ∉ x)
    (hlen : 2 < x.length + 1 + T.length) (hW : ∀ T', W ≠ '.' :: T') :
    moveSliceBody move (A ++ '*' :: '.' :: W) (A.length : Int) ('.' :: W) false nR nP m
        (A ++ x ++ '.' :: T) =
      some (if T = W ∨ HasPrefix T (W ++ sep) = true then
        delete (set m (nP ++ x ++ nR ++ T.drop W.length) (getD m (A ++ x ++ '.' :: T)))
          (A ++ x ++ '.' :: T)
      else m) := by
  rw [moveSliceBody_mid move A ('.' :: W) nR nP false m x T hx hlen]
  simp only [Bool.false_eq_true, if_false, suffixFrom_cons_one]
  rw [if_neg (fun e => hW T e.symm)]
  have hpre : HasPrefix ('.' :: T) (sep ++ (W ++ sep)) = HasPrefix T (W ++ sep) := by
    rw [Bool.eq_iff_iff, HasPrefix_iff, HasPrefix_iff]
    show '.' :: (W ++ sep) <+: '.' :: T ↔ _
    rw [List.cons_prefix_cons]
    simp
  have hne : ('.' :: T ≠ sep ++ W) ↔ T ≠ W := by
    show '.' :: T ≠ '.' :: W ↔ _
    simp
  by_cases hc : T = W ∨ HasPrefix T (W ++ sep) = true
  · have hlen2 : W.length + 1 ≤ T.length + 1 := by
      rcases hc with h | h
      · rw [h]
      · have := ((HasPrefix_iff _ _).1 h).length_le
        simp only [List.length_append, sep, List.length_singleton] at this
        omega
    have hs : suffixFrom ('.' :: T) (((W ++ sep).length : Nat) : Int) = some (T.drop W.length) := by
      unfold suffixFrom slice
      rw [if_pos]
      · simp [sep]
      · simp only [List.length_append, sep, List.length_singleton, List.length_cons,
          List.length_nil, Nat.cast_add, Nat.cast_one]
        omega
    rw [if_pos hc, if_neg, hs]
    rw [hpre, hne]
    rintro ⟨h1, h2⟩
    rcases hc with h | h
    · exact h1 h
    · rw [h] at h2
      cases h2
  · rw [if_neg hc, if_pos]
    rw [hpre, hne]
    constructor
    · exact fun h => hc (Or.inl h)
    · cases h : HasPrefix T (W ++ sep) with
      | false => rfl
      | true => exact absurd (Or.inr h) hc

theorem Token_append (a b : List (List Char)) (ha : a ≠ []) (hb : b ≠ []) :
    Token (a ++ b) = Token a ++ '.' :: Token b := by
  cases b with
  | nil => exact absurd rfl hb
  | cons y ys =>
    rw [Token_lead, lead_eq_Token a ha]
    simp [sep]

theorem Token_ne_nil (x : List Char) (rest : List (List Char)) (hx : x ≠ []) :
    Token (x :: rest) ≠ [] := by
  cases rest with
  | nil => simpa [Token] using hx
  | cons y ys =>
    rw [Token_cons_cons]
    simp [hx]

theorem tail_test_iff (post rest : List (List Char)) (hpost : post ≠ []) (hrest : rest ≠ [])
    (hdp : ∀ s ∈ post, '.' ∉ s) (hdr : ∀ s ∈ rest, '.' ∉ s) :
    (Token rest = Token post ∨ HasPrefix (Token rest) (Token post ++ sep) = true) ↔
      post <+: rest := by
  rw [← tail_test_mid post rest hpost hrest hdp hdr]
  constructor
  · rintro (h | h)
    · exact Or.inl (by rw [h])
    · right
      rw [HasPrefix_iff] at h ⊢
      exact List.cons_prefix_cons.2 ⟨rfl, h⟩
  · rintro (h | h)
    · exact Or.inl (List.cons.inj h).2
    · right
      rw [HasPrefix_iff] at h ⊢
      exact (List.cons_prefix_cons.1 h).2

theorem Token_drop (post rest : List (List Char)) (hpost : post ≠ []) :
    (Token (post ++ rest)).drop (Token post).length =
      match rest with
      | [] => []
      | y :: ys => '.' :: Token (y :: ys) := by
  cases rest with
  | nil => simp
  | cons y ys =>
    rw [Token_append post (y :: ys) hpost (by simp)]
    simp

theorem set_append_length (a : List (List Char)) (l z : List Char) (b : List (List Char)) :
    (a ++ l :: b).set a.length z = a ++ z :: b := by
  induction a with
  | nil => rfl
  | cons x a ih => simp [List.set, ih]

theorem segMatches_snoc : ∀ (body : List (List Char)) (l : List Char)
    (ks : List (List Char)), l ≠ ['*'] →
    (segMatches (body ++ [l]) ks = true ↔
      segMatches body ks = true ∧ ks[body.length]? = some l) := by
  intro body
  induction body with
  | nil =>
    intro l ks hl
    cases ks with
    | nil => simp [segMatches]
    | cons k ks =>
      rw [List.nil_append, segMatches_cons_cons]
      constructor
      · rintro ⟨h | h, _⟩
        · exact absurd h hl
        · exact ⟨rfl, by simp [h]⟩
      · rintro ⟨_, h⟩
        simp only [List.length_nil, List.getElem?_cons_zero, Option.some.injEq] at h
        exact ⟨Or.inr h.symm, rfl⟩
  | cons p body ih =>
    intro l ks hl
    cases ks with
    | nil => simp [segMatches]
    | cons k ks =>
      rw [List.cons_append, segMatches_cons_cons, segMatches_cons_cons, ih l ks hl]
      simp only [List.length_cons, List.getElem?_cons_succ]
      exact and_assoc.symm

theorem segMatches_set : ∀ (body ks : List (List Char)) (j : Nat) (z : List Char),
    body.length ≤ j → segMatches body (ks.set j z) = segMatches body ks := by
  intro body
  induction body with
  | nil => intro ks j z _; simp [segMatches]
  | cons p body ih =>
    intro ks j z hj
    cases ks with
    | nil => rfl
    | cons k ks =>
      cases j with
      | zero => simp at hj
      | succ j =>
        simp only [List.set_cons_succ, segMatches]
        rw [ih ks j z (by simpa using hj)]

theorem segMatches_length : ∀ (ps ks : List (List Char)), segMatches ps ks = true →
    ps.length ≤ ks.length := by
  intro ps
  induction ps with
  | nil => intro ks _; simp
  | cons p ps ih =>
    intro ks h
    cases ks with
    | nil => simp [segMatches] at h
    | cons k ks =>
      rw [segMatches_cons_cons] at h
      simpa using ih ks h.2

theorem set_eq_of_getElem? (l1 l2 : List (List Char)) (j : Nat) (z : List Char)
    (h : l1.set j z = l2.set j z) (hj : l1[j]? = l2[j]?) : l1 = l2 := by
  apply List.ext_getElem?
  intro i
  by_cases hi : i = j
  · rw [hi, hj]
  · have h1 := congrArg (fun l => l[i]?) h
    simp only [List.getElem?_set_ne (fun e => hi e.symm)] at h1
    exact h1

theorem Keys_renameAt (j : Nat) (z k : List Char) (hz : '.' ∉ z) :
    Keys (renameAt j z k) = (Keys k).set j z := by
  unfold renameAt
  apply Keys_Token
  · intro e
    have := congrArg List.length e
    simp only [List.length_set, List.length_nil] at this
    exact Keys_ne_nil k (List.length_eq_zero.1 this)
  · intro s hs
    rcases List.mem_or_eq_of_mem_set hs with h | h
    · exact Keys_mem_dotfree k s h
    · rw [h]; exact hz

theorem renameAt_not_match (body : List (List Char)) (l z k : List Char) (hl : l ≠ ['*'])
    (hz : '.' ∉ z) (hlz : l ≠ z) (h : segMatches (body ++ [l]) (Keys k) = true) :
    segMatches (body ++ [l]) (Keys (renameAt body.length z k)) = false := by
  have hlen := segMatches_length _ _ h
  simp only [List.length_append, List.length_singleton] at hlen
  cases hc : segMatches (body ++ [l]) (Keys (renameAt body.length z k)) with
  | false => rfl
  | true =>
    rw [Keys_renameAt _ _ _ hz, segMatches_snoc body l _ hl] at hc
    have := hc.2
    rw [List.getElem?_set_self (by omega)] at this
    exact absurd (Option.some.inj this).symm hlz

theorem renameAt_injective (body : List (List Char)) (l z k k2 : List Char) (hl : l ≠ ['*'])
    (hz : '.' ∉ z) (h : segMatches (body ++ [l]) (Keys k) = true)
    (h2 : segMatches (body ++ [l]) (Keys k2) = true)
    (he : renameAt body.length z k = renameAt body.length z k2) : k = k2 := by
  have e := congrArg Keys he
  rw [Keys_renameAt _ _ _ hz, Keys_renameAt _ _ _ hz] at e
  have h1 := ((segMatches_snoc body l _ hl).1 h).2
  have h3 := ((segMatches_snoc body l _ hl).1 h2).2
  have := set_eq_of_getElem? _ _ _ _ e (by rw [h1, h3])
  rw [← Token_Keys k, ← Token_Keys k2, this]

theorem renameAt_segments (j : Nat) (z k : List Char) (hz : '*' ∉ z ∧ '.' ∉ z ∧ z ≠ [])
    (hk : ∀ s ∈ Keys k, s ≠ [] ∧ '*' ∉ s) :
    ∀ s ∈ Keys (renameAt j z k), s ≠ [] ∧ '*' ∉ s := by
  intro s hs
  rw [Keys_renameAt _ _ _ hz.2.1] at hs
  rcases List.mem_or_eq_of_mem_set hs with h | h
  · exact hk s h
  · rw [h]; exact ⟨hz.2.2, hz.1⟩

theorem endsAtWildcard_of_length (body : List (List Char)) (l : List Char)
    (ks : List (List Char)) (hl : l ≠ ['*']) (h : body.length + 1 ≤ ks.length) :
    endsAtWildcard (body ++ [l]) ks = false := by
  unfold endsAtWildcard
  have : (body ++ [l])[ks.length - 1]? ≠ some ['*'] := by
    by_cases hj : ks.length - 1 = body.length
    · rw [hj]
      simp [hl]
    · rw [List.getElem?_eq_none (by simp; omega)]
      simp
  simp [this]

theorem renameAt_endsAtWildcard (body : List (List Char)) (l z k : List Char)
    (hl : l ≠ ['*']) (hz : '.' ∉ z) (h : segMatches (body ++ [l]) (Keys k) = true) :
    endsAtWildcard (body ++ [l]) (Keys (renameAt body.length z k)) = false := by
  apply endsAtWildcard_of_length body l _ hl
  rw [Keys_renameAt _ _ _ hz, List.length_set]
  have := segMatches_length _ _ h
  simpa using this

theorem renameAt_eq (pre post0 rest : List (List Char)) (x l z k : List Char)
    (hk : Keys k = pre ++ x :: (post0 ++ [l] ++ rest)) :
    renameAt (pre.length + 1 + post0.length) z k =
      lead pre ++ x ++ ('.' :: Token (post0 ++ [z])) ++
        (Token (post0 ++ [l] ++ rest)).drop (Token (post0 ++ [l])).length := by
  unfold renameAt
  have h1 : pre ++ x :: (post0 ++ [l] ++ rest) = (pre ++ x :: post0) ++ l :: rest := by simp
  have h2 : pre.length + 1 + post0.length = (pre ++ x :: post0).length := by
    simp only [List.length_append, List.length_cons]
    omega
  rw [hk, h1, h2, set_append_length, Token_drop _ _ (by simp)]
  have h3 : (pre ++ x :: post0) ++ z :: rest = pre ++ x :: (post0 ++ [z] ++ rest) := by simp
  rw [h3, Token_lead]
  cases rest with
  | nil =>
    rw [List.append_nil, Token_cons_of_ne_nil _ _ (by simp)]
    simp
  | cons y ys =>
    rw [Token_cons_of_ne_nil _ _ (by simp), Token_append _ (y :: ys) (by simp) (by simp)]
    simp

theorem segMatches_refl : ∀ (ps : List (List Char)), segMatches ps ps = true := by
  intro ps
  induction ps with
  | nil => rfl
  | cons p ps ih => simp [segMatches, ih]

theorem segMatches_trans : ∀ (ps qs ks : List (List Char)), segMatches ps qs = true →
    segMatches qs ks = true → ps.length = qs.length → segMatches ps ks = true := by
  intro ps
  induction ps with
  | nil => intro qs ks _ _ _; rfl
  | cons p ps ih =>
    intro qs ks h1 h2 hl
    cases qs with
    | nil => simp at hl
    | cons q qs =>
      cases ks with
      | nil => simp [segMatches] at h2
      | cons k ks =>
        rw [segMatches_cons_cons] at h1 h2 ⊢
        refine ⟨?_, ih qs ks h1.2 h2.2 (by simpa using hl)⟩
        rcases h1.1 with h | h
        · exact Or.inl h
        · rw [h]
          exact h2.1

theorem segMatches_take : ∀ (ps qs : List (List Char)) (n : Nat), segMatches ps qs = true →
    segMatches (ps.take n) (qs.take n) = true := by
  intro ps
  induction ps with
  | nil => intro qs n _; simp [segMatches]
  | cons p ps ih =>
    intro qs n h
    cases qs with
    | nil => simp [segMatches] at h
    | cons q qs =>
      cases n with
      | zero => rfl
      | succ n =>
        rw [segMatches_cons_cons] at h
        rw [List.take_succ_cons, List.take_succ_cons, segMatches_cons_cons]
        exact ⟨h.1, ih qs n h.2⟩

theorem segMatches_getElem? : ∀ (ps qs : List (List Char)) (n : Nat),
    segMatches ps qs = true → ps.length = qs.length → qs[n]? = some ['*'] →
    ps[n]? = some ['*'] := by
  intro ps
  induction ps with
  | nil =>
    intro qs n _ hl h
    have : qs = [] := List.length_eq_zero.1 hl.symm
    rw [this] at h
    simp at h
  | cons p ps ih =>
    intro qs n h hl hq
    cases qs with
    | nil => simp at hl
    | cons q qs =>
      rw [segMatches_cons_cons] at h
      cases n with
      | zero =>
        simp only [List.getElem?_cons_zero, Option.some.injEq] at hq ⊢
        rcases h.1 with h1 | h1
        · exact h1
        · rw [h1, hq]
      | succ n =>
        simp only [List.getElem?_cons_succ] at hq ⊢
        exact ih qs n h.2 (by simpa using hl) hq

/-- A key path that ends at a wildcard position of an instance of a pattern ends at a
wildcard position of the pattern. -/
theorem endsAtWildcard_instance (ps qs ks : List (List Char))
    (h : segMatches ps qs = true) (hl : ps.length = qs.length)
    (he : endsAtWildcard qs ks = true) : endsAtWildcard ps ks = true := by
  unfold endsAtWildcard at he ⊢
  simp only [Bool.and_eq_true, decide_eq_true_eq] at he ⊢
  refine ⟨segMatches_getElem? ps qs _ h hl he.1, ?_⟩
  apply segMatches_trans _ _ _ (segMatches_take ps qs _ h) he.2
  simp [hl]

theorem segMatches_instance (pre : List (List Char)) (s : List Char)
    (post : List (List Char)) :
    segMatches (pre ++ ['*'] :: post) (pre ++ s :: post) = true := by
  induction pre with
  | nil => simp [segMatches, segMatches_refl]
  | cons p pre ih => simp [segMatches, ih]

theorem recursive_iff (post : List (List Char))
    (hpost : ∀ s ∈ post, s = ['*'] ∨ ('*' ∉ s ∧ '.' ∉ s)) :
    decide (-1 < Index ('.' :: Token post) ['*']) = decide (['*'] ∈ post) := by
  by_cases hs : ['*'] ∈ post
  · have hin : '*' ∈ '.' :: Token post := by
      obtain ⟨l, r, he, _⟩ := exists_first_split ['*'] post hs
      rw [he, Token_lead]
      cases r with
      | nil => simp [Token]
      | cons y ys => simp [Token_cons_cons]
    obtain ⟨s1, s2, he⟩ := List.append_of_mem hin
    have hnn : 0 ≤ Index ('.' :: Token post) ['*'] :=
      indexFrom_nonneg ['*'] _ 0 ⟨s1, s2, by rw [he]; simp⟩
    simp only [hs, decide_True, decide_eq_true_eq]
    omega
  · have hnot : '*' ∉ '.' :: Token post := by
      intro hin
      rcases List.mem_cons.1 hin with h1 | h1
      · exact absurd h1 (by decide)
      · rcases mem_Token '*' post h1 with h2 | ⟨s, hs2, hc⟩
        · exact absurd h2 (by decide)
        · rcases hpost s hs2 with h3 | h3
          · exact hs (h3 ▸ hs2)
          · exact h3.1 hc
    rw [Index_single_of_not_mem '*' _ hnot]
    simp [hs]

theorem movable_movedBy (body : List (List Char)) (l z : List Char) (hl : l ≠ ['*'])
    (hz : '*' ∉ z ∧ '.' ∉ z ∧ z ≠ []) (q : List Char → Bool) (m r : entries)
    (hq : ∀ x, q x = true → segMatches (body ++ [l]) (Keys x) = true)
    (hm : movable (body ++ [l]) m) (h : movedBy q (renameAt body.length z) m r) :
    movable (body ++ [l]) r := by
  intro k hk
  have hs : (get? r k).isSome = true := (get?_isSome_iff r k).2 hk
  by_cases hex : ∃ k2, q k2 = true ∧ (get? m k2).isSome = true ∧ renameAt body.length z k2 = k
  · obtain ⟨k2, h2, hp, rfl⟩ := hex
    have hk2 := hm k2 ((get?_isSome_iff m k2).1 hp)
    refine ⟨renameAt_segments _ z k2 hz hk2.1, fun he => ?_⟩
    rw [renameAt_endsAtWildcard body l z k2 hl hz.2.1 (hq k2 h2)] at he
    cases he
  · cases hqk : q k with
    | true =>
      rw [h.1 k hqk] at hs
      cases hs
    | false =>
      have := h.2.2 k hqk (fun k2 h2 hp e => hex ⟨k2, h2, hp, e⟩)
      rw [this] at hs
      exact hm k ((get?_isSome_iff m k).1 hs)

theorem segMatches_append_self : ∀ (pre rest : List (List Char)),
    segMatches pre (pre ++ rest) = true := by
  intro pre
  induction pre with
  | nil => intro rest; rfl
  | cons p pre ih => intro rest; simp [segMatches, ih]

theorem get?_getD (m : entries) (k : List Char) (h : (get? m k).isSome = true) :
    get? m k = some (getD m k) := by
  unfold getD
  cases hg : get? m k with
  | none => rw [hg] at h; cases h
  | some v => rfl

theorem Token_head_ne_dot (post : List (List Char)) (hne : post ≠ [])
    (hpost : ∀ s ∈ post, '.' ∉ s ∧ s ≠ []) : ∀ T', Token post ≠ '.' :: T' := by
  intro T' e
  cases post with
  | nil => exact absurd rfl hne
  | cons y ys =>
    have hy := hpost y (by simp)
    cases y with
    | nil => exact hy.2 rfl
    | cons c y' =>
      have hc : c ≠ '.' := fun e => hy.1 (by rw [e]; simp)
      cases ys with
      | nil =>
        simp only [Token] at e
        exact hc (List.cons.inj e).1
      | cons y2 ys =>
        rw [Token_cons_cons] at e
        exact hc (List.cons.inj e).1

/-- The loop of Map.moveSliceAttribute for a pattern with its first wildcard after the
segments pre and a new key that differs from it in the last segment, on a movable map,
when the calls of Map.Move for the patterns with that wildcard replaced move the keys that
agree with those patterns: the keys that agree with the pattern are moved. -/
theorem moveSliceAttribute_wildcard (ord : List (List Char) → List (List Char))
    (hord : ∀ ks, (ord ks).Perm ks)
    (mv : entries → List Char → List Char → Option entries)
    (pre post0 : List (List Char)) (l z : List Char)
    (hpre : ∀ s ∈ pre, '*' ∉ s ∧ '.' ∉ s)
    (hpost0 : ∀ s ∈ post0, s = ['*'] ∨ ('*' ∉ s ∧ '.' ∉ s ∧ s ≠ []))
    (hl : '*' ∉ l ∧ '.' ∉ l ∧ l ≠ []) (hz : '*' ∉ z ∧ '.' ∉ z ∧ z ≠ []) (hlz : l ≠ z)
    (hrec : ['*'] ∈ post0 → ∀ s : List Char, '*' ∉ s → '.' ∉ s → s ≠ [] → ∀ m' : entries,
      movable (pre ++ ['*'] :: (post0 ++ [l])) m' →
      ∃ r, mv m' (Token (pre ++ s :: (post0 ++ [l]))) (Token (pre ++ s :: (post0 ++ [z]))) =
          some r ∧
        movedBy (fun k => segMatches (pre ++ s :: (post0 ++ [l])) (Keys k))
          (renameAt (pre.length + 1 + post0.length) z) m' r)
    (m : entries) (hm : movable (pre ++ ['*'] :: (post0 ++ [l])) m) :
    ∃ r, moveSliceAttribute mv ord m (Token (pre ++ ['*'] :: (post0 ++ [l])))
        (Token (pre ++ ['*'] :: (post0 ++ [z]))) = some r ∧
      movedBy (fun k => segMatches (pre ++ ['*'] :: (post0 ++ [l])) (Keys k))
        (renameAt (pre.length + 1 + post0.length) z) m r := by
  have hne : post0 ++ [l] ≠ [] := by simp
  have hne' : post0 ++ [z] ≠ [] := by simp
  have hlstar : l ≠ ['*'] := fun e => hl.1 (by rw [e]; simp)
  have hpat : Token (pre ++ ['*'] :: (post0 ++ [l])) =
      lead pre ++ '*' :: ('.' :: Token (post0 ++ [l])) := by
    rw [Token_lead, Token_cons_of_ne_nil _ _ hne]
    rfl
  have hpat' : Token (pre ++ ['*'] :: (post0 ++ [z])) =
      lead pre ++ '*' :: ('.' :: Token (post0 ++ [z])) := by
    rw [Token_lead, Token_cons_of_ne_nil _ _ hne']
    rfl
  have hA : '*' ∉ lead pre := star_not_mem_lead pre (fun s hs => (hpre s hs).1)
  have hlit : ∀ s ∈ pre, s ≠ ['*'] := by
    intro s hs he
    exact (hpre s hs).1 (by rw [he]; simp)
  have hdpre : ∀ s ∈ pre, '.' ∉ s := fun s hs => (hpre s hs).2
  have hpost : ∀ s ∈ post0 ++ [l], s = ['*'] ∨ ('*' ∉ s ∧ '.' ∉ s) := by
    intro s hs
    rcases List.mem_append.1 hs with h | h
    · exact (hpost0 s h).imp id (fun h => ⟨h.1, h.2.1⟩)
    · rw [List.mem_singleton.1 h]
      exact Or.inr ⟨hl.1, hl.2.1⟩
  have hr : decide (-1 < Index ('.' :: Token (post0 ++ [l])) ['*']) =
      decide (['*'] ∈ post0) := by
    rw [recursive_iff _ hpost]
    congr 1
    simp [hlstar.symm]
  have hbodyeq : pre ++ ['*'] :: (post0 ++ [l]) = (pre ++ ['*'] :: post0) ++ [l] := by simp
  have hj : pre.length + 1 + post0.length = (pre ++ ['*'] :: post0).length := by
    simp only [List.length_append, List.length_cons]
    omega
  unfold moveSliceAttribute
  simp only [hpat, hpat', Index_single_append '*' (lead pre) _ hA, suffixFrom_append_succ,
    prefixTo_append, hr]
  rw [← hpat]
  apply rangeKeys_moveSweep_all (fun k => segMatches (pre ++ ['*'] :: (post0 ++ [l])) (Keys k))
    (renameAt (pre.length + 1 + post0.length) z) _ _
    (movable (pre ++ ['*'] :: (post0 ++ [l]))) _ _ _ _ m hm
    (fun k hk => (hord _).mem_iff.2 hk)
  · intro k hk
    rw [hj]
    simp only [hbodyeq] at hk ⊢
    exact renameAt_not_match _ l z k hlstar hz.2.1 hlz hk
  · intro k k2 hk hk2 he
    rw [hj] at he
    simp only [hbodyeq] at hk hk2
    exact renameAt_injective _ l z k k2 hlstar hz.2.1 hk hk2 he
  · intro q m1 r hq hm1 hmv
    rw [hj] at hmv
    rw [hbodyeq] at hm1 ⊢
    simp only [hbodyeq] at hq
    exact movable_movedBy _ l z hlstar hz q m1 r hq hm1 hmv
  intro k _ m' hm' hp
  have hkin : k ∈ keysOf m' := (get?_isSome_iff m' k).1 hp
  obtain ⟨hgood, hN⟩ := hm' k hkin
  have hdot := Keys_mem_dotfree k
  have hT : Token (Keys k) = k := Token_Keys k
  rw [hpat]
  by_cases hdec : ∃ x rest, Keys k = pre ++ x :: rest
  · obtain ⟨x, rest, hx⟩ := hdec
    have hxin : x ∈ Keys k := by rw [hx]; simp
    have hQ := segMatches_of_decomposition pre ['*'] x (post0 ++ [l]) rest (Keys k) hlit hx
    have hxd : '.' ∉ x := hdot _ hxin
    cases rest with
    | nil =>
      have hk' : k = lead pre ++ x := by
        rw [← hT, hx, Token_lead]
        rfl
      have hnQ : ¬ segMatches (pre ++ ['*'] :: (post0 ++ [l])) (Keys k) = true := by
        rw [hQ, segMatches_nil_right _ hne]
        simp
      have hE : endsAtWildcard (pre ++ ['*'] :: (post0 ++ [l])) (Keys k) = true := by
        rw [hx]
        unfold endsAtWildcard
        have h1 : (pre ++ ['*'] :: (post0 ++ [l]))[(pre ++ [x]).length - 1]? = some ['*'] := by
          have : (pre ++ [x]).length - 1 = pre.length := by simp
          rw [this, List.getElem?_append_right (Nat.le_refl _)]
          simp
        have h2 : List.take ((pre ++ [x]).length - 1) (pre ++ ['*'] :: (post0 ++ [l])) = pre := by
          have : (pre ++ [x]).length - 1 = pre.length := by simp
          rw [this, List.take_left']
          rfl
        rw [h1, h2, segMatches_append_self]
        simp
      have hx2 : x.length ≤ 2 := hN hE x (by rw [hx]; simp)
      refine ⟨fun _ => false, m', ?_, fun x h => absurd h (by simp),
        fun h => absurd h hnQ, movedBy_none _ m'⟩
      rw [hk', moveSliceBody_short _ _ _ _ _ _ _ x hx2]
    | cons y ys =>
      have hk' : k = lead pre ++ x ++ '.' :: Token (y :: ys) := by
        rw [← hT, hx, Token_lead, Token_cons_cons]
        simp
      have hrd : ∀ s ∈ y :: ys, '.' ∉ s := by
        intro s hs
        exact hdot s (by rw [hx]; simp [List.mem_cons.1 hs])
      have hyne : y ≠ [] := (hgood y (by rw [hx]; simp)).1
      have hlen : 2 < x.length + 1 + (Token (y :: ys)).length := by
        have h1 := List.length_pos.2 (hgood x hxin).1
        have h2 := List.length_pos.2 (Token_ne_nil y ys hyne)
        omega
      by_cases hs : ['*'] ∈ post0
      · obtain ⟨r, hr1, hr2⟩ := hrec hs x (hgood x hxin).2 hxd (hgood x hxin).1 m' hm'
        refine ⟨fun k2 => segMatches (pre ++ x :: (post0 ++ [l])) (Keys k2), r, ?_,
          fun k2 h => segMatches_wildcard_of_segment pre x _ (Keys k2) hlit h, ?_, hr2⟩
        · rw [hk', moveSliceBody_mid _ _ _ _ _ _ _ x _ hxd hlen]
          simp only [hs, decide_True, if_true]
          rw [Token_lead pre x (post0 ++ [l]), Token_cons_of_ne_nil _ _ hne,
            Token_lead pre x (post0 ++ [z]), Token_cons_of_ne_nil _ _ hne'] at hr1
          rw [← hr1]
          congr 1 <;> simp
        · intro h
          have h2 := hQ.1 h
          exact (segMatches_of_decomposition pre x x _ (y :: ys) (Keys k) hlit hx).2
            ⟨Or.inr rfl, h2.2⟩
      · have hpl : ∀ s ∈ post0 ++ [l], s ≠ ['*'] := by
          intro s hs2 he
          rcases List.mem_append.1 hs2 with h | h
          · exact hs (he ▸ h)
          · exact hlstar (by rw [← he]; exact (List.mem_singleton.1 h).symm)
        have hpd : ∀ s ∈ post0 ++ [l], '.' ∉ s ∧ s ≠ [] := by
          intro s hs2
          rcases List.mem_append.1 hs2 with h | h
          · rcases hpost0 s h with h3 | h3
            · exact absurd (h3 ▸ h) hs
            · exact ⟨h3.2.1, h3.2.2⟩
          · rw [List.mem_singleton.1 h]
            exact ⟨hl.2.1, hl.2.2⟩
        have hcond := tail_test_iff (post0 ++ [l]) (y :: ys) hne (by simp)
          (fun s hs2 => (hpd s hs2).1) hrd
        have hQ2 : segMatches (pre ++ ['*'] :: (post0 ++ [l])) (Keys k) = true ↔
            post0 ++ [l] <+: y :: ys := by
          rw [hQ, segMatches_literal _ (y :: ys) hpl]
          simp
        have hb := moveSliceBody_mid_last mv (lead pre) (Token (post0 ++ [l]))
          ('.' :: Token (post0 ++ [z])) (lead pre) m' x (Token (y :: ys)) hxd hlen
          (Token_head_ne_dot _ hne hpd)
        rw [← hk'] at hb
        simp only [hs, decide_False]
        rw [hb]
        by_cases hp2 : post0 ++ [l] <+: y :: ys
        · obtain ⟨rest', hr'⟩ := hp2
          have hx2 : Keys k = pre ++ x :: (post0 ++ [l] ++ rest') := by rw [hx, hr']
          have hnew := renameAt_eq pre post0 rest' x l z k hx2
          rw [hr'] at hnew
          have hQk : segMatches (pre ++ ['*'] :: (post0 ++ [l])) (Keys k) = true :=
            hQ2.2 ⟨rest', hr'⟩
          have hfk : renameAt (pre.length + 1 + post0.length) z k ≠ k := by
            intro e
            have h1 : segMatches ((pre ++ ['*'] :: post0) ++ [l])
                (Keys (renameAt (pre ++ ['*'] :: post0).length z k)) = false :=
              renameAt_not_match _ l z k hlstar hz.2.1 hlz (by rw [← hbodyeq]; exact hQk)
            rw [← hj, e, ← hbodyeq, hQk] at h1
            cases h1
          refine ⟨fun k2 => decide (k2 = k), _, ?_, ?_, fun _ => by simp,
            movedBy_single _ m' k (getD m' k) (get?_getD m' k hp) hfk⟩
          · rw [if_pos (hcond.2 ⟨rest', hr'⟩), hnew]
          · intro k2 h2
            simp only [decide_eq_true_eq] at h2
            rw [h2]
            exact hQk
        · refine ⟨fun _ => false, m', ?_, fun x h => absurd h (by simp),
            fun h => absurd (hQ2.1 h) hp2, movedBy_none _ m'⟩
          rw [if_neg (fun h => hp2 (hcond.1 h))]
  · have hnp : ¬ lead pre <+: k := by
      intro hp
      exact hdec (segments_of_lead pre (Keys k) hdpre hdot (Keys_ne_nil k)
        (by rw [hT]; exact hp))
    refine ⟨fun _ => false, m', ?_, fun x h => absurd h (by simp), ?_, movedBy_none _ m'⟩
    · rw [moveSliceBody_no_head _ _ _ _ _ _ _ _ hnp]
    · intro h
      obtain ⟨x, rest, hx, _⟩ := (segMatches_split pre ['*'] _ (Keys k) hlit).1 h
      exact absurd ⟨x, rest, hx⟩ hdec

theorem movable_instance (ps qs : List (List Char)) (m : entries)
    (h : segMatches ps qs = true) (hl : ps.length = qs.length) (hm : movable ps m) :
    movable qs m := by
  intro k hk
  exact ⟨(hm k hk).1, fun he => (hm k hk).2 (endsAtWildcard_instance ps qs (Keys k) h hl he)⟩

theorem moveEntries_wildcard_step (ord : List (List Char) → List (List Char))
    (hord : ∀ ks, (ord ks).Perm ks) (z : List Char) (hz : '*' ∉ z ∧ '.' ∉ z ∧ z ≠ [])
    (n : Nat) (body : List (List Char)) (l : List Char)
    (h1 : ∀ s ∈ body, s = ['*'] ∨ ('*' ∉ s ∧ '.' ∉ s ∧ s ≠ []))
    (hl : '*' ∉ l ∧ '.' ∉ l ∧ l ≠ []) (hlz : l ≠ z) (h3 : ['*'] ∈ body.tail)
    (ih : ∀ body' : List (List Char),
      (∀ s ∈ body', s = ['*'] ∨ ('*' ∉ s ∧ '.' ∉ s ∧ s ≠ [])) → ['*'] ∈ body'.tail →
      body'.count ['*'] + 1 ≤ body.count ['*'] → ∀ m' : entries, movable (body' ++ [l]) m' →
      ∃ r, moveEntries ord n m' (Token (body' ++ [l])) (Token (body' ++ [z])) = some r ∧
        movedBy (fun k => segMatches (body' ++ [l]) (Keys k)) (renameAt body'.length z) m' r)
    (m : entries) (hm : movable (body ++ [l]) m) :
    ∃ r, moveEntries ord (n + 1) m (Token (body ++ [l])) (Token (body ++ [z])) = some r ∧
      movedBy (fun k => segMatches (body ++ [l]) (Keys k)) (renameAt body.length z) m r := by
  have hlstar : l ≠ ['*'] := fun e => hl.1 (by rw [e]; simp)
  have h2 : (body ++ [l]).getLast? ≠ some ['*'] := by
    rw [List.getLast?_append_of_ne_nil _ (by simp)]
    simpa using hlstar
  have h3' : ['*'] ∈ (body ++ [l]).tail := by
    cases body with
    | nil => simp at h3
    | cons b bs => simpa using Or.inl h3
  have hmatch := MatchString_Token (body ++ [l]) h2 h3'
  obtain ⟨pre, post0, he, hn⟩ := exists_first_split ['*'] body (List.mem_of_mem_tail h3)
  subst he
  have hpre : ∀ s ∈ pre, '*' ∉ s ∧ '.' ∉ s := by
    intro s hs
    rcases h1 s (List.mem_append_left _ hs) with h | h
    · exact absurd (h ▸ hs) hn
    · exact ⟨h.1, h.2.1⟩
  have hpost0 : ∀ s ∈ post0, s = ['*'] ∨ ('*' ∉ s ∧ '.' ∉ s ∧ s ≠ []) :=
    fun s hs => h1 s (List.mem_append_right _ (List.mem_cons_of_mem _ hs))
  have e1 : pre ++ ['*'] :: post0 ++ [l] = pre ++ ['*'] :: (post0 ++ [l]) := by simp
  have e2 : pre ++ ['*'] :: post0 ++ [z] = pre ++ ['*'] :: (post0 ++ [z]) := by simp
  have e3 : (pre ++ ['*'] :: post0).length = pre.length + 1 + post0.length := by
    simp only [List.length_append, List.length_cons]
    omega
  rw [e1] at hm h2 h3' hmatch
  rw [e1, e2, e3]
  have hstar : '*' ∈ Token (pre ++ ['*'] :: (post0 ++ [l])) := by
    rw [Token_lead, Token_cons_of_ne_nil _ _ (by simp)]
    simp
  have hnokey : get? m (Token (pre ++ ['*'] :: (post0 ++ [l]))) = none := by
    rw [get?_eq_none_iff]
    intro hk
    exact star_not_mem_of_Keys _ (fun s hs => ((hm _ hk).1 s hs).2) hstar
  rw [moveEntries]
  simp only [hnokey, hmatch, if_true]
  apply moveSliceAttribute_wildcard ord hord (moveEntries ord n) pre post0 l z hpre hpost0 hl hz
    hlz _ m hm
  intro hs s hs1 hs2 hs3 m' hm'
  have hsne : s ≠ ['*'] := fun e => hs1 (by rw [e]; simp)
  have e4 : pre ++ s :: post0 ++ [l] = pre ++ s :: (post0 ++ [l]) := by simp
  have e5 : pre ++ s :: post0 ++ [z] = pre ++ s :: (post0 ++ [z]) := by simp
  have e6 : (pre ++ s :: post0).length = pre.length + 1 + post0.length := by
    simp only [List.length_append, List.length_cons]
    omega
  have := ih (pre ++ s :: post0) ?_ ?_ ?_ m' ?_
  · rw [e4, e5, e6] at this
    exact this
  · intro t ht
    rcases List.mem_append.1 ht with h | h
    · exact h1 t (List.mem_append_left _ h)
    · rcases List.mem_cons.1 h with h | h
      · exact Or.inr (h ▸ ⟨hs1, hs2, hs3⟩)
      · exact hpost0 t h
  · exact mem_tail_append_cons _ pre s post0 hs
  · simp only [List.count_append, List.count_cons_self]
    rw [List.count_cons_of_ne hsne.symm]
    omega
  · rw [e4]
    exact movable_instance _ _ m' (segMatches_instance pre s (post0 ++ [l])) (by simp) hm'

/-- Map.Move on a movable map, for a pattern of segments that are the wildcard or not
empty and free of the wildcard character and of the dot, with a wildcard segment after the
first segment and a last segment l that is not the wildcard, and the new key that differs
in the last segment, z for l: with a bound on the depth of the calls of at least the
number of wildcard segments, the keys that agree with the pattern on their first segments
are moved to the key with z at the position of l, for every order of the visits. -/
theorem moveEntries_wildcard (ord : List (List Char) → List (List Char))
    (hord : ∀ ks, (ord ks).Perm ks) (z : List Char) (hz : '*' ∉ z ∧ '.' ∉ z ∧ z ≠ []) :
    ∀ (n : Nat) (body : List (List Char)) (l : List Char),
    (∀ s ∈ body, s = ['*'] ∨ ('*' ∉ s ∧ '.' ∉ s ∧ s ≠ [])) →
    ('*' ∉ l ∧ '.' ∉ l ∧ l ≠ []) → l ≠ z → ['*'] ∈ body.tail → body.count ['*'] ≤ n + 1 →
    ∀ m : entries, movable (body ++ [l]) m →
    ∃ r, moveEntries ord (n + 1) m (Token (body ++ [l])) (Token (body ++ [z])) = some r ∧
      movedBy (fun k => segMatches (body ++ [l]) (Keys k)) (renameAt body.length z) m r := by
  intro n
  induction n with
  | zero =>
    intro body l h1 hl hlz h3 h4 m hm
    apply moveEntries_wildcard_step ord hord z hz 0 body l h1 hl hlz h3 _ m hm
    intro body' _ h3' hc
    have : 0 < body'.count ['*'] := List.count_pos_iff.2 (List.mem_of_mem_tail h3')
    omega
  | succ n ih =>
    intro body l h1 hl hlz h3 h4 m hm
    apply moveEntries_wildcard_step ord hord z hz (n + 1) body l h1 hl hlz h3 _ m hm
    intro body' h1' h3' hc m' hm'
    exact ih body' l h1' hl hlz h3' (by omega) m' hm'

theorem mem_of_indexFrom_nonneg (c : Char) : ∀ (s : List Char) (i : Nat),
    0 ≤ indexFrom [c] s i → c ∈ s := by
  intro s i h
  by_contra hc
  rw [indexFrom_single_of_not_mem c s i hc] at h
  omega

theorem contains_of_indexFrom_nonneg (sub : List Char) (hsub : sub ≠ []) :
    ∀ (s : List Char) (i : Nat), 0 ≤ indexFrom sub s i → sub <:+: s := by
  intro s
  induction s with
  | nil =>
    intro i h
    simp [indexFrom, hsub] at h
  | cons a s ih =>
    intro i h
    rw [indexFrom] at h
    by_cases hp : (sub.isPrefixOf (a :: s)) = true
    · exact (List.isPrefixOf_iff_prefix.1 hp).isInfix
    · rw [if_neg hp] at h
      exact (ih (i + 1) h).trans (List.suffix_cons a s).isInfix

theorem star_mem_of_MatchString (s : List Char) (h : MatchString s = true) : '*' ∈ s := by
  unfold MatchString Index at h
  have := contains_of_indexFrom_nonneg ['.', '*', '.'] (by simp) s 0 (of_decide_eq_true h)
  obtain ⟨a, b, rfl⟩ := this
  simp

theorem exists_first_char (a : Char) : ∀ (l : List Char), a ∈ l →
    ∃ pre post, l = pre ++ a :: post ∧ a ∉ pre := by
  intro l
  induction l with
  | nil => intro h; cases h
  | cons b l ih =>
    intro h
    by_cases hb : b = a
    · exact ⟨[], l, by rw [hb]; rfl, by simp⟩
    · rcases List.mem_cons.1 h with h1 | h1
      · exact absurd h1.symm hb
      · obtain ⟨pre, post, he, hn⟩ := ih h1
        refine ⟨b :: pre, post, by rw [he]; rfl, ?_⟩
        intro hm
        rcases List.mem_cons.1 hm with h2 | h2
        · exact hb h2.symm
        · exact hn h2

/-- A range loop whose body returns on the maps that satisfy I, with a map that satisfies
I, returns. -/
theorem rangeKeys_returns (I : entries → Prop)
    (body : entries → List Char → Option entries)
    (hbody : ∀ k m, I m → (get? m k).isSome = true → ∃ r, body m k = some r ∧ I r) :
    ∀ (ks : List (List Char)) (m : entries), I m → ∃ r, rangeKeys body ks m = some r ∧ I r := by
  intro ks
  induction ks with
  | nil => intro m hm; exact ⟨m, rfl, hm⟩
  | cons k ks ih =>
    intro m hm
    unfold rangeKeys
    cases hg : get? m k with
    | none => exact ih m hm
    | some v =>
      obtain ⟨r, hr, hI⟩ := hbody k m hm (by rw [hg]; rfl)
      simp only [hr]
      exact ih r hI

theorem keysOf_delete_subset (m : entries) (k x : List Char) (h : x ∈ keysOf (delete m k)) :
    x ∈ keysOf m :=
  keysOf_filter_subset m _ x h

theorem count_star_eq_zero (s : List Char) (h : '*' ∉ s) : s.count '*' = 0 :=
  List.count_eq_zero.2 h

theorem delEntries_returns_step (ord : List (List Char) → List (List Char)) (n : Nat)
    (pre : List Char) (m : entries) (hm : ∀ k ∈ keysOf m, '*' ∉ k)
    (ih : ∀ (pre' : List Char) (m' : entries), 1 ≤ pre'.count '*' →
      pre'.count '*' + 1 ≤ pre.count '*' → (∀ k ∈ keysOf m', '*' ∉ k) →
      ∃ r, delEntries ord n m' pre' = some r ∧ ∀ k ∈ keysOf r, k ∈ keysOf m') :
    ∃ r, delEntries ord (n + 1) m pre = some r ∧ ∀ k ∈ keysOf r, k ∈ keysOf m := by
  rw [delEntries]
  cases hg : get? m pre with
  | some v => exact ⟨_, rfl, fun k hk => keysOf_delete_subset m pre k hk⟩
  | none =>
    simp only
    by_cases hM : MatchString pre = true
    · rw [if_pos hM]
      obtain ⟨A, R, rfl, hA⟩ := exists_first_char '*' pre (star_mem_of_MatchString pre hM)
      unfold delSliceAttribute
      simp only [Index_single_append '*' A R hA, suffixFrom_append_succ]
      apply rangeKeys_returns (fun m' => ∀ k ∈ keysOf m', k ∈ keysOf m) _ _ _ m
        (fun k hk => hk)
      intro k m' hm' hp
      have hkm : k ∈ keysOf m := hm' k ((get?_isSome_iff m' k).1 hp)
      have hks : '*' ∉ k := hm k hkm
      have hdel : ∀ x ∈ keysOf (delete m' k), x ∈ keysOf m :=
        fun x hx => hm' x (keysOf_delete_subset m' k x hx)
      have hcall : ∀ s : List Char, '*' ∉ s →
          decide (-1 < Index R ['*']) = true →
          ∃ r, delEntries ord n m' (A ++ s ++ R) = some r ∧ ∀ x ∈ keysOf r, x ∈ keysOf m := by
        intro s hs hr
        have hR : '*' ∈ R := by
          apply mem_of_indexFrom_nonneg '*' R 0
          have := of_decide_eq_true hr
          unfold Index at this
          omega
        have hRc : 1 ≤ R.count '*' := List.count_pos_iff.2 hR
        obtain ⟨r, h1, h2⟩ := ih (A ++ s ++ R) m'
          (by simp only [List.count_append]; omega)
          (by
            simp only [List.count_append, List.count_cons_self, count_star_eq_zero A hA,
              count_star_eq_zero s hs]
            omega)
          (fun x hx => hm x (hm' x hx))
        exact ⟨r, h1, fun x hx => hm' x (h2 x hx)⟩
      by_cases hpre : A <+: k
      · obtain ⟨w, rfl⟩ := hpre
        by_cases hw : w.length < 2
        · exact ⟨m', delSliceBody_short _ A R _ m' w hw, hm'⟩
        · cases w with
          | nil => simp at hw
          | cons c tail =>
            have htail : tail ≠ [] := by
              intro e
              rw [e] at hw
              simp at hw
            have hct : '*' ∉ c :: tail := fun h => hks (List.mem_append_right _ h)
            by_cases hd : '.' ∈ tail
            · obtain ⟨t, u, rfl, ht⟩ := exists_first_char '.' tail hd
              have hk : A ++ c :: (t ++ '.' :: u) = A ++ c :: t ++ '.' :: u := by simp
              rw [hk, delSliceBody_mid _ A R _ m' c t u ht]
              cases hr : decide (-1 < Index R ['*']) with
              | true =>
                simp only [if_true]
                have hs : '*' ∉ c :: t := by
                  intro h
                  apply hct
                  rcases List.mem_cons.1 h with h | h
                  · rw [h]; simp
                  · simp [h]
                exact hcall (c :: t) hs hr
              | false =>
                simp only [Bool.false_eq_true, if_false]
                split
                · exact ⟨_, rfl, by rw [← hk]; exact hdel⟩
                · exact ⟨_, rfl, hm'⟩
            · rw [delSliceBody_last _ A R _ m' c tail htail hd]
              cases hr : decide (-1 < Index R ['*']) with
              | true =>
                simp only [if_true]
                have := hcall [] (by simp) hr
                rw [List.append_nil] at this
                exact this
              | false =>
                simp only [Bool.false_eq_true, if_false]
                split
                · exact ⟨_, rfl, hdel⟩
                · exact ⟨_, rfl, hm'⟩
      · exact ⟨m', delSliceBody_no_head _ A R _ m' k hpre, hm'⟩
    · rw [if_neg hM]
      apply rangeKeys_returns (fun m' => ∀ k ∈ keysOf m', k ∈ keysOf m) _ _ _ m
        (fun k hk => hk)
      intro k m' hm' hp
      have hkm : k ∈ keysOf m := hm' k ((get?_isSome_iff m' k).1 hp)
      have hne : k ≠ pre := by
        intro e
        rw [e] at hkm
        exact (get?_eq_none_iff m pre).1 hg hkm
      rw [delBody_eq pre k m' hne]
      split
      · exact ⟨_, rfl, fun x hx => hm' x (keysOf_delete_subset m' k x hx)⟩
      · exact ⟨_, rfl, hm'⟩

/-- Map.Del returns on every map whose keys are without the wildcard character, for every
pattern and every order of the visits, when the bound on the depth of the calls is at
least the number of wildcard characters of the pattern; it adds no key. -/
theorem delEntries_returns (ord : List (List Char) → List (List Char)) :
    ∀ (n : Nat) (pre : List Char) (m : entries), pre.count '*' ≤ n + 1 →
    (∀ k ∈ keysOf m, '*' ∉ k) →
    ∃ r, delEntries ord (n + 1) m pre = some r ∧ ∀ k ∈ keysOf r, k ∈ keysOf m := by
  intro n
  induction n with
  | zero =>
    intro pre m hc hm
    apply delEntries_returns_step ord 0 pre m hm
    intro pre' m' h1 h2 _
    omega
  | succ n ih =>
    intro pre m hc hm
    apply delEntries_returns_step ord (n + 1) pre m hm
    intro pre' m' _ h2 hm'
    exact ih pre' m' (by omega) hm'

theorem length_put_of_not_mem (k : List Char) (v : Nested) (l : List member)
    (h : k ∉ fieldKeys l) : (put k v l).length = l.length + 1 := by
  induction l with
  | nil => rfl
  | cons e r ih =>
    obtain ⟨k2, v2⟩ := e
    simp only [fieldKeys, List.mem_cons, not_or] at h
    unfold put
    split
    · rfl
    · split
      · exact absurd ‹k = k2› h.1
      · simp [ih h.2]

theorem length_canonInto : ∀ (kvs acc : List member), (fieldKeys kvs).Nodup →
    (∀ k ∈ fieldKeys kvs, k ∉ fieldKeys acc) →
    (canonInto kvs acc).length = acc.length + kvs.length
  | [], acc, _, _ => rfl
  | (.mk k v) :: r, acc, hnd, hdis => by
    simp only [fieldKeys, List.nodup_cons] at hnd
    simp only [canonInto]
    rw [length_canonInto r _ hnd.2 (fun k2 hk2 => by
      rw [mem_fieldKeys_put]
      rintro (h | h)
      · exact hnd.1 (h ▸ hk2)
      · exact hdis k2 (by simp [fieldKeys, hk2]) h),
      length_put_of_not_mem k _ acc (hdis k (by simp [fieldKeys]))]
    simp only [List.length_cons]
    omega

theorem mem_fieldKeys_of_mem (k : List Char) (v : Nested) :
    ∀ (kvs : List member), member.mk k v ∈ kvs → k ∈ fieldKeys kvs
  | [], h => by simp at h
  | (.mk k2 v2) :: r, h => by
    rcases List.mem_cons.1 h with h | h
    · cases h
      simp [fieldKeys]
    · simp [fieldKeys, mem_fieldKeys_of_mem k v r h]

theorem valueAtFields_self (k : List Char) (v : Nested) :
    ∀ (kvs : List member), (fieldKeys kvs).Nodup → member.mk k v ∈ kvs →
      valueAtFields kvs k [] = some v
  | [], _, h => by simp at h
  | (.mk k2 v2) :: r, hnd, h => by
    simp only [fieldKeys, List.nodup_cons] at hnd
    simp only [valueAtFields]
    rcases List.mem_cons.1 h with h | h
    · cases h
      rw [if_pos rfl, valueAt_nil]
    · have hk : k ∈ fieldKeys r := mem_fieldKeys_of_mem k v r h
      have hne : ¬ k2 = k := fun he => hnd.1 (he ▸ hk)
      rw [if_neg hne]
      exact valueAtFields_self k v r hnd.2 h

mutual
/-- A nested value whose maps have distinct keys is structurally equal to its Go value. -/
theorem same_canon : ∀ (v : Nested), v.plainKeys = true → v.same v.canon = true
  | .leaf l, _ => by simp [Nested.canon, Nested.same]
  | .list xs, h => by
    simp only [Nested.canon, Nested.same]
    exact sameList_canon xs (by simpa [Nested.plainKeys] using h)
  | .map kvs, h => by
    simp only [Nested.plainKeys, Bool.and_eq_true, decide_eq_true_eq] at h
    simp only [Nested.canon, Nested.same, Bool.and_eq_true, decide_eq_true_eq]
    refine ⟨?_, sameFields_canon kvs (canonInto kvs []) h.2 ?_⟩
    · rw [length_canonInto kvs [] h.1 (by simp [fieldKeys])]
      simp
    · intro k v hm
      rw [find?_canonInto kvs [] k h.1, valueAtFields_self k v kvs h.1 hm]
theorem sameList_canon : ∀ (xs : List Nested), plainKeysList xs = true →
    sameList xs (canonList xs) = true
  | [], _ => rfl
  | x :: xs, h => by
    simp only [plainKeysList, Bool.and_eq_true] at h
    simp only [canonList, sameList, Bool.and_eq_true]
    exact ⟨same_canon x h.1, sameList_canon xs h.2⟩
theorem sameFields_canon : ∀ (kvs K : List member), plainKeysFields kvs = true →
    (∀ k v, member.mk k v ∈ kvs → find? k K = some v.canon) → sameFields kvs K = true
  | [], _, _, _ => rfl
  | (.mk k v) :: r, K, h, hf => by
    simp only [plainKeysFields, Bool.and_eq_true, decide_eq_true_eq] at h
    simp only [sameFields, Bool.and_eq_true]
    refine ⟨?_, sameFields_canon r K h.2 (fun k2 v2 hm => hf k2 v2 (List.mem_cons_of_mem _ hm))⟩
    rw [hf k v (List.mem_cons_self _ _)]
    exact same_canon v h.1.2
end

end flatex

namespace tree

/-! ## Claims -/

/-- C1: for src and dst of equal non-zero length, Tree.Move changes, in each node matched
by src[:-1] (wildcards expanded), the label of the first edge labelled src[-1] to dst[-1],
keeping its position and its subtree; everything else in the tree is unchanged. -/
theorem Move_equal_length_relabels (grow : Nat → Nat) (t : Tree) (pat dpre : List String)
    (s d : String) (hlen : pat.length = dpre.length) :
    Tree.Move grow t (pat ++ [s]) (dpre ++ [d]) =
      some ⟨atMatched (fun n => n.setEdges (relabelFirst s d n.edges)) pat t.root⟩ :=
  Move_relabel_eq grow t pat dpre s d hlen

/-- The scenario of the specification for C1: the map "c" of every element of the list
"a" is renamed "x" in place. -/
theorem Move_equal_length_relabels_witness :
    ["a", "*"].length = ["a", "*"].length ∧
    Tree.Move goGrow exCollection (["a", "*"] ++ ["c"]) (["a", "*"] ++ ["x"]) =
      some (mapRoot [listEdge "a" [
          mapEdge "0" [mapEdge "x" [leafEdge "a" 1 4] 3, leafEdge "aa" 1 3] 2,
          mapEdge "1" [mapEdge "x" [leafEdge "a" 2 4] 3, leafEdge "aa" 1 3] 2] 1,
        leafEdge "turbo" 0 1]) :=
  ⟨rfl, (Move_equal_length_relabels goGrow exCollection ["a", "*"] ["a", "*"] "c" "x"
    rfl).trans (by decide)⟩

/-- C3: for an embed move (dst longer than src), in every node P matched by src[:-1] the
first edge labelled src[-1] is detached, the relative path dst[len(src)-1 : len(dst)-1] is
walked from P, reusing the existing child with the label or creating a new non-collection
node, and the detached edge is appended, relabelled dst[-1], with its subtree (depth
recomputed), as the last edge of the node reached; no other edge is removed. -/
theorem Move_longer_dst_embeds (grow : Nat → Nat) (t : Tree) (pat dpre rel : List String)
    (s l : String) (hlen : dpre.length = pat.length) (hrel : rel ≠ []) :
    Tree.Move grow t (pat ++ [s]) (dpre ++ rel ++ [l]) =
      some ⟨atMatched (embedMoved s l rel) pat t.root⟩ :=
  Move_embed_eq grow t pat dpre rel s l hlen hrel

/-- The in_struct_depth test for C3: the leaf b.a is embedded at b.b.a.b.a.b.c. -/
theorem Move_longer_dst_embeds_witness :
    ["b"].length = ["b"].length ∧ ["b", "a", "b", "a", "b"] ≠ [] ∧
    Tree.Move goGrow exStruct (["b"] ++ ["a"]) (["b"] ++ ["b", "a", "b", "a", "b"] ++ ["c"]) =
      some (mapRoot [leafEdge "a" 1 1, mapEdge "b" [mapEdge "b" [mapEdge "a" [mapEdge "b"
        [mapEdge "a" [mapEdge "b" [leafEdge "c" 42 7] 6] 5] 4] 3] 2] 1]) :=
  ⟨rfl, by decide, (Move_longer_dst_embeds goGrow exStruct ["b"] ["b"]
    ["b", "a", "b", "a", "b"] "a" "c" rfl (by decide)).trans (by decide)⟩
/-- C4: for a promote move on exact paths in a tree with unique labels, where src[:-1]
resolves to the node Q, Q has an edge src[-1] with subtree sub, and dst[:-1] resolves from
the root to a node P: Tree.Move returns; the node at src[:-1] is then Q with its edge list
without the edge src[-1] (the other edges in their order), and the node at dst[:-1] has the
value, depth and collection flag of P and the edge list of P (in which the detached edge
is gone, when it lay below P; the labels are those of P) followed by one new last edge
labelled dst[-1] whose subtree is sub with its depth recomputed. -/
theorem Move_promote_exact (grow : Nat → Nat) (t : Tree) (pat dpre : List String)
    (s d : String) (Q sub P : node) (hlen : dpre.length < pat.length)
    (hws : wildcard ∉ pat) (hwd : wildcard ∉ dpre) (hu : t.root.uniqueLabels = true)
    (hQ : resolve pat t.root = some Q) (hsub : child? s Q.edges = some sub)
    (hdst : resolve dpre t.root = some P) :
    ∃ t' P0, Tree.Move grow t (pat ++ [s]) (dpre ++ [d]) = some t' ∧
      resolve pat t'.root =
        some (node.mk Q.Value (removeFirst s Q.edges) Q.depth Q.isCollection) ∧
      child? s (removeFirst s Q.edges) = none ∧
      labelsOf (removeFirst s Q.edges) = (labelsOf Q.edges).erase s ∧
      P0 = (if pat.take dpre.length = dpre then detachMatched (pat.drop dpre.length) s P
        else P) ∧
      labelsOf P0.edges = labelsOf P.edges ∧
      resolve dpre t'.root = some (node.mk P.Value
        (P0.edges ++ [edge.mk d (sub.SetDepth (P.depth + 1))]) P.depth P.isCollection) := by
  have hsrc : resolve (pat ++ [s]) t.root = some sub := by
    rw [resolve_append, hQ]
    simp [resolve_singleton, hsub]
  obtain ⟨t', Q', h1, h2, h3, h4, h5⟩ :=
    Move_promote_exact_resolve grow t pat dpre s d sub P hlen hws hwd hu hsrc hdst
  rw [hQ] at h2
  cases h2
  obtain ⟨f1, f2, f3, f4⟩ := detachMatched_below pat dpre s P hlen
  refine ⟨t', _, h1, ?_, h4, labelsOf_removeFirst s Q.edges, rfl, f4, ?_⟩
  · rw [h3, node.setEdges_eq_mk]
  · rw [h5, attachEdge, node.setEdges_eq_mk, f1, f2, f3]

/-- The from_struct_nested test for C4: the map b.b is promoted to c under the root; the
map b keeps its leaves a and bb, and the root has the edges a, b and the new last edge c
with the former subtree of b.b, one level up. -/
theorem Move_promote_exact_witness :
    ∃ t', Tree.Move goGrow exNested (["b"] ++ ["b"]) ([] ++ ["c"]) = some t' ∧
      resolve ["b"] t'.root =
        some (node.mk nodeValue.absent [leafEdge "a" 42 2, leafEdge "bb" 1 2] 1 false) ∧
      resolve [] t'.root = some (node.mk nodeValue.absent
        [leafEdge "a" 42 1, mapEdge "b" [leafEdge "a" 42 2, leafEdge "bb" 1 2] 1,
          mapEdge "c" [leafEdge "a" 42 2] 1] 0 false) := by
  obtain ⟨t', P0, h1, h2, _, _, h5, _, h7⟩ := Move_promote_exact goGrow exNested ["b"] [] "b" "c"
    (node.mk nodeValue.absent
      [leafEdge "a" 42 2, mapEdge "b" [leafEdge "a" 42 3] 2, leafEdge "bb" 1 2] 1 false)
    (node.mk nodeValue.absent [leafEdge "a" 42 3] 2 false) exNested.root
    (by decide) (by decide) (by decide) (by decide) (by decide) (by decide) (by decide)
  subst h5
  exact ⟨t', h1, h2.trans (by decide), h7.trans (by decide)⟩

/-- C5, as amended: for a promote move on exact paths where src resolves to an edge with
subtree sub and dst[:-1] = q ++ k :: rest stops resolving at the segment k (q resolves from
the root to P, which has no edge labelled k), the detached edge is not dropped: it is
appended, relabelled dst[-1], as last edge of the node at q, so the tree after the
call differs from the original tree with the source edge deleted. -/
theorem Move_promote_unresolved_reattaches (grow : Nat → Nat) (t : Tree)
    (pat q rest : List String) (k s d : String) (sub P : node)
    (hlen : (q ++ k :: rest).length < pat.length)
    (hws : wildcard ∉ pat) (hwd : wildcard ∉ q ++ k :: rest)
    (hsrc : resolve (pat ++ [s]) t.root = some sub)
    (hq : resolve q t.root = some P) (hk : child? k P.edges = none) :
    ∃ t', Tree.Move grow t (pat ++ [s]) ((q ++ k :: rest) ++ [d]) = some t' ∧
      t'.root = attachDeepest d sub (q ++ k :: rest) (detachMatched pat s t.root) ∧
      resolve q t'.root = some (attachEdge d sub
        (if pat.take q.length = q then detachMatched (pat.drop q.length) s P else P)) ∧
      t'.root ≠ detachMatched pat s t.root := by
  have hql : q.length < pat.length := by
    simp only [List.length_append, List.length_cons] at hlen
    omega
  have hr1 : resolve q (detachMatched pat s t.root) = some
      (if pat.take q.length = q then detachMatched (pat.drop q.length) s P else P) := by
    simp only [detachMatched]
    rw [resolve_atMatched _ pat q t.root hws (Nat.le_of_lt hql), hq]
    rfl
  have hk1 : child? k (if pat.take q.length = q then detachMatched (pat.drop q.length) s P
      else P).edges = none := by
    split
    · cases hdrop : pat.drop q.length with
      | nil =>
        have := congrArg List.length hdrop
        simp at this
        omega
      | cons k0 ks0 =>
        rw [child?_eq_none_iff] at hk ⊢
        simp only [detachMatched]
        rw [labelsOf_atMatched_cons]
        exact hk
    · exact hk
  have hstop := resolve_attachDeepest_stop d sub q k rest _ _ hr1 hk1
  refine ⟨_, Move_promote_exact_eq grow t pat (q ++ k :: rest) s d hlen hwd, ?_, ?_, ?_⟩
  · rw [movedSubtrees_exact pat s t.root sub hws hsrc]
    rfl
  · rw [movedSubtrees_exact pat s t.root sub hws hsrc]
    exact hstop
  · rw [movedSubtrees_exact pat s t.root sub hws hsrc]
    simp only [List.foldl_cons, List.foldl_nil]
    intro hc
    rw [hc, hr1] at hstop
    exact attachEdge_ne d sub _ (Option.some.inj hstop).symm

/-- A promote move whose destination does not resolve: the leaf b.b.a moved to zz.c is
appended under the root as c. -/
theorem Move_promote_unresolved_reattaches_witness :
    ∃ t', Tree.Move goGrow exNested (["b", "b"] ++ ["a"]) (([] ++ "zz" :: []) ++ ["c"]) =
        some t' ∧
      t'.root = attachDeepest "c" (node.mk (nodeValue.scalar (Scalar.int 42)) [] 3 false)
        ([] ++ "zz" :: []) (detachMatched ["b", "b"] "a" exNested.root) ∧
      resolve [] t'.root = some (attachEdge "c"
        (node.mk (nodeValue.scalar (Scalar.int 42)) [] 3 false)
        (if ["b", "b"].take ([] : List String).length = [] then
          detachMatched (["b", "b"].drop ([] : List String).length) "a" exNested.root
          else exNested.root)) ∧
      t'.root ≠ detachMatched ["b", "b"] "a" exNested.root :=
  Move_promote_unresolved_reattaches goGrow exNested ["b", "b"] [] [] "zz" "a" "c"
    (node.mk (nodeValue.scalar (Scalar.int 42)) [] 3 false) exNested.root
    (by decide) (by decide) (by decide) (by decide) (by decide) (by decide)

/-- C5 as stated fails: the destination prefix zz does not resolve, and the tree after the
move is not the original tree with the source edge deleted (the leaf reappears as c under
the root). -/
theorem Move_promote_unresolved_not_dropped :
    resolve ["zz"] exNested.root = none ∧
    Tree.Move goGrow exNested ["b", "b", "a"] ["zz", "c"] =
      some (mapRoot [leafEdge "a" 42 1,
        mapEdge "b" [leafEdge "a" 42 2, mapEdge "b" [] 2, leafEdge "bb" 1 2] 1,
        leafEdge "c" 42 1]) ∧
    Tree.Move goGrow exNested ["b", "b", "a"] ["zz", "c"] ≠
      some ⟨detachMatched ["b", "b"] "a" exNested.root⟩ := by
  decide

/-- C6, as amended: for a promote move on exact paths whose destination prefix dst[:-1]
does not resolve, Tree.Move returns normally, and it leaves the tree unchanged exactly
when src matches no edge; when src resolves to an edge the tree changes. -/
theorem Move_promote_unresolved_noop_iff (grow : Nat → Nat) (t : Tree)
    (pat dpre : List String) (s d : String) (hlen : dpre.length < pat.length)
    (hws : wildcard ∉ pat) (hwd : wildcard ∉ dpre) (_hun : resolve dpre t.root = none) :
    ∃ t', Tree.Move grow t (pat ++ [s]) (dpre ++ [d]) = some t' ∧
      (t' = t ↔ resolve (pat ++ [s]) t.root = none) := by
  refine ⟨_, Move_promote_exact_eq grow t pat dpre s d hlen hwd, ?_⟩
  cases hsrc : resolve (pat ++ [s]) t.root with
  | none =>
    simp only [iff_true]
    rw [movedSubtrees_eq_nil pat s t.root hws hsrc, detachMatched_eq_self pat s t.root hws hsrc]
    rfl
  | some sub =>
    simp only [reduceCtorEq, iff_false]
    intro hc
    have hroot := congrArg Tree.root hc
    simp only at hroot
    rw [movedSubtrees_exact pat s t.root sub hws hsrc] at hroot
    simp only [List.foldl_cons, List.foldl_nil] at hroot
    have hsrc' := hsrc
    rw [resolve_append] at hsrc'
    cases hq : resolve pat t.root with
    | none => simp [hq] at hsrc'
    | some Q =>
      simp only [hq, Option.some_bind, resolve_singleton] at hsrc'
      have h1 : resolve pat (detachMatched pat s t.root) =
          some (Q.setEdges (removeFirst s Q.edges)) := by
        simp only [detachMatched]
        rw [resolve_atMatched_self _ pat t.root hws, hq]
        rfl
      have h2 := resolve_attachDeepest_longer d sub dpre pat _ _ hlen h1
      rw [hroot, hq] at h2
      have h3 := congrArg (fun m => m.edges.length) (Option.some.inj h2)
      simp only [node.setEdges_edges] at h3
      have h4 := removeFirst_length s Q.edges sub hsrc'
      omega

/-- A promote move whose destination prefix zz does not exist and whose source exists:
the call is not a no-op. -/
theorem Move_promote_unresolved_noop_iff_witness :
    resolve ["zz"] exNested.root = none ∧
    ∃ t', Tree.Move goGrow exNested (["b", "b"] ++ ["a"]) (["zz"] ++ ["c"]) = some t' ∧
      (t' = exNested ↔ resolve (["b", "b"] ++ ["a"]) exNested.root = none) :=
  ⟨by decide, Move_promote_unresolved_noop_iff goGrow exNested ["b", "b"] ["zz"] "a" "c"
    (by decide) (by decide) (by decide) (by decide)⟩

/-- C6 as stated fails: the destination prefix zz does not exist in the tree and the
promote move changes the tree. -/
theorem Move_promote_unresolved_changes_tree :
    resolve ["zz"] exNested.root = none ∧
    Tree.Move goGrow exNested ["b", "b", "a"] ["zz", "c"] ≠ some exNested := by
  decide
/-- C7, as amended: for a promote move whose wildcards in dst[:-1] stand at indices below
three (and a run time that grows an empty slice to capacity one and a slice of capacity one
to capacity two), for every detached edge the wildcard segment at index i of dst is
replaced, when resolving the destination parent from the root, by label i of the concrete
path from the root to the parent the edge was detached from: the correspondence is by
index in the path, not by rank among the wildcards. -/
theorem Move_promote_wildcard_by_index (grow : Nat → Nat) (hg0 : grow 0 = 1) (hg1 : grow 1 = 2)
    (t : Tree) (pat dpre : List String) (s d : String) (hlen : dpre.length < pat.length)
    (hw3 : wildcard ∉ dpre.drop 3) :
    Tree.Move grow t (pat ++ [s]) (dpre ++ [d]) =
      some ⟨(movedEdges pat s t.root).foldl
        (fun r m => attachDeepest d m.2 (substAt m.1 dpre 0) r)
        (detachMatched pat s t.root)⟩ := by
  have hwi : ∀ m, dpre[m]? = some wildcard → m < 3 := by
    intro m hm
    by_contra hc
    apply hw3
    have h3 : (dpre.drop 3)[m - 3]? = some wildcard := by
      rw [List.getElem?_drop]
      rw [← hm]
      congr 1
      omega
    exact List.getElem?_mem h3
  rw [Move_promote_eq grow t pat dpre s d hlen,
    promoteSegs_eq_movedEdges grow hg0 hg1 pat dpre s t.root hlen hwi, List.foldl_map]

/-- A promote move with a wildcard in dst at the index of a literal of src: both leaves
a.k1.c and a.k2.c are attached under a, the label at index 0 of their paths. -/
theorem Move_promote_wildcard_by_index_witness :
    goGrow 0 = 1 ∧ goGrow 1 = 2 ∧ ["*"].length < ["a", "*"].length ∧
    wildcard ∉ ["*"].drop 3 ∧
    Tree.Move goGrow exBindings (["a", "*"] ++ ["c"]) (["*"] ++ ["x"]) =
      some (mapRoot [mapEdge "a" [mapEdge "k1" [] 2, mapEdge "k2" [] 2, leafEdge "x" 1 2,
          leafEdge "x" 2 2] 1,
        mapEdge "k1" [] 1, mapEdge "k2" [] 1]) :=
  ⟨rfl, rfl, by decide, by decide,
    (Move_promote_wildcard_by_index goGrow rfl rfl exBindings ["a", "*"] ["*"] "c" "x"
      (by decide) (by decide)).trans (by decide)⟩

/-- C7 as stated fails: with src a.*.c and dst *.x the wildcard of dst is not replaced by
the binding of the wildcard of src (k1, k2): the result differs from the one obtained by
the correspondence by rank. -/
theorem Move_promote_wildcard_not_by_rank :
    Tree.Move goGrow exBindings ["a", "*", "c"] ["*", "x"] ≠
      some ⟨(movedEdges ["a", "*"] "c" exBindings.root).foldl
        (fun r m => attachDeepest "x" m.2 (substByRank (bindingsOf ["a", "*"] m.1) ["*"]) r)
        (detachMatched ["a", "*"] "c" exBindings.root)⟩ := by
  decide
/-- C8, as amended: for a tree with unique labels and non-empty src = pat ++ [s] and
dst = dall ++ [d], Tree.Move returns a tree with unique labels provided no node receives
the edge labelled dst[-1] while it has another edge with that label: for a relabel, no
matched node with an edge src[-1] has another edge dst[-1]; for an embed, the node the
relative path reaches has none; for a promote, the node reached from the root for each
detached edge has none at that moment. -/
theorem Move_keeps_unique_labels (grow : Nat → Nat) (t : Tree) (pat dall : List String)
    (s d : String) (hu : t.root.uniqueLabels = true)
    (hfree : collisionFree grow t.root pat s dall d = true) :
    ∃ t', Tree.Move grow t (pat ++ [s]) (dall ++ [d]) = some t' ∧
      t'.root.uniqueLabels = true := by
  obtain ⟨t', hmove, hu'⟩ := Move_uniqueLabels grow t pat dall s d hu hfree
  exact ⟨t', hmove, hu'⟩

/-- A promote move without collision: the map b.b of the nested example moves to c under
the root, where no edge c exists. -/
theorem Move_keeps_unique_labels_witness :
    exNested.root.uniqueLabels = true ∧
    collisionFree goGrow exNested.root ["b"] "b" [] "c" = true ∧
    ∃ t', Tree.Move goGrow exNested (["b"] ++ ["b"]) ([] ++ ["c"]) = some t' ∧
      t'.root.uniqueLabels = true :=
  ⟨by decide, by decide,
    Move_keeps_unique_labels goGrow exNested ["b"] [] "b" "c" (by decide) (by decide)⟩

/-- C8 as stated fails: renaming a to b in the map with the leaves a and b leaves two edges
labelled b under the root. -/
theorem Move_relabel_collision_duplicates :
    exPlain.root.uniqueLabels = true ∧
    Tree.Move goGrow exPlain ["a"] ["b"] =
      some (mapRoot [leafEdge "b" 1 1, leafEdge "b" 2 1]) ∧
    (mapRoot [leafEdge "b" 1 1, leafEdge "b" 2 1]).root.uniqueLabels = false := by
  decide
/-- C9, at the failing input: Tree.Move with an empty src on a tree whose root has an edge
evaluates src[prefixLen-1] with prefixLen = 0 and faults. -/
theorem Move_empty_src_faults :
    Tree.Move goGrow exStruct [] ["x"] = none ∧
    Tree.Move goGrow exStruct ["a"] [] = none := by
  decide

/-- C10, at the failing input: Tree.Move of the empty path onto itself faults on a tree
whose root has an edge, instead of returning the tree unchanged. -/
theorem Move_empty_path_onto_itself_faults :
    wildcard ∉ ([] : List String) ∧ Tree.Move goGrow exStruct [] [] = none := by
  decide
/-- C2, as amended: in a tree with unique labels, for every node matched by src[:-1], with
concrete path q, that has an edge src[-1] with subtree sub: after Tree.Move(src, dst), Get
of q ++ [src[-1]] is absent and Get of the concrete destination holds the value of sub.
For a relabel or embed move the destination is q ++ dst[len(src)-1:] (relative to the
matched parent); it must be free and must not run through the source position. For a
promote move, with or without wildcards, the destination is dst with the wildcard at index
i replaced by label i of q (for wildcards at indices below three and a run time that grows
an empty slice to capacity one and capacity one to two); at the turn of the edge in the
loop of promoteEdges its prefix must resolve from the root to a node without an edge
labelled dst[-1]. -/
theorem Move_then_Get (grow : Nat → Nat) (t : Tree) (pat dall : List String) (s d : String)
    (c : List Nat) (Q sub : node) (hu : t.root.uniqueLabels = true)
    (hc : c ∈ matchPtrs pat t.root) (hQ : nodeAt c t.root = some Q)
    (hsub : child? s Q.edges = some sub)
    (hdest :
      (pat.length ≤ dall.length ∧ (dall.drop pat.length ++ [d]).head? ≠ some s ∧
        freeAlong d (dall.drop pat.length) (Q.setEdges (removeFirst s Q.edges)) = true) ∨
      (dall.length < pat.length ∧
        (wildcard ∉ dall ∨ (grow 0 = 1 ∧ grow 1 = 2 ∧ wildcard ∉ dall.drop 3)) ∧
        (resolve (substAt (labelsAt c t.root) dall 0)
          (promoteBefore pat s d dall t.root c)).isSome = true ∧
        freeDeepest d (substAt (labelsAt c t.root) dall 0)
          (promoteBefore pat s d dall t.root c) = true)) :
    ∃ t', Tree.Move grow t (pat ++ [s]) (dall ++ [d]) = some t' ∧
      t.Get (labelsAt c t.root ++ [s]) = some sub.expand ∧
      t'.Get (labelsAt c t.root ++ [s]) = none ∧
      t'.Get ((if dall.length < pat.length then substAt (labelsAt c t.root) dall 0
        else labelsAt c t.root ++ dall.drop pat.length) ++ [d]) = some sub.expand := by
  rcases hdest with ⟨hlen, hhead, hfree⟩ | ⟨hlen, hw, hres, hfree⟩
  · have hnlt : ¬ dall.length < pat.length := by omega
    simp only [hnlt, if_false]
    obtain ⟨t', h1, h2, h3, h4⟩ :=
      Move_then_Get_aux grow t pat dall s d c Q sub hu hc hQ hsub hlen hhead hfree
    exact ⟨t', h1, h2, h3, h4⟩
  · simp only [hlen, if_true]
    have hbefore : t.Get (labelsAt c t.root ++ [s]) = some sub.expand := by
      rw [Get_append t _ _ Q (resolve_labelsAt t.root Q c hu hQ), resolve_singleton, hsub]
      rfl
    have hsegs : promoteSegs grow pat s dall t.root =
        (movedEdges pat s t.root).map (fun m => (substAt m.1 dall 0, m.2)) := by
      rcases hw with hw | ⟨hg0, hg1, hw3⟩
      · exact promoteSegs_exact grow pat dall s t.root hw
      · apply promoteSegs_eq_movedEdges grow hg0 hg1 pat dall s t.root hlen
        intro m hm
        by_contra hcon
        apply hw3
        have h3 : (dall.drop 3)[m - 3]? = some wildcard := by
          rw [List.getElem?_drop]
          rw [← hm]
          congr 1
          omega
        exact List.getElem?_mem h3
    obtain ⟨t', h1, h3, h4⟩ := Move_then_Get_promote grow t pat dall s d c Q sub hu hc hQ hsub
      hlen hsegs hres hfree
    exact ⟨t', h1, hbefore, h3, h4⟩

/-- Two scenarios for C2. The from_collection scenario, at the first element of the list a:
after the move of a.*.c to a.*.x, a.0.c is absent and a.0.x holds the former value of
a.0.c. A promote move with wildcards, at the second matched node: after the move of
*.b.c to *.x, k2.b.c is absent and k2.x holds the former value of k2.b.c. -/
theorem Move_then_Get_witness :
    (∃ t', Tree.Move goGrow exCollection (["a", "*"] ++ ["c"]) (["a", "*"] ++ ["x"]) = some t' ∧
      exCollection.Get ["a", "0", "c"] =
        some (Value.map [field.mk "a" (Value.scalar (Scalar.int 1))]) ∧
      t'.Get ["a", "0", "c"] = none ∧
      t'.Get ["a", "0", "x"] = some (Value.map [field.mk "a" (Value.scalar (Scalar.int 1))])) ∧
    (∃ t', Tree.Move goGrow exPromote (["*", "b"] ++ ["c"]) (["*"] ++ ["x"]) = some t' ∧
      exPromote.Get ["k2", "b", "c"] = some (Value.scalar (Scalar.int 2)) ∧
      t'.Get ["k2", "b", "c"] = none ∧
      t'.Get ["k2", "x"] = some (Value.scalar (Scalar.int 2))) :=
  ⟨Move_then_Get goGrow exCollection ["a", "*"] ["a", "*"] "c" "x" [0, 0]
      (node.mk nodeValue.absent
        [mapEdge "c" [leafEdge "a" 1 4] 3, leafEdge "aa" 1 3] 2 false)
      (node.mk nodeValue.absent [leafEdge "a" 1 4] 3 false)
      (by decide) (by decide) (by decide) (by decide) (Or.inl (by decide)),
    Move_then_Get goGrow exPromote ["*", "b"] ["*"] "c" "x" [1, 0]
      (node.mk nodeValue.absent [leafEdge "c" 2 3] 2 false)
      (node.mk (nodeValue.scalar (Scalar.int 2)) [] 3 false)
      (by decide) (by decide) (by decide) (by decide)
      (Or.inr ⟨by decide, Or.inr ⟨rfl, rfl, by decide⟩, by decide, by decide⟩)⟩

/-- C2 as stated fails on the from_struct_with_wildcard_deep test: after the move of b.*.c
to b.*.c.b.x the concrete source path b.first.c is not absent, it holds the new
intermediate map. The conditions on the destination are needed as well: after the promote
move of a.*.c to *.x both leaves are attached under a, and a.x holds the former value of
a.k1.c, not that of a.k2.c; after the promote move of b.b.a to zz.c, whose prefix zz does
not resolve, zz.c is absent. -/
theorem Move_then_Get_source_not_absent :
    (Tree.Move goGrow exDeep ["b", "*", "c"] ["b", "*", "c", "b", "x"]).bind
        (fun t' => t'.Get ["b", "first", "c"]) =
      some (Value.map [field.mk "b" (Value.map [field.mk "x"
        (Value.map [field.mk "d" (Value.scalar (Scalar.int 42))])])]) ∧
    exBindings.Get ["a", "k2", "c"] = some (Value.scalar (Scalar.int 2)) ∧
    (Tree.Move goGrow exBindings ["a", "*", "c"] ["*", "x"]).bind
        (fun t' => t'.Get ["a", "x"]) = some (Value.scalar (Scalar.int 1)) ∧
    (Tree.Move goGrow exBindings ["a", "*", "c"] ["*", "x"]).bind
        (fun t' => t'.Get ["k2", "x"]) = none ∧
    (Tree.Move goGrow exNested ["b", "b", "a"] ["zz", "c"]).isSome = true ∧
    (Tree.Move goGrow exNested ["b", "b", "a"] ["zz", "c"]).bind
        (fun t' => t'.Get ["zz", "c"]) = none := by
  decide

/-- C11, as amended: for exact paths a = p ++ r ++ [s] and b = p ++ [d] in which a exists
and the node at p has no edge labelled d, Tree.Move(a, b) followed by Tree.Move(b, a)
returns the original tree when r is empty (a same-length move), and when r is not empty (a
promote followed by an embed) the original tree with the edge a[-1] put back as the last
edge of its parent, the depth of its subtree recomputed. -/
theorem Move_round_trip (grow : Nat → Nat) (t : Tree) (dpre rel : List String) (s d : String)
    (P Q sub : node) (hw : wildcard ∉ dpre ++ rel)
    (hP : resolve dpre t.root = some P) (hQ : resolve rel P = some Q)
    (hsub : child? s Q.edges = some sub) (hd : d ∉ labelsOf P.edges) :
    (Tree.Move grow t (dpre ++ rel ++ [s]) (dpre ++ [d])).bind
      (fun t1 => Tree.Move grow t1 (dpre ++ [d]) (dpre ++ rel ++ [s])) =
      some (if rel = [] then t
        else ⟨atMatched (embedMoved s s []) (dpre ++ rel) t.root⟩) := by
  by_cases hrel : rel = []
  · subst hrel
    simp only [resolve, Option.some.injEq] at hQ
    subst hQ
    simp only [List.append_nil, if_true]
    exact Move_relabel_round_trip grow t dpre s d P (by simpa using hw) hP hd
  · simp only [hrel, if_false]
    exact Move_promote_round_trip grow t dpre rel s d P Q sub hrel hw hP hQ hsub hd

/-- The map b.b of the nested example promoted to c and embedded back: it returns under b,
now as the last edge. -/
theorem Move_round_trip_witness :
    (Tree.Move goGrow exNested ([] ++ ["b"] ++ ["b"]) ([] ++ ["c"])).bind
      (fun t1 => Tree.Move goGrow t1 ([] ++ ["c"]) ([] ++ ["b"] ++ ["b"])) =
      some (mapRoot [leafEdge "a" 42 1,
        mapEdge "b" [leafEdge "a" 42 2, leafEdge "bb" 1 2, mapEdge "b" [leafEdge "a" 42 3] 2] 1]) :=
  (Move_round_trip goGrow exNested [] ["b"] "b" "c" exNested.root
    (node.mk nodeValue.absent
      [leafEdge "a" 42 2, mapEdge "b" [leafEdge "a" 42 3] 2, leafEdge "bb" 1 2] 1 false)
    (node.mk nodeValue.absent [leafEdge "a" 42 3] 2 false)
    (by decide) (by decide) (by decide) (by decide) (by decide)).trans (by decide)

/-- C11 as stated fails for an embed followed by the promote back: b.a exists and b.x.c is
not occupied, yet after Move(b.a, b.x.c) and Move(b.x.c, b.a) the intermediate node b.x,
which the original tree does not have, is still there. -/
theorem Move_embed_round_trip_leaves_node :
    resolve ["b", "a"] exStruct.root ≠ none ∧
    resolve ["b", "x", "c"] exStruct.root = none ∧
    resolve ["b", "x"] exStruct.root = none ∧
    ((Tree.Move goGrow exStruct ["b", "a"] ["b", "x", "c"]).bind
      (fun t1 => Tree.Move goGrow t1 ["b", "x", "c"] ["b", "a"])).bind
        (fun t2 => resolve ["b", "x"] t2.root) = some (newNode 2) := by
  decide
/-- C12: for non-empty src and dst such that src matches no edge (no node matched by
src[:-1] has an edge labelled src[-1], in particular when src[:-1] does not resolve),
Tree.Move returns the tree unchanged. -/
theorem Move_no_match_unchanged (grow : Nat → Nat) (t : Tree) (pat dall : List String)
    (s d : String) (h : movedSubtrees pat s t.root = []) :
    Tree.Move grow t (pat ++ [s]) (dall ++ [d]) = some t :=
  Move_no_match_eq grow t pat dall s d h

/-- A wildcard pattern without match: no child of the root of the struct example has an
edge labelled zz. -/
theorem Move_no_match_unchanged_witness :
    movedSubtrees ["*"] "zz" exStruct.root = [] ∧
    Tree.Move goGrow exStruct (["*"] ++ ["zz"]) ([] ++ ["c"]) = some exStruct :=
  ⟨by decide, Move_no_match_unchanged goGrow exStruct ["*"] [] "zz" "c" (by decide)⟩
/-- C28: in a tree with unique labels, for every start node and every pattern of literal
and wildcard segments, collectMoveCandidates returns each node once, and it returns a node
exactly when the labels of the path from the start node to it have the length of the
pattern and agree with it at every literal position; when no path agrees (an unresolved
prefix) the result is empty. -/
theorem collectMoveCandidates_matches (grow : Nat → Nat) (n : node) (pat : List String)
    (hu : n.uniqueLabels = true) :
    ((collectMoveCandidates grow n pat [⟨[], emptySlice⟩] []).2.map (fun nap => nap.n)).Nodup ∧
    (∀ c, c ∈ (collectMoveCandidates grow n pat [⟨[], emptySlice⟩] []).2.map (fun nap => nap.n) ↔
      ((nodeAt c n).isSome = true ∧ matchesPattern pat (labelsAt c n) = true)) ∧
    ((∀ c, ¬ ((nodeAt c n).isSome = true ∧ matchesPattern pat (labelsAt c n) = true)) →
      (collectMoveCandidates grow n pat [⟨[], emptySlice⟩] []).2 = []) := by
  have hp := moveFrontier_ptrs grow n pat
  simp only at hp
  refine ⟨?_, ?_, ?_⟩
  · rw [hp]
    exact matchPtrs_nodup pat n
  · intro c
    rw [hp]
    exact mem_matchPtrs_iff pat n c hu
  · intro hno
    have hnil : matchPtrs pat n = [] := by
      apply List.eq_nil_iff_forall_not_mem.mpr
      intro c hc
      exact hno c ((mem_matchPtrs_iff pat n c hu).mp hc)
    rw [← hp] at hnil
    exact List.map_eq_nil_iff.mp hnil

/-- The candidates of the pattern b.* in the deep example are the two maps under b. -/
theorem collectMoveCandidates_matches_witness :
    exDeep.root.uniqueLabels = true ∧
    (collectMoveCandidates goGrow exDeep.root ["b", "*"] [⟨[], emptySlice⟩] []).2.map
      (fun nap => nap.n) = [[0, 0], [0, 1]] ∧
    ([0, 1] ∈ (collectMoveCandidates goGrow exDeep.root ["b", "*"] [⟨[], emptySlice⟩] []).2.map
        (fun nap => nap.n) ↔
      ((nodeAt [0, 1] exDeep.root).isSome = true ∧
        matchesPattern ["b", "*"] (labelsAt [0, 1] exDeep.root) = true)) :=
  ⟨by decide, by decide,
    (collectMoveCandidates_matches goGrow exDeep.root ["b", "*"] (by decide)).2.1 [0, 1]⟩

/-- C29, at the failing input: with the pattern a.b.c.* and two children under c, the path
slices of both candidates share one backing array, and the path recorded for the child k1
reads a.b.c.k2 instead of a.b.c.k1. -/
theorem collectMoveCandidates_shared_path :
    candidatePaths goGrow exShared.root ["a", "b", "c", "*"] =
      [(["a", "b", "c", "k1"], ["a", "b", "c", "k2"]),
        (["a", "b", "c", "k2"], ["a", "b", "c", "k2"])] ∧
    Tree.Move goGrow exShared ["a", "b", "c", "*", "d", "e"] ["a", "b", "c", "*", "x"] =
      some (mapRoot [mapEdge "a" [mapEdge "b" [mapEdge "c" [
        mapEdge "k1" [mapEdge "d" [] 5] 4,
        mapEdge "k2" [mapEdge "d" [] 5, leafEdge "x" 1 5, leafEdge "x" 2 5] 4] 3] 2] 1]) := by
  decide

/-- C30: in a tree with unique labels, a promote or embed Tree.Move leaves every matched
source parent in the tree, reachable by its concrete path, with its other edges in their
order: the labels of its edges are those of its old edges without the first one labelled
src[-1], followed at most by what the embed adds; after a promote the parent is exactly
the old parent without that edge, also when no edge is left. -/
theorem Move_parent_stays (grow : Nat → Nat) (t : Tree) (pat dall : List String)
    (s d : String) (c : List Nat) (Q : node) (hu : t.root.uniqueLabels = true)
    (hc : c ∈ matchPtrs pat t.root) (hQ : nodeAt c t.root = some Q)
    (hne : dall.length ≠ pat.length) :
    ∃ t' Q', Tree.Move grow t (pat ++ [s]) (dall ++ [d]) = some t' ∧
      resolve (labelsAt c t.root) t'.root = some Q' ∧
      (∃ extra, labelsOf Q'.edges = labelsOf (removeFirst s Q.edges) ++ extra) ∧
      (dall.length < pat.length → Q' = Q.setEdges (removeFirst s Q.edges)) := by
  obtain ⟨t', Q', h1, h2, h3, h4⟩ :=
    Move_parent_stays_aux grow t pat dall s d c Q hu hc hQ hne
  exact ⟨t', Q', h1, h2, h3, h4⟩

/-- The from_struct test for C30: after the move of b.a to c the map b is still under the
root, without children. -/
theorem Move_parent_stays_witness :
    ∃ t' Q', Tree.Move goGrow exStruct (["b"] ++ ["a"]) ([] ++ ["c"]) = some t' ∧
      resolve (labelsAt [1] exStruct.root) t'.root = some Q' ∧
      (∃ extra, labelsOf Q'.edges =
        labelsOf (removeFirst "a" [leafEdge "a" 42 2]) ++ extra) ∧
      (([] : List String).length < ["b"].length →
        Q' = (node.mk nodeValue.absent [leafEdge "a" 42 2] 1 false).setEdges
          (removeFirst "a" [leafEdge "a" 42 2])) :=
  Move_parent_stays goGrow exStruct ["b"] [] "a" "c" [1]
    (node.mk nodeValue.absent [leafEdge "a" 42 2] 1 false)
    (by decide) (by decide) (by decide) (by decide)

/-- C20: New returns an error and no tree exactly when the value is nil (the error is
errNoNilValuesAllowed), and for every other value it returns a tree and no error. -/
theorem New_error_iff_nil (v : Option Value) :
    ((∃ e, New v = .error e) ↔ v = none) ∧
      New none = .error errNoNilValuesAllowed ∧
      (∀ x : Value, ∃ t : Tree, New (some x) = .ok t) := by
  refine ⟨?_, rfl, fun x => ⟨_, rfl⟩⟩
  cases v with
  | none => simp [New]
  | some x => simp [New]

/-- C15: tree round trip: for every value built from scalars, lists and maps (the empty
list and the empty map included), New succeeds and Get of the empty path on the tree
returns the value itself: list order is kept and empty containers stay empty containers. -/
theorem New_Get_round_trip (v : Value) :
    ∃ t : Tree, New (some v) = .ok t ∧ t.Get [] = some v := by
  refine ⟨⟨build v 0⟩, rfl, ?_⟩
  show some (build v 0).expand = some v
  rw [expand_build]

/-- C19 (counterexample): after Sort of the map with the keys "01" and "1" the two edges
both have the numeric value one: the numeric order is not strictly increasing. -/
theorem Sort_numeric_order_not_strict :
    labelsOf exSortTie.Sort.root.edges = ["1", "01"] ∧
      parseLabel "1" = some 1 ∧ parseLabel "01" = some 1 ∧
      exSortTie.root.uniqueLabels = true := by
  decide

/-- C19 (amended): after Sort, in every node of the tree, for every edge a that stands
before an edge b: when both labels parse as non-negative integers the value of a is at
most the value of b, when neither parses the label of a is lexicographically at most the
label of b, and a label that does not parse never stands before one that does. -/
theorem Sort_orders_edges (t : Tree) (ptr : List Nat) (m : node)
    (h : nodeAt ptr t.Sort.root = some m) :
    m.edges.Pairwise (fun a b => labelLe a.label b.label) := by
  have hs := everyNode_sort t.root ptr m h
  unfold sortedEdges at hs
  exact hs.imp (fun {a b} hab => (labelLe_iff a.label b.label).2 hab)

/-- The example for C19: the keys 10, 2, b, a, 0 come out as 0, 2, 10, a, b. -/
theorem Sort_orders_edges_witness :
    labelsOf exSort.Sort.root.edges = ["0", "2", "10", "a", "b"] ∧
      exSort.Sort.root.edges.Pairwise (fun a b => labelLe a.label b.label) :=
  ⟨by decide, Sort_orders_edges exSort [] exSort.Sort.root rfl⟩

/-- C16: in a tree with unique labels, after Del of a pattern whose last segment is a
literal no exact path that agrees with the pattern exists any more, and every exact path
that does not pass through a matching edge still resolves, to a node with the same value,
depth and collection flag whose edge labels are the old ones in the old order without
those deleted below it; a node without edges and a node off the pattern are unchanged. -/
theorem Del_removes_matching (t : Tree) (pat : List String) (s : String)
    (hu : t.root.uniqueLabels = true) (hs : s ≠ wildcard) :
    (∀ q : List String, matchesPattern (pat ++ [s]) q = true →
      (t.Del (pat ++ [s])).Get q = none) ∧
    (∀ (q : List String) (n : node), resolve q t.root = some n →
      matchesPattern (pat ++ [s]) (q.take (pat.length + 1)) = false →
      ∃ n', resolve q (t.Del (pat ++ [s])).root = some n' ∧ n'.Value = n.Value ∧
        n'.depth = n.depth ∧ n'.isCollection = n.isCollection ∧
        (labelsOf n'.edges).Sublist (labelsOf n.edges) ∧ (n.edges = [] → n' = n) ∧
        (matchesPattern (pat.take q.length) q = false → n' = n)) := by
  constructor
  · intro q hq
    show (resolve q (t.root.Del (pat ++ [s]))).map _ = none
    rw [resolve_Del_matching pat s hs t.root q hu hq]
    rfl
  · intro q n hq hm
    have h := resolve_Del_other pat s hs t.root n q hq hm
    refine ⟨_, h, ?_⟩
    obtain ⟨h1, h2, h3, h4, h5⟩ := Del_fields ((pat ++ [s]).drop q.length) n
    by_cases hp : matchesPattern (pat.take q.length) q = true
    · rw [if_pos hp]
      exact ⟨h1, h2, h3, h4, h5, fun hf => by rw [hp] at hf; cases hf⟩
    · rw [if_neg hp]
      exact ⟨rfl, rfl, rfl, List.Sublist.refl _, fun _ => rfl, fun _ => rfl⟩

/-- The element_in_struct_with_wildcard test for C16: after Del of b.*.c the path
b.first.c is gone and the leaf b.last.m is still there. -/
theorem Del_removes_matching_witness :
    (exDeep.Del (["b", "*"] ++ ["c"])).Get ["b", "first", "c"] = none ∧
    ∃ n', resolve ["b", "last", "m"] (exDeep.Del (["b", "*"] ++ ["c"])).root = some n' ∧
      n'.Value = (leafEdge "m" 42 3).n.Value ∧
      n'.depth = (leafEdge "m" 42 3).n.depth ∧
      n'.isCollection = (leafEdge "m" 42 3).n.isCollection ∧
      (labelsOf n'.edges).Sublist (labelsOf (leafEdge "m" 42 3).n.edges) ∧
      ((leafEdge "m" 42 3).n.edges = [] → n' = (leafEdge "m" 42 3).n) ∧
      (matchesPattern (["b", "*"].take ["b", "last", "m"].length) ["b", "last", "m"] = false →
        n' = (leafEdge "m" 42 3).n) :=
  ⟨(Del_removes_matching exDeep ["b", "*"] "c" (by decide) (by decide)).1
      ["b", "first", "c"] (by decide),
    (Del_removes_matching exDeep ["b", "*"] "c" (by decide) (by decide)).2
      ["b", "last", "m"] (leafEdge "m" 42 3).n (by decide) (by decide)⟩

/-- C17: Delete idempotence on the trees of the data model, in which the labels of the
edges of every node are pairwise distinct: for every pattern, Del of the pattern followed
by Del of the same pattern gives the tree that one Del gives. -/
theorem Del_idempotent (t : Tree) (ks : List String) (hu : t.root.uniqueLabels = true) :
    (t.Del ks).Del ks = t.Del ks := by
  show Tree.mk ((t.root.Del ks).Del ks) = Tree.mk (t.root.Del ks)
  rw [Del_idem ks t.root hu]

/-- The wildcard pattern b.*.c on the deep example for C17: the second Del changes nothing,
and the tree after either is the example without the two maps c. -/
theorem Del_idempotent_witness :
    exDeep.root.uniqueLabels = true ∧
      (exDeep.Del ["b", "*", "c"]).Del ["b", "*", "c"] = exDeep.Del ["b", "*", "c"] ∧
      exDeep.Del ["b", "*", "c"] =
        mapRoot [mapEdge "b" [mapEdge "first" [] 2, mapEdge "last" [leafEdge "m" 42 3] 2] 1,
          leafEdge "c" 42 1] :=
  ⟨by decide, Del_idempotent exDeep ["b", "*", "c"] (by decide), by decide⟩

/-- C18: Del of a pattern that matches no path (the resolver finds no node for it) leaves
the tree unchanged, so a node holding an empty list or an empty map on the way of the
pattern is read out as before. -/
theorem Del_no_match_unchanged (t : Tree) (ks : List String) (h : matchPtrs ks t.root = []) :
    t.Del ks = t := by
  show Tree.mk (t.root.Del ks) = t
  rw [Del_eq_self_of_no_match ks t.root h]

/-- The scenario of C18: Del of a.*.password on the tree of a map with an empty list under
a (and an empty map under m) leaves the tree as it is, and the read-out still has the empty
list and the empty map. -/
theorem Del_no_match_unchanged_witness :
    matchPtrs ["a", "*", "password"] exEmpty.root = [] ∧
      exEmpty.Del ["a", "*", "password"] = exEmpty ∧
      exEmpty.Get [] = some (.map [.mk "a" (.list []), .mk "m" (.map [])]) :=
  ⟨by decide, Del_no_match_unchanged exEmpty ["a", "*", "password"] (by decide), by decide⟩

/-- C13 (counterexample): Append of the list a onto itself in the Append example: the
concatenation is written at a and then a is deleted, so a is absent afterwards and not
the collection the claim describes. With src below dst (the element 0 of the list of
lists a appended to a) the deletion removes the first element of the merged list, and with
dst below src the merged list is deleted with src. In the tree with two edges labelled a
the second one is found at a after the Append. -/
theorem Append_onto_itself_deletes :
    exAppend.Get ["a"] = some (.list [.scalar (.int 1), .scalar (.int 2)]) ∧
      (exAppend.Append ["a"] ["a"]).Get ["a"] = none ∧
      (exAppend.Append ["a"] ["a"]).Get [] = some (.map [.mk "b" (.list [.scalar (.int 3)])]) ∧
      (exListOfLists.Append ["a", "0"] ["a"]).Get ["a"] =
        some (.list [.list [.scalar (.int 2)], .scalar (.int 1)]) ∧
      (exListOfLists.Append ["a"] ["a", "0"]).Get ["a", "0"] = none ∧
      (exDupLists.Append ["a"] ["b"]).Get ["a"] = some (.list [.scalar (.int 2)]) := by
  decide

/-- C13 (amended): in a tree with unique labels, for exact paths src and dst neither of
which is a prefix of the other and that both resolve to collections, after Append the
value at dst is the list of the old elements of dst followed by the old elements of src,
and Get of src is absent. -/
theorem Append_concatenates (t : Tree) (src dst : List String) (xs ys : List Value)
    (hu : t.root.uniqueLabels = true) (hw : wildcard ∉ src)
    (h1 : ¬ src <+: dst) (h2 : ¬ dst <+: src)
    (hx : t.Get src = some (.list xs)) (hy : t.Get dst = some (.list ys)) :
    (t.Append src dst).Get dst = some (.list (ys ++ xs)) ∧
      (t.Append src dst).Get src = none := by
  have happ : t.Append src dst =
      ⟨(t.root.Add dst (.list (ys ++ xs))).Del src⟩ := by
    simp only [Tree.Append, hx, hy]
    rfl
  rw [happ]
  rcases List.eq_nil_or_concat src with rfl | ⟨pat, s, rfl⟩
  · exact absurd List.nil_prefix h1
  rw [List.concat_eq_append] at *
  have hwp : wildcard ∉ pat := fun h => hw (List.mem_append_left _ h)
  have hs : s ≠ wildcard := fun h => hw (by simp [h])
  obtain ⟨D, hD, _⟩ : ∃ D, resolve dst t.root = some D ∧ D.expand = .list ys := by
    unfold Tree.Get at hy
    cases hr : resolve dst t.root with
    | none => simp [hr] at hy
    | some D => exact ⟨D, rfl, by simpa [hr] using hy⟩
  have hdp : ¬ dst <+: pat := fun h => h2 (h.trans (List.prefix_append pat [s]))
  constructor
  · have hr1 := resolve_Add_self (.list (ys ++ xs)) dst t.root D hD
    have hm1 : matchesPattern (pat ++ [s]) (dst.take (pat.length + 1)) = false := by
      cases hm : matchesPattern (pat ++ [s]) (dst.take (pat.length + 1)) with
      | false => rfl
      | true =>
        have := (matchesPattern_exact (pat ++ [s]) hw _).1 hm
        exact absurd (this ▸ List.take_prefix _ _) h1
    have hm2 : matchesPattern (pat.take dst.length) dst = false := by
      cases hm : matchesPattern (pat.take dst.length) dst with
      | false => rfl
      | true =>
        have hwt : wildcard ∉ pat.take dst.length := fun h => hwp (List.mem_of_mem_take h)
        have := (matchesPattern_exact _ hwt _).1 hm
        exact absurd (this ▸ List.take_prefix _ _) hdp
    have hr2 := resolve_Del_other pat s hs _ _ dst hr1 hm1
    rw [hm2] at hr2
    show (resolve dst _).map _ = _
    rw [hr2]
    simp only [Bool.false_eq_true, if_false, Option.map_some', expand_build]
  · show (resolve (pat ++ [s]) _).map _ = none
    rw [resolve_Del_exact pat s _ hwp hs]
    · rfl
    · intro P1 hP1
      obtain ⟨P, hP, hl⟩ := resolve_Add_other (.list (ys ++ xs)) dst t.root P1 pat
        (by simp [hD]) hdp hP1
      rw [hl]
      exact ((node.uniqueLabels_iff P).mp (resolve_uniqueLabels pat t.root P hu hP)).1

/-- The Append test, reduced: the list b is appended to the list a. -/
theorem Append_concatenates_witness :
    (exAppend.Append ["b"] ["a"]).Get ["a"] =
        some (.list ([.scalar (.int 1), .scalar (.int 2)] ++ [.scalar (.int 3)])) ∧
      (exAppend.Append ["b"] ["a"]).Get ["b"] = none :=
  Append_concatenates exAppend ["b"] ["a"] [.scalar (.int 3)]
    [.scalar (.int 1), .scalar (.int 2)] (by decide) (by decide) (by decide) (by decide)
    (by decide) (by decide)

/-- C14: Append leaves the tree unchanged whenever the value at src or the value at dst
is not a list (an absent path, a scalar or a map). -/
theorem Append_noop (t : Tree) (src dst : List String)
    (h : (∀ xs, t.Get src ≠ some (.list xs)) ∨ (∀ ys, t.Get dst ≠ some (.list ys))) :
    t.Append src dst = t := by
  unfold Tree.Append
  cases hx : t.Get src with
  | none => rfl
  | some vx =>
    cases vx with
    | scalar _ => rfl
    | map _ => rfl
    | list xs =>
      cases hy : t.Get dst with
      | none => rfl
      | some vy =>
        cases vy with
        | scalar _ => rfl
        | map _ => rfl
        | list ys =>
          rcases h with h | h
          · exact absurd hx (h xs)
          · exact absurd hy (h ys)

/-- The example for C14: the destination c is absent in the Append example, and Append of
a onto c changes nothing. -/
theorem Append_noop_witness :
    exAppend.Get ["c"] = none ∧ exAppend.Append ["a"] ["c"] = exAppend :=
  ⟨by decide, Append_noop exAppend ["a"] ["c"] (Or.inr (fun ys h => by
    rw [show exAppend.Get ["c"] = none by decide] at h
    cases h))⟩

end tree

namespace flatex

/-- C27, at the failing input: Move of the key a onto itself in the map with the one entry
a: the assignment is followed by the deletion of the same key, and the map is empty, so it
does not hold at newKey the value formerly at original. -/
theorem Move_key_onto_itself_deletes :
    Map.Move id 1 ⟨[("a".data, .int 42)]⟩ "a".data "a".data = some ⟨[]⟩ ∧
      get? ([] : entries) "a".data = none := by
  decide

/-- C23: with the default separator, for a pattern that the collection pattern does not
match, Map.Del returns; when the pattern is a key exactly that key is removed, otherwise
exactly the keys that start with the pattern followed by a dot are removed; every other
entry keeps its value. -/
theorem Del_plain_pattern (ord : List (List Char) → List (List Char))
    (hord : ∀ ks, (ord ks).Perm ks) (fuel : Nat) (m : Map) (pre : List Char)
    (hre : MatchString pre = false) :
    ∃ m', m.Del ord (fuel + 1) pre = some m' ∧
      ∀ k, get? m'.m k =
        if (get? m.m pre).isSome = true then (if k = pre then none else get? m.m k)
        else (if HasPrefix k (pre ++ sep) = true then none else get? m.m k) := by
  cases hg : get? m.m pre with
  | some v =>
    refine ⟨⟨delete m.m pre⟩, by simp [Map.Del, delEntries, hg], ?_⟩
    intro k
    simp only [Option.isSome_some, if_true]
    by_cases hk : k = pre
    · subst hk
      simp [get?_delete_self]
    · simp [hk, get?_delete_ne _ _ _ hk]
  | none =>
    have hbody : ∀ k ∈ ord (keysOf m.m), ∀ m' : entries, delBody pre m' k =
        some (if HasPrefix k (pre ++ sep) then delete m' k else m') := by
      intro k hk m'
      apply delBody_eq
      intro he
      subst he
      exact (get?_eq_none_iff _ _).1 hg ((hord _).mem_iff.1 hk)
    have hr := rangeKeys_delete (fun k => HasPrefix k (pre ++ sep)) (delBody pre) _ hbody m.m
    refine ⟨⟨_⟩, by simp only [Map.Del, delEntries, hg, hre]; rw [hr]; rfl, ?_⟩
    intro k
    simp only [Option.isSome_none, Bool.false_eq_true, if_false]
    rw [get?_filter m.m (fun x => !(HasPrefix x (pre ++ sep) && decide (x ∈ ord (keysOf m.m)))) k]
    by_cases hP : HasPrefix k (pre ++ sep) = true
    · by_cases hin : k ∈ ord (keysOf m.m)
      · simp [hP, hin]
      · have : get? m.m k = none :=
          (get?_eq_none_iff _ _).2 (fun h => hin ((hord _).mem_iff.2 h))
        simp [hP, hin, this]
    · simp [hP]

/-- The similar_names test for C23: Del of a.a.a removes the key a.a.a.a and keeps the key
a.a.aa, which only shares the pattern as a string. -/
theorem Del_plain_pattern_witness :
    ∃ m', Map.Del id (0 + 1) exSimilar "a.a.a".data = some m' ∧
      get? m'.m "a.a.a.a".data = none ∧ get? m'.m "a.a.aa".data = some (.int 1) :=
  (Del_plain_pattern id (fun ks => List.Perm.refl ks) 0 exSimilar "a.a.a".data
    (by decide)).elim (fun m' h => ⟨m', h.1,
      (h.2 "a.a.a.a".data).trans (by decide), (h.2 "a.a.aa".data).trans (by decide)⟩)

/-- C22 (counterexample): the input has the slice [7] under the key a and the leaf 5 under
the key a.#, visited in this order: both the length of the slice and the leaf are written
to the key a.#, and the result holds 5 there, not the length 1. -/
theorem Flatten_length_overwritten :
    valueAt (.map exDottedKey) ["a".data] = some (.list [.leaf (.int 7)]) ∧
      get? (Flatten exDottedKey).m (Token ["a".data, ['#']]) = some (.int 5) := by
  decide

/-- C22 (amended): for an input whose map keys are pairwise distinct in each map and
contain no dot, and every slice of length n located at key path p in it, the result of
Flatten maps the token of p followed by # to n and, for every index i whose element is a
leaf, the token of p followed by the decimal string of i to that element; every value
stored in the result was passed to update by flatten, as a leaf or as a length. -/
theorem Flatten_records_slices (m : List member) (p : List (List Char)) (xs : List Nested)
    (hk : (Nested.map m).plainKeys = true) (hp : valueAt (.map m) p = some (.list xs)) :
    get? (Flatten m).m (Token (p ++ [['#']])) = some (.int xs.length) ∧
      (∀ (i : Nat) (l : Leaf), xs[i]? = some (.leaf l) →
        get? (Flatten m).m (Token (p ++ [decimal i])) = some l) ∧
      (∀ (k : List Char) (v : Leaf), get? (Flatten m).m k = some v →
        ∃ u ∈ flattenMap m [], Token u.1 = k ∧ u.2 = v) := by
  have hnd := flattenMap_tokens_nodup m hk
  have hsub := flatten_valueAt (.map m) (.list xs) p [] hp
  simp only [List.nil_append, flatten] at hsub
  refine ⟨?_, ?_, ?_⟩
  · exact get?_applyUpdates_of_mem _ [] (p ++ [['#']], .int xs.length) hnd
      (hsub _ (List.mem_cons_self _ _))
  · intro i l hi
    have := flattenSlice_leaf xs p 0 i l hi
    rw [Nat.zero_add] at this
    exact get?_applyUpdates_of_mem _ [] (p ++ [decimal i], l) hnd
      (hsub _ (List.mem_cons_of_mem _ this))
  · intro k v h
    rcases get?_applyUpdates_source _ [] k v h with h | h
    · exact h
    · simp [get?] at h

/-- The from_collection test for C22: the slice b of two maps gives the key b.# with the
length 2. -/
theorem Flatten_records_slices_witness :
    get? (Flatten exFromCollection).m (Token (["b".data] ++ [['#']])) = some (.int 2) ∧
      get? (Flatten exFromCollection).m "b.0.c".data = some (.int 42) :=
  ⟨(Flatten_records_slices exFromCollection ["b".data]
      [.map [.mk "c".data (.leaf (.int 42))],
        .map [.mk "c".data (.map [.mk "d".data (.leaf (.int 42))])]]
      (by decide) (by decide)).1, by decide⟩

/-- C26 (counterexample): Move of a to b in the map with the keys a.x and b.x: the key b.x
does not start with a followed by a dot, and its value changes from 2 to 1. Move of a to
a.b in the map with the keys a.x and a.b.x, visited in this order: the value of a.x is
entered under a.b.x and moved on with it, and a.b.x is absent in the end. Move of x.y to x
in the map with the one key x.y.y creates the key x.y, the pattern itself: a loop that does
not visit the created entry returns, a loop that visits it faults on the slice of the key
past its end. -/
theorem Move_plain_pattern_overwrites :
    MatchString "a".data = false ∧ get? exCollide.m "a".data = none ∧
      get? exCollide.m "b.x".data = some (.int 2) ∧
      Map.Move id 1 exCollide "a".data "b".data = some ⟨[("b.x".data, .int 1)]⟩ ∧
      get? exNestedKey.m "a".data = none ∧
      Map.Move id 1 exNestedKey "a".data "a.b".data = some ⟨[("a.b.b.x".data, .int 1)]⟩ ∧
      MatchString "x.y".data = false ∧ get? exSelfKey.m "x.y".data = none ∧
      Map.Move id 1 exSelfKey "x.y".data "x".data = some ⟨[("x.y".data, .int 1)]⟩ ∧
      Map.Move (fun ks => ks ++ ["x.y".data]) 1 exSelfKey "x.y".data "x".data = none := by
  decide

/-- C26 (amended): with the default separator, for a flat map and patterns original and
newKey such that the collection pattern does not match original, original is not a key,
and for no key original.rest the key newKey.rest starts with original followed by a dot or
is original itself: Map.Move returns, whatever the order of the loop and whichever of the
entries it creates the loop visits (the list of keys it goes through holds every key of the
map); every former key original.rest is absent, newKey.rest holds its former value, and
every key that does not start with original followed by a dot and is none of the keys
newKey.rest is unchanged. -/
theorem Move_plain_pattern (ord : List (List Char) → List (List Char)) (fuel : Nat) (m : Map)
    (original newKey : List Char)
    (hord : ∀ k ∈ keysOf m.m, k ∈ ord (keysOf m.m))
    (hre : MatchString original = false) (hno : get? m.m original = none)
    (hfree : ∀ k ∈ keysOf m.m, HasPrefix k (original ++ sep) = true →
      HasPrefix (newKey ++ sep ++ k.drop (original.length + 1)) (original ++ sep) = false ∧
        newKey ++ sep ++ k.drop (original.length + 1) ≠ original) :
    ∃ m', m.Move ord (fuel + 1) original newKey = some m' ∧
      (∀ rest v, get? m.m (original ++ sep ++ rest) = some v →
        get? m'.m (original ++ sep ++ rest) = none ∧
        get? m'.m (newKey ++ sep ++ rest) = some v) ∧
      (∀ k, HasPrefix k (original ++ sep) = false →
        (∀ rest, (get? m.m (original ++ sep ++ rest)).isSome = true →
          k ≠ newKey ++ sep ++ rest) →
        get? m'.m k = get? m.m k) := by
  have hdrop : ∀ rest : List Char,
      (original ++ sep ++ rest).drop (original.length + 1) = rest := by
    intro rest
    rw [List.drop_left' (by simp [sep])]
  have hinj : ∀ k k2, HasPrefix k (original ++ sep) = true →
      HasPrefix k2 (original ++ sep) = true →
      newKey ++ sep ++ k.drop (original.length + 1) =
        newKey ++ sep ++ k2.drop (original.length + 1) → k = k2 := by
    intro k k2 h1 h2 he
    obtain ⟨r1, rfl⟩ := (HasPrefix_iff _ _).1 h1
    obtain ⟨r2, rfl⟩ := (HasPrefix_iff _ _).1 h2
    rw [hdrop, hdrop] at he
    rw [List.append_cancel_left he]
  obtain ⟨m', hr, h1, h2, h3, _⟩ := rangeKeys_moveAny
    (fun k => HasPrefix k (original ++ sep))
    (fun k => newKey ++ sep ++ k.drop (original.length + 1)) (moveBody original newKey)
    original hinj (fun k hk m' => moveBody_eq original newKey k m' hk)
    (ord (keysOf m.m)) m.m hno
    (fun k hP hs => hfree k ((get?_isSome_iff _ _).1 hs) hP)
  refine ⟨⟨m'⟩, by simp only [Map.Move, moveEntries, hno, hre]; rw [hr]; rfl, ?_, ?_⟩
  · intro rest v hv
    have hk : original ++ sep ++ rest ∈ ord (keysOf m.m) :=
      hord _ ((get?_isSome_iff _ _).1 (by rw [hv]; rfl))
    have hP : HasPrefix (original ++ sep ++ rest) (original ++ sep) = true :=
      (HasPrefix_iff _ _).2 ⟨rest, rfl⟩
    have hf := h1 _ hk hP v hv
    simp only [hdrop] at hf
    exact ⟨h2 _ hk hP, hf⟩
  · intro k hP hk
    apply h3 k hP
    intro k2 hk2 hP2 hs
    obtain ⟨r2, rfl⟩ := (HasPrefix_iff _ _).1 hP2
    simp only [hdrop]
    exact fun h => hk r2 hs h.symm

/-- The from_struct_nested test for C26, with a loop that goes to the created key c.a
before and after the keys of the map: Move of b.b to c moves the key b.b.a to c.a and keeps
the key b.bb. -/
theorem Move_plain_pattern_witness :
    ∃ m', Map.Move (fun ks => "c.a".data :: ks ++ ["c.a".data]) (0 + 1) exNestedStruct
        "b.b".data "c".data = some m' ∧
      (get? m'.m ("b.b".data ++ sep ++ "a".data) = none ∧
        get? m'.m ("c".data ++ sep ++ "a".data) = some (.int 42)) ∧
      get? m'.m "b.bb".data = some (.bool true) :=
  (Move_plain_pattern (fun ks => "c.a".data :: ks ++ ["c.a".data]) 0 exNestedStruct
    "b.b".data "c".data
    (by decide) (by decide) (by decide) (by decide)).elim (fun m' h => ⟨m', h.1,
      h.2.1 "a".data (.int 42) (by decide),
      (h.2.2 "b.bb".data (by decide) (fun rest hs he => by
        have h2 : HasPrefix "b.bb".data ("c".data ++ sep) = true := by
          rw [he]
          exact (HasPrefix_iff _ _).2 ⟨rest, by simp⟩
        revert h2
        decide)).trans (by decide)⟩)

/-- C21 (counterexample): the input with an empty map under the key a has keys without a
dot and other than #, Flatten records nothing for the empty map, and Expand of the result
is the empty map, not the input. For the slice with an empty map as its one element,
Expand of the result has nil as the element. Neither result is structurally equal to its
input. -/
theorem Expand_Flatten_drops_empty_map :
    (Nested.map exEmptyMap).plainKeys = true ∧ (Flatten exEmptyMap).m = [] ∧
      (Flatten exEmptyMap).Expand id = some [] ∧
      canonInto exEmptyMap [] = [.mk "a".data (.map [])] ∧
      (Flatten exEmptyElement).Expand id = some [.mk "a".data (.list [.leaf .null])] ∧
      (Nested.map exEmptyMap).same (Nested.map []) = false ∧
      (Nested.map exEmptyElement).same
        (Nested.map [.mk "a".data (.list [.leaf .null])]) = false := by
  decide

/-- C21 (amended): for every nested map whose map keys contain no dot and are never #,
with distinct keys in each map, and in which no entry of a map and no element of a slice
is an empty map, Expand of the result of Flatten returns, for every order in which it
visits the entries, the Go value of the input, and that value is structurally equal to the
input: leaf for leaf, slice for slice with equal elements at every index, map for map with
as many entries and an equal value under every key of the input. -/
theorem Expand_Flatten_round_trip (ord : List (List Char) → List (List Char))
    (hord : ∀ ks, (ord ks).Perm ks) (m : List member)
    (hk : (Nested.map m).plainKeys = true) (hr : recordableFields m = true) :
    (Flatten m).Expand ord = some (canonInto m []) ∧
      (Nested.map m).same (Nested.map (canonInto m [])) = true := by
  refine ⟨?_, same_canon (.map m) hk⟩
  have hk' := hk
  simp only [Nested.plainKeys, Bool.and_eq_true, decide_eq_true_eq] at hk'
  have hnd := flattenMap_tokens_nodup m hk
  have hfm : (Flatten m).m = (flattenMap m []).map (fun u => (Token u.1, u.2)) := by
    show applyUpdates (flattenMap m []) [] = _
    rw [applyUpdates_eq_map _ [] hnd (by simp [keysOf])]
    rfl
  have hkeys : keysOf (Flatten m).m = (flattenMap m []).map (fun u => Token u.1) := by
    rw [hfm, keysOf, List.map_map]
    rfl
  have hpair : ∀ u ∈ flattenMap m [],
      (Keys (Token u.1), getD (Flatten m).m (Token u.1)) = u := by
    intro u hu
    have h1 : Keys (Token u.1) = u.1 := Keys_Token u.1 (flatten_root_ne_nil m u hu)
      (flatten_dotfree (.map m) [] u hk (by simp) (by simp only [flatten]; exact hu))
    have h2 : get? (Flatten m).m (Token u.1) = some u.2 :=
      get?_applyUpdates_of_mem _ [] u hnd hu
    rw [h1, getD_of_get? _ _ _ h2]
  have hperm : ((ord (keysOf (Flatten m).m)).map
      (fun k => (Keys k, getD (Flatten m).m k))).Perm (flattenMap m []) := by
    have h1 := ((hord (keysOf (Flatten m).m)).map
      (fun k => (Keys k, getD (Flatten m).m k)))
    rw [hkeys, List.map_map] at h1
    have h2 : (flattenMap m []).map
        ((fun k => (Keys k, getD (Flatten m).m k)) ∘ (fun u => Token u.1)) =
        flattenMap m [] := by
      conv_rhs => rw [← List.map_id (flattenMap m [])]
      apply List.map_congr_left
      intro u hu
      exact hpair u hu
    rw [h2] at h1
    rw [hkeys]
    exact h1
  have hinc : ∀ x ∈ (ord (keysOf (Flatten m).m)).map
      (fun k => (Keys k, getD (Flatten m).m k)),
      ∀ y ∈ (ord (keysOf (Flatten m).m)).map (fun k => (Keys k, getD (Flatten m).m k)),
      x ≠ y → ¬ x.1 <+: y.1 := by
    intro x hx y hy hne hp
    have hx' := hperm.mem_iff.1 hx
    have hy' := hperm.mem_iff.1 hy
    have he := flattenMap_incomparable m [] hk'.1 hk'.2 x hx' y hy' hp
    have hn := flatten_nodup (.map m) [] hk
    simp only [flatten] at hn
    exact hne (List.inj_on_of_nodup_map hn hx' hy' he)
  have hloop : assignAll ((ord (keysOf (Flatten m).m)).map
      (fun k => (Keys k, getD (Flatten m).m k))) [] = some (rawInto m []) := by
    rw [assignAll_perm _ _ hperm hinc [] (by simp [Nested.ordered, fieldKeys, orderedFields]),
      assignAll_flattenMap m [] hr hk'.2 hk'.1 (fun _ _ => rfl)]
  unfold Map.Expand
  simp only [hloop]
  cases hb : (ord (keysOf (Flatten m).m)).any
      (fun k => decide ((Keys k).getLast? = some ['#'])) with
  | false =>
    simp only [Bool.not_false, if_true]
    rw [rawInto_eq_canonInto m [] []]
    intro u hu
    have hmem : Token u.1 ∈ ord (keysOf (Flatten m).m) := by
      rw [(hord _).mem_iff, hkeys]
      exact List.mem_map_of_mem (fun u => Token u.1) hu
    have := (List.any_eq_false.1 hb) _ hmem
    simp only [decide_eq_true_eq] at this
    have h1 : Keys (Token u.1) = u.1 := congrArg Prod.fst (hpair u hu)
    rw [h1] at this
    exact this
  | true =>
    simp only [Bool.not_true, Bool.false_eq_true, if_false]
    have he : expandNestedCollections (rawInto m []) = some (.map (canonInto m [])) := by
      unfold expandNestedCollections
      rw [expandValue_map, expandMembers_rawInto m [] [] hr hk'.2 hk'.1
        (by simp [fieldKeys]) rfl]
      simp only [Option.some_bind]
      unfold collect
      rw [find?_canonInto m [] ['#'] hk'.1,
        valueAtFields_of_not_mem ['#'] [] m (not_mem_fieldKeys_of_recordable m hr)]
      rfl
    rw [he]

/-- The input of the Expand test for C21: Expand after Flatten returns the value written
out here, which is structurally equal to the input. -/
theorem Expand_Flatten_round_trip_witness :
    (Flatten exRoundTrip).Expand id = some exRoundTripValue ∧
      (Nested.map exRoundTrip).same (Nested.map exRoundTripValue) = true :=
  (by decide : canonInto exRoundTrip [] = exRoundTripValue) ▸
    Expand_Flatten_round_trip id (fun ks => List.Perm.refl ks) exRoundTrip (by decide)
      (by decide)

/-- C31, at the failing inputs: Move of b.*.c to x in the flat map of the from_collection
input never returns a map, for any bound on the depth of the calls: the new key has no
wildcard character, its offset is -1, and the slice of the new key up to the offset is out
of range. Move of a.*.c to a.*.x in the flat map with the one key a.foo never returns a
map either: the key has no separator after the wildcard position, and the slice of the
key from 2 to 2 - 1 has inverted bounds. -/
theorem Move_slice_faults :
    (∀ fuel, Map.Move id fuel (Flatten exFromCollection) "b.*.c".data "x".data = none) ∧
      prefixTo "x".data (Index "x".data ['*']) = none ∧
      (Flatten exLongLeaf).m = [("a.foo".data, .int 1)] ∧
      (∀ fuel, Map.Move id fuel (Flatten exLongLeaf) "a.*.c".data "a.*.x".data = none) ∧
      slice "a.foo".data 2 (2 + Index "foo".data sep) = none := by
  refine ⟨?_, by decide, by decide, ?_, by decide⟩
  · intro fuel
    cases fuel with
    | zero => rfl
    | succ n => rfl
  · intro fuel
    cases fuel with
    | zero => rfl
    | succ n => rfl

/-- C33, at the failing input: with the separator of the two characters :: the flat map of
the input with the leaf b in the map a has the one key a::b, which starts with a followed
by the separator. The pattern a is not a key and has no wildcard; the loops of Map.Del and
Map.Move compare the one byte of the key after the pattern, a colon, with the separator,
and leave the map as it is. -/
theorem Del_Move_two_character_separator :
    (FlattenWith "::".data exPair).m = [("a::b".data, .int 1)] ∧
      get? (FlattenWith "::".data exPair).m "a".data = none ∧
      MatchStringWith "::".data "a".data = false ∧
      HasPrefix "a::b".data ("a".data ++ "::".data) = true ∧
      slice "a::b".data ("a".data.length : Nat) (("a".data.length : Nat) + 1) = some [':'] ∧
      Map.DelWith "::".data id 1 (FlattenWith "::".data exPair) "a".data =
        some (FlattenWith "::".data exPair) ∧
      Map.MoveWith "::".data id 1 (FlattenWith "::".data exPair) "a".data "x".data =
        some (FlattenWith "::".data exPair) := by
  decide

/-- C34 (counterexample): with the separator aa the segments a and x do not contain the
separator; their token is aaax, and Keys splits it at the first occurrence of the
separator, into the empty segment and ax. -/
theorem Keys_Token_separator_overlap :
    "aa".data ≠ [] ∧ (∀ k ∈ ["a".data, "x".data], ¬ "aa".data <:+: k) ∧
      StringTokenizer_Token "aa".data ["a".data, "x".data] = "aaax".data ∧
      StringTokenizer_Keys "aa".data "aaax".data = [[], "ax".data] := by
  decide

/-- C34 (amended): for every non-empty separator and every string, Token of Keys of the
string is the string; and for every non-empty separator no proper non-empty prefix of
which is also a suffix of it, and every non-empty list of segments none of which contains
the separator, Keys of Token of the list is the list. -/
theorem StringTokenizer_round_trip (s : List Char) (hs : s ≠ []) :
    (∀ str, StringTokenizer_Token s (StringTokenizer_Keys s str) = str) ∧
      (borderFree s = true → ∀ ks : List (List Char), ks ≠ [] → (∀ k ∈ ks, ¬ s <:+: k) →
        StringTokenizer_Keys s (StringTokenizer_Token s ks) = ks) := by
  constructor
  · intro str
    unfold StringTokenizer_Keys
    rw [if_neg hs]
    exact Token_splitScan s hs str.length str (Nat.le_refl _)
  · intro hb ks hks hd
    unfold StringTokenizer_Keys
    rw [if_neg hs]
    exact splitScan_Token s hs hb ks hks hd

/-- The separator of the two characters - and > for C34: the string a->b-> and the
segments a, - and >b. -/
theorem StringTokenizer_round_trip_witness :
    "->".data ≠ [] ∧
      StringTokenizer_Token "->".data (StringTokenizer_Keys "->".data "a->b->".data) =
        "a->b->".data ∧
      StringTokenizer_Keys "->".data
        (StringTokenizer_Token "->".data ["a".data, "-".data, ">b".data]) =
        ["a".data, "-".data, ">b".data] :=
  ⟨by decide, (StringTokenizer_round_trip "->".data (by decide)).1 "a->b->".data,
    (StringTokenizer_round_trip "->".data (by decide)).2 (by decide)
      ["a".data, "-".data, ">b".data] (by decide) (by decide)⟩

/-- C32, at the failing input: the flat map with the keys a.0.z, a.0b.1.c and a.0bb.2.c,
none with a wildcard character, and the pattern a.*b.*.c. When the keys are visited in the
order of the entries, the visit of a.0.z deletes a.0b.1.c and the key a.0bb.2.c stays;
when they are visited in the reverse order, the visit of a.0b.1.c deletes a.0bb.2.c first,
and only a.0.z stays. Both runs return. -/
theorem Del_depends_on_order :
    (∀ k ∈ keysOf exOrder.m, '*' ∉ k) ∧
      (∀ ks : List (List Char), (id ks).Perm ks ∧ (List.reverse ks).Perm ks) ∧
      Map.Del id 2 exOrder "a.*b.*.c".data =
        some ⟨[("a.0.z".data, .int 1), ("a.0bb.2.c".data, .int 3)]⟩ ∧
      Map.Del List.reverse 2 exOrder "a.*b.*.c".data = some ⟨[("a.0.z".data, .int 1)]⟩ := by
  refine ⟨by decide, fun ks => ⟨List.Perm.refl ks, List.reverse_perm ks⟩, by decide,
    by decide⟩

/-- C24 (counterexample): five flat maps made by Flatten on which Map.Del with a pattern
that has a wildcard segment in a non-final position does not remove exactly the keys that
agree with the pattern. The pattern a.*.c is itself a key: only that key is deleted and
a.0.c stays. The key a..c.d has an empty segment at the wildcard: it agrees with a.*.c and
stays. The patterns *.0.c, with the wildcard first, and b.*.c.*, with a last wildcard,
leave the keys b.0.c and b.1.c.d that agree with them. The pattern a*.*.c, with a wildcard
character in a longer segment, removes the key ab.0.c, which does not agree with it. With
the wildcard character as a key above a slice, Map.Del with the pattern a.*.b.*.c never
returns: the call for the key a.*.b.# is made with the same pattern. -/
theorem Del_wildcard_pattern_exceptions :
    ((Flatten exStarKey).m = [("a.*.c".data, .int 1), ("a.0.c".data, .int 2)] ∧
        segMatches (Keys "a.*.c".data) (Keys "a.0.c".data) = true ∧
        Map.Del id 2 (Flatten exStarKey) "a.*.c".data = some ⟨[("a.0.c".data, .int 2)]⟩) ∧
      ((Flatten exEmptySegment).m = [("a..c.d".data, .int 1)] ∧
        segMatches (Keys "a.*.c".data) (Keys "a..c.d".data) = true ∧
        Map.Del id 2 (Flatten exEmptySegment) "a.*.c".data = some (Flatten exEmptySegment)) ∧
      ((Flatten exFromCollection).m = [("a".data, .int 42), ("b.#".data, .int 2),
          ("b.0.c".data, .int 42), ("b.1.c.d".data, .int 42)] ∧
        segMatches (Keys "*.0.c".data) (Keys "b.0.c".data) = true ∧
        Map.Del id 2 (Flatten exFromCollection) "*.0.c".data =
          some (Flatten exFromCollection) ∧
        segMatches (Keys "b.*.c.*".data) (Keys "b.1.c.d".data) = true ∧
        Map.Del id 3 (Flatten exFromCollection) "b.*.c.*".data =
          some (Flatten exFromCollection)) ∧
      ((Flatten exSimilarHead).m = [("ab.#".data, .int 1), ("ab.0.c".data, .int 1)] ∧
        segMatches (Keys "a*.*.c".data) (Keys "ab.0.c".data) = false ∧
        Map.Del id 3 (Flatten exSimilarHead) "a*.*.c".data =
          some ⟨[("ab.#".data, .int 1)]⟩) ∧
      ((Flatten exStarAbove).m = [("a.*.b.#".data, .int 1), ("a.*.b.0.c".data, .int 1)] ∧
        ∀ fuel, Map.Del id fuel (Flatten exStarAbove) "a.*.b.*.c".data = none) := by
  refine ⟨by decide, by decide, by decide, by decide, by decide, ?_⟩
  have hb : ∀ del : entries → List Char → Option entries,
      delSliceBody del "a.*.b.*.c".data 2 ".b.*.c".data true (Flatten exStarAbove).m
        "a.*.b.#".data = del (Flatten exStarAbove).m "a.*.b.*.c".data :=
    fun del => delSliceBody_mid del "a.".data ".b.*.c".data true (Flatten exStarAbove).m
      '*' [] "b.#".data (by simp)
  have h2 : ∀ del : entries → List Char → Option entries,
      delSliceAttribute del id (Flatten exStarAbove).m "a.*.b.*.c".data =
        rangeKeys (delSliceBody del "a.*.b.*.c".data 2 ".b.*.c".data true)
          ["a.*.b.#".data, "a.*.b.0.c".data] (Flatten exStarAbove).m := fun del => rfl
  have h1 : ∀ n, delEntries id (n + 1) (Flatten exStarAbove).m "a.*.b.*.c".data =
      delSliceAttribute (delEntries id n) id (Flatten exStarAbove).m "a.*.b.*.c".data :=
    fun n => rfl
  have h3 : ∀ fuel, delEntries id fuel (Flatten exStarAbove).m "a.*.b.*.c".data = none := by
    intro fuel
    induction fuel with
    | zero => rfl
    | succ n ih =>
      rw [h1, h2]
      exact rangeKeys_cons_none _ _ _ _ (by decide) (by rw [hb]; exact ih)
  exact fun fuel => by simp [Map.Del, h3 fuel]

/-- C24 (amended): with the default separator, for a map made by Flatten in which no key
has an empty segment or a wildcard character, and a pattern whose segments are the
wildcard or free of the wildcard character, whose last segment is not the wildcard and
which has a wildcard segment after its first segment: for every order of the visits and
every bound on the depth of the calls of at least the number of wildcard segments,
Map.Del returns; exactly the keys whose segments agree with the pattern on a prefix of the
key, a wildcard standing for any one segment, are absent from the result, and every other
key holds its former value. -/
theorem Del_wildcard_pattern (ord : List (List Char) → List (List Char))
    (hord : ∀ ks, (ord ks).Perm ks) (m : List member) (pat : List Char) (fuel : Nat)
    (hkeys : ∀ k ∈ keysOf (Flatten m).m, ∀ s ∈ Keys k, s ≠ [] ∧ '*' ∉ s)
    (h1 : ∀ s ∈ Keys pat, s = ['*'] ∨ '*' ∉ s) (h2 : (Keys pat).getLast? ≠ some ['*'])
    (h3 : ['*'] ∈ (Keys pat).tail) (hfuel : (Keys pat).count ['*'] ≤ fuel) :
    ∃ r, (Flatten m).Del ord fuel pat = some r ∧
      ∀ k, get? r.m k =
        if segMatches (Keys pat) (Keys k) = true then none else get? (Flatten m).m k := by
  have hpos : 0 < (Keys pat).count ['*'] := List.count_pos_iff.2 (List.mem_of_mem_tail h3)
  obtain ⟨n, rfl⟩ : ∃ n, fuel = n + 1 := ⟨fuel - 1, by omega⟩
  have h := delEntries_wildcard ord hord n (Keys pat)
    (fun s hs => (h1 s hs).imp id (fun h => ⟨h, Keys_mem_dotfree pat s hs⟩)) h2 h3 hfuel
    (Flatten m).m hkeys
  rw [Token_Keys] at h
  refine ⟨⟨_⟩, by simp only [Map.Del, h]; rfl, ?_⟩
  intro k
  rw [get?_filter (Flatten m).m (fun x => !segMatches (Keys pat) (Keys x)) k]
  cases segMatches (Keys pat) (Keys k) <;> simp

/-- The nested_collection_element_attributes test for C24: Del of a.*.b.*.c removes the
key a.0.b.0.c.a and keeps the length a.0.b.# and the key a.0.aa. -/
theorem Del_wildcard_pattern_witness :
    ∃ r, (Flatten exRoundTrip).Del id 2 "a.*.b.*.c".data = some r ∧
      get? r.m "a.0.b.0.c.a".data = none ∧ get? r.m "a.0.b.#".data = some (.int 2) ∧
      get? r.m "a.0.aa".data = some (.int 1) :=
  (Del_wildcard_pattern id (fun ks => List.Perm.refl ks) exRoundTrip "a.*.b.*.c".data 2
    (by decide) (by decide) (by decide) (by decide) (by decide)).elim (fun r h => ⟨r, h.1,
      (h.2 "a.0.b.0.c.a".data).trans (by decide), (h.2 "a.0.b.#".data).trans (by decide),
      (h.2 "a.0.aa".data).trans (by decide)⟩)

/-- C25 (counterexample): flat maps made by Flatten, with maps at the wildcard positions,
on which Map.Move with two patterns that differ in the last segment does not rename
exactly the keys that agree with the first. The new key a.0.x is a key already: its value
2 is overwritten. The pattern a.*.c is itself a key: only that key is moved and a.0.c
stays. The key a..c has an empty segment at the wildcard: it agrees with a.*.c and stays.
The pattern b.*..c, with an empty segment, moves the key b.0.c, which does not agree with
it. The pattern a*.*.c, with a wildcard character in a longer segment, moves the key
ab.0.c, which does not agree with it. The pattern *.0.c, with the wildcard first, leaves
the key b.0.c that agrees with it. With the wildcard character as a key above maps,
Map.Move of a.*.b.*.c never returns: the call for the key a.*.b.k.c is made with the same
patterns. -/
theorem Move_wildcard_pattern_exceptions :
    ((Flatten exOverwrite).m =
          [("a.#".data, .int 1), ("a.0.c".data, .int 1), ("a.0.x".data, .int 2)] ∧
        segMatches (Keys "a.*.c".data) (Keys "a.0.x".data) = false ∧
        Map.Move id 1 (Flatten exOverwrite) "a.*.c".data "a.*.x".data =
          some ⟨[("a.#".data, .int 1), ("a.0.x".data, .int 1)]⟩) ∧
      (Map.Move id 1 (Flatten exStarKey) "a.*.c".data "a.*.x".data =
          some ⟨[("a.0.c".data, .int 2), ("a.*.x".data, .int 1)]⟩) ∧
      ((Flatten exEmptyKey).m = [("a..c".data, .int 1)] ∧
        segMatches (Keys "a.*.c".data) (Keys "a..c".data) = true ∧
        Map.Move id 1 (Flatten exEmptyKey) "a.*.c".data "a.*.x".data =
          some (Flatten exEmptyKey)) ∧
      (segMatches (Keys "b.*..c".data) (Keys "b.0.c".data) = false ∧
        Map.Move id 1 (Flatten exFromCollection) "b.*..c".data "b.*..x".data =
          some ⟨[("a".data, .int 42), ("b.#".data, .int 2), ("b.1.c.d".data, .int 42),
            ("b.0..x".data, .int 42)]⟩) ∧
      (segMatches (Keys "a*.*.c".data) (Keys "ab.0.c".data) = false ∧
        Map.Move id 2 (Flatten exSimilarHead) "a*.*.c".data "a*.*.x".data =
          some ⟨[("ab.#".data, .int 1), ("ab.0.x".data, .int 1)]⟩) ∧
      (segMatches (Keys "*.0.c".data) (Keys "b.0.c".data) = true ∧
        Map.Move id 1 (Flatten exFromCollection) "*.0.c".data "*.0.x".data =
          some (Flatten exFromCollection)) ∧
      ((Flatten exStarDeep).m = [("a.*.b.k.c".data, .int 1)] ∧
        ∀ fuel, Map.Move id fuel (Flatten exStarDeep) "a.*.b.*.c".data "a.*.b.*.x".data =
          none) := by
  refine ⟨by decide, by decide, by decide, by decide, by decide, by decide, by decide, ?_⟩
  have hb : ∀ mv : entries → List Char → List Char → Option entries,
      moveSliceBody mv "a.*.b.*.c".data 2 ".b.*.c".data true ".b.*.x".data "a.".data
        (Flatten exStarDeep).m "a.*.b.k.c".data =
        mv (Flatten exStarDeep).m "a.*.b.*.c".data "a.*.b.*.x".data :=
    fun mv => moveSliceBody_mid mv "a.".data ".b.*.c".data ".b.*.x".data "a.".data true
      (Flatten exStarDeep).m "*".data "b.k.c".data (by decide) (by decide)
  have h2 : ∀ mv : entries → List Char → List Char → Option entries,
      moveSliceAttribute mv id (Flatten exStarDeep).m "a.*.b.*.c".data "a.*.b.*.x".data =
        rangeKeys (moveSliceBody mv "a.*.b.*.c".data 2 ".b.*.c".data true ".b.*.x".data
          "a.".data) ["a.*.b.k.c".data] (Flatten exStarDeep).m := fun mv => rfl
  have h1 : ∀ n, moveEntries id (n + 1) (Flatten exStarDeep).m "a.*.b.*.c".data
      "a.*.b.*.x".data = moveSliceAttribute (moveEntries id n) id (Flatten exStarDeep).m
        "a.*.b.*.c".data "a.*.b.*.x".data := fun n => rfl
  have h3 : ∀ fuel, moveEntries id fuel (Flatten exStarDeep).m "a.*.b.*.c".data
      "a.*.b.*.x".data = none := by
    intro fuel
    induction fuel with
    | zero => rfl
    | succ n ih =>
      rw [h1, h2]
      exact rangeKeys_cons_none _ _ _ _ (by decide) (by rw [hb]; exact ih)
  exact fun fuel => by simp [Map.Move, h3 fuel]

/-- C25 (amended): with the default separator, for a map made by Flatten in which no key
has an empty segment or a wildcard character and every key that ends at a wildcard
position of the pattern is a length key #, and for patterns original and newKey with the
same segments but the last, l and z, all segments the wildcard or not empty and free of
the wildcard character, l and z not the wildcard, and a wildcard segment after the first
segment: for every order of the visits and every bound on the depth of the calls of at
least the number of wildcard segments, Map.Move returns; every key that agrees with
original on its first segments is absent from the result and the key with z in place of l
holds its value; every key that does not agree with original and is none of these new keys
holds its former value. -/
theorem Move_wildcard_pattern (ord : List (List Char) → List (List Char))
    (hord : ∀ ks, (ord ks).Perm ks) (m : List member) (original newKey : List Char)
    (body : List (List Char)) (l z : List Char) (fuel : Nat)
    (ho : Keys original = body ++ [l]) (hn : Keys newKey = body ++ [z])
    (hkeys : ∀ k ∈ keysOf (Flatten m).m, ∀ s ∈ Keys k, s ≠ [] ∧ '*' ∉ s)
    (hends : ∀ k ∈ keysOf (Flatten m).m, endsAtWildcard (Keys original) (Keys k) = true →
      (Keys k).getLast? = some ['#'])
    (hbody : ∀ s ∈ body, s = ['*'] ∨ ('*' ∉ s ∧ s ≠ []))
    (hl : '*' ∉ l ∧ l ≠ []) (hz : '*' ∉ z ∧ z ≠ []) (hlz : l ≠ z)
    (h3 : ['*'] ∈ body.tail) (hfuel : body.count ['*'] ≤ fuel) :
    ∃ r, (Flatten m).Move ord fuel original newKey = some r ∧
      (∀ k v, segMatches (Keys original) (Keys k) = true → get? (Flatten m).m k = some v →
        get? r.m k = none ∧ get? r.m (renameAt body.length z k) = some v) ∧
      (∀ k, segMatches (Keys original) (Keys k) = false →
        (∀ k2, segMatches (Keys original) (Keys k2) = true →
          (get? (Flatten m).m k2).isSome = true → renameAt body.length z k2 ≠ k) →
        get? r.m k = get? (Flatten m).m k) := by
  have hpos : 0 < body.count ['*'] := List.count_pos_iff.2 (List.mem_of_mem_tail h3)
  obtain ⟨n, rfl⟩ : ∃ n, fuel = n + 1 := ⟨fuel - 1, by omega⟩
  have hdo := Keys_mem_dotfree original
  have hdn := Keys_mem_dotfree newKey
  rw [ho] at hdo
  rw [hn] at hdn
  have hmov : movable (body ++ [l]) (Flatten m).m := by
    intro k hk
    refine ⟨hkeys k hk, fun he x hx => ?_⟩
    rw [← ho] at he
    rw [hends k hk he] at hx
    cases hx
    simp
  obtain ⟨r, hr, h⟩ := moveEntries_wildcard ord hord z
    ⟨hz.1, hdn z (by simp), hz.2⟩ n body l
    (fun s hs => (hbody s hs).imp id (fun h => ⟨h.1, hdo s (by simp [hs]), h.2⟩))
    ⟨hl.1, hdo l (by simp), hl.2⟩ hlz h3 hfuel (Flatten m).m hmov
  rw [← ho, ← hn, Token_Keys, Token_Keys] at hr
  rw [← ho] at h
  refine ⟨⟨r⟩, by simp only [Map.Move, hr]; rfl, ?_, ?_⟩
  · intro k v hk hv
    exact ⟨h.1 k hk, h.2.1 k v hk hv⟩
  · intro k hk hfree
    exact h.2.2 k hk hfree

/-- The recursive_collection test for C25: Move of a.*.b.*.c to a.*.b.*.x moves the key
a.0.b.0.c.a to a.0.b.0.x.a and keeps the length a.0.b.#. -/
theorem Move_wildcard_pattern_witness :
    ∃ r, (Flatten exRoundTrip).Move id 2 "a.*.b.*.c".data "a.*.b.*.x".data = some r ∧
      (get? r.m "a.0.b.0.c.a".data = none ∧
        get? r.m (renameAt 4 "x".data "a.0.b.0.c.a".data) = some (.int 1)) ∧
      get? r.m "a.0.b.#".data = some (.int 2) :=
  (Move_wildcard_pattern id (fun ks => List.Perm.refl ks) exRoundTrip "a.*.b.*.c".data
    "a.*.b.*.x".data ["a".data, "*".data, "b".data, "*".data] "c".data "x".data 2
    (by decide) (by decide) (by decide) (by decide) (by decide) (by decide) (by decide)
    (by decide) (by decide) (by decide)).elim (fun r h => ⟨r, h.1,
      h.2.1 "a.0.b.0.c.a".data (.int 1) (by decide) (by decide),
      (h.2.2 "a.0.b.#".data (by decide) (fun k2 hQ _ e => by
        have h1 := segMatches_length _ _ hQ
        have h2 : (Keys (renameAt 4 "x".data k2)).length = (Keys "a.0.b.#".data).length :=
          congrArg (fun s => (Keys s).length) e
        have h3 : (Keys "a.0.b.#".data).length = 4 := by decide
        have h4 : (Keys "a.*.b.*.c".data).length = 5 := by decide
        rw [Keys_renameAt _ _ _ (show '.' ∉ "x".data by decide), List.length_set, h3] at h2
        rw [h4] at h1
        omega)).trans (by decide)⟩)

end flatex
